import Mathlib

/-!
# Qevix: a shallow embedding of the HTML filter and typographer

The Go package `qevix` (file `qevix.go`) is a single pass scanner over a buffer
of runes.  This development embeds it as pure functions over an explicit
`parser` record and proves properties of the embedding.

Conventions of the embedding.

* A rune is a natural number (its code point); a Go string is the list of its
  runes, so `[]rune(s)` and `string(rs)` are the identity.
* A Go map is an association list with unique keys kept in insertion order.  Go
  leaves the order of `range` over a map unspecified.  Where the order decides
  the result, in the loop of `makeTag` over the attributes of a tag (the order of
  the errors, and which of two names that are equal in lower case wins), it is a
  field of the `Lib` record, so that a theorem about every library holds for
  every order.  The loops over the required, default and review attributes write
  each key once and give the same map in every order; they take the list order.
* The snapshot stack is a list whose head is the top of the stack.
* A loop is a function recursive on a fuel argument; the result is `none` when
  the fuel runs out and when the Go code would panic on an index.  The theorems
  of the last part show that `Parse` supplies enough fuel.
* Functions of the Go standard library whose tables are not part of the
  repository (`strings.ToLower`, `html.UnescapeString`, `regexp.MatchString` on a
  pattern supplied by the user, `url.QueryEscape`) are fields of a `Lib` record
  that every function takes as a parameter.
-/

namespace Qevix

/-! ## Runes, strings and maps -/

abbrev Rune := Nat

abbrev Str := List Rune

/-- The runes of a string literal, `[]rune(s)`. -/
def runes (s : String) : Str := s.toList.map Char.toNat

abbrev GoMap (κ : Type) (ν : Type) := List (κ × ν)

/-- Lookup `v, ok := m[k]`. -/
def mapGet {κ ν : Type} [DecidableEq κ] : GoMap κ ν → κ → Option ν
  | [], _ => none
  | (k1, v) :: m, k => if k1 = k then some v else mapGet m k

/-- Presence test `_, ok := m[k]`. -/
def mapHas {κ ν : Type} [DecidableEq κ] (m : GoMap κ ν) (k : κ) : Bool :=
  (mapGet m k).isSome

/-- Assignment `m[k] = v`. -/
def mapSet {κ ν : Type} [DecidableEq κ] : GoMap κ ν → κ → ν → GoMap κ ν
  | [], k, v => [(k, v)]
  | (k1, v1) :: m, k, v => if k1 = k then (k, v) :: m else (k1, v1) :: mapSet m k v

/-- Nested lookup `v, ok := m[k1][k2]`; a missing outer key yields a nil map. -/
def mapGet2 {ν : Type} (m : GoMap Str (GoMap Str ν)) (k1 k2 : Str) : Option ν :=
  match mapGet m k1 with
  | none => none
  | some inner => mapGet inner k2

/-- Standard library functions whose data is not part of the repository, and the choice
that the language leaves to the runtime. -/
structure Lib where
  /-- The function `strings.ToLower`. -/
  toLower : Str → Str
  /-- The function `html.UnescapeString`. -/
  unescapeString : Str → Str
  /-- The call `regexp.MatchString(pattern, s)`, false when the pattern does not compile. -/
  matchString : Str → Str → Bool
  /-- The function `url.QueryEscape`. -/
  queryEscape : Str → Str
  /-- The order in which the statement `range` of `makeTag` visits the entries of the
  attribute map.  Go leaves the order open and the runtime may choose it anew at every
  call, so the order is no function of the map alone: it is given from outside, for each
  call, by the position of the head and the depth of the snapshot stack at the call.  Two
  calls of `makeTag` in one run of `Parse` differ in one of the two: between two calls at
  the same depth the head has moved over a tag, and the call for a tag nested in another
  comes at a greater depth than the call for the outer tag.  A statement about every
  library is a statement about every choice of the runtime; two runs of `Parse` with
  different choices are two libraries. -/
  rangeOrder : Int → Nat → GoMap Str Str → List (Str × Str)

/-! ## Character classes -/

abbrev NULL : Nat := 0x0
abbrev PRINATABLE : Nat := 0x1
abbrev ALPHA : Nat := 0x2
abbrev NUMERIC : Nat := 0x4
abbrev PUNCTUATUON : Nat := 0x8
abbrev SPACE : Nat := 0x10
abbrev NL : Nat := 0x20
abbrev TAG_NAME : Nat := 0x40
abbrev TAG_PARAM_NAME : Nat := 0x80
abbrev TAG_QUOTE : Nat := 0x100
abbrev TEXT_QUOTE : Nat := 0x200
abbrev TEXT_BRACKET : Nat := 0x400
abbrev SPECIAL_CHAR : Nat := 0x800
abbrev NOPRINT : Nat := 0x10000

/-- The generated class table of the source. -/
def CHAR_CLASSES : GoMap Rune Nat :=
  [(0, 65536), (1, 65536), (2, 65536), (3, 65536), (4, 65536), (5, 65536), (6, 65536),
   (7, 65536), (8, 65536), (9, 65552), (10, 65568), (11, 65536), (12, 65536), (13, 65568),
   (14, 65536), (15, 65536), (16, 65536), (17, 65536), (18, 65536), (19, 65536), (20, 65536),
   (21, 65536), (22, 65536), (23, 65536), (24, 65536), (25, 65536), (26, 65536), (27, 65536),
   (28, 65536), (29, 65536), (30, 65536), (31, 65536), (32, 65552),
   (97, 195), (98, 195), (99, 195), (100, 195), (101, 195), (102, 195), (103, 195), (104, 195),
   (105, 195), (106, 195), (107, 195), (108, 195), (109, 195), (110, 195), (111, 195),
   (112, 195), (113, 195), (114, 195), (115, 195), (116, 195), (117, 195), (118, 195),
   (119, 195), (120, 195), (121, 195), (122, 195), (65, 195), (66, 195), (67, 195), (68, 195),
   (69, 195), (70, 195), (71, 195), (72, 195), (73, 195), (74, 195), (75, 195), (76, 195),
   (77, 195), (78, 195), (79, 195), (80, 195), (81, 195), (82, 195), (83, 195), (84, 195),
   (85, 195), (86, 195), (87, 195), (88, 195), (89, 195), (90, 195), (48, 197), (49, 197),
   (50, 197), (51, 197), (52, 197), (53, 197), (54, 197), (55, 197), (56, 197), (57, 197),
   (45, 129), (34, 769), (39, 257), (46, 9), (44, 9), (33, 9), (63, 9), (58, 9), (59, 9),
   (60, 1025), (62, 1025), (91, 1025), (93, 1025), (123, 1025), (125, 1025), (40, 1025),
   (41, 1025), (64, 2049), (35, 2049), (36, 2049)]

/-- Class of a code point: the table entry, or PRINATABLE. -/
def getClassByOrd (ord : Rune) : Nat :=
  match mapGet CHAR_CLASSES ord with
  | some c => c
  | none => PRINATABLE

/-! ## The cursor, the snapshot stack and the parser record -/

/-- A snapshot of the scanner head. -/
structure state where
  prevPos : Int
  prevChar : Rune
  prevCharClass : Nat
  curPos : Int
  curChar : Rune
  curCharClass : Nat
  nextPos : Int
  nextChar : Rune
  nextCharClass : Nat
  deriving DecidableEq

/-- The parser: configuration tables followed by the state of one parse. -/
structure parser where
  tagAllowed : GoMap Str Bool
  tagParamAllowed : GoMap Str (GoMap Str (List Str))
  tagParamRequired : GoMap Str (GoMap Str Bool)
  tagParamSorted : GoMap Str (List Str)
  tagParamDefault : GoMap Str (GoMap Str Str)
  tagParamReview : GoMap Str (GoMap Str Str)
  tagShort : GoMap Str Bool
  tagCutWithContent : GoMap Str Bool
  tagGlobalOnly : GoMap Str Bool
  tagParentOnly : GoMap Str Bool
  tagChildOnly : GoMap Str Bool
  tagParent : GoMap Str (GoMap Str Bool)
  tagChild : GoMap Str (GoMap Str Bool)
  tagPreformatted : GoMap Str Bool
  tagNoTypography : GoMap Str Bool
  tagEmpty : GoMap Str Bool
  tagNoAutoBr : GoMap Str Bool
  tagBlockType : GoMap Str Bool
  tagBuildCallback : GoMap Str (Str → GoMap Str Str → Str → Str)
  entities : GoMap Rune Str
  quotes : List (List Rune)
  bracketsALL : GoMap Rune Rune
  dash : Str
  nl : Str
  br : Str
  textBuf : List Rune
  textLen : Int
  prevPos : Int
  prevChar : Rune
  prevCharClass : Nat
  curPos : Int
  curChar : Rune
  curCharClass : Nat
  nextPos : Int
  nextChar : Rune
  nextCharClass : Nat
  curTag : Str
  statesStack : List state
  quotesOpened : Int
  linkProtocolAllow : List Str
  specialChars : GoMap Rune (Str → Str)
  isXHTMLMode : Bool
  isAutoBrMode : Bool
  isAutoLinkMode : Bool
  isSpecialCharMode : Bool
  isTypoMode : Bool
  errorsList : List Str

/-- The parser built by `New()`.  The source initialises the three runes of the head to
-1; `Parse` overwrites them before anything reads them, and they are 0 here. -/
def New : parser where
  tagAllowed := []
  tagParamAllowed := []
  tagParamRequired := []
  tagParamSorted := []
  tagParamDefault := []
  tagParamReview := []
  tagShort := []
  tagCutWithContent := []
  tagGlobalOnly := []
  tagParentOnly := []
  tagChildOnly := []
  tagParent := []
  tagChild := []
  tagPreformatted := []
  tagNoTypography := []
  tagEmpty := []
  tagNoAutoBr := []
  tagBlockType := []
  tagBuildCallback := []
  entities := [(34, runes "&#34;"), (39, runes "&#39;"), (60, runes "&#60;"),
               (62, runes "&#62;"), (38, runes "&#38;")]
  quotes := [[171, 187], [8222, 8220]]
  bracketsALL := [(60, 62), (91, 93), (123, 125), (40, 41)]
  dash := [8212]
  nl := [10]
  br := runes "<br>"
  textBuf := []
  textLen := 0
  prevPos := -1
  prevChar := 0
  prevCharClass := NULL
  curPos := -1
  curChar := 0
  curCharClass := NULL
  nextPos := -1
  nextChar := 0
  nextCharClass := NULL
  curTag := []
  statesStack := []
  quotesOpened := 0
  linkProtocolAllow := [runes "http", runes "https", runes "ftp"]
  specialChars := []
  isXHTMLMode := false
  isAutoBrMode := true
  isAutoLinkMode := true
  isSpecialCharMode := false
  isTypoMode := true
  errorsList := []

/-- The rune `textBuf[i]` of an in-range index. -/
def bufAt (buf : List Rune) (i : Int) : Rune := buf.getD i.toNat 0

/-- Moves the head to `position` and reads prev, cur and next. -/
def parser.movePos (self : parser) (position : Int) : Bool × parser :=
  let prevPos := position - 1
  let curPos := position
  let nextPos := position + 1
  let pIn : Bool := decide (prevPos < self.textLen ∧ prevPos ≥ 0)
  let cIn : Bool := decide (curPos < self.textLen ∧ curPos ≥ 0)
  let nIn : Bool := decide (nextPos < self.textLen ∧ nextPos ≥ 0)
  let prevChar := if pIn then bufAt self.textBuf prevPos else 0
  let curChar := if cIn then bufAt self.textBuf curPos else 0
  let nextChar := if nIn then bufAt self.textBuf nextPos else 0
  let self1 : parser :=
    { self with
      prevPos := prevPos
      prevChar := prevChar
      prevCharClass := if pIn then getClassByOrd prevChar else NULL
      curPos := curPos
      curChar := curChar
      curCharClass := if cIn then getClassByOrd curChar else NULL
      nextPos := nextPos
      nextChar := nextChar
      nextCharClass := if nIn then getClassByOrd nextChar else NULL }
  (if curChar = 0 then false else true, self1)

def parser.moveNextPos (self : parser) : Bool × parser :=
  self.movePos (self.curPos + 1)

def parser.movePrevPos (self : parser) : Bool × parser :=
  self.movePos (self.curPos - 1)

/-- Pushes the head onto the snapshot stack. -/
def parser.saveState (self : parser) : parser :=
  let ss : state :=
    { prevPos := self.prevPos
      prevChar := self.prevChar
      prevCharClass := self.prevCharClass
      curPos := self.curPos
      curChar := self.curChar
      curCharClass := self.curCharClass
      nextPos := self.nextPos
      nextChar := self.nextChar
      nextCharClass := self.nextCharClass }
  { self with statesStack := ss :: self.statesStack }

/-- Pops the top snapshot into the head; nothing happens on an empty stack. -/
def parser.restoreState (self : parser) : parser :=
  match self.statesStack with
  | [] => self
  | ss :: rest =>
    { self with
      statesStack := rest
      prevPos := ss.prevPos
      prevChar := ss.prevChar
      prevCharClass := ss.prevCharClass
      curPos := ss.curPos
      curChar := ss.curChar
      curCharClass := ss.curCharClass
      nextPos := ss.nextPos
      nextChar := ss.nextChar
      nextCharClass := ss.nextCharClass }

/-- Drops the top snapshot when the stack holds more than one. -/
def parser.removeState (self : parser) : parser :=
  if self.statesStack.length > 1 then
    { self with statesStack := self.statesStack.tail }
  else self

def parser.matchChar (self : parser) (char : Rune) : Bool :=
  decide (self.curChar = char)

def parser.matchCharClass (self : parser) (charClass : Nat) : Bool :=
  decide (self.curCharClass &&& charClass ≠ NULL)

def parser.setError (self : parser) (msg : Str) : parser :=
  { self with errorsList := self.errorsList ++ [msg] }

/-- The assignment `self.curTag = tag`. -/
def parser.setCurTag (self : parser) (tag : Str) : parser :=
  { self with curTag := tag }

/-- The assignment `self.isTypoMode = mode`. -/
def parser.setTypoMode (self : parser) (mode : Bool) : parser :=
  { self with isTypoMode := mode }

/-- Comparison of two rune slices. -/
def EqualSliceRune (a b : List Rune) : Bool :=
  if a.length ≠ b.length then false
  else (List.zip a b).all fun cd => decide (cd.1 = cd.2)

/-- Index of the first occurrence of `e` in `s`, or -1. -/
def IndexStringSlice (s : List Str) (e : Str) : Int :=
  match s.indexOf? e with
  | some i => (i : Int)
  | none => -1

/-! ## Low level matchers -/

/-- Loop of `matchStr`: copies up to `n` runes into a zero-filled buffer of length `n`. -/
def matchStrLoop : Nat → parser → List Rune × parser
  | 0, self => ([], self)
  | n + 1, self =>
    if self.curCharClass ≠ NULL then
      let r := matchStrLoop n (self.moveNextPos).2
      (self.curChar :: r.1, r.2)
    else (List.replicate (n + 1) 0, self)

/-- Tests whether `str` stands at the head; the head is saved and restored. -/
def parser.matchStr (self : parser) (str : Str) : Bool × parser :=
  let self1 := self.saveState
  let r := matchStrLoop str.length self1
  let self2 := r.2.restoreState
  (EqualSliceRune r.1 str, self2)

/-- Skips text up to the rune `char`. -/
def skipTextToChar : Nat → parser → Rune → Option (Bool × parser)
  | 0, _, _ => none
  | fuel + 1, self, char =>
    if self.curChar ≠ char ∧ self.curCharClass ≠ NULL then
      skipTextToChar fuel (self.moveNextPos).2 char
    else some (decide (self.curCharClass ≠ NULL), self)

/-- Outcome of the inner loop of `skipTextToStr`. -/
inductive scan where
  | eof
  | differ
  | same
  deriving DecidableEq

/-- Inner loop of `skipTextToStr` over the runes of the string. -/
def skipTextToStrInner : List Rune → parser → scan × parser
  | [], self => (scan.same, self)
  | ord :: rest, self =>
    if self.curCharClass = NULL then (scan.eof, self)
    else if self.curChar ≠ ord then (scan.differ, self)
    else skipTextToStrInner rest (self.moveNextPos).2

/-- Skips text up to the string `str`; `runes[0]` panics on an empty string. -/
def skipTextToStr : Nat → parser → Str → Option (Bool × parser)
  | 0, _, _ => none
  | fuel + 1, self, str =>
    if self.curCharClass ≠ NULL then
      match str with
      | [] => none
      | r0 :: _ =>
        if self.curChar = r0 then
          let self1 := self.saveState
          match skipTextToStrInner str self1 with
          | (scan.eof, self2) => some (false, self2.removeState)
          | (scan.same, self2) => some (true, self2.restoreState)
          | (scan.differ, self2) =>
            skipTextToStr fuel (self2.restoreState.moveNextPos).2 str
        else skipTextToStr fuel (self.moveNextPos).2 str
    else some (false, self)

/-- Loop of `skipStr` over the runes of the string. -/
def skipStrLoop : List Rune → parser → Bool × parser
  | [], self => (true, self)
  | ord :: rest, self =>
    if self.curChar ≠ ord ∨ self.curCharClass = NULL then (false, self)
    else skipStrLoop rest (self.moveNextPos).2

/-- Consumes `str` when it stands at the head. -/
def parser.skipStr (self : parser) (str : Str) : Bool × parser :=
  let self1 := self.saveState
  let r := skipStrLoop str self1
  if r.1 then (true, r.2.removeState) else (false, r.2.restoreState)

def skipSpacesLoop : Nat → parser → Int → Option (Int × parser)
  | 0, _, _ => none
  | fuel + 1, self, count =>
    if self.curCharClass &&& SPACE ≠ NULL then
      skipSpacesLoop fuel (self.moveNextPos).2 (count + 1)
    else some (count, self)

/-- Skips spaces and returns how many were skipped. -/
def skipSpaces (fuel : Nat) (self : parser) : Option (Int × parser) :=
  skipSpacesLoop fuel self 0

def skipNLLoop : Nat → parser → Int → Int → Option (Int × parser)
  | 0, _, _, _ => none
  | fuel + 1, self, limit, count =>
    if self.curCharClass &&& NL ≠ NULL then
      if limit ≥ 0 ∧ count = limit then some (count, self)
      else
        match skipSpaces fuel (self.moveNextPos).2 with
        | none => none
        | some (_, self1) => skipNLLoop fuel self1 limit (count + 1)
    else some (count, self)

/-- Skips newlines, each with the spaces after it; `limit` -1 means no limit. -/
def skipNL (fuel : Nat) (self : parser) (limit : Int) : Option (Int × parser) :=
  skipNLLoop fuel self limit 0

def skipClassLoop : Nat → parser → Nat → Int → Option (Int × parser)
  | 0, _, _, _ => none
  | fuel + 1, self, cls, count =>
    if self.curCharClass &&& cls ≠ NULL then
      skipClassLoop fuel (self.moveNextPos).2 cls (count + 1)
    else some (count, self)

/-- Skips the runes of class `cls`. -/
def skipClass (fuel : Nat) (self : parser) (cls : Nat) : Option (Int × parser) :=
  skipClassLoop fuel self cls 0

def grabCharClassLoop : Nat → parser → Nat → Str → Option (Str × parser)
  | 0, _, _, _ => none
  | fuel + 1, self, cls, buff =>
    if self.curCharClass &&& cls ≠ NULL then
      grabCharClassLoop fuel (self.moveNextPos).2 cls (buff ++ [self.curChar])
    else some (buff, self)

/-- Consumes the runes of class `cls` and returns them. -/
def grabCharClass (fuel : Nat) (self : parser) (cls : Nat) : Option (Str × parser) :=
  grabCharClassLoop fuel self cls []

def grabNotCharClassLoop : Nat → parser → Nat → Str → Option (Str × parser)
  | 0, _, _, _ => none
  | fuel + 1, self, cls, buff =>
    if self.curCharClass ≠ NULL ∧ self.curCharClass &&& cls = NULL then
      grabNotCharClassLoop fuel (self.moveNextPos).2 cls (buff ++ [self.curChar])
    else some (buff, self)

/-- Consumes the runes not of class `cls` and returns them. -/
def grabNotCharClass (fuel : Nat) (self : parser) (cls : Nat) : Option (Str × parser) :=
  grabNotCharClassLoop fuel self cls []

/-- The entity of a rune of the entities table, or the rune itself. -/
def parser.escapeRune (self : parser) (c : Rune) : Str :=
  match mapGet self.entities c with
  | some e => e
  | none => [c]

/-! ## Tags: recognition -/

/-- Loop of the quoted branch of `matchTagParamValue`. -/
def quotedValueLoop : Nat → parser → Rune → Bool → Str → Option (Str × parser)
  | 0, _, _, _, _ => none
  | fuel + 1, self, quote, escape, buff =>
    if self.curCharClass ≠ NULL ∧ (self.curChar ≠ quote ∨ escape = true) then
      quotedValueLoop fuel (self.moveNextPos).2 quote (decide (self.curChar = 92))
        (buff ++ self.escapeRune self.curChar)
    else some (buff, self)

/-- Loop of the bare branch of `matchTagParamValue`. -/
def bareValueLoop : Nat → parser → Str → Option (Str × parser)
  | 0, _, _ => none
  | fuel + 1, self, buff =>
    if self.curCharClass ≠ NULL ∧ self.curCharClass &&& SPACE = NULL ∧ self.curChar ≠ 62 then
      bareValueLoop fuel (self.moveNextPos).2 (buff ++ self.escapeRune self.curChar)
    else some (buff, self)

/-- Value of a tag parameter, quoted or bare; returns the flag and the value. -/
def matchTagParamValue (fuel : Nat) (self : parser) : Option (Bool × Str × parser) :=
  if self.curCharClass &&& TAG_QUOTE ≠ NULL then
    let quote := self.curChar
    match quotedValueLoop fuel (self.moveNextPos).2 quote false [] with
    | none => none
    | some (value, self1) =>
      if self1.curChar ≠ quote then some (false, value, self1)
      else some (true, value, (self1.moveNextPos).2)
  else
    match bareValueLoop fuel self [] with
    | none => none
    | some (value, self1) => some (true, value, self1)

/-- One tag parameter; returns the flag, the name and the value. -/
def matchTagParam (fuel : Nat) (self : parser) : Option (Bool × Str × Str × parser) :=
  let self1 := self.saveState
  match skipSpaces fuel self1 with
  | none => none
  | some (_, self2) =>
    match grabCharClass fuel self2 TAG_PARAM_NAME with
    | none => none
    | some (name, self3) =>
      if name = [] then some (false, name, [], self3.removeState)
      else
        match skipSpaces fuel self3 with
        | none => none
        | some (_, self4) =>
          if self4.curChar ≠ 61 then
            if self4.curChar = 62 ∨ self4.curChar = 47 ∨ self4.curCharClass &&& SPACE ≠ NULL then
              some (true, name, name, self4.removeState)
            else some (false, name, [], self4.restoreState)
          else
            match skipSpaces fuel (self4.moveNextPos).2 with
            | none => none
            | some (_, self5) =>
              match matchTagParamValue fuel self5 with
              | none => none
              | some (false, value, self6) => some (false, name, value, self6.restoreState)
              | some (true, value, self6) =>
                match skipSpaces fuel self6 with
                | none => none
                | some (_, self7) => some (true, name, value, self7.removeState)

/-- The parameters of a tag; names starting with a hyphen are dropped. -/
def matchTagParams : Nat → parser → GoMap Str Str → Option (Bool × GoMap Str Str × parser)
  | 0, _, _ => none
  | fuel + 1, self, params =>
    match matchTagParam fuel self with
    | none => none
    | some (false, _, _, self1) => some (decide (params.length > 0), params, self1)
    | some (true, name, value, self1) =>
      match name with
      | [] => none
      | c :: _ =>
        matchTagParams fuel self1 (if c ≠ 45 then mapSet params name value else params)

/-- An open tag; returns the flag, the name, the parameters and the short flag. -/
def matchTagOpen (L : Lib) (fuel : Nat) (self : parser) :
    Option (Bool × Str × GoMap Str Str × Bool × parser) :=
  if self.curChar ≠ 60 then some (false, [], [], false, self)
  else
    let self1 := self.saveState
    match skipSpaces fuel self1 with
    | none => none
    | some (n, self2) =>
      let self3 := if n = 0 then (self2.moveNextPos).2 else self2
      match grabCharClass fuel self3 TAG_NAME with
      | none => none
      | some (name0, self4) =>
        match skipSpaces fuel self4 with
        | none => none
        | some (_, self5) =>
          if name0 = [] then some (false, name0, [], false, self5.restoreState)
          else
            let tagName := L.toLower name0
            match (if self5.curChar ≠ 62 ∧ self5.curChar ≠ 47 then matchTagParams fuel self5 []
                   else some (false, [], self5)) with
            | none => none
            | some (_, tagParams, self6) =>
              let shortTag := mapHas self6.tagShort tagName
              if ¬ shortTag ∧ self6.curChar = 47 then
                some (false, tagName, tagParams, shortTag, self6.restoreState)
              else
                let self7 := if shortTag ∧ self6.curChar = 47 then (self6.moveNextPos).2 else self6
                match skipSpaces fuel self7 with
                | none => none
                | some (_, self8) =>
                  if self8.curChar ≠ 62 then
                    some (false, tagName, tagParams, shortTag, self8.restoreState)
                  else some (true, tagName, tagParams, shortTag, (self8.removeState.moveNextPos).2)

/-- A close tag; returns the flag and the name. -/
def matchTagClose (L : Lib) (fuel : Nat) (self : parser) : Option (Bool × Str × parser) :=
  if self.curChar ≠ 60 then some (false, [], self)
  else
    let self1 := self.saveState
    match skipSpaces fuel self1 with
    | none => none
    | some (n, self2) =>
      let self3 := if n = 0 then (self2.moveNextPos).2 else self2
      if self3.curChar ≠ 47 then some (false, [], self3.restoreState)
      else
        match skipSpaces fuel self3 with
        | none => none
        | some (m, self4) =>
          let self5 := if m = 0 then (self4.moveNextPos).2 else self4
          match grabCharClass fuel self5 TAG_NAME with
          | none => none
          | some (name0, self6) =>
            match skipSpaces fuel self6 with
            | none => none
            | some (_, self7) =>
              if name0 = [] ∨ self7.curChar ≠ 62 then some (false, name0, self7.restoreState)
              else some (true, L.toLower name0, (self7.removeState.moveNextPos).2)

/-- Body of the loop of `makePreformatted` once the close tag test has failed. -/
def parser.preformattedStep (self : parser) (content : Str) : Str × parser :=
  (content ++ self.escapeRune self.curChar, (self.moveNextPos).2)

def makePreformattedLoop (L : Lib) : Nat → parser → Str → Str → Option (Str × parser)
  | 0, _, _, _ => none
  | fuel + 1, self, openTag, content =>
    if self.curCharClass ≠ NULL then
      if self.curChar = 60 ∧ openTag ≠ [] then
        let self1 := self.saveState
        match matchTagClose L fuel self1 with
        | none => none
        | some (isClosedTag, closeTag, self2) =>
          let self3 := if isClosedTag then self2.restoreState else self2.removeState
          if isClosedTag ∧ openTag = closeTag then some (content, self3)
          else
            let r := self3.preformattedStep content
            makePreformattedLoop L fuel r.2 openTag r.1
      else
        let r := self.preformattedStep content
        makePreformattedLoop L fuel r.2 openTag r.1
    else some (content, self)

/-- Content of a preformatted tag: every rune escaped or copied. -/
def makePreformatted (L : Lib) (fuel : Nat) (self : parser) (openTag : Str) :
    Option (Str × parser) :=
  makePreformattedLoop L fuel self openTag []

/-! ## Tags: policy and output -/

/-- The predicate `unicode.IsSpace`. -/
def isSpace (c : Rune) : Bool :=
  (9 ≤ c && c ≤ 13) || c == 32 || c == 0x85 || c == 0xA0 || c == 0x1680 ||
  (0x2000 ≤ c && c ≤ 0x200A) || c == 0x2028 || c == 0x2029 || c == 0x202F ||
  c == 0x205F || c == 0x3000

/-- The function `strings.TrimSpace`. -/
def TrimSpace (s : Str) : Str :=
  ((s.dropWhile isSpace).reverse.dropWhile isSpace).reverse

/-- The test `strings.Contains(s, sub)`, the meaning of an unanchored literal pattern. -/
def containsStr (sub : Str) : Str → Bool
  | [] => sub.isEmpty
  | c :: s => sub.isPrefixOf (c :: s) || containsStr sub s

/-- The pattern `^[0-9]+$`. -/
def matchInt (value : Str) : Bool :=
  !value.isEmpty && value.all fun c => 48 ≤ c && c ≤ 57

/-- The pattern `javascript:`. -/
def matchJavascript (value : Str) : Bool :=
  containsStr (runes "javascript:") value

/-- The pattern `^(?i)[a-z0-9/#]`; under case folding the class also holds
U+017F and U+212A, the other members of the fold orbits of s and k. -/
def matchLinkStart (value : Str) : Bool :=
  match value with
  | [] => false
  | c :: _ =>
    (97 ≤ c && c ≤ 122) || (65 ≤ c && c ≤ 90) || (48 ≤ c && c ≤ 57) || c == 47 || c == 35 ||
    c == 0x17F || c == 0x212A

/-- The pattern `^(\/|\#)`. -/
def matchSlashHash (value : Str) : Bool :=
  match value with
  | [] => false
  | c :: _ => c == 47 || c == 35

def isAlnum (c : Rune) : Bool :=
  (97 ≤ c && c ≤ 122) || (65 ≤ c && c ≤ 90) || (48 ≤ c && c ≤ 57)

/-- The function `strings.Join`. -/
def joinStr (sep : Str) : List Str → Str
  | [] => []
  | [a] => a
  | a :: b :: rest => a ++ sep ++ joinStr sep (b :: rest)

/-- The pattern `^(p1|...|pn):\/\/` built from the allowed protocols.  When every
protocol is a plain alphanumeric name the pattern is an alternation of literals (one
empty literal for the empty list); otherwise the pattern goes to the library. -/
def matchProtocols (L : Lib) (protocols : List Str) (value : Str) : Bool :=
  if protocols.all (fun p => p.all isAlnum) then
    (if protocols.isEmpty then [[]] else protocols).any
      fun p => (p ++ runes "://").isPrefixOf value
  else L.matchString (runes "^(" ++ joinStr (runes "|") protocols ++ runes "):\\/\\/") value

/-- The submatch of `^#regexp\((.*?)\)$`, where the dot does not match a newline. -/
def regexpBody (v : Str) : Option Str :=
  let pre := runes "#regexp("
  if pre.isPrefixOf v ∧ (v.drop pre.length).getLast? = some 41 then
    let body := (v.drop pre.length).dropLast
    if body.all (fun c => c != 10) then some body else none
  else none

/-- The loop over the allowed values of one parameter: the value to keep, if any. -/
def checkParamValue (L : Lib) (self : parser) : List Str → Str → Option Str
  | [], _ => none
  | paramAllowedValue :: rest, value =>
    if paramAllowedValue = runes "#str" then some value
    else if paramAllowedValue = runes "#int" then
      if matchInt value then checkParamValue L self rest value
      else some value
    else if paramAllowedValue = runes "#link" then
      if matchJavascript value then checkParamValue L self rest value
      else if ¬ matchLinkStart value then checkParamValue L self rest value
      else if ¬ matchProtocols L self.linkProtocolAllow value then
        if ¬ matchSlashHash value then some (runes "http://" ++ value)
        else some value
      else some value
    else if (runes "#regexp").isPrefixOf paramAllowedValue then
      match regexpBody paramAllowedValue with
      | none => checkParamValue L self rest value
      | some pattern =>
        if ¬ L.matchString pattern value then checkParamValue L self rest value
        else some value
    else if paramAllowedValue = value then some value
    else checkParamValue L self rest value

/-- The loop of `makeTag` over the parameters of the tag, which it takes in the order of
the list given: `makeTag` passes the entries of the attribute map in the order in which
`range` visits them. -/
def makeTagParams (L : Lib) (tagName : Str) :
    List (Str × Str) → GoMap Str Str → parser → GoMap Str Str × parser
  | [], tagParamsResult, self => (tagParamsResult, self)
  | (param0, value0) :: rest, tagParamsResult, self =>
    let param := L.toLower param0
    let value := TrimSpace value0
    if value = [] then makeTagParams L tagName rest tagParamsResult self
    else
      match mapGet2 self.tagParamAllowed tagName param with
      | none => makeTagParams L tagName rest tagParamsResult self
      | some paramAllowedValues =>
        match checkParamValue L self paramAllowedValues value with
        | none =>
          makeTagParams L tagName rest tagParamsResult
            (self.setError (runes "Недопустимое значение \x27" ++ value ++
              runes "\x27 для атрибута \x27" ++ param ++ runes "\x27 тега \x27" ++
              tagName ++ runes "\x27"))
        | some value1 =>
          makeTagParams L tagName rest (mapSet tagParamsResult param value1) self

/-- True when some required parameter is missing from the result. -/
def missingRequired (required : GoMap Str Bool) (tagParamsResult : GoMap Str Str) : Bool :=
  required.any fun kv => !mapHas tagParamsResult kv.1

/-- Adds the defaults of the parameters that are absent. -/
def addDefaults : List (Str × Str) → GoMap Str Str → GoMap Str Str
  | [], res => res
  | (param, value) :: rest, res =>
    addDefaults rest (if mapHas res param then res else mapSet res param value)

/-- Overwrites the parameters under review. -/
def addReview : List (Str × Str) → GoMap Str Str → GoMap Str Str
  | [], res => res
  | (param, value) :: rest, res => addReview rest (mapSet res param value)

/-- The attributes of the default builder, in the order of `tagParamSorted`. -/
def buildParams (tagParamsResult : GoMap Str Str) : List Str → Str
  | [] => []
  | param :: rest =>
    (match mapGet tagParamsResult param with
     | some value => runes " " ++ param ++ runes "=\"" ++ value ++ runes "\""
     | none => []) ++ buildParams tagParamsResult rest

/-- The default builder of `makeTag`. -/
def parser.buildTag (self : parser) (tagName : Str) (tagParamsResult : GoMap Str Str)
    (tagContent : Str) (shortTag : Bool) (parentTag : Str) : Str :=
  runes "<" ++ tagName ++
  buildParams tagParamsResult ((mapGet self.tagParamSorted tagName).getD []) ++
  (if shortTag ∧ self.isXHTMLMode then runes "/>" else runes ">") ++
  (if mapHas self.tagParentOnly tagName then [10] else []) ++
  (if ¬ shortTag then tagContent ++ runes "</" ++ tagName ++ runes ">" else []) ++
  (if mapHas self.tagParentOnly parentTag then [10] else []) ++
  (if mapHas self.tagBlockType tagName then [10] else []) ++
  (if tagName = runes "br" then [10] else [])

/-- The entries of the attribute map in the order in which `range` visits them at this
call of `makeTag`. -/
def parser.ranged (self : parser) (L : Lib) (tagParams : GoMap Str Str) : List (Str × Str) :=
  L.rangeOrder self.curPos self.statesStack.length tagParams

/-- Prepares a tag for output; errors go to the error list of the parser. -/
def parser.makeTag (L : Lib) (self : parser) (tagName0 : Str) (tagParams : GoMap Str Str)
    (tagContent : Str) (shortTag : Bool) (parentTag : Str) : Str × parser :=
  let tagName := L.toLower tagName0
  if mapHas self.tagCutWithContent tagName then ([], self)
  else if ¬ mapHas self.tagAllowed tagName then
    if mapHas self.tagParentOnly parentTag then ([], self) else (tagContent, self)
  else if mapHas self.tagGlobalOnly tagName ∧ parentTag ≠ [] then (tagContent, self)
  else if mapHas self.tagParentOnly parentTag ∧
      (mapGet2 self.tagChild parentTag tagName).isNone then ([], self)
  else if mapHas self.tagChildOnly tagName ∧
      (mapGet2 self.tagParent tagName parentTag).isNone then (tagContent, self)
  else
    let r := makeTagParams L tagName (self.ranged L tagParams) [] self
    let self1 := r.2
    if missingRequired ((mapGet self1.tagParamRequired tagName).getD []) r.1 then
      (tagContent, self1)
    else
      let res1 := addDefaults ((mapGet self1.tagParamDefault tagName).getD []) r.1
      let res2 := addReview ((mapGet self1.tagParamReview tagName).getD []) res1
      if ¬ mapHas self1.tagEmpty tagName ∧ ¬ shortTag ∧ tagContent = [] then ([], self1)
      else
        match mapGet self1.tagBuildCallback tagName with
        | some cb => (cb tagName res2 tagContent, self1)
        | none => (self1.buildTag tagName res2 tagContent shortTag parentTag, self1)

/-! ## Typography -/

def matchDashLoop : Nat → parser → Option parser
  | 0, _ => none
  | fuel + 1, self =>
    if self.nextChar = 45 then matchDashLoop fuel (self.moveNextPos).2
    else some self

/-- A dash fit for replacement; returns the flag and the dash. -/
def matchDash (fuel : Nat) (self : parser) : Option (Bool × Str × parser) :=
  if self.curChar ≠ 45 then some (false, [], self)
  else if self.prevCharClass &&& (SPACE ||| NL ||| TEXT_BRACKET) = NULL ∧
      self.prevCharClass ≠ NULL then some (false, [], self)
  else
    let self1 := self.saveState
    match matchDashLoop fuel self1 with
    | none => none
    | some self2 =>
      if self2.nextCharClass &&& (SPACE ||| NL ||| TEXT_BRACKET) = NULL ∧
          self2.nextCharClass ≠ NULL then some (false, [], self2.restoreState)
      else some (true, self2.dash, (self2.removeState.moveNextPos).2)

/-- An HTML entity; returns the flag and the unescaped entity. -/
def matchHTMLEntity (L : Lib) (fuel : Nat) (self : parser) : Option (Bool × Str × parser) :=
  if self.curChar ≠ 38 then some (false, [], self)
  else
    let self1 := (self.saveState.moveNextPos).2
    if self1.curChar = 35 then
      match grabCharClass fuel (self1.moveNextPos).2 NUMERIC with
      | none => none
      | some (entityCode, self2) =>
        if entityCode = [] ∨ self2.curChar ≠ 59 then some (false, [], self2.restoreState)
        else
          some (true, L.unescapeString (runes "&#" ++ entityCode ++ runes ";"),
            (self2.removeState.moveNextPos).2)
    else
      match grabCharClass fuel self1 (ALPHA ||| NUMERIC) with
      | none => none
      | some (entityName, self2) =>
        if entityName = [] ∨ self2.curChar ≠ 59 then some (false, [], self2.restoreState)
        else
          some (true, L.unescapeString (runes "&" ++ entityName ++ runes ";"),
            (self2.removeState.moveNextPos).2)

/-- The rune `quotes[level][index]`; `none` when an index is out of range. -/
def parser.quoteAt (self : parser) (level index : Int) : Option Rune :=
  if level < 0 ∨ index < 0 then none
  else
    match self.quotes.get? level.toNat with
    | none => none
    | some pair => pair.get? index.toNat

/-- A quote fit for replacement; returns the flag and the quote. -/
def parser.matchQuote (self : parser) : Option (Bool × Str × parser) :=
  if self.curCharClass &&& TEXT_QUOTE = NULL then some (false, [], self)
  else
    let prevInside : Bool := decide (self.prevCharClass &&& (SPACE ||| NL ||| TEXT_BRACKET) = NULL ∧
      self.prevCharClass ≠ NULL)
    let nextOutside : Bool :=
      decide (self.nextCharClass &&& (SPACE ||| NL ||| TEXT_BRACKET ||| PUNCTUATUON) ≠ NULL ∨
        self.nextCharClass = NULL)
    let close : Bool := decide (self.quotesOpened ≥ 2) ||
      (decide (self.quotesOpened > 0) && (prevInside || nextOutside))
    if ¬ close ∧ prevInside then some (false, [], self)
    else if close ∧ ¬ nextOutside then some (false, [], self)
    else
      let self1 : parser :=
        if ¬ close then { self with quotesOpened := self.quotesOpened + 1 }
        else { self with quotesOpened := self.quotesOpened - 1 }
      let level : Int := if ¬ close then self1.quotesOpened - 1 else self1.quotesOpened
      let index : Int := if ¬ close then 0 else 1
      match self1.quoteAt level index with
      | none => none
      | some q => some (true, [q], (self1.moveNextPos).2)

/-- Loop of `matchURL` over the body of the link. -/
def matchURLLoop (openBracket closeBracket : Rune) :
    Nat → parser → Int → Str → Option (Str × parser)
  | 0, _, _, _ => none
  | fuel + 1, self, openedBracket, buff =>
    if self.curCharClass &&& PRINATABLE ≠ NULL then
      if self.curChar = 60 then some (buff, self)
      else if self.curCharClass &&& TEXT_QUOTE ≠ NULL then some (buff, self)
      else if self.curCharClass &&& TEXT_BRACKET ≠ NULL ∧ openedBracket > 0 then
        if self.curChar = closeBracket ∧ openedBracket = 1 then some (buff, self)
        else
          let opened1 := if self.curChar = openBracket then openedBracket + 1 else openedBracket
          let opened2 := if self.curChar = closeBracket then opened1 - 1 else opened1
          matchURLLoop openBracket closeBracket fuel (self.moveNextPos).2 opened2
            (buff ++ [self.curChar])
      else if self.curCharClass &&& PUNCTUATUON ≠ NULL then
        match grabCharClass fuel self.saveState PUNCTUATUON with
        | none => none
        | some (punctuatuon, self2) =>
          if self2.curCharClass &&& PRINATABLE = NULL then some (buff, self2.restoreState)
          else
            let self3 := self2.removeState
            if self3.curCharClass &&& (TEXT_QUOTE ||| TEXT_BRACKET) ≠ NULL then
              some (buff ++ punctuatuon, self3)
            else
              matchURLLoop openBracket closeBracket fuel (self3.moveNextPos).2 openedBracket
                (buff ++ punctuatuon ++ [self3.curChar])
      else
        matchURLLoop openBracket closeBracket fuel (self.moveNextPos).2 openedBracket
          (buff ++ [self.curChar])
    else some (buff, self)

/-- The scheme dispatch of `matchURL`: the prefix of the link, or `none`. -/
def parser.matchURLScheme (self : parser) : Option Str × parser :=
  let r1 := self.matchStr (runes "http://")
  if r1.1 ∧ IndexStringSlice r1.2.linkProtocolAllow (runes "http") ≠ -1 then (some [], r1.2)
  else
    let r2 := r1.2.matchStr (runes "https://")
    if r2.1 ∧ IndexStringSlice r2.2.linkProtocolAllow (runes "https") ≠ -1 then (some [], r2.2)
    else
      let r3 := r2.2.matchStr (runes "ftp://")
      if r3.1 ∧ IndexStringSlice r3.2.linkProtocolAllow (runes "ftp") ≠ -1 then (some [], r3.2)
      else
        let r4 := r3.2.matchStr (runes "www.")
        if r4.1 then (some (runes "http://"), r4.2) else (none, r4.2)

/-- A text link; returns the flag and the link. -/
def matchURL (fuel : Nat) (self : parser) : Option (Bool × Str × parser) :=
  if self.prevCharClass &&& (SPACE ||| NL ||| TEXT_QUOTE ||| TEXT_BRACKET) = NULL ∧
      self.prevCharClass ≠ NULL then some (false, [], self)
  else
    match self.saveState.matchURLScheme with
    | (none, self1) => some (false, [], self1.restoreState)
    | (some url, self1) =>
      let openBracket : Rune :=
        if self1.prevCharClass &&& TEXT_BRACKET ≠ NULL ∧ mapHas self1.bracketsALL self1.prevChar
        then self1.prevChar else 0
      let closeBracket : Rune :=
        if openBracket ≠ 0 then (mapGet self1.bracketsALL self1.prevChar).getD 0 else 0
      let openedBracket : Int := if openBracket ≠ 0 then 1 else 0
      match matchURLLoop openBracket closeBracket fuel self1 openedBracket [] with
      | none => none
      | some (buff, self2) =>
        if buff = [] then some (false, url, self2.restoreState)
        else some (true, url ++ buff, self2.removeState)

/-- Loop of `matchSpecialChar` over the token. -/
def matchSpecialCharLoop : Nat → parser → Str → Option (Str × parser)
  | 0, _, _ => none
  | fuel + 1, self, buff =>
    if self.curCharClass ≠ NULL ∧ self.curCharClass &&& (SPACE ||| NL ||| TEXT_BRACKET) = NULL then
      if self.curCharClass &&& PUNCTUATUON ≠ NULL then
        match grabCharClass fuel self.saveState PUNCTUATUON with
        | none => none
        | some (punctuatuon, self2) =>
          if self2.curCharClass &&& (SPACE ||| NL ||| TEXT_BRACKET) ≠ NULL ∨
              self2.curCharClass = NULL then some (buff, self2.restoreState)
          else
            let self3 := self2.removeState
            matchSpecialCharLoop fuel (self3.moveNextPos).2 (buff ++ punctuatuon ++ [self3.curChar])
      else matchSpecialCharLoop fuel (self.moveNextPos).2 (buff ++ [self.curChar])
    else some (buff, self)

/-- A token that follows a special character; returns the flag and the callback result. -/
def matchSpecialChar (fuel : Nat) (self : parser) : Option (Bool × Str × parser) :=
  if self.curCharClass &&& SPECIAL_CHAR = NULL then some (false, [], self)
  else
    match mapGet self.specialChars self.curChar with
    | none => some (false, [], self)
    | some callback =>
      if self.prevCharClass ≠ NULL ∧
          self.prevCharClass &&& (SPACE ||| NL ||| TEXT_BRACKET) = NULL then some (false, [], self)
      else
        match matchSpecialCharLoop fuel (self.saveState.moveNextPos).2 [] with
        | none => none
        | some (buff, self1) =>
          if buff = [] then some (false, [], self1.restoreState)
          else
            let spResult := callback buff
            if spResult = [] then some (false, spResult, self1.restoreState)
            else some (true, spResult, self1.removeState)

/-! ## Text and content -/

/-- One pass through the switch of `makeText`: the text to append and the new parser. -/
def makeTextStep (L : Lib) (fuel : Nat) (self : parser) (parentTag : Str) :
    Option (Str × parser) :=
  match (if self.curChar = 38 then matchHTMLEntity L fuel self else some (false, [], self)) with
  | none => none
  | some (true, entity, self1) =>
    match entity with
    | [] => none
    | c :: _ =>
      match mapGet self1.entities c with
      | some val => some (val, self1)
      | none => some (entity, self1)
  | some (false, _, self1) =>
    if self1.curCharClass &&& PUNCTUATUON ≠ NULL then
      some ([self1.curChar], (self1.moveNextPos).2)
    else
      match (if self1.isTypoMode ∧ self1.curChar = 45 then matchDash fuel self1
             else some (false, [], self1)) with
      | none => none
      | some (true, dash, self2) => some (dash, self2)
      | some (false, _, self2) =>
        match (if self2.isTypoMode ∧ self2.curCharClass &&& TEXT_QUOTE ≠ NULL then self2.matchQuote
               else some (false, [], self2)) with
        | none => none
        | some (true, quote, self3) => some (quote, self3)
        | some (false, _, self3) =>
          if self3.curCharClass &&& SPACE ≠ NULL then
            match skipSpaces fuel self3 with
            | none => none
            | some (_, self4) => some (runes " ", self4)
          else if self3.isAutoBrMode ∧ self3.curCharClass &&& NL ≠ NULL then
            match skipNL fuel self3 (-1) with
            | none => none
            | some (brCount, self4) =>
              if ¬ mapHas self4.tagNoAutoBr self4.curTag then
                let br := self4.br ++ [10]
                if brCount = 1 then some (br, self4) else some (br ++ br, self4)
              else some ([], self4)
          else
            match (if self3.isAutoLinkMode ∧ self3.curCharClass &&& ALPHA ≠ NULL ∧
                      self3.curTag ≠ runes "a" then matchURL fuel self3
                   else some (false, [], self3)) with
            | none => none
            | some (true, url, self4) =>
              some (self4.makeTag L (runes "a") [(runes "href", url)] url false parentTag)
            | some (false, _, self4) =>
              match (if self4.isSpecialCharMode ∧ self4.curCharClass &&& SPECIAL_CHAR ≠ NULL ∧
                        self4.curTag ≠ runes "a" then matchSpecialChar fuel self4
                     else some (false, [], self4)) with
              | none => none
              | some (true, spResult, self5) => some (spResult, self5)
              | some (false, _, self5) =>
                if self5.curCharClass &&& PRINATABLE ≠ NULL then
                  some (self5.escapeRune self5.curChar, (self5.moveNextPos).2)
                else some ([], (self5.moveNextPos).2)

def makeTextLoop (L : Lib) : Nat → parser → Str → Str → Option (Str × parser)
  | 0, _, _, _ => none
  | fuel + 1, self, parentTag, text =>
    if self.curChar ≠ 60 ∧ self.curCharClass ≠ NULL then
      match makeTextStep L fuel self parentTag with
      | none => none
      | some (out, self1) => makeTextLoop L fuel self1 parentTag (text ++ out)
    else some (text, self)

/-- Builds the text up to the next `<` or the end of the buffer. -/
def makeText (L : Lib) (fuel : Nat) (self : parser) (parentTag : Str) : Option (Str × parser) :=
  makeTextLoop L fuel self parentTag []

/-- A tag with its content, given the builder `mc` of nested content; returns the flag,
the name, the parameters, the content and the short flag. -/
def matchTag (L : Lib) (fuel : Nat) (mc : parser → Str → Option (Str × parser))
    (self : parser) : Option (Bool × Str × GoMap Str Str × Str × Bool × parser) :=
  match matchTagOpen L fuel self with
  | none => none
  | some (false, tagName, tagParams, shortTag, self1) =>
    some (false, tagName, tagParams, [], shortTag, self1)
  | some (true, tagName, tagParams, shortTag, self1) =>
    if shortTag then some (true, tagName, tagParams, [], shortTag, self1)
    else
      let curTag := self1.curTag
      let isTypoMode := self1.isTypoMode
      let self2 : parser :=
        if mapHas self1.tagNoTypography tagName then self1.setTypoMode false else self1
      let self3 : parser := self2.setCurTag tagName
      match (if mapHas self3.tagPreformatted tagName then makePreformatted L fuel self3 tagName
             else mc self3 tagName) with
      | none => none
      | some (tagContent, self4) =>
        match matchTagClose L fuel self4 with
        | none => none
        | some (closed, closeTag, self5) =>
          let self6 : parser :=
            if closed ∧ tagName ≠ closeTag then
              self5.setError (runes "Неверный закрывающийся тег \x27" ++ closeTag ++
                runes "\x27. Ожидалось закрытие \x27" ++ tagName ++ runes "\x27")
            else self5
          some (true, tagName, tagParams, tagContent, shortTag,
            (self6.setCurTag curTag).setTypoMode isTypoMode)

/-- The body of `makeContent` over its loop: skips the leading spaces and newlines, then
runs the loop with an empty buffer. -/
def makeContentWith (fuel : Nat) (loop : parser → Str → Str → Option (Str × parser))
    (self : parser) (parentTag : Str) : Option (Str × parser) :=
  match skipSpaces fuel self with
  | none => none
  | some (_, s1) =>
    match skipNL fuel s1 (-1) with
    | none => none
    | some (_, s2) => loop s2 parentTag []

/-- The loop of `makeContent`; the content of a nested tag is built by `makeContent`
itself, with the fuel that is left. -/
def makeContentLoop (L : Lib) : Nat → parser → Str → Str → Option (Str × parser)
  | 0, _, _, _ => none
  | fuel + 1, self0, parentTag, content =>
    if self0.curCharClass ≠ NULL then
      match (if mapHas self0.tagParentOnly self0.curTag ∧ self0.curChar ≠ 60 then
               skipTextToChar fuel self0 60
             else some (true, self0)) with
      | none => none
      | some (_, self1) =>
        let self := self1.saveState
        match (if self.curChar = 60 then
                 matchTag L fuel (makeContentWith fuel (makeContentLoop L fuel)) self
               else some (false, [], [], [], false, self)) with
        | none => none
        | some (true, tagName, tagParams, tagContent, shortTag, self2) =>
          let r := self2.makeTag L tagName tagParams tagContent shortTag parentTag
          let tagBuilt := r.1
          match (if (mapHas r.2.tagBlockType tagName ∨ tagName = runes "br") ∧ tagBuilt ≠ [] then
                   skipNL fuel r.2 1
                 else some (0, r.2)) with
          | none => none
          | some (_, self3) =>
            match (if tagBuilt = [] then skipClass fuel self3 (SPACE ||| NL)
                   else some (0, self3)) with
            | none => none
            | some (_, self4) =>
              makeContentLoop L fuel self4.removeState parentTag (content ++ tagBuilt)
        | some (false, _, _, _, _, self2) =>
          let r2 := if self2.curChar = 60 then self2.matchStr (runes "<!--") else (false, self2)
          if r2.1 then
            match skipTextToStr fuel r2.2 (runes "-->") with
            | none => none
            | some (false, self3) => makeContentLoop L fuel self3.removeState parentTag content
            | some (true, self3) =>
              match skipClass fuel (self3.skipStr (runes "-->")).2 (SPACE ||| NL) with
              | none => none
              | some (_, self4) => makeContentLoop L fuel self4.removeState parentTag content
          else
            match (if r2.2.curChar = 60 then matchTagClose L fuel r2.2
                   else some (false, [], r2.2)) with
            | none => none
            | some (true, tagName, self3) =>
              if self3.curTag ≠ [] then some (content, self3.restoreState)
              else
                makeContentLoop L fuel
                  (self3.setError (runes "Не ожидалось закрывающего тега \x27" ++ tagName ++
                    runes "\x27")).removeState parentTag content
            | some (false, _, self3) =>
              if self3.curChar = 60 then
                makeContentLoop L fuel ((self3.moveNextPos).2).removeState parentTag
                  (if ¬ mapHas self3.tagParentOnly self3.curTag then
                     content ++ (mapGet self3.entities 60).getD [] else content)
              else
                match makeText L fuel self3 parentTag with
                | none => none
                | some (text, self4) =>
                  makeContentLoop L fuel self4.removeState parentTag (content ++ text)
    else some (content, self0)

/-- Builds the content of the tag `parentTag`, or of the whole text. -/
def makeContent (L : Lib) (fuel : Nat) (self : parser) (parentTag : Str) :
    Option (Str × parser) :=
  makeContentWith fuel (makeContentLoop L fuel) self parentTag

/-- The call `strings.Replace(content, "\n", nl, -1)`. -/
def replaceNL (nl : Str) : Str → Str
  | [] => []
  | c :: s => (if c = 10 then nl else [c]) ++ replaceNL nl s

/-- Fuel that `Parse` gives to the content builder for a buffer of `n` runes. -/
def parseFuel (n : Nat) : Nat := 2 * n + 8

/-- The parser as `Parse` sets it before the scan: the head, the current tag, the
snapshot stack, the quote counter and the error list are reset and the buffer holds
`text`. -/
def parser.start (self : parser) (text : Str) : parser :=
  { self with
    prevPos := -1
    prevChar := 0
    prevCharClass := NULL
    curPos := -1
    curChar := 0
    curCharClass := NULL
    nextPos := -1
    nextChar := 0
    nextCharClass := NULL
    curTag := []
    statesStack := []
    quotesOpened := 0
    textBuf := text
    textLen := text.length
    errorsList := [] }

/-- Parses a text: the output, the error list, and the parser as the call leaves it. -/
def Parse (L : Lib) (self : parser) (text0 : Str) : Option ((Str × List Str) × parser) :=
  let text := text0.filter fun c => c != 13
  let self2 := ((self.start text).movePos 0).2
  match makeContent L (parseFuel text.length) self2 [] with
  | none => none
  | some (content, self3) =>
    some ((TrimSpace (replaceNL self3.nl content), self3.errorsList), self3)

/-! ## Configuration -/

/-- Sets `m[tag] = true` for every tag; `none` is the panic on a tag that is not allowed. -/
def setFlags (allowed : GoMap Str Bool) : List Str → GoMap Str Bool → Option (GoMap Str Bool)
  | [], m => some m
  | tag :: rest, m =>
    if mapHas allowed tag then setFlags allowed rest (mapSet m tag true) else none

def parser.CfgAllowTags (self : parser) (tags : List Str) : parser :=
  { self with tagAllowed := tags.foldl (fun m tag => mapSet m tag true) self.tagAllowed }

def parser.CfgSetTagShort (self : parser) (tags : List Str) : Option parser :=
  (setFlags self.tagAllowed tags self.tagShort).map fun m => { self with tagShort := m }

def parser.CfgSetTagPreformatted (self : parser) (tags : List Str) : Option parser :=
  (setFlags self.tagAllowed tags self.tagPreformatted).map
    fun m => { self with tagPreformatted := m }

def parser.CfgSetTagNoTypography (self : parser) (tags : List Str) : Option parser :=
  (setFlags self.tagAllowed tags self.tagNoTypography).map
    fun m => { self with tagNoTypography := m }

def parser.CfgSetTagIsEmpty (self : parser) (tags : List Str) : Option parser :=
  (setFlags self.tagAllowed tags self.tagEmpty).map fun m => { self with tagEmpty := m }

def parser.CfgSetTagNoAutoBr (self : parser) (tags : List Str) : Option parser :=
  (setFlags self.tagAllowed tags self.tagNoAutoBr).map fun m => { self with tagNoAutoBr := m }

def parser.CfgSetTagCutWithContent (self : parser) (tags : List Str) : parser :=
  { self with
    tagCutWithContent := tags.foldl (fun m tag => mapSet m tag true) self.tagCutWithContent }

def parser.CfgSetTagBlockType (self : parser) (tags : List Str) : Option parser :=
  (setFlags self.tagAllowed tags self.tagBlockType).map fun m => { self with tagBlockType := m }

def parser.CfgAllowTagParams (self : parser) (tag : Str) (params : List Str) : Option parser :=
  if ¬ mapHas self.tagAllowed tag then none
  else
    some { self with
      tagParamAllowed := mapSet self.tagParamAllowed tag
        (params.foldl (fun m param => mapSet m param [runes "#str"]) [])
      tagParamSorted := mapSet self.tagParamSorted tag params }

def parser.CfgSetTagParamsRequired (self : parser) (tag : Str) (params : List Str) :
    Option parser :=
  if ¬ mapHas self.tagAllowed tag then none
  else
    some { self with
      tagParamRequired := mapSet self.tagParamRequired tag
        (params.foldl (fun m param => mapSet m param true) []) }

/-- The argument `value interface{}` of `CfgAllowTagParamValue`. -/
inductive paramValue where
  | str (v : Str)
  | strs (v : List Str)
  | other

def parser.CfgAllowTagParamValue (self : parser) (tag param : Str) (value : paramValue) :
    Option parser :=
  if ¬ mapHas self.tagAllowed tag then none
  else if (mapGet2 self.tagParamAllowed tag param).isNone then none
  else
    match value with
    | paramValue.other => none
    | paramValue.str v =>
      some { self with
        tagParamAllowed := mapSet self.tagParamAllowed tag
          (mapSet ((mapGet self.tagParamAllowed tag).getD []) param [v]) }
    | paramValue.strs v =>
      some { self with
        tagParamAllowed := mapSet self.tagParamAllowed tag
          (mapSet ((mapGet self.tagParamAllowed tag).getD []) param v) }

/-- Loop of `CfgSetTagChilds` over the children. -/
def setChilds (allowed : GoMap Str Bool) (tag : Str) :
    List Str → GoMap Str (GoMap Str Bool) → GoMap Str (GoMap Str Bool) →
    Option (GoMap Str (GoMap Str Bool) × GoMap Str (GoMap Str Bool))
  | [], tagChild, tagParent => some (tagChild, tagParent)
  | child :: rest, tagChild, tagParent =>
    if ¬ mapHas allowed child then none
    else
      setChilds allowed tag rest
        (mapSet tagChild tag (mapSet ((mapGet tagChild tag).getD []) child true))
        (mapSet tagParent child (mapSet ((mapGet tagParent child).getD []) tag true))

def parser.CfgSetTagChilds (self : parser) (tag : Str) (childs : List Str) : Option parser :=
  if ¬ mapHas self.tagAllowed tag then none
  else
    (setChilds self.tagAllowed tag childs (mapSet self.tagChild tag []) self.tagParent).map
      fun r => { self with tagChild := r.1, tagParent := r.2 }

def parser.CfgSetTagParentOnly (self : parser) (tags : List Str) : Option parser :=
  (setFlags self.tagAllowed tags self.tagParentOnly).map
    fun m => { self with tagParentOnly := m }

def parser.CfgSetTagChildOnly (self : parser) (tags : List Str) : Option parser :=
  (setFlags self.tagAllowed tags self.tagChildOnly).map fun m => { self with tagChildOnly := m }

def parser.CfgSetTagGlobal (self : parser) (tags : List Str) : Option parser :=
  (setFlags self.tagAllowed tags self.tagGlobalOnly).map
    fun m => { self with tagGlobalOnly := m }

def parser.CfgSetTagParamDefault (self : parser) (tag param value : Str) : Option parser :=
  if ¬ mapHas self.tagAllowed tag then none
  else
    some { self with
      tagParamDefault := mapSet self.tagParamDefault tag
        (mapSet ((mapGet self.tagParamDefault tag).getD []) param value) }

def parser.CfgSetTagParamReview (self : parser) (tag param value : Str) : Option parser :=
  if ¬ mapHas self.tagAllowed tag then none
  else
    some { self with
      tagParamReview := mapSet self.tagParamReview tag
        (mapSet ((mapGet self.tagParamReview tag).getD []) param value) }

def parser.CfgSetTagBuildCallback (self : parser) (tag : Str)
    (callback : Str → GoMap Str Str → Str → Str) : Option parser :=
  if ¬ mapHas self.tagAllowed tag then none
  else some { self with tagBuildCallback := mapSet self.tagBuildCallback tag callback }

def parser.CfgSetSpecialCharCallback (self : parser) (char : Rune) (callback : Str → Str) :
    Option parser :=
  if getClassByOrd char &&& SPECIAL_CHAR = NULL then none
  else
    some { self with
      isSpecialCharMode := true
      specialChars := mapSet self.specialChars char callback }

def parser.CfgSetLinkProtocolAllow (self : parser) (protocols : List Str) : parser :=
  { self with linkProtocolAllow := protocols }

def parser.CfgSetXHTMLMode (self : parser) (isXHTMLMode : Bool) : parser :=
  { self with
    br := if isXHTMLMode then runes "<br/>" else runes "<br>"
    isXHTMLMode := isXHTMLMode }

def parser.CfgSetAutoBrMode (self : parser) (isAutoBrMode : Bool) : parser :=
  { self with isAutoBrMode := isAutoBrMode }

def parser.CfgSetAutoLinkMode (self : parser) (isAutoLinkMode : Bool) : parser :=
  { self with isAutoLinkMode := isAutoLinkMode }

def parser.CfgSetEOL (self : parser) (nl : Str) : parser :=
  if nl = [10] ∨ nl = [13, 10] then { self with nl := nl } else self

/-! ## The configuration of the test file -/

/-- The callback `TagCodeBuild` of the test file. -/
def TagCodeBuild (_tag : Str) (_params : GoMap Str Str) (content : Str) : Str :=
  runes "<pre><code>" ++ content ++ runes "<code><pre>\n"

/-- The pattern of the special character callbacks of the test file. -/
def tagPattern : Str := runes "^(?i)[\\d\\p{L}\\_\\-]{1,32}$"

/-- The callback `TagSharpBuild` of the test file. -/
def TagSharpBuild (L : Lib) (str : Str) : Str :=
  if ¬ L.matchString tagPattern str then []
  else runes "<a href=\"/tags/" ++ L.queryEscape str ++ runes "/\">#" ++ str ++ runes "</a>"

/-- The callback `TagAtBuild` of the test file. -/
def TagAtBuild (L : Lib) (str : Str) : Str :=
  if ¬ L.matchString tagPattern str then []
  else runes "<a href=\"/user/" ++ L.queryEscape str ++ runes "/\">@" ++ str ++ runes "</a>"

/-- Runs configuration calls in order; `none` as soon as one panics. -/
def runConfig : List (parser → Option parser) → parser → Option parser
  | [], q => some q
  | f :: rest, q =>
    match f q with
    | none => none
    | some q1 => runConfig rest q1

/-- The configuration calls of `TestConfig`, in the order of the test file. -/
def TestConfig (L : Lib) : Option parser :=
  runConfig
    [fun q => some (q.CfgAllowTags [runes "b", runes "i", runes "u", runes "a", runes "img",
       runes "ul", runes "ol", runes "li", runes "br", runes "code", runes "pre", runes "div",
       runes "cut"]),
     fun q => q.CfgSetTagShort [runes "br", runes "img", runes "cut"],
     fun q => q.CfgSetTagPreformatted [runes "code"],
     fun q => q.CfgSetTagIsEmpty [runes "div"],
     fun q => q.CfgSetTagNoAutoBr [runes "ul", runes "ol"],
     fun q => some (q.CfgSetTagCutWithContent [runes "script", runes "object", runes "iframe",
       runes "style"]),
     fun q => q.CfgSetTagBlockType [runes "ol", runes "ul", runes "code"],
     fun q => q.CfgAllowTagParams (runes "a") [runes "href", runes "title", runes "target",
       runes "rel"],
     fun q => q.CfgAllowTagParams (runes "img") [runes "src", runes "alt", runes "title",
       runes "align", runes "width", runes "height"],
     fun q => q.CfgSetTagParamsRequired (runes "a") [runes "href"],
     fun q => q.CfgSetTagParamsRequired (runes "img") [runes "src"],
     fun q => q.CfgAllowTagParamValue (runes "a") (runes "href") (paramValue.str (runes "#link")),
     fun q => q.CfgAllowTagParamValue (runes "a") (runes "target")
       (paramValue.str (runes "_blank")),
     fun q => q.CfgAllowTagParamValue (runes "img") (runes "align")
       (paramValue.strs [runes "right", runes "left", runes "center"]),
     fun q => q.CfgAllowTagParamValue (runes "img") (runes "width")
       (paramValue.str (runes "#int")),
     fun q => q.CfgAllowTagParamValue (runes "img") (runes "height")
       (paramValue.str (runes "#int")),
     fun q => q.CfgSetTagParamDefault (runes "a") (runes "rel") (runes "nofollow"),
     fun q => q.CfgSetTagParamDefault (runes "img") (runes "alt") [],
     fun q => q.CfgSetTagParamReview (runes "a") (runes "rel") (runes "nofollow"),
     fun q => q.CfgSetTagChilds (runes "ul") [runes "li"],
     fun q => q.CfgSetTagChilds (runes "ol") [runes "li"],
     fun q => q.CfgSetTagParentOnly [runes "ul", runes "ol"],
     fun q => q.CfgSetTagChildOnly [runes "li"],
     fun q => q.CfgSetTagGlobal [runes "cut"],
     fun q => q.CfgSetTagNoTypography [runes "code", runes "pre"],
     fun q => some (q.CfgSetLinkProtocolAllow [runes "http", runes "https"]),
     fun q => some (q.CfgSetXHTMLMode false),
     fun q => some (q.CfgSetAutoBrMode true),
     fun q => some (q.CfgSetAutoLinkMode true),
     fun q => q.CfgSetTagBuildCallback (runes "code") TagCodeBuild,
     fun q => q.CfgSetSpecialCharCallback 35 (TagSharpBuild L),
     fun q => q.CfgSetSpecialCharCallback 64 (TagAtBuild L)]
    New

/-! ## A library instance for evaluation

`goLib` follows the Go library on the Basic Latin block (and on numeric character
references); it is used only to evaluate the parser on given inputs. -/

def asciiLower (c : Rune) : Rune := if 65 ≤ c ∧ c ≤ 90 then c + 32 else c

/-- Value of a run of decimal digits. -/
def digitsValue (ds : Str) : Nat := ds.foldl (fun n d => 10 * n + (d - 48)) 0

/-- The table of `html` that replaces the numeric references 0x80 to 0x9F. -/
def replacementTable : List Rune :=
  [0x20AC, 0x81, 0x201A, 0x192, 0x201E, 0x2026, 0x2020, 0x2021, 0x2C6, 0x2030, 0x160, 0x2039,
   0x152, 0x8D, 0x17D, 0x8F, 0x90, 0x2018, 0x2019, 0x201C, 0x201D, 0x2022, 0x2013, 0x2014,
   0x2DC, 0x2122, 0x161, 0x203A, 0x153, 0x9D, 0x17E, 0x178]

/-- The rune of the numeric reference `n`. -/
def numericRef (n : Nat) : Rune :=
  if 0x80 ≤ n ∧ n ≤ 0x9F then replacementTable.getD (n - 0x80) 0xFFFD
  else if n = 0 ∨ (0xD800 ≤ n ∧ n ≤ 0xDFFF) ∨ n > 0x10FFFF then 0xFFFD
  else n

/-- Unescapes one reference `&#digits;` or `&name;` (five names only). -/
def unescapeOne (s : Str) : Str :=
  if (runes "&#").isPrefixOf s ∧ s.getLast? = some 59 ∧ ((s.drop 2).dropLast).all
      (fun c => 48 ≤ c && c ≤ 57) ∧ s.length > 3 then
    [numericRef (digitsValue ((s.drop 2).dropLast))]
  else if s = runes "&amp;" then [38]
  else if s = runes "&lt;" then [60]
  else if s = runes "&gt;" then [62]
  else if s = runes "&quot;" then [34]
  else if s = runes "&nbsp;" then [160]
  else s

/-- The bytes of the UTF-8 encoding of a rune. -/
def utf8 (c : Rune) : List Nat :=
  if c < 0x80 then [c]
  else if c < 0x800 then [0xC0 + c / 64, 0x80 + c % 64]
  else if c < 0x10000 then [0xE0 + c / 4096, 0x80 + c / 64 % 64, 0x80 + c % 64]
  else [0xF0 + c / 262144, 0x80 + c / 4096 % 64, 0x80 + c / 64 % 64, 0x80 + c % 64]

def hexDigit (n : Nat) : Rune := if n < 10 then 48 + n else 55 + n

/-- The function `url.QueryEscape`. -/
def queryEscape (s : Str) : Str :=
  s.flatMap fun c =>
    if isAlnum c ∨ c = 45 ∨ c = 95 ∨ c = 46 ∨ c = 126 then [c]
    else if c = 32 then [43]
    else (utf8 c).flatMap fun b => [37, hexDigit (b / 16), hexDigit (b % 16)]

/-- The pattern `tagPattern`, with the letters of Basic Latin, Latin-1 and Cyrillic. -/
def matchTagPattern (s : Str) : Bool :=
  1 ≤ s.length && s.length ≤ 32 && s.all fun c =>
    isAlnum c || c == 95 || c == 45 || (0xC0 ≤ c && c ≤ 0xFF && c != 0xD7 && c != 0xF7) ||
    (0x400 ≤ c && c ≤ 0x481) || (0x48A ≤ c && c ≤ 0x52F)

/-- The library used to evaluate the examples; `range` visits the attributes in the
order in which the tag gives them. -/
def goLib : Lib where
  toLower := fun s => s.map asciiLower
  unescapeString := unescapeOne
  matchString := fun pattern s => if pattern = tagPattern then matchTagPattern s else false
  queryEscape := queryEscape
  rangeOrder := fun _ _ m => m

/-- The same library with another choice of the runtime: `range` visits the attributes
in the reverse order. -/
def revLib : Lib :=
  { goLib with rangeOrder := fun _ _ m => m.reverse }

/-- The parser of the test file after `TestConfig`. -/
def qvx : parser := (TestConfig goLib).getD New

/-! ## Observations of a parse -/

/-- The output string and the error list of `Parse`. -/
def parseOut (L : Lib) (self : parser) (text : Str) : Option (Str × List Str) :=
  (Parse L self text).map fun r => r.1

/-- A parser with the tag `a` and its parameters `href` and `title`, no callback. -/
def anchorOnly : parser :=
  ((New.CfgAllowTags [runes "a"]).CfgAllowTagParams (runes "a")
    [runes "href", runes "title"]).getD New

/-- A parser with no allowed tag, no callback and auto-br off. -/
def textOnly : parser := New.CfgSetAutoBrMode false

/-! ## States reached by the scanner

Every state that the scanner reaches from a parser `p` is `p` with its head moved to some
position, its snapshot stack, and, once text is built, other values of the quote counter
and of the error list.  The definitions below name these states. -/

/-- The parser `p` with its head at position `k`: what `movePos` leaves. -/
def parser.atPos (p : parser) (k : Int) : parser := (p.movePos k).2

/-- The head of the parser as a snapshot, as `saveState` records it. -/
def parser.head (p : parser) : state :=
  { prevPos := p.prevPos
    prevChar := p.prevChar
    prevCharClass := p.prevCharClass
    curPos := p.curPos
    curChar := p.curChar
    curCharClass := p.curCharClass
    nextPos := p.nextPos
    nextChar := p.nextChar
    nextCharClass := p.nextCharClass }

/-- The parser with one more snapshot on its stack. -/
def parser.push (p : parser) (s : state) : parser :=
  { p with statesStack := s :: p.statesStack }

/-- The parser with another quote counter, error list and snapshot stack. -/
def parser.upd (p : parser) (q : Int) (e : List Str) (σ : List state) : parser :=
  { p with quotesOpened := q, errorsList := e, statesStack := σ }

/-- Number of runes of the buffer from position `k` on. -/
def remaining (p : parser) (k : Int) : Nat := (p.textLen - k).toNat

/-- The head reaches position `k1` from position `k`: it does not move back, and it
moves only when `k` is inside the buffer. -/
def Reach (p : parser) (k k1 : Int) : Prop := k ≤ k1 ∧ (k < k1 → k < p.textLen)

/-- The quote table holds a rune at the levels 0 and 1 and the indices 0 and 1, as the
table of `New` does; no configuration call changes the table. -/
def parser.quotesOk (p : parser) : Prop :=
  ∀ level index : Int, 0 ≤ level → level < 2 → 0 ≤ index → index < 2 →
    ∃ q, p.quoteAt level index = some q

/-- The library never unescapes a reference to the empty string. -/
def Lib.unescapeOk (L : Lib) : Prop := ∀ s : Str, s ≠ [] → L.unescapeString s ≠ []

/-- The order of `range` is an order of the entries of the map: each entry is visited
once. -/
def Lib.rangeOk (L : Lib) : Prop :=
  ∀ (pos : Int) (depth : Nat) (m : GoMap Str Str), (L.rangeOrder pos depth m).Perm m

/-- The parser on which `matchTag` builds the content of the tag `name`. -/
def parser.inTag (p : parser) (name : Str) : parser :=
  (if mapHas p.tagNoTypography name = true then p.setTypoMode false else p).setCurTag name

/-- What `matchTag` asks of the builder of nested content: from every position with
fewer than `bound` runes left it returns, the head does not move back, and only the quote
counter and the error list change. -/
def NestedOk (mc : parser → Str → Option (Str × parser)) (bound : Nat) : Prop :=
  ∀ (p : parser) (q : Int) (e : List Str) (σ : List state) (k : Int) (tag : Str), σ ≠ [] →
    (0 ≤ q ∧ q ≤ 2) → p.quotesOk → remaining p k < bound →
    ∃ out q1 e1 k1, mc ((p.upd q e σ).atPos k) tag = some (out, (p.upd q1 e1 σ).atPos k1) ∧
      Reach p k k1 ∧ (0 ≤ q1 ∧ q1 ≤ 2)

/-- Every line feed of the string stands right after a carriage return. -/
def crlfOnly (s : Str) : Prop :=
  ∀ pre post : Str, s = pre ++ 10 :: post → ∃ pre1 : Str, pre = pre1 ++ [13]

/-! ## The policy of `makeTag`, named -/

/-- The attribute map of `makeTag` once the defaults and the review values are merged
into the validated parameters. -/
def parser.finalParams (L : Lib) (self : parser) (tagName : Str) (tagParams : GoMap Str Str) :
    GoMap Str Str :=
  addReview ((mapGet self.tagParamReview tagName).getD [])
    (addDefaults ((mapGet self.tagParamDefault tagName).getD [])
      (makeTagParams L tagName (self.ranged L tagParams) [] self).1)

/-- The tag passes the tests of `makeTag` on its name and on its parent: it is not cut
with its content, it is allowed, and neither the global-only test, nor the parent-only
test, nor the child-only test stops it. -/
def parser.admits (self : parser) (tagName parentTag : Str) : Prop :=
  mapHas self.tagCutWithContent tagName = false ∧
  mapHas self.tagAllowed tagName = true ∧
  ¬ (mapHas self.tagGlobalOnly tagName = true ∧ parentTag ≠ []) ∧
  ¬ (mapHas self.tagParentOnly parentTag = true ∧
      (mapGet2 self.tagChild parentTag tagName).isNone = true) ∧
  ¬ (mapHas self.tagChildOnly tagName = true ∧
      (mapGet2 self.tagParent tagName parentTag).isNone = true)

/-- One attribute as the default builder writes it. -/
def attrText (param value : Str) : Str :=
  runes " " ++ param ++ runes "=\"" ++ value ++ runes "\""

/-! ## Small configurations for the tests of `makeTag` -/

/-- A parser whose tag `a` requires `href` and has a default and a review value for it. -/
def requiredWithDefault : parser :=
  (runConfig
    [fun q => some (q.CfgAllowTags [runes "a"]),
     fun q => q.CfgAllowTagParams (runes "a") [runes "href"],
     fun q => q.CfgSetTagParamsRequired (runes "a") [runes "href"],
     fun q => q.CfgSetTagParamDefault (runes "a") (runes "href") (runes "/x"),
     fun q => q.CfgSetTagParamReview (runes "a") (runes "href") (runes "/x")] New).getD New

/-- A parser whose tag `a` has the parameter `href` alone, and a default and a review
value for parameters that are not registered. -/
def hiddenDefault : parser :=
  (runConfig
    [fun q => some (q.CfgAllowTags [runes "a"]),
     fun q => q.CfgAllowTagParams (runes "a") [runes "href"],
     fun q => q.CfgSetTagParamDefault (runes "a") (runes "rel") (runes "nofollow"),
     fun q => q.CfgSetTagParamReview (runes "a") (runes "target") (runes "_blank")]
    New).getD New

/-- A parser with the list `ul` of `li`, parent-only, and a global-only tag `x`. -/
def listGlobal : parser :=
  (runConfig
    [fun q => some (q.CfgAllowTags [runes "ul", runes "li", runes "x"]),
     fun q => q.CfgSetTagChilds (runes "ul") [runes "li"],
     fun q => q.CfgSetTagParentOnly [runes "ul"],
     fun q => q.CfgSetTagGlobal [runes "x"]] New).getD New

/-- A parser with the lists `ul` of `li` and `dl` of `dt`, both parent-only, with
child-only items. -/
def twoLists : parser :=
  (runConfig
    [fun q => some (q.CfgAllowTags [runes "ul", runes "li", runes "dl", runes "dt"]),
     fun q => q.CfgSetTagChilds (runes "ul") [runes "li"],
     fun q => q.CfgSetTagChilds (runes "dl") [runes "dt"],
     fun q => q.CfgSetTagParentOnly [runes "ul", runes "dl"],
     fun q => q.CfgSetTagChildOnly [runes "li", runes "dt"]] New).getD New

/-- A parser with the tags `b` and `u` and nothing else. -/
def boldUnder : parser := New.CfgAllowTags [runes "b", runes "u"]

/-! ## A mismatched close tag, step by step -/

/-- The parser on the text `<u>y</b>z`, head on the first rune, one snapshot saved. -/
def mismatchStart : parser := (((boldUnder.start (runes "<u>y</b>z")).movePos 0).2).saveState

/-- The builder of nested content with the fuel of the example. -/
def mismatchNested : parser → Str → Option (Str × parser) :=
  makeContentWith 20 (makeContentLoop goLib 20)

/-- The parser after the open tag `<u>` of the example. -/
def mismatchOpen : parser :=
  ((matchTagOpen goLib 20 mismatchStart).getD (false, [], [], false, mismatchStart)).2.2.2.2

/-- The parser after the content of `u` in the example. -/
def mismatchContent : parser :=
  ((mismatchNested (mismatchOpen.inTag (runes "u")) (runes "u")).getD ([], mismatchStart)).2

/-- The parser after the close tag `</b>` of the example. -/
def mismatchClosed : parser :=
  ((matchTagClose goLib 20 mismatchContent).getD (false, [], mismatchStart)).2.2

/-! ## The image of a preformatted text -/

/-- The runes of the buffer from position `k` up to position `k1`, the latter excluded. -/
def window (buf : Str) (k k1 : Int) : Str := (buf.drop k.toNat).take (k1 - k).toNat

/-- The image of a text under the entities table: every rune of the table replaced by
its entity, every other rune copied. -/
def parser.escapeStr (self : parser) (s : Str) : Str := s.flatMap self.escapeRune

/-- At position `j` the loop of `makePreformatted` finds the close tag of `openTag`:
`matchTagClose`, called on the saved state with some fuel, returns true with that name. -/
def closesAt (L : Lib) (p : parser) (j : Int) (openTag : Str) : Prop :=
  openTag ≠ [] ∧
  ∃ (fuel : Nat) (s : parser),
    matchTagClose L fuel ((p.atPos j).saveState) = some (true, openTag, s)

/-- The parser of the test configuration on the text `a<b></code>z`, head on the first
rune, one snapshot saved. -/
def preStart : parser := (((qvx.start (runes "a<b></code>z")).movePos 0).2).saveState

/-! ## A tag whose close tag is missing, step by step -/

/-- The parser on the text `<u>y`, head on the first rune, one snapshot saved. -/
def unclosedStart : parser := (((boldUnder.start (runes "<u>y")).movePos 0).2).saveState

/-- The parser after the open tag `<u>` of the example. -/
def unclosedOpen : parser :=
  ((matchTagOpen goLib 20 unclosedStart).getD (false, [], [], false, unclosedStart)).2.2.2.2

/-- The parser after the content of `u` in the example: the end of the text. -/
def unclosedContent : parser :=
  ((mismatchNested (unclosedOpen.inTag (runes "u")) (runes "u")).getD ([], unclosedStart)).2

/-- The parser after the test for a close tag at the end of the text. -/
def unclosedClosed : parser :=
  ((matchTagClose goLib 20 unclosedContent).getD (false, [], unclosedStart)).2.2

/-! ## The conditions of the typographic matchers, in words -/

/-- The previous rune is a space, a newline or a bracket, or there is none. -/
def parser.prevBoundary (self : parser) : Prop :=
  self.prevCharClass &&& (SPACE ||| NL ||| TEXT_BRACKET) ≠ NULL ∨ self.prevCharClass = NULL

/-- The next rune is a space, a newline or a bracket, or there is none. -/
def parser.nextBoundary (self : parser) : Prop :=
  self.nextCharClass &&& (SPACE ||| NL ||| TEXT_BRACKET) ≠ NULL ∨ self.nextCharClass = NULL

/-- The next rune is a space, a newline, a bracket or a punctuation mark, or there is
none. -/
def parser.nextBoundaryOrPunct (self : parser) : Prop :=
  self.nextCharClass &&& (SPACE ||| NL ||| TEXT_BRACKET ||| PUNCTUATUON) ≠ NULL ∨
    self.nextCharClass = NULL

/-- The quote under the head is taken as a closing one. -/
def parser.quoteCloses (self : parser) : Prop :=
  self.quotesOpened ≥ 2 ∨
    (self.quotesOpened > 0 ∧ (¬ self.prevBoundary ∨ self.nextBoundaryOrPunct))

instance parser.decPrevBoundary (self : parser) : Decidable self.prevBoundary := by
  unfold parser.prevBoundary
  infer_instance

instance parser.decNextBoundary (self : parser) : Decidable self.nextBoundary := by
  unfold parser.nextBoundary
  infer_instance

instance parser.decNextBoundaryOrPunct (self : parser) :
    Decidable self.nextBoundaryOrPunct := by
  unfold parser.nextBoundaryOrPunct
  infer_instance

instance parser.decQuoteCloses (self : parser) : Decidable self.quoteCloses := by
  unfold parser.quoteCloses
  infer_instance

/-- The parser of the test configuration on the text `</b>z`, head on the first rune. -/
def strayStart : parser := ((qvx.start (runes "</b>z")).upd 0 [] []).atPos 0

/-- The parser after the close tag `</b>` of the example. -/
def strayClosed : parser :=
  ((matchTagClose goLib 30 strayStart.saveState).getD (false, [], strayStart)).2.2

/-! ## Runs of newlines, in words -/

/-- The runes of the buffer from position `k` on. -/
def rest (buf : Str) (k : Int) : Str := buf.drop k.toNat

/-- The rune is a space or a tab: its class has the bit SPACE. -/
def isSpaceRune (c : Rune) : Bool := decide (getClassByOrd c &&& SPACE ≠ NULL)

/-- The rune is a newline: its class has the bit NL. -/
def isNLRune (c : Rune) : Bool := decide (getClassByOrd c &&& NL ≠ NULL)

/-- The run of newlines at the start of a text, each newline with the spaces and tabs
that follow it: the number of newlines of the run and the text after the run.  The first
argument bounds the number of newlines; the length of the text is enough. -/
def newlineRun : Nat → Str → Nat × Str
  | 0, s => (0, s)
  | _ + 1, [] => (0, [])
  | n + 1, c :: s =>
    if isNLRune c then
      ((newlineRun n (s.dropWhile isSpaceRune)).1 + 1, (newlineRun n (s.dropWhile isSpaceRune)).2)
    else (0, c :: s)

/-- A parser with the tag `p`, in which no break tags are written. -/
def plainParagraph : parser :=
  (runConfig
    [fun q => some (q.CfgAllowTags [runes "p"]),
     fun q => q.CfgSetTagNoAutoBr [runes "p"]] New).getD New

/-- The text at position `k` starts as a link does for the parser: with `www.`, which
gives the start `http://` to the link, or with an allowed protocol and `://`, which
gives nothing. -/
def linkStart (p : parser) (k : Int) (pre : Str) : Prop :=
  (pre = [] ∧ ∃ proto, proto ∈ [runes "http", runes "https", runes "ftp"] ∧
      proto ∈ p.linkProtocolAllow ∧ (proto ++ runes "://") <+: rest p.textBuf k) ∨
  (pre = runes "http://" ∧ runes "www." <+: rest p.textBuf k)

/-- The test parser over a text, with one snapshot on its stack. -/
def linkText (text : Str) : parser := (qvx.start text).push ((qvx.start text).atPos 0).head

/-! ## Children and parents, as `makeTag` reads them -/

/-- The test `_, ok := tagChild[p][c]`: the tag `c` is registered as a child of `p`. -/
def parser.hasChild (self : parser) (p c : Str) : Bool := (mapGet2 self.tagChild p c).isSome

/-- The test `_, ok := tagParent[c][p]`: the tag `p` is registered as a parent of `c`. -/
def parser.hasParent (self : parser) (c p : Str) : Bool := (mapGet2 self.tagParent c p).isSome

/-- A configuration that sets the children of `ul` twice: first `li`, then `b`. -/
def childsTwice : Option parser :=
  runConfig
    [fun q => some (q.CfgAllowTags [runes "ul", runes "li", runes "b"]),
     fun q => q.CfgSetTagChilds (runes "ul") [runes "li"],
     fun q => q.CfgSetTagChilds (runes "ul") [runes "b"],
     fun q => q.CfgSetTagChildOnly [runes "li"]] New

/-- The same configuration without the first call of `CfgSetTagChilds`. -/
def childsOnce : Option parser :=
  runConfig
    [fun q => some (q.CfgAllowTags [runes "ul", runes "li", runes "b"]),
     fun q => q.CfgSetTagChilds (runes "ul") [runes "b"],
     fun q => q.CfgSetTagChildOnly [runes "li"]] New

/-- The parser after a matcher has saved the snapshot `s` and dropped it with
`removeState`: the snapshot stays on a stack that was empty before. -/
def parser.dropped (p : parser) (s : state) : parser :=
  if p.statesStack = [] then p.push s else p

/-! # Theorems -/

/-! ## The states of the scanner: algebra -/

theorem moveNextPos_atPos (p : parser) (k : Int) :
    ((p.atPos k).moveNextPos).2 = p.atPos (k + 1) := rfl

theorem atPos_atPos (p : parser) (k j : Int) : (p.atPos k).atPos j = p.atPos j := rfl

theorem atPos_curPos (p : parser) (k : Int) : (p.atPos k).curPos = k := rfl

theorem atPos_stack (p : parser) (k : Int) : (p.atPos k).statesStack = p.statesStack := rfl

theorem atPos_textLen (p : parser) (k : Int) : (p.atPos k).textLen = p.textLen := rfl

theorem saveState_atPos (p : parser) (k : Int) :
    (p.atPos k).saveState = (p.push (p.atPos k).head).atPos k := rfl

theorem restoreState_push (p : parser) (j k : Int) :
    ((p.push (p.atPos j).head).atPos k).restoreState = p.atPos j := rfl

theorem removeState_push (p : parser) (s : state) (k : Int) (h : p.statesStack ≠ []) :
    ((p.push s).atPos k).removeState = p.atPos k := by
  unfold parser.removeState
  have : ((p.push s).atPos k).statesStack.length > 1 := by
    show (s :: p.statesStack).length > 1
    cases hσ : p.statesStack with
    | nil => exact absurd hσ h
    | cons a l => simp
  rw [if_pos this]
  rfl

theorem push_stack_ne (p : parser) (s : state) : (p.push s).statesStack ≠ [] := by
  show s :: p.statesStack ≠ []
  simp

theorem push_textLen (p : parser) (s : state) : (p.push s).textLen = p.textLen := rfl

theorem remaining_push (p : parser) (s : state) (k : Int) :
    remaining (p.push s) k = remaining p k := rfl

/-- A class other than NULL is read only inside the buffer. -/
theorem class_inrange (p : parser) (k : Int) (h : (p.atPos k).curCharClass ≠ NULL) :
    0 ≤ k ∧ k < p.textLen := by
  by_contra hc
  apply h
  show (if decide (k < p.textLen ∧ k ≥ 0) = true then _ else NULL) = NULL
  rw [if_neg]
  simp only [decide_eq_true_eq]
  intro h1
  exact hc ⟨h1.2, h1.1⟩

theorem land_ne_zero {a b : Nat} (h : a &&& b ≠ NULL) : a ≠ NULL := by
  intro h0
  apply h
  rw [h0]
  exact Nat.zero_and b

theorem remaining_step (p : parser) (k : Int) (n : Nat) (h : remaining p k < n + 1)
    (hr : 0 ≤ k ∧ k < p.textLen) : remaining p (k + 1) < n := by
  unfold remaining at *
  omega

theorem remaining_mono (p : parser) (k j : Int) (h : k ≤ j) : remaining p j ≤ remaining p k := by
  unfold remaining
  omega

theorem Reach.refl (p : parser) (k : Int) : Reach p k k := ⟨le_refl k, fun h => absurd h (lt_irrefl k)⟩

theorem Reach.trans {p : parser} {k k1 k2 : Int} (h1 : Reach p k k1) (h2 : Reach p k1 k2) :
    Reach p k k2 := by
  unfold Reach at *
  omega

theorem Reach.step {p : parser} {k : Int} (h : 0 ≤ k ∧ k < p.textLen) : Reach p k (k + 1) := by
  unfold Reach
  omega

theorem Reach.fuel {p : parser} {k k1 : Int} {n : Nat} (h : Reach p k k1)
    (hf : remaining p k < n) : remaining p k1 < n := by
  unfold Reach remaining at *
  omega

theorem Reach.fuel_lt {p : parser} {k k1 : Int} {n : Nat} (h : Reach p k k1) (hlt : k < k1)
    (hf : remaining p k < n + 1) : remaining p k1 < n := by
  unfold Reach remaining at *
  omega

/-- A rune other than 0 is read only inside the buffer. -/
theorem char_inrange (p : parser) (k : Int) (h : (p.atPos k).curChar ≠ 0) :
    0 ≤ k ∧ k < p.textLen := by
  by_contra hc
  apply h
  show (if decide (k < p.textLen ∧ k ≥ 0) = true then _ else 0) = 0
  rw [if_neg]
  simp only [decide_eq_true_eq]
  intro h1
  exact hc ⟨h1.2, h1.1⟩

/-- The next rune is other than 0 only when the next position is inside the buffer. -/
theorem next_inrange (p : parser) (k : Int) (h : (p.atPos k).nextChar ≠ 0) :
    0 ≤ k + 1 ∧ k + 1 < p.textLen := by
  by_contra hc
  apply h
  show (if decide (k + 1 < p.textLen ∧ k + 1 ≥ 0) = true then _ else 0) = 0
  rw [if_neg]
  simp only [decide_eq_true_eq]
  intro h1
  exact hc ⟨h1.2, h1.1⟩

/-! ## Low level matchers: they end, and where -/

theorem skipSpacesLoop_ok : ∀ (fuel : Nat) (p : parser) (k : Int) (c : Int),
    remaining p k < fuel →
    ∃ c1 k1, skipSpacesLoop fuel (p.atPos k) c = some (c1, p.atPos k1) ∧ Reach p k k1 ∧
      ((p.atPos k).curCharClass &&& SPACE ≠ NULL → k < k1) := by
  intro fuel
  induction fuel with
  | zero => intro p k c h; omega
  | succ n ih =>
    intro p k c h
    unfold skipSpacesLoop
    by_cases hc : (p.atPos k).curCharClass &&& SPACE ≠ NULL
    · rw [if_pos hc, moveNextPos_atPos]
      have hr := class_inrange p k (land_ne_zero hc)
      obtain ⟨c1, k1, h1, h2, _⟩ := ih p (k + 1) (c + 1) (remaining_step p k n h hr)
      exact ⟨c1, k1, h1, (Reach.step hr).trans h2, fun _ => by have := h2.1; omega⟩
    · rw [if_neg hc]
      exact ⟨c, k, rfl, Reach.refl p k, fun h => absurd h hc⟩

theorem skipSpaces_ok (fuel : Nat) (p : parser) (k : Int) (h : remaining p k < fuel) :
    ∃ c1 k1, skipSpaces fuel (p.atPos k) = some (c1, p.atPos k1) ∧ Reach p k k1 ∧
      ((p.atPos k).curCharClass &&& SPACE ≠ NULL → k < k1) :=
  skipSpacesLoop_ok fuel p k 0 h

theorem skipNLLoop_ok : ∀ (fuel : Nat) (p : parser) (k : Int) (limit c : Int),
    remaining p k < fuel →
    ∃ c1 k1, skipNLLoop fuel (p.atPos k) limit c = some (c1, p.atPos k1) ∧ Reach p k k1 ∧
      ((p.atPos k).curCharClass &&& NL ≠ NULL → ¬ (limit ≥ 0 ∧ c = limit) → k < k1) := by
  intro fuel
  induction fuel with
  | zero => intro p k limit c h; omega
  | succ n ih =>
    intro p k limit c h
    unfold skipNLLoop
    by_cases hc : (p.atPos k).curCharClass &&& NL ≠ NULL
    · rw [if_pos hc]
      by_cases hl : limit ≥ 0 ∧ c = limit
      · rw [if_pos hl]
        exact ⟨c, k, rfl, Reach.refl p k, fun _ h2 => absurd hl h2⟩
      · rw [if_neg hl, moveNextPos_atPos]
        have hr := class_inrange p k (land_ne_zero hc)
        have hf := remaining_step p k n h hr
        obtain ⟨c2, k2, e2, r2, _⟩ := skipSpaces_ok n p (k + 1) hf
        obtain ⟨c1, k1, e1, r1, _⟩ := ih p k2 limit (c + 1) (r2.fuel hf)
        simp only [e2]
        exact ⟨c1, k1, e1, (Reach.step hr).trans (r2.trans r1),
          fun _ _ => by have := r2.1; have := r1.1; omega⟩
    · rw [if_neg hc]
      exact ⟨c, k, rfl, Reach.refl p k, fun h => absurd h hc⟩

theorem skipNL_ok (fuel : Nat) (p : parser) (k : Int) (limit : Int) (h : remaining p k < fuel) :
    ∃ c1 k1, skipNL fuel (p.atPos k) limit = some (c1, p.atPos k1) ∧ Reach p k k1 ∧
      ((p.atPos k).curCharClass &&& NL ≠ NULL → ¬ (limit ≥ 0 ∧ (0 : Int) = limit) → k < k1) :=
  skipNLLoop_ok fuel p k limit 0 h

theorem skipClassLoop_ok : ∀ (fuel : Nat) (p : parser) (k : Int) (cls : Nat) (c : Int),
    remaining p k < fuel →
    ∃ c1 k1, skipClassLoop fuel (p.atPos k) cls c = some (c1, p.atPos k1) ∧ Reach p k k1 := by
  intro fuel
  induction fuel with
  | zero => intro p k cls c h; omega
  | succ n ih =>
    intro p k cls c h
    unfold skipClassLoop
    by_cases hc : (p.atPos k).curCharClass &&& cls ≠ NULL
    · rw [if_pos hc, moveNextPos_atPos]
      have hr := class_inrange p k (land_ne_zero hc)
      obtain ⟨c1, k1, h1, h2⟩ := ih p (k + 1) cls (c + 1) (remaining_step p k n h hr)
      exact ⟨c1, k1, h1, (Reach.step hr).trans h2⟩
    · rw [if_neg hc]
      exact ⟨c, k, rfl, Reach.refl p k⟩

theorem skipClass_ok (fuel : Nat) (p : parser) (k : Int) (cls : Nat)
    (h : remaining p k < fuel) :
    ∃ c1 k1, skipClass fuel (p.atPos k) cls = some (c1, p.atPos k1) ∧ Reach p k k1 :=
  skipClassLoop_ok fuel p k cls 0 h

theorem grabCharClassLoop_ok : ∀ (fuel : Nat) (p : parser) (k : Int) (cls : Nat) (buff : Str),
    remaining p k < fuel →
    ∃ out k1, grabCharClassLoop fuel (p.atPos k) cls buff = some (out, p.atPos k1) ∧
      Reach p k k1 ∧ (k1 = k → out = buff) := by
  intro fuel
  induction fuel with
  | zero => intro p k cls buff h; omega
  | succ n ih =>
    intro p k cls buff h
    unfold grabCharClassLoop
    by_cases hc : (p.atPos k).curCharClass &&& cls ≠ NULL
    · rw [if_pos hc, moveNextPos_atPos]
      have hr := class_inrange p k (land_ne_zero hc)
      obtain ⟨out, k1, h1, h2, _⟩ := ih p (k + 1) cls _ (remaining_step p k n h hr)
      exact ⟨out, k1, h1, (Reach.step hr).trans h2, fun e => by have := h2.1; omega⟩
    · rw [if_neg hc]
      exact ⟨buff, k, rfl, Reach.refl p k, fun _ => rfl⟩

theorem grabCharClass_ok (fuel : Nat) (p : parser) (k : Int) (cls : Nat)
    (h : remaining p k < fuel) :
    ∃ out k1, grabCharClass fuel (p.atPos k) cls = some (out, p.atPos k1) ∧
      Reach p k k1 ∧ (k1 = k → out = []) :=
  grabCharClassLoop_ok fuel p k cls [] h

theorem grabNotCharClassLoop_ok : ∀ (fuel : Nat) (p : parser) (k : Int) (cls : Nat)
    (buff : Str), remaining p k < fuel →
    ∃ out k1, grabNotCharClassLoop fuel (p.atPos k) cls buff = some (out, p.atPos k1) ∧
      Reach p k k1 := by
  intro fuel
  induction fuel with
  | zero => intro p k cls buff h; omega
  | succ n ih =>
    intro p k cls buff h
    unfold grabNotCharClassLoop
    by_cases hc : (p.atPos k).curCharClass ≠ NULL ∧ (p.atPos k).curCharClass &&& cls = NULL
    · rw [if_pos hc, moveNextPos_atPos]
      have hr := class_inrange p k hc.1
      obtain ⟨out, k1, h1, h2⟩ := ih p (k + 1) cls _ (remaining_step p k n h hr)
      exact ⟨out, k1, h1, (Reach.step hr).trans h2⟩
    · rw [if_neg hc]
      exact ⟨buff, k, rfl, Reach.refl p k⟩

theorem skipTextToChar_ok : ∀ (fuel : Nat) (p : parser) (k : Int) (ch : Rune),
    remaining p k < fuel →
    ∃ r k1, skipTextToChar fuel (p.atPos k) ch = some (r, p.atPos k1) ∧ Reach p k k1 := by
  intro fuel
  induction fuel with
  | zero => intro p k ch h; omega
  | succ n ih =>
    intro p k ch h
    unfold skipTextToChar
    by_cases hc : (p.atPos k).curChar ≠ ch ∧ (p.atPos k).curCharClass ≠ NULL
    · rw [if_pos hc, moveNextPos_atPos]
      have hr := class_inrange p k hc.2
      obtain ⟨r, k1, h1, h2⟩ := ih p (k + 1) ch (remaining_step p k n h hr)
      exact ⟨r, k1, h1, (Reach.step hr).trans h2⟩
    · rw [if_neg hc]
      exact ⟨_, k, rfl, Reach.refl p k⟩

theorem matchStrLoop_ok : ∀ (n : Nat) (p : parser) (k : Int),
    ∃ k1, (matchStrLoop n (p.atPos k)).2 = p.atPos k1 := by
  intro n
  induction n with
  | zero => intro p k; exact ⟨k, rfl⟩
  | succ n ih =>
    intro p k
    unfold matchStrLoop
    by_cases hc : (p.atPos k).curCharClass ≠ NULL
    · rw [if_pos hc, moveNextPos_atPos]
      obtain ⟨k1, h1⟩ := ih p (k + 1)
      exact ⟨k1, h1⟩
    · rw [if_neg hc]
      exact ⟨k, rfl⟩

/-- The test `matchStr` leaves the parser as it found it. -/
theorem matchStr_state (p : parser) (k : Int) (str : Str) :
    ((p.atPos k).matchStr str).2 = p.atPos k := by
  unfold parser.matchStr
  simp only [saveState_atPos]
  obtain ⟨k1, h1⟩ := matchStrLoop_ok str.length (p.push (p.atPos k).head) k
  rw [h1, restoreState_push]

theorem skipStrLoop_ok : ∀ (rs : List Rune) (p : parser) (k : Int),
    ∃ r k1, skipStrLoop rs (p.atPos k) = (r, p.atPos k1) ∧ Reach p k k1 := by
  intro rs
  induction rs with
  | nil => intro p k; exact ⟨true, k, rfl, Reach.refl p k⟩
  | cons ord rest ih =>
    intro p k
    unfold skipStrLoop
    by_cases hc : (p.atPos k).curChar ≠ ord ∨ (p.atPos k).curCharClass = NULL
    · rw [if_pos hc]
      exact ⟨false, k, rfl, Reach.refl p k⟩
    · rw [if_neg hc, moveNextPos_atPos]
      have hr := class_inrange p k (fun h => hc (Or.inr h))
      obtain ⟨r, k1, h1, h2⟩ := ih p (k + 1)
      exact ⟨r, k1, h1, (Reach.step hr).trans h2⟩

theorem skipStr_ok (p : parser) (k : Int) (str : Str) (hs : p.statesStack ≠ []) :
    ∃ r k1, (p.atPos k).skipStr str = (r, p.atPos k1) ∧ Reach p k k1 := by
  unfold parser.skipStr
  simp only [saveState_atPos]
  obtain ⟨r, k1, h1, h2⟩ := skipStrLoop_ok str (p.push (p.atPos k).head) k
  rw [h1]
  cases r with
  | true => exact ⟨true, k1, by simp [removeState_push p _ k1 hs], h2⟩
  | false => exact ⟨false, k, by simp [restoreState_push], Reach.refl p k⟩

theorem skipTextToStrInner_ok : ∀ (rs : List Rune) (p : parser) (k : Int),
    ∃ r k1, skipTextToStrInner rs (p.atPos k) = (r, p.atPos k1) ∧ Reach p k k1 ∧
      (r = scan.eof → (p.atPos k1).curCharClass = NULL) := by
  intro rs
  induction rs with
  | nil => intro p k; exact ⟨scan.same, k, rfl, Reach.refl p k, fun h => by cases h⟩
  | cons ord rest ih =>
    intro p k
    unfold skipTextToStrInner
    by_cases hc : (p.atPos k).curCharClass = NULL
    · rw [if_pos hc]
      exact ⟨scan.eof, k, rfl, Reach.refl p k, fun _ => hc⟩
    · rw [if_neg hc]
      by_cases hd : (p.atPos k).curChar ≠ ord
      · rw [if_pos hd]
        exact ⟨scan.differ, k, rfl, Reach.refl p k, fun h => by cases h⟩
      · rw [if_neg hd, moveNextPos_atPos]
        have hr := class_inrange p k hc
        obtain ⟨r, k1, h1, h2, h3⟩ := ih p (k + 1)
        exact ⟨r, k1, h1, (Reach.step hr).trans h2, h3⟩

theorem skipTextToStr_ok : ∀ (fuel : Nat) (p : parser) (k : Int) (r0 : Rune) (rest : Str),
    p.statesStack ≠ [] → remaining p k < fuel →
    ∃ r k1, skipTextToStr fuel (p.atPos k) (r0 :: rest) = some (r, p.atPos k1) ∧
      Reach p k k1 ∧ (r = false → (p.atPos k1).curCharClass = NULL) ∧
      (r = true → (p.atPos k1).curChar = r0) := by
  intro fuel
  induction fuel with
  | zero => intro p k r0 rest _ h; omega
  | succ n ih =>
    intro p k r0 rest hs h
    unfold skipTextToStr
    by_cases hc : (p.atPos k).curCharClass ≠ NULL
    · rw [if_pos hc]
      have hr := class_inrange p k hc
      have hf := remaining_step p k n h hr
      by_cases h0 : (p.atPos k).curChar = r0
      · simp only [h0, if_true, saveState_atPos]
        obtain ⟨r, k1, h1, h2, h3⟩ := skipTextToStrInner_ok (r0 :: rest)
          (p.push (p.atPos k).head) k
        rw [h1]
        cases r with
        | eof =>
          refine ⟨false, k1, by simp [removeState_push p _ k1 hs], h2, (fun _ => h3 rfl),
            (fun h => by cases h)⟩
        | same =>
          refine ⟨true, k, by simp [restoreState_push], Reach.refl p k, (fun h => by cases h),
            fun _ => h0⟩
        | differ =>
          simp only [restoreState_push, moveNextPos_atPos]
          obtain ⟨r, k2, e2, r2, a2, b2⟩ := ih p (k + 1) r0 rest hs hf
          exact ⟨r, k2, e2, (Reach.step hr).trans r2, a2, b2⟩
      · simp only [h0, if_false, moveNextPos_atPos]
        obtain ⟨r, k2, e2, r2, a2, b2⟩ := ih p (k + 1) r0 rest hs hf
        exact ⟨r, k2, e2, (Reach.step hr).trans r2, a2, b2⟩
    · rw [if_neg hc]
      exact ⟨false, k, rfl, Reach.refl p k, fun _ => not_not.mp hc, fun h => by cases h⟩

theorem Reach.of_lt {p : parser} {k k1 : Int} (hr : 0 ≤ k ∧ k < p.textLen) (h : k ≤ k1) :
    Reach p k k1 := ⟨h, fun _ => hr.2⟩

/-! ## Tag recognition: it ends, and where -/

theorem quotedValueLoop_ok : ∀ (fuel : Nat) (p : parser) (k : Int) (quote : Rune) (esc : Bool)
    (buff : Str), remaining p k < fuel →
    ∃ out k1, quotedValueLoop fuel (p.atPos k) quote esc buff = some (out, p.atPos k1) ∧
      Reach p k k1 := by
  intro fuel
  induction fuel with
  | zero => intro p k quote esc buff h; omega
  | succ n ih =>
    intro p k quote esc buff h
    unfold quotedValueLoop
    by_cases hc : (p.atPos k).curCharClass ≠ NULL ∧ ((p.atPos k).curChar ≠ quote ∨ esc = true)
    · rw [if_pos hc, moveNextPos_atPos]
      have hr := class_inrange p k hc.1
      obtain ⟨out, k1, h1, h2⟩ := ih p (k + 1) quote _ _ (remaining_step p k n h hr)
      exact ⟨out, k1, h1, (Reach.step hr).trans h2⟩
    · rw [if_neg hc]
      exact ⟨buff, k, rfl, Reach.refl p k⟩

theorem bareValueLoop_ok : ∀ (fuel : Nat) (p : parser) (k : Int) (buff : Str),
    remaining p k < fuel →
    ∃ out k1, bareValueLoop fuel (p.atPos k) buff = some (out, p.atPos k1) ∧ Reach p k k1 := by
  intro fuel
  induction fuel with
  | zero => intro p k buff h; omega
  | succ n ih =>
    intro p k buff h
    unfold bareValueLoop
    by_cases hc : (p.atPos k).curCharClass ≠ NULL ∧ (p.atPos k).curCharClass &&& SPACE = NULL ∧
        (p.atPos k).curChar ≠ 62
    · rw [if_pos hc, moveNextPos_atPos]
      have hr := class_inrange p k hc.1
      obtain ⟨out, k1, h1, h2⟩ := ih p (k + 1) _ (remaining_step p k n h hr)
      exact ⟨out, k1, h1, (Reach.step hr).trans h2⟩
    · rw [if_neg hc]
      exact ⟨buff, k, rfl, Reach.refl p k⟩

theorem matchTagParamValue_ok (fuel : Nat) (p : parser) (k : Int) (h : remaining p k < fuel) :
    ∃ r v k1, matchTagParamValue fuel (p.atPos k) = some (r, v, p.atPos k1) ∧ Reach p k k1 := by
  unfold matchTagParamValue
  by_cases hq : (p.atPos k).curCharClass &&& TAG_QUOTE ≠ NULL
  · rw [if_pos hq]
    simp only [moveNextPos_atPos]
    have hr := class_inrange p k (land_ne_zero hq)
    obtain ⟨v, k2, e2, r2⟩ := quotedValueLoop_ok fuel p (k + 1) (p.atPos k).curChar false []
      ((Reach.step hr).fuel h)
    simp only [e2]
    by_cases hc : (p.atPos k2).curChar ≠ (p.atPos k).curChar
    · rw [if_pos hc]
      exact ⟨false, v, k2, rfl, (Reach.step hr).trans r2⟩
    · rw [if_neg hc, moveNextPos_atPos]
      exact ⟨true, v, k2 + 1, rfl, Reach.of_lt hr (by have := r2.1; omega)⟩
  · rw [if_neg hq]
    obtain ⟨v, k2, e2, r2⟩ := bareValueLoop_ok fuel p k [] h
    simp only [e2]
    exact ⟨true, v, k2, rfl, r2⟩

theorem matchTagParam_ok (fuel : Nat) (p : parser) (k : Int) (hs : p.statesStack ≠ [])
    (h : remaining p k < fuel) :
    ∃ r name v k1, matchTagParam fuel (p.atPos k) = some (r, name, v, p.atPos k1) ∧
      Reach p k k1 ∧ (r = true → k < k1 ∧ name ≠ []) := by
  unfold matchTagParam
  simp only [saveState_atPos]
  generalize hB : p.push (p.atPos k).head = B
  have hBs : ∀ j, (B.atPos j).removeState = p.atPos j := by
    intro j; rw [← hB]; exact removeState_push p _ j hs
  have hBr : ∀ j, (B.atPos j).restoreState = p.atPos k := by
    intro j; rw [← hB]; exact restoreState_push p k j
  have hBf : ∀ j, remaining B j = remaining p j := by intro j; rw [← hB]; rfl
  have hBR : ∀ i j, Reach B i j → Reach p i j := by intro i j hh; rw [← hB] at hh; exact hh
  obtain ⟨c2, k2, e2, r2, _⟩ := skipSpaces_ok fuel B k (by rw [hBf]; exact h)
  have r2 := hBR _ _ r2
  simp only [e2]
  obtain ⟨name, k3, e3, r3, n3⟩ := grabCharClass_ok fuel B k2 TAG_PARAM_NAME
    (by rw [hBf]; exact r2.fuel h)
  have r3 := hBR _ _ r3
  simp only [e3]
  by_cases hn : name = []
  · simp only [hn, if_true, hBs]
    exact ⟨false, [], [], k3, rfl, r2.trans r3, fun hh => by cases hh⟩
  · simp only [hn, if_false]
    have hlt : k2 < k3 := by
      have := r3.1
      rcases lt_or_eq_of_le this with hh | hh
      · exact hh
      · exact absurd (n3 hh.symm) hn
    have hin : k < p.textLen := by
      have := r2.1; have := r2.2; have := r3.2 hlt; omega
    have r13 := r2.trans r3
    obtain ⟨c4, k4, e4, r4, _⟩ := skipSpaces_ok fuel B k3 (by rw [hBf]; exact r13.fuel h)
    have r4 := hBR _ _ r4
    simp only [e4]
    by_cases h61 : (B.atPos k4).curChar ≠ 61
    · rw [if_pos h61]
      by_cases hend : (B.atPos k4).curChar = 62 ∨ (B.atPos k4).curChar = 47 ∨
          (B.atPos k4).curCharClass &&& SPACE ≠ NULL
      · rw [if_pos hend, hBs]
        exact ⟨true, name, name, k4, rfl, r13.trans r4,
          fun _ => ⟨by have := r2.1; have := r4.1; omega, hn⟩⟩
      · rw [if_neg hend, hBr]
        exact ⟨false, name, [], k, rfl, Reach.refl p k, fun hh => by cases hh⟩
    · rw [if_neg h61]
      simp only [moveNextPos_atPos]
      have hr4 : 0 ≤ k4 ∧ k4 < p.textLen := by
        have := char_inrange B k4 (by rw [not_not.mp h61]; decide)
        rw [← hB] at this
        exact this
      have r14 := r13.trans r4
      have r15 := r14.trans (Reach.step hr4)
      obtain ⟨c5, k5, e5, r5, _⟩ := skipSpaces_ok fuel B (k4 + 1) (by rw [hBf]; exact r15.fuel h)
      have r5 := hBR _ _ r5
      simp only [e5]
      obtain ⟨rv, v, k6, e6, r6⟩ := matchTagParamValue_ok fuel B k5
        (by rw [hBf]; exact (r15.trans r5).fuel h)
      have r6 := hBR _ _ r6
      simp only [e6]
      cases rv with
      | false =>
        simp only [hBr]
        exact ⟨false, name, v, k, rfl, Reach.refl p k, fun hh => by cases hh⟩
      | true =>
        simp only []
        obtain ⟨c7, k7, e7, r7, _⟩ := skipSpaces_ok fuel B k6
          (by rw [hBf]; exact ((r15.trans r5).trans r6).fuel h)
        have r7 := hBR _ _ r7
        simp only [e7, hBs]
        exact ⟨true, name, v, k7, rfl, ((r15.trans r5).trans r6).trans r7,
          fun _ => ⟨by have := r2.1; have := r4.1; have := r5.1; have := r6.1; have := r7.1; omega,
            hn⟩⟩

theorem matchTagParams_ok : ∀ (fuel : Nat) (p : parser) (k : Int) (params : GoMap Str Str),
    p.statesStack ≠ [] → remaining p k + 1 < fuel →
    ∃ r out k1, matchTagParams fuel (p.atPos k) params = some (r, out, p.atPos k1) ∧
      Reach p k k1 := by
  intro fuel
  induction fuel with
  | zero => intro p k params _ h; omega
  | succ n ih =>
    intro p k params hs h
    unfold matchTagParams
    obtain ⟨r, name, v, k1, e1, r1, s1⟩ := matchTagParam_ok n p k hs (by omega)
    simp only [e1]
    cases r with
    | false => exact ⟨_, params, k1, rfl, r1⟩
    | true =>
      obtain ⟨hlt, hne⟩ := s1 rfl
      cases name with
      | nil => exact absurd rfl hne
      | cons c rest =>
        simp only []
        have hf : remaining p k1 + 1 < n := by
          have := r1.fuel_lt hlt (n := n) (by omega)
          have := r1.2 hlt
          unfold remaining at *
          omega
        obtain ⟨r2, out, k2, e2, r2'⟩ := ih p k1 _ hs hf
        exact ⟨r2, out, k2, e2, r1.trans r2'⟩

theorem matchTagOpen_ok (L : Lib) (fuel : Nat) (p : parser) (k : Int) (hs : p.statesStack ≠ [])
    (h : remaining p k < fuel) :
    ∃ r name params short k1,
      matchTagOpen L fuel (p.atPos k) = some (r, name, params, short, p.atPos k1) ∧
      Reach p k k1 ∧ (r = true → k < k1) ∧ (r = false → k1 = k) := by
  unfold matchTagOpen
  by_cases h60 : (p.atPos k).curChar ≠ 60
  · rw [if_pos h60]
    exact ⟨false, [], [], false, k, rfl, Reach.refl p k, (fun hh => by cases hh), fun _ => rfl⟩
  · rw [if_neg h60]
    have hr : 0 ≤ k ∧ k < p.textLen := char_inrange p k (by rw [not_not.mp h60]; decide)
    simp only [saveState_atPos]
    generalize hB : p.push (p.atPos k).head = B
    have hBs : ∀ j, (B.atPos j).removeState = p.atPos j := by
      intro j; rw [← hB]; exact removeState_push p _ j hs
    have hBr : ∀ j, (B.atPos j).restoreState = p.atPos k := by
      intro j; rw [← hB]; exact restoreState_push p k j
    have hBf : ∀ j, remaining B j = remaining p j := by intro j; rw [← hB]; rfl
    have hBR : ∀ i j, Reach B i j → Reach p i j := by intro i j hh; rw [← hB] at hh; exact hh
    have hBs2 : B.statesStack ≠ [] := by rw [← hB]; exact push_stack_ne p _
    have fin : ∀ j, k ≤ j → remaining B j < fuel := by
      intro j hj; rw [hBf]; exact (Reach.of_lt hr hj).fuel h
    obtain ⟨c2, k2, e2, r2, _⟩ := skipSpaces_ok fuel B k (fin k (le_refl k))
    have l2 := r2.1
    simp only [e2]
    obtain ⟨k3, e3, l3⟩ : ∃ k3, (if c2 = 0 then ((B.atPos k2).moveNextPos).2 else B.atPos k2) =
        B.atPos k3 ∧ k2 ≤ k3 := by
      by_cases hc : c2 = 0
      · exact ⟨k2 + 1, by simp [hc, moveNextPos_atPos], by omega⟩
      · exact ⟨k2, by simp [hc], le_refl k2⟩
    simp only [e3]
    obtain ⟨name0, k4, e4, r4, n4⟩ := grabCharClass_ok fuel B k3 TAG_NAME (fin k3 (by omega))
    have l4 := r4.1
    simp only [e4]
    obtain ⟨c5, k5, e5, r5, _⟩ := skipSpaces_ok fuel B k4 (fin k4 (by omega))
    have l5 := r5.1
    simp only [e5]
    by_cases hn : name0 = []
    · simp only [hn, if_true, hBr]
      exact ⟨false, _, _, _, k, rfl, Reach.refl p k, (fun hh => by cases hh), fun _ => rfl⟩
    · simp only [hn, if_false]
      obtain ⟨rp, params, k6, e6, l6⟩ : ∃ rp params k6,
          (if (B.atPos k5).curChar ≠ 62 ∧ (B.atPos k5).curChar ≠ 47 then
            matchTagParams fuel (B.atPos k5) [] else some (false, [], B.atPos k5)) =
          some (rp, params, B.atPos k6) ∧ k5 ≤ k6 := by
        by_cases hc : (B.atPos k5).curChar ≠ 62 ∧ (B.atPos k5).curChar ≠ 47
        · rw [if_pos hc]
          have hlt : k < k5 := by
            have : k2 < k4 ∨ k < k3 := by
              by_cases hc2 : c2 = 0
              · right
                have : B.atPos k3 = B.atPos (k2 + 1) := by
                  rw [← e3]; simp [hc2, moveNextPos_atPos]
                have := congrArg parser.curPos this
                simp only [atPos_curPos] at this
                omega
              · left
                have : B.atPos k3 = B.atPos k2 := by
                  rw [← e3]; simp [hc2]
                have h32 := congrArg parser.curPos this
                simp only [atPos_curPos] at h32
                rcases lt_or_eq_of_le l4 with hh | hh
                · omega
                · exact absurd (n4 hh.symm) hn
            omega
          have hf : remaining B k5 + 1 < fuel := by
            rw [hBf]
            unfold remaining at *
            omega
          obtain ⟨rp, params, k6, e6, r6⟩ := matchTagParams_ok fuel B k5 [] hBs2 hf
          exact ⟨rp, params, k6, e6, r6.1⟩
        · rw [if_neg hc]
          exact ⟨false, [], k5, rfl, le_refl k5⟩
      simp only [e6]
      by_cases hsl : ¬ (mapHas (B.atPos k6).tagShort (L.toLower name0) = true) ∧
          (B.atPos k6).curChar = 47
      · rw [if_pos hsl, hBr]
        exact ⟨false, _, _, _, k, rfl, Reach.refl p k, (fun hh => by cases hh), fun _ => rfl⟩
      · rw [if_neg hsl]
        obtain ⟨k7, e7, l7⟩ : ∃ k7,
            (if mapHas (B.atPos k6).tagShort (L.toLower name0) = true ∧ (B.atPos k6).curChar = 47
              then ((B.atPos k6).moveNextPos).2 else B.atPos k6) = B.atPos k7 ∧ k6 ≤ k7 := by
          by_cases hc : mapHas (B.atPos k6).tagShort (L.toLower name0) = true ∧
              (B.atPos k6).curChar = 47
          · exact ⟨k6 + 1, by rw [if_pos hc, moveNextPos_atPos], by omega⟩
          · exact ⟨k6, by rw [if_neg hc], le_refl k6⟩
        simp only [e7]
        obtain ⟨c8, k8, e8, r8, _⟩ := skipSpaces_ok fuel B k7 (fin k7 (by omega))
        have l8 := r8.1
        simp only [e8]
        by_cases h62 : (B.atPos k8).curChar ≠ 62
        · rw [if_pos h62, hBr]
          exact ⟨false, _, _, _, k, rfl, Reach.refl p k, (fun hh => by cases hh), fun _ => rfl⟩
        · rw [if_neg h62, hBs, moveNextPos_atPos]
          exact ⟨true, _, _, _, k8 + 1, rfl, Reach.of_lt hr (by omega), fun _ => by omega,
            fun hh => by cases hh⟩

theorem matchTagClose_ok (L : Lib) (fuel : Nat) (p : parser) (k : Int) (hs : p.statesStack ≠ [])
    (h : remaining p k < fuel) :
    ∃ r name k1, matchTagClose L fuel (p.atPos k) = some (r, name, p.atPos k1) ∧
      Reach p k k1 ∧ (r = true → k < k1) ∧ (r = false → k1 = k) := by
  unfold matchTagClose
  by_cases h60 : (p.atPos k).curChar ≠ 60
  · rw [if_pos h60]
    exact ⟨false, [], k, rfl, Reach.refl p k, (fun hh => by cases hh), fun _ => rfl⟩
  · rw [if_neg h60]
    have hr : 0 ≤ k ∧ k < p.textLen := char_inrange p k (by rw [not_not.mp h60]; decide)
    simp only [saveState_atPos]
    generalize hB : p.push (p.atPos k).head = B
    have hBs : ∀ j, (B.atPos j).removeState = p.atPos j := by
      intro j; rw [← hB]; exact removeState_push p _ j hs
    have hBr : ∀ j, (B.atPos j).restoreState = p.atPos k := by
      intro j; rw [← hB]; exact restoreState_push p k j
    have hBf : ∀ j, remaining B j = remaining p j := by intro j; rw [← hB]; rfl
    have fin : ∀ j, k ≤ j → remaining B j < fuel := by
      intro j hj; rw [hBf]; exact (Reach.of_lt hr hj).fuel h
    obtain ⟨c2, k2, e2, r2, _⟩ := skipSpaces_ok fuel B k (fin k (le_refl k))
    have l2 := r2.1
    simp only [e2]
    obtain ⟨k3, e3, l3⟩ : ∃ k3, (if c2 = 0 then ((B.atPos k2).moveNextPos).2 else B.atPos k2) =
        B.atPos k3 ∧ k2 ≤ k3 := by
      by_cases hc : c2 = 0
      · exact ⟨k2 + 1, by simp [hc, moveNextPos_atPos], by omega⟩
      · exact ⟨k2, by simp [hc], le_refl k2⟩
    simp only [e3]
    by_cases h47 : (B.atPos k3).curChar ≠ 47
    · rw [if_pos h47, hBr]
      exact ⟨false, [], k, rfl, Reach.refl p k, (fun hh => by cases hh), fun _ => rfl⟩
    · rw [if_neg h47]
      obtain ⟨c4, k4, e4, r4, _⟩ := skipSpaces_ok fuel B k3 (fin k3 (by omega))
      have l4 := r4.1
      simp only [e4]
      obtain ⟨k5, e5, l5⟩ : ∃ k5,
          (if c4 = 0 then ((B.atPos k4).moveNextPos).2 else B.atPos k4) = B.atPos k5 ∧
          k4 ≤ k5 := by
        by_cases hc : c4 = 0
        · exact ⟨k4 + 1, by simp [hc, moveNextPos_atPos], by omega⟩
        · exact ⟨k4, by simp [hc], le_refl k4⟩
      simp only [e5]
      obtain ⟨name0, k6, e6, r6, _⟩ := grabCharClass_ok fuel B k5 TAG_NAME (fin k5 (by omega))
      have l6 := r6.1
      simp only [e6]
      obtain ⟨c7, k7, e7, r7, _⟩ := skipSpaces_ok fuel B k6 (fin k6 (by omega))
      have l7 := r7.1
      simp only [e7]
      by_cases hbad : name0 = [] ∨ (B.atPos k7).curChar ≠ 62
      · rw [if_pos hbad, hBr]
        exact ⟨false, _, k, rfl, Reach.refl p k, (fun hh => by cases hh), fun _ => rfl⟩
      · rw [if_neg hbad, hBs, moveNextPos_atPos]
        exact ⟨true, _, k7 + 1, rfl, Reach.of_lt hr (by omega), (fun _ => by omega),
          fun hh => by cases hh⟩

theorem makePreformattedLoop_ok (L : Lib) : ∀ (fuel : Nat) (p : parser) (k : Int)
    (openTag content : Str), p.statesStack ≠ [] → remaining p k + 1 < fuel →
    ∃ out k1, makePreformattedLoop L fuel (p.atPos k) openTag content = some (out, p.atPos k1) ∧
      Reach p k k1 := by
  intro fuel
  induction fuel with
  | zero => intro p k openTag content _ h; omega
  | succ n ih =>
    intro p k openTag content hs h
    unfold makePreformattedLoop
    by_cases hc : (p.atPos k).curCharClass ≠ NULL
    · rw [if_pos hc]
      have hr := class_inrange p k hc
      have hf : remaining p (k + 1) + 1 < n := by
        unfold remaining at *
        omega
      have hstep : ((p.atPos k).preformattedStep content).2 = p.atPos (k + 1) := rfl
      by_cases ht : (p.atPos k).curChar = 60 ∧ openTag ≠ []
      · rw [if_pos ht]
        simp only [saveState_atPos]
        obtain ⟨r, name, k2, e2, r2, _, f2⟩ := matchTagClose_ok L n
          (p.push (p.atPos k).head) k (push_stack_ne p _) (by
            show remaining p k < n
            omega)
        simp only [e2]
        have e3 : (if r = true then ((p.push (p.atPos k).head).atPos k2).restoreState
            else ((p.push (p.atPos k).head).atPos k2).removeState) = p.atPos k := by
          cases r with
          | true => simp [restoreState_push]
          | false =>
            have := f2 rfl
            simp [this, removeState_push p _ k hs]
        simp only [e3]
        by_cases hcl : r = true ∧ openTag = name
        · rw [if_pos hcl]
          exact ⟨content, k, rfl, Reach.refl p k⟩
        · rw [if_neg hcl, hstep]
          obtain ⟨out, k1, e1, r1⟩ := ih p (k + 1) openTag _ hs hf
          exact ⟨out, k1, e1, (Reach.step hr).trans r1⟩
      · rw [if_neg ht]
        simp only [hstep]
        obtain ⟨out, k1, e1, r1⟩ := ih p (k + 1) openTag _ hs hf
        exact ⟨out, k1, e1, (Reach.step hr).trans r1⟩
    · rw [if_neg hc]
      exact ⟨content, k, rfl, Reach.refl p k⟩

/-! ## Typography: it ends, and where -/

theorem matchDashLoop_ok : ∀ (fuel : Nat) (p : parser) (k : Int), remaining p k < fuel →
    ∃ k1, matchDashLoop fuel (p.atPos k) = some (p.atPos k1) ∧ Reach p k k1 := by
  intro fuel
  induction fuel with
  | zero => intro p k h; omega
  | succ n ih =>
    intro p k h
    unfold matchDashLoop
    by_cases hc : (p.atPos k).nextChar = 45
    · rw [if_pos hc, moveNextPos_atPos]
      have hn := next_inrange p k (by rw [hc]; decide)
      have hf : remaining p (k + 1) < n := by
        unfold remaining at *
        omega
      obtain ⟨k1, e1, r1⟩ := ih p (k + 1) hf
      refine ⟨k1, e1, ?_⟩
      unfold Reach at *
      omega
    · rw [if_neg hc]
      exact ⟨k, rfl, Reach.refl p k⟩

theorem matchDash_ok (fuel : Nat) (p : parser) (k : Int) (hs : p.statesStack ≠ [])
    (h : remaining p k < fuel) :
    ∃ r dash k1, matchDash fuel (p.atPos k) = some (r, dash, p.atPos k1) ∧
      Reach p k k1 ∧ (r = true → k < k1) ∧ (r = false → k1 = k) := by
  unfold matchDash
  by_cases h45 : (p.atPos k).curChar ≠ 45
  · rw [if_pos h45]
    exact ⟨false, [], k, rfl, Reach.refl p k, (fun hh => by cases hh), fun _ => rfl⟩
  · rw [if_neg h45]
    have hr : 0 ≤ k ∧ k < p.textLen := char_inrange p k (by rw [not_not.mp h45]; decide)
    by_cases hp : (p.atPos k).prevCharClass &&& (SPACE ||| NL ||| TEXT_BRACKET) = NULL ∧
        (p.atPos k).prevCharClass ≠ NULL
    · rw [if_pos hp]
      exact ⟨false, [], k, rfl, Reach.refl p k, (fun hh => by cases hh), fun _ => rfl⟩
    · rw [if_neg hp]
      simp only [saveState_atPos]
      obtain ⟨k2, e2, r2⟩ := matchDashLoop_ok fuel (p.push (p.atPos k).head) k h
      simp only [e2]
      have l2 := r2.1
      by_cases hn : ((p.push (p.atPos k).head).atPos k2).nextCharClass &&&
          (SPACE ||| NL ||| TEXT_BRACKET) = NULL ∧
          ((p.push (p.atPos k).head).atPos k2).nextCharClass ≠ NULL
      · rw [if_pos hn, restoreState_push]
        exact ⟨false, [], k, rfl, Reach.refl p k, (fun hh => by cases hh), fun _ => rfl⟩
      · rw [if_neg hn, removeState_push p _ k2 hs, moveNextPos_atPos]
        exact ⟨true, _, k2 + 1, rfl, Reach.of_lt hr (by omega), (fun _ => by omega),
          fun hh => by cases hh⟩

theorem matchHTMLEntity_ok (L : Lib) (fuel : Nat) (p : parser) (k : Int)
    (hs : p.statesStack ≠ []) (h : remaining p k < fuel) :
    ∃ r entity k1, matchHTMLEntity L fuel (p.atPos k) = some (r, entity, p.atPos k1) ∧
      Reach p k k1 ∧ (r = true → k < k1 ∧ ∃ s, s ≠ [] ∧ entity = L.unescapeString s) ∧
      (r = false → k1 = k) := by
  unfold matchHTMLEntity
  by_cases h38 : (p.atPos k).curChar ≠ 38
  · rw [if_pos h38]
    exact ⟨false, [], k, rfl, Reach.refl p k, (fun hh => by cases hh), fun _ => rfl⟩
  · rw [if_neg h38]
    have hr : 0 ≤ k ∧ k < p.textLen := char_inrange p k (by rw [not_not.mp h38]; decide)
    simp only [saveState_atPos, moveNextPos_atPos]
    generalize hB : p.push (p.atPos k).head = B
    have hBs : ∀ j, (B.atPos j).removeState = p.atPos j := by
      intro j; rw [← hB]; exact removeState_push p _ j hs
    have hBr : ∀ j, (B.atPos j).restoreState = p.atPos k := by
      intro j; rw [← hB]; exact restoreState_push p k j
    have hBf : ∀ j, remaining B j = remaining p j := by intro j; rw [← hB]; rfl
    have fin : ∀ j, k ≤ j → remaining B j < fuel := by
      intro j hj; rw [hBf]; exact (Reach.of_lt hr hj).fuel h
    by_cases h35 : (B.atPos (k + 1)).curChar = 35
    · rw [if_pos h35]
      obtain ⟨code, k2, e2, r2, _⟩ := grabCharClass_ok fuel B (k + 1 + 1) NUMERIC
        (fin _ (by omega))
      have l2 := r2.1
      simp only [e2]
      by_cases hbad : code = [] ∨ (B.atPos k2).curChar ≠ 59
      · rw [if_pos hbad, hBr]
        exact ⟨false, [], k, rfl, Reach.refl p k, (fun hh => by cases hh), fun _ => rfl⟩
      · rw [if_neg hbad, hBs, moveNextPos_atPos]
        exact ⟨true, _, k2 + 1, rfl, Reach.of_lt hr (by omega),
          (fun _ => ⟨by omega, _, by simp [runes], rfl⟩), fun hh => by cases hh⟩
    · rw [if_neg h35]
      obtain ⟨nm, k2, e2, r2, _⟩ := grabCharClass_ok fuel B (k + 1) (ALPHA ||| NUMERIC)
        (fin _ (by omega))
      have l2 := r2.1
      simp only [e2]
      by_cases hbad : nm = [] ∨ (B.atPos k2).curChar ≠ 59
      · rw [if_pos hbad, hBr]
        exact ⟨false, [], k, rfl, Reach.refl p k, (fun hh => by cases hh), fun _ => rfl⟩
      · rw [if_neg hbad, hBs, moveNextPos_atPos]
        exact ⟨true, _, k2 + 1, rfl, Reach.of_lt hr (by omega),
          (fun _ => ⟨by omega, _, by simp [runes], rfl⟩), fun hh => by cases hh⟩

theorem upd_stack (p : parser) (q : Int) (e : List Str) (σ : List state) :
    (p.upd q e σ).statesStack = σ := rfl

theorem matchQuote_ok (p : parser) (q : Int) (e : List Str) (σ : List state) (k : Int)
    (hq : 0 ≤ q ∧ q ≤ 2) (hQ : p.quotesOk) :
    ∃ r out q1 k1, ((p.upd q e σ).atPos k).matchQuote = some (r, out, (p.upd q1 e σ).atPos k1) ∧
      Reach p k k1 ∧ (0 ≤ q1 ∧ q1 ≤ 2) ∧ (r = true → k < k1) ∧ (r = false → k1 = k ∧ q1 = q) := by
  unfold parser.matchQuote
  by_cases hc : ((p.upd q e σ).atPos k).curCharClass &&& TEXT_QUOTE = NULL
  · rw [if_pos hc]
    exact ⟨false, [], q, k, rfl, Reach.refl p k, hq, (fun hh => by cases hh), fun _ => ⟨rfl, rfl⟩⟩
  · rw [if_neg hc]
    have hr : 0 ≤ k ∧ k < p.textLen := class_inrange (p.upd q e σ) k (land_ne_zero hc)
    have hqo : ((p.upd q e σ).atPos k).quotesOpened = q := rfl
    simp only [hqo]
    generalize decide (((p.upd q e σ).atPos k).prevCharClass &&& (SPACE ||| NL ||| TEXT_BRACKET) =
      NULL ∧ ((p.upd q e σ).atPos k).prevCharClass ≠ NULL) = pin
    generalize decide (((p.upd q e σ).atPos k).nextCharClass &&&
      (SPACE ||| NL ||| TEXT_BRACKET ||| PUNCTUATUON) ≠ NULL ∨
      ((p.upd q e σ).atPos k).nextCharClass = NULL) = nout
    generalize hcl : (decide (q ≥ 2) || (decide (q > 0) && (pin || nout))) = cl
    by_cases h1 : ¬ cl = true ∧ pin = true
    · rw [if_pos h1]
      exact ⟨false, [], q, k, rfl, Reach.refl p k, hq, (fun hh => by cases hh),
        fun _ => ⟨rfl, rfl⟩⟩
    · rw [if_neg h1]
      by_cases h2 : cl = true ∧ ¬ nout = true
      · rw [if_pos h2]
        exact ⟨false, [], q, k, rfl, Reach.refl p k, hq, (fun hh => by cases hh),
          fun _ => ⟨rfl, rfl⟩⟩
      · rw [if_neg h2]
        cases cl with
        | false =>
          have hlt : q < 2 := by
            by_contra hge
            have : decide (q ≥ 2) = true := by simp; omega
            rw [this] at hcl
            simp at hcl
          simp only [Bool.false_eq_true, not_false_eq_true, if_true]
          have e1 : ({ (p.upd q e σ).atPos k with quotesOpened := q + 1 } : parser) =
              (p.upd (q + 1) e σ).atPos k := rfl
          rw [e1]
          have e3 : ∀ a b, ((p.upd (q + 1) e σ).atPos k).quoteAt a b = p.quoteAt a b :=
            fun _ _ => rfl
          rw [e3]
          obtain ⟨c, hc2⟩ := hQ (q + 1 - 1) 0 (by omega) (by omega) (by omega) (by omega)
          simp only [hc2, moveNextPos_atPos]
          exact ⟨true, [c], q + 1, k + 1, rfl, Reach.step hr, ⟨by omega, by omega⟩,
            (fun _ => by omega), fun hh => by cases hh⟩
        | true =>
          have hge : 1 ≤ q := by
            by_contra hlt
            have a : decide (q ≥ 2) = false := by simp; omega
            have b : decide (q > 0) = false := by simp; omega
            rw [a, b] at hcl
            simp at hcl
          simp only [not_true_eq_false, if_false]
          have e1 : ({ (p.upd q e σ).atPos k with quotesOpened := q - 1 } : parser) =
              (p.upd (q - 1) e σ).atPos k := rfl
          rw [e1]
          have e3 : ∀ a b, ((p.upd (q - 1) e σ).atPos k).quoteAt a b = p.quoteAt a b :=
            fun _ _ => rfl
          rw [e3]
          obtain ⟨c, hc2⟩ := hQ (q - 1) 1 (by omega) (by omega) (by omega) (by omega)
          simp only [hc2, moveNextPos_atPos]
          exact ⟨true, [c], q - 1, k + 1, rfl, Reach.step hr, ⟨by omega, by omega⟩,
            (fun _ => by omega), fun hh => by cases hh⟩

theorem matchURLLoop_ok (ob cb : Rune) : ∀ (fuel : Nat) (p : parser) (k : Int) (opened : Int)
    (buff : Str), p.statesStack ≠ [] → remaining p k + 1 < fuel →
    ∃ out k1, matchURLLoop ob cb fuel (p.atPos k) opened buff = some (out, p.atPos k1) ∧
      Reach p k k1 ∧ (k1 = k → out = buff) := by
  intro fuel
  induction fuel with
  | zero => intro p k opened buff _ h; omega
  | succ n ih =>
    intro p k opened buff hs h
    unfold matchURLLoop
    by_cases hc : (p.atPos k).curCharClass &&& PRINATABLE ≠ NULL
    · rw [if_pos hc]
      have hr := class_inrange p k (land_ne_zero hc)
      have hf : remaining p (k + 1) + 1 < n := by
        unfold remaining at *
        omega
      have next : ∀ o b, ∃ out k1, matchURLLoop ob cb n (p.atPos (k + 1)) o b =
          some (out, p.atPos k1) ∧ Reach p k k1 ∧ (k1 = k → out = buff) := by
        intro o b
        obtain ⟨out, k1, e1, r1, _⟩ := ih p (k + 1) o b hs hf
        exact ⟨out, k1, e1, (Reach.step hr).trans r1, fun hh => by have := r1.1; omega⟩
      by_cases h60 : (p.atPos k).curChar = 60
      · rw [if_pos h60]
        exact ⟨buff, k, rfl, Reach.refl p k, fun _ => rfl⟩
      · rw [if_neg h60]
        by_cases hq : (p.atPos k).curCharClass &&& TEXT_QUOTE ≠ NULL
        · rw [if_pos hq]
          exact ⟨buff, k, rfl, Reach.refl p k, fun _ => rfl⟩
        · rw [if_neg hq]
          by_cases hb : (p.atPos k).curCharClass &&& TEXT_BRACKET ≠ NULL ∧ opened > 0
          · rw [if_pos hb]
            by_cases hcb : (p.atPos k).curChar = cb ∧ opened = 1
            · rw [if_pos hcb]
              exact ⟨buff, k, rfl, Reach.refl p k, fun _ => rfl⟩
            · rw [if_neg hcb]
              simp only [moveNextPos_atPos]
              exact next _ _
          · rw [if_neg hb]
            by_cases hp : (p.atPos k).curCharClass &&& PUNCTUATUON ≠ NULL
            · rw [if_pos hp]
              simp only [saveState_atPos]
              obtain ⟨punct, k2, e2, r2, n2⟩ := grabCharClass_ok n
                (p.push (p.atPos k).head) k PUNCTUATUON (by
                  show remaining p k < n
                  omega)
              simp only [e2]
              by_cases hpr : ((p.push (p.atPos k).head).atPos k2).curCharClass &&& PRINATABLE =
                  NULL
              · rw [if_pos hpr, restoreState_push]
                exact ⟨buff, k, rfl, Reach.refl p k, fun _ => rfl⟩
              · rw [if_neg hpr]
                simp only [removeState_push p _ k2 hs]
                have r2p : Reach p k k2 := r2
                by_cases hqb : (p.atPos k2).curCharClass &&& (TEXT_QUOTE ||| TEXT_BRACKET) ≠ NULL
                · rw [if_pos hqb]
                  exact ⟨_, k2, rfl, r2p, fun hh => by rw [n2 hh]; simp⟩
                · rw [if_neg hqb, moveNextPos_atPos]
                  have hr2 := class_inrange p k2 (land_ne_zero hpr)
                  have hf2 : remaining p (k2 + 1) + 1 < n := by
                    have := r2p.1
                    unfold remaining at *
                    omega
                  obtain ⟨out, k1, e1, r1, _⟩ := ih p (k2 + 1) opened _ hs hf2
                  exact ⟨out, k1, e1, r2p.trans ((Reach.step hr2).trans r1),
                    fun hh => by have := r1.1; have := r2p.1; omega⟩
            · rw [if_neg hp, moveNextPos_atPos]
              exact next _ _
    · rw [if_neg hc]
      exact ⟨buff, k, rfl, Reach.refl p k, fun _ => rfl⟩

theorem matchURLScheme_state (p : parser) (k : Int) :
    ((p.atPos k).matchURLScheme).2 = p.atPos k := by
  unfold parser.matchURLScheme
  simp only [matchStr_state]
  split_ifs <;> rfl

theorem matchURL_ok (fuel : Nat) (p : parser) (k : Int) (hs : p.statesStack ≠ [])
    (h : remaining p k + 1 < fuel) :
    ∃ r url k1, matchURL fuel (p.atPos k) = some (r, url, p.atPos k1) ∧
      Reach p k k1 ∧ (r = true → k < k1) ∧ (r = false → k1 = k) := by
  unfold matchURL
  by_cases hp : (p.atPos k).prevCharClass &&& (SPACE ||| NL ||| TEXT_QUOTE ||| TEXT_BRACKET) =
      NULL ∧ (p.atPos k).prevCharClass ≠ NULL
  · rw [if_pos hp]
    exact ⟨false, [], k, rfl, Reach.refl p k, (fun hh => by cases hh), fun _ => rfl⟩
  · rw [if_neg hp]
    simp only [saveState_atPos]
    generalize hB : p.push (p.atPos k).head = B
    have hBs : ∀ j, (B.atPos j).removeState = p.atPos j := by
      intro j; rw [← hB]; exact removeState_push p _ j hs
    have hBr : ∀ j, (B.atPos j).restoreState = p.atPos k := by
      intro j; rw [← hB]; exact restoreState_push p k j
    have hBf : ∀ j, remaining B j = remaining p j := by intro j; rw [← hB]; rfl
    have hBR : ∀ i j, Reach B i j → Reach p i j := by intro i j hh; rw [← hB] at hh; exact hh
    have hBs2 : B.statesStack ≠ [] := by rw [← hB]; exact push_stack_ne p _
    have hsch : (B.atPos k).matchURLScheme = (((B.atPos k).matchURLScheme).1, B.atPos k) :=
      Prod.ext rfl (matchURLScheme_state B k)
    rw [hsch]
    cases ((B.atPos k).matchURLScheme).1 with
    | none =>
      simp only [hBr]
      exact ⟨false, [], k, rfl, Reach.refl p k, (fun hh => by cases hh), fun _ => rfl⟩
    | some url =>
      simp only []
      obtain ⟨buff, k2, e2, r2, n2⟩ := matchURLLoop_ok
        (if (B.atPos k).prevCharClass &&& TEXT_BRACKET ≠ NULL ∧
            mapHas (B.atPos k).bracketsALL (B.atPos k).prevChar = true
          then (B.atPos k).prevChar else 0)
        (if (if (B.atPos k).prevCharClass &&& TEXT_BRACKET ≠ NULL ∧
            mapHas (B.atPos k).bracketsALL (B.atPos k).prevChar = true
          then (B.atPos k).prevChar else 0) ≠ 0
          then (mapGet (B.atPos k).bracketsALL (B.atPos k).prevChar).getD 0 else 0)
        fuel B k
        (if (if (B.atPos k).prevCharClass &&& TEXT_BRACKET ≠ NULL ∧
            mapHas (B.atPos k).bracketsALL (B.atPos k).prevChar = true
          then (B.atPos k).prevChar else 0) ≠ 0 then 1 else 0) [] hBs2
        (by rw [hBf]; exact h)
      have r2 := hBR _ _ r2
      simp only [e2]
      by_cases hb : buff = []
      · simp only [hb, if_true, hBr]
        exact ⟨false, _, k, rfl, Reach.refl p k, (fun hh => by cases hh), fun _ => rfl⟩
      · simp only [hb, if_false, hBs]
        refine ⟨true, _, k2, rfl, r2, (fun _ => ?_), fun hh => by cases hh⟩
        rcases lt_or_eq_of_le r2.1 with hh | hh
        · exact hh
        · exact absurd (n2 hh.symm) hb

theorem matchSpecialCharLoop_ok : ∀ (fuel : Nat) (p : parser) (k : Int) (buff : Str),
    p.statesStack ≠ [] → remaining p k + 1 < fuel →
    ∃ out k1, matchSpecialCharLoop fuel (p.atPos k) buff = some (out, p.atPos k1) ∧
      Reach p k k1 := by
  intro fuel
  induction fuel with
  | zero => intro p k buff _ h; omega
  | succ n ih =>
    intro p k buff hs h
    unfold matchSpecialCharLoop
    by_cases hc : (p.atPos k).curCharClass ≠ NULL ∧
        (p.atPos k).curCharClass &&& (SPACE ||| NL ||| TEXT_BRACKET) = NULL
    · rw [if_pos hc]
      have hr := class_inrange p k hc.1
      have hf : remaining p (k + 1) + 1 < n := by
        unfold remaining at *
        omega
      by_cases hp : (p.atPos k).curCharClass &&& PUNCTUATUON ≠ NULL
      · rw [if_pos hp]
        simp only [saveState_atPos]
        obtain ⟨punct, k2, e2, r2, _⟩ := grabCharClass_ok n
          (p.push (p.atPos k).head) k PUNCTUATUON (by
            show remaining p k < n
            omega)
        simp only [e2]
        have r2p : Reach p k k2 := r2
        by_cases hb : ((p.push (p.atPos k).head).atPos k2).curCharClass &&&
            (SPACE ||| NL ||| TEXT_BRACKET) ≠ NULL ∨
            ((p.push (p.atPos k).head).atPos k2).curCharClass = NULL
        · rw [if_pos hb, restoreState_push]
          exact ⟨buff, k, rfl, Reach.refl p k⟩
        · rw [if_neg hb]
          simp only [removeState_push p _ k2 hs, moveNextPos_atPos]
          have hr2 := class_inrange p k2 (fun hh => hb (Or.inr hh))
          have hf2 : remaining p (k2 + 1) + 1 < n := by
            have := r2p.1
            unfold remaining at *
            omega
          obtain ⟨out, k1, e1, r1⟩ := ih p (k2 + 1) _ hs hf2
          exact ⟨out, k1, e1, r2p.trans ((Reach.step hr2).trans r1)⟩
      · rw [if_neg hp, moveNextPos_atPos]
        obtain ⟨out, k1, e1, r1⟩ := ih p (k + 1) _ hs hf
        exact ⟨out, k1, e1, (Reach.step hr).trans r1⟩
    · rw [if_neg hc]
      exact ⟨buff, k, rfl, Reach.refl p k⟩

theorem matchSpecialChar_ok (fuel : Nat) (p : parser) (k : Int) (hs : p.statesStack ≠ [])
    (h : remaining p k + 1 < fuel) :
    ∃ r out k1, matchSpecialChar fuel (p.atPos k) = some (r, out, p.atPos k1) ∧
      Reach p k k1 ∧ (r = true → k < k1) ∧ (r = false → k1 = k) := by
  unfold matchSpecialChar
  by_cases hc : (p.atPos k).curCharClass &&& SPECIAL_CHAR = NULL
  · rw [if_pos hc]
    exact ⟨false, [], k, rfl, Reach.refl p k, (fun hh => by cases hh), fun _ => rfl⟩
  · rw [if_neg hc]
    have hr := class_inrange p k (land_ne_zero hc)
    cases hcb : mapGet (p.atPos k).specialChars (p.atPos k).curChar with
    | none =>
      exact ⟨false, [], k, rfl, Reach.refl p k, (fun hh => by cases hh), fun _ => rfl⟩
    | some callback =>
      simp only []
      by_cases hp : (p.atPos k).prevCharClass ≠ NULL ∧
          (p.atPos k).prevCharClass &&& (SPACE ||| NL ||| TEXT_BRACKET) = NULL
      · rw [if_pos hp]
        exact ⟨false, [], k, rfl, Reach.refl p k, (fun hh => by cases hh), fun _ => rfl⟩
      · rw [if_neg hp]
        simp only [saveState_atPos, moveNextPos_atPos]
        obtain ⟨buff, k2, e2, r2⟩ := matchSpecialCharLoop_ok fuel
          (p.push (p.atPos k).head) (k + 1) [] (push_stack_ne p _) (by
            show remaining p (k + 1) + 1 < fuel
            unfold remaining at *
            omega)
        simp only [e2]
        have l2 := r2.1
        by_cases hb : buff = []
        · simp only [hb, if_true, restoreState_push]
          exact ⟨false, [], k, rfl, Reach.refl p k, (fun hh => by cases hh), fun _ => rfl⟩
        · simp only [hb, if_false]
          by_cases hres : callback buff = []
          · simp only [hres, if_true, restoreState_push]
            exact ⟨false, [], k, rfl, Reach.refl p k, (fun hh => by cases hh), fun _ => rfl⟩
          · simp only [hres, if_false, removeState_push p _ k2 hs]
            exact ⟨true, _, k2, rfl, Reach.of_lt hr (by omega), (fun _ => by omega),
              fun hh => by cases hh⟩

/-! ## Text: it ends, and where -/

theorem makeTagParams_state (L : Lib) (tn : Str) : ∀ (params : List (Str × Str))
    (res : GoMap Str Str) (self : parser),
    ∃ e1, (makeTagParams L tn params res self).2 = { self with errorsList := e1 } := by
  intro params
  induction params with
  | nil => intro res self; exact ⟨self.errorsList, rfl⟩
  | cons pv rest ih =>
    intro res self
    obtain ⟨param0, value0⟩ := pv
    unfold makeTagParams
    simp only []
    split
    · exact ih _ _
    · split
      · exact ih _ _
      · split
        · exact ih _ _
        · exact ih _ _

/-- The only field of the parser that `makeTag` changes is the error list. -/
theorem makeTag_state (L : Lib) (self : parser) (tagName0 : Str) (tagParams : GoMap Str Str)
    (tagContent : Str) (shortTag : Bool) (parentTag : Str) :
    ∃ e1, (self.makeTag L tagName0 tagParams tagContent shortTag parentTag).2 =
      { self with errorsList := e1 } := by
  unfold parser.makeTag
  obtain ⟨e1, he⟩ := makeTagParams_state L (L.toLower tagName0) (self.ranged L tagParams) [] self
  simp only []
  split_ifs
  all_goals first
    | exact ⟨self.errorsList, rfl⟩
    | exact ⟨e1, he⟩
    | (split <;> exact ⟨e1, he⟩)

theorem makeTag_upd (L : Lib) (p : parser) (q : Int) (e : List Str) (σ : List state) (k : Int)
    (tagName0 : Str) (tagParams : GoMap Str Str) (tagContent : Str) (shortTag : Bool)
    (parentTag : Str) :
    ∃ out e1, ((p.upd q e σ).atPos k).makeTag L tagName0 tagParams tagContent shortTag
      parentTag = (out, (p.upd q e1 σ).atPos k) := by
  obtain ⟨e1, he⟩ := makeTag_state L ((p.upd q e σ).atPos k) tagName0 tagParams tagContent
    shortTag parentTag
  exact ⟨_, e1, Prod.ext rfl he⟩

/-- A matcher run under a guard, with the result of the guard failing. -/
theorem guard_res {α : Type} {c : Prop} [Decidable c] {M : Option (Bool × α × parser)} {d : α}
    {X : parser} {Q : Bool → α → parser → Prop}
    (hM : c → ∃ r x Y, M = some (r, x, Y) ∧ Q r x Y) (hd : Q false d X) :
    ∃ r x Y, (if c then M else some (false, d, X)) = some (r, x, Y) ∧ Q r x Y := by
  by_cases hc : c
  · rw [if_pos hc]
    exact hM hc
  · rw [if_neg hc]
    exact ⟨false, d, X, rfl, hd⟩

theorem makeTextStep_ok (L : Lib) (hU : L.unescapeOk) (fuel : Nat) (p : parser) (q : Int)
    (e : List Str) (σ : List state) (k : Int) (parentTag : Str) (hσ : σ ≠ [])
    (hq : 0 ≤ q ∧ q ≤ 2) (hQ : p.quotesOk)
    (hc : ((p.upd q e σ).atPos k).curCharClass ≠ NULL) (h : remaining p k + 1 < fuel) :
    ∃ out q1 e1 k1, makeTextStep L fuel ((p.upd q e σ).atPos k) parentTag =
        some (out, (p.upd q1 e1 σ).atPos k1) ∧
      Reach p k k1 ∧ k < k1 ∧ (0 ≤ q1 ∧ q1 ≤ 2) := by
  have hr : 0 ≤ k ∧ k < p.textLen := class_inrange (p.upd q e σ) k hc
  have hBs : (p.upd q e σ).statesStack ≠ [] := hσ
  have hf : remaining (p.upd q e σ) k < fuel := by
    show remaining p k < fuel
    omega
  have hf1 : remaining (p.upd q e σ) k + 1 < fuel := h
  have fin : ∀ (out : Str) (k1 : Int), k < k1 → ∃ (out1 : Str) (q1 : Int) (e1 : List Str) (k2 : Int),
      some (out, (p.upd q e σ).atPos k1) = some (out1, (p.upd q1 e1 σ).atPos k2) ∧
      Reach p k k2 ∧ k < k2 ∧ (0 ≤ q1 ∧ q1 ≤ 2) :=
    fun out k1 hlt => ⟨out, q, e, k1, rfl, Reach.of_lt hr (le_of_lt hlt), hlt, hq⟩
  unfold makeTextStep
  -- HTML entity
  obtain ⟨r1, ent, Y1, e1, k1, y1, t1, f1⟩ := guard_res
    (c := ((p.upd q e σ).atPos k).curChar = 38)
    (M := matchHTMLEntity L fuel ((p.upd q e σ).atPos k)) (d := ([] : Str))
    (X := (p.upd q e σ).atPos k)
    (Q := fun r x Y => ∃ k1, Y = (p.upd q e σ).atPos k1 ∧
      (r = true → k < k1 ∧ ∃ s, s ≠ [] ∧ x = L.unescapeString s) ∧ (r = false → k1 = k))
    (fun _ => by
      obtain ⟨r, x, k1, a, _, b, c⟩ := matchHTMLEntity_ok L fuel (p.upd q e σ) k hBs hf
      exact ⟨r, x, _, a, k1, rfl, b, c⟩)
    ⟨k, rfl, (fun hh => by cases hh), fun _ => rfl⟩
  simp only [e1]
  subst y1
  cases r1 with
  | true =>
    obtain ⟨hlt, s, hs, hent⟩ := t1 rfl
    have hne := hU s hs
    rw [← hent] at hne
    cases ent with
    | nil => exact absurd rfl hne
    | cons c rest =>
      simp only []
      split
      · exact fin _ _ hlt
      · exact fin _ _ hlt
  | false =>
    have := f1 rfl
    subst this
    simp only []
    by_cases hp : ((p.upd q e σ).atPos k1).curCharClass &&& PUNCTUATUON ≠ NULL
    · rw [if_pos hp, moveNextPos_atPos]
      exact fin _ _ (by omega)
    · rw [if_neg hp]
      -- dash
      obtain ⟨r2, dash, Y2, e2, k2, y2, t2, f2⟩ := guard_res
        (c := ((p.upd q e σ).atPos k1).isTypoMode = true ∧ ((p.upd q e σ).atPos k1).curChar = 45)
        (M := matchDash fuel ((p.upd q e σ).atPos k1)) (d := ([] : Str))
        (X := (p.upd q e σ).atPos k1)
        (Q := fun r _ Y => ∃ k2, Y = (p.upd q e σ).atPos k2 ∧
          (r = true → k1 < k2) ∧ (r = false → k2 = k1))
        (fun _ => by
          obtain ⟨r, x, k2, a, _, b, c⟩ := matchDash_ok fuel (p.upd q e σ) k1 hBs hf
          exact ⟨r, x, _, a, k2, rfl, b, c⟩)
        ⟨k1, rfl, (fun hh => by cases hh), fun _ => rfl⟩
      simp only [e2]
      subst y2
      cases r2 with
      | true => exact fin _ _ (t2 rfl)
      | false =>
        have := f2 rfl
        subst this
        simp only []
        -- quote
        obtain ⟨r3, quote, Y3, e3, q3, k3, y3, b3, t3, f3⟩ := guard_res
          (c := ((p.upd q e σ).atPos k2).isTypoMode = true ∧
            ((p.upd q e σ).atPos k2).curCharClass &&& TEXT_QUOTE ≠ NULL)
          (M := ((p.upd q e σ).atPos k2).matchQuote) (d := ([] : Str))
          (X := (p.upd q e σ).atPos k2)
          (Q := fun r _ Y => ∃ q3 k3, Y = (p.upd q3 e σ).atPos k3 ∧ (0 ≤ q3 ∧ q3 ≤ 2) ∧
            (r = true → k2 < k3) ∧ (r = false → k3 = k2 ∧ q3 = q))
          (fun _ => by
            obtain ⟨r, x, q3, k3, a, _, b, c, d⟩ := matchQuote_ok p q e σ k2 hq hQ
            exact ⟨r, x, _, a, q3, k3, rfl, b, c, d⟩)
          ⟨q, k2, rfl, hq, (fun hh => by cases hh), fun _ => ⟨rfl, rfl⟩⟩
        simp only [e3]
        subst y3
        cases r3 with
        | true =>
          exact ⟨_, q3, e, k3, rfl, Reach.of_lt hr (le_of_lt (t3 rfl)), t3 rfl, b3⟩
        | false =>
          obtain ⟨hk, hqq⟩ := f3 rfl
          subst hk
          subst hqq
          simp only []
          by_cases hsp : ((p.upd q3 e σ).atPos k3).curCharClass &&& SPACE ≠ NULL
          · rw [if_pos hsp]
            obtain ⟨c4, k4, e4, _, s4⟩ := skipSpaces_ok fuel (p.upd q3 e σ) k3 hf
            simp only [e4]
            exact fin _ _ (s4 hsp)
          · rw [if_neg hsp]
            by_cases hnl : ((p.upd q3 e σ).atPos k3).isAutoBrMode = true ∧
                ((p.upd q3 e σ).atPos k3).curCharClass &&& NL ≠ NULL
            · rw [if_pos hnl]
              obtain ⟨c4, k4, e4, _, s4⟩ := skipNL_ok fuel (p.upd q3 e σ) k3 (-1) hf
              simp only [e4]
              have hlt := s4 hnl.2 (by omega)
              split_ifs
              · exact fin _ _ hlt
              · exact fin _ _ hlt
              · exact fin _ _ hlt
            · rw [if_neg hnl]
              -- link
              obtain ⟨r5, url, Y5, e5, k5, y5, t5, f5⟩ := guard_res
                (c := ((p.upd q3 e σ).atPos k3).isAutoLinkMode = true ∧
                  ((p.upd q3 e σ).atPos k3).curCharClass &&& ALPHA ≠ NULL ∧
                  ((p.upd q3 e σ).atPos k3).curTag ≠ runes "a")
                (M := matchURL fuel ((p.upd q3 e σ).atPos k3)) (d := ([] : Str))
                (X := (p.upd q3 e σ).atPos k3)
                (Q := fun r _ Y => ∃ k5, Y = (p.upd q3 e σ).atPos k5 ∧
                  (r = true → k3 < k5) ∧ (r = false → k5 = k3))
                (fun _ => by
                  obtain ⟨r, x, k5, a, _, b, c⟩ := matchURL_ok fuel (p.upd q3 e σ) k3 hBs hf1
                  exact ⟨r, x, _, a, k5, rfl, b, c⟩)
                ⟨k3, rfl, (fun hh => by cases hh), fun _ => rfl⟩
              simp only [e5]
              subst y5
              cases r5 with
              | true =>
                obtain ⟨out, e6, h6⟩ := makeTag_upd L p q3 e σ k5 (runes "a")
                  [(runes "href", url)] url false parentTag
                simp only [h6]
                exact ⟨out, q3, e6, k5, rfl, Reach.of_lt hr (le_of_lt (t5 rfl)), t5 rfl, hq⟩
              | false =>
                have := f5 rfl
                subst this
                simp only []
                -- special character
                obtain ⟨r7, sp, Y7, e7, k7, y7, t7, f7⟩ := guard_res
                  (c := ((p.upd q3 e σ).atPos k5).isSpecialCharMode = true ∧
                    ((p.upd q3 e σ).atPos k5).curCharClass &&& SPECIAL_CHAR ≠ NULL ∧
                    ((p.upd q3 e σ).atPos k5).curTag ≠ runes "a")
                  (M := matchSpecialChar fuel ((p.upd q3 e σ).atPos k5)) (d := ([] : Str))
                  (X := (p.upd q3 e σ).atPos k5)
                  (Q := fun r _ Y => ∃ k7, Y = (p.upd q3 e σ).atPos k7 ∧
                    (r = true → k5 < k7) ∧ (r = false → k7 = k5))
                  (fun _ => by
                    obtain ⟨r, x, k7, a, _, b, c⟩ := matchSpecialChar_ok fuel (p.upd q3 e σ) k5
                      hBs hf1
                    exact ⟨r, x, _, a, k7, rfl, b, c⟩)
                  ⟨k5, rfl, (fun hh => by cases hh), fun _ => rfl⟩
                simp only [e7]
                subst y7
                cases r7 with
                | true => exact fin _ _ (t7 rfl)
                | false =>
                  have := f7 rfl
                  subst this
                  simp only []
                  split_ifs
                  · rw [moveNextPos_atPos]
                    exact fin _ _ (by omega)
                  · rw [moveNextPos_atPos]
                    exact fin _ _ (by omega)

theorem makeTextLoop_ok (L : Lib) (hU : L.unescapeOk) : ∀ (fuel : Nat) (p : parser) (q : Int)
    (e : List Str) (σ : List state) (k : Int) (parentTag text : Str), σ ≠ [] →
    (0 ≤ q ∧ q ≤ 2) → p.quotesOk → remaining p k + 2 < fuel →
    ∃ out q1 e1 k1, makeTextLoop L fuel ((p.upd q e σ).atPos k) parentTag text =
        some (out, (p.upd q1 e1 σ).atPos k1) ∧
      Reach p k k1 ∧ (0 ≤ q1 ∧ q1 ≤ 2) ∧
      ((p.atPos k).curChar ≠ 60 ∧ (p.atPos k).curCharClass ≠ NULL → k < k1) := by
  intro fuel
  induction fuel with
  | zero => intro p q e σ k parentTag text _ _ _ h; omega
  | succ n ih =>
    intro p q e σ k parentTag text hσ hq hQ h
    unfold makeTextLoop
    by_cases hc : ((p.upd q e σ).atPos k).curChar ≠ 60 ∧ ((p.upd q e σ).atPos k).curCharClass ≠ NULL
    · rw [if_pos hc]
      obtain ⟨out, q1, e1, k1, s1, r1, l1, b1⟩ := makeTextStep_ok L hU n p q e σ k parentTag hσ hq
        hQ hc.2 (by omega)
      simp only [s1]
      have hf : remaining p k1 + 2 < n := by
        have := r1.2 l1
        unfold remaining at *
        omega
      obtain ⟨out2, q2, e2, k2, s2, r2, b2, _⟩ := ih p q1 e1 σ k1 parentTag (text ++ out) hσ b1
        hQ hf
      exact ⟨out2, q2, e2, k2, s2, r1.trans r2, b2, fun _ => by have := r2.1; omega⟩
    · rw [if_neg hc]
      exact ⟨text, q, e, k, rfl, Reach.refl p k, hq, fun hh => absurd hh hc⟩

theorem makeText_ok (L : Lib) (hU : L.unescapeOk) (fuel : Nat) (p : parser) (q : Int)
    (e : List Str) (σ : List state) (k : Int) (parentTag : Str) (hσ : σ ≠ [])
    (hq : 0 ≤ q ∧ q ≤ 2) (hQ : p.quotesOk) (h : remaining p k + 2 < fuel) :
    ∃ out q1 e1 k1, makeText L fuel ((p.upd q e σ).atPos k) parentTag =
        some (out, (p.upd q1 e1 σ).atPos k1) ∧
      Reach p k k1 ∧ (0 ≤ q1 ∧ q1 ≤ 2) ∧
      ((p.atPos k).curChar ≠ 60 ∧ (p.atPos k).curCharClass ≠ NULL → k < k1) :=
  makeTextLoop_ok L hU fuel p q e σ k parentTag [] hσ hq hQ h

theorem setTypoMode_upd (p : parser) (q : Int) (e : List Str) (σ : List state) (k : Int)
    (b : Bool) :
    ((p.upd q e σ).atPos k).setTypoMode b = ((p.setTypoMode b).upd q e σ).atPos k := rfl

theorem setCurTag_upd (p : parser) (q : Int) (e : List Str) (σ : List state) (k : Int)
    (t : Str) :
    ((p.upd q e σ).atPos k).setCurTag t = ((p.setCurTag t).upd q e σ).atPos k := rfl

theorem inTag_back (p : parser) (name : Str) :
    ((p.inTag name).setCurTag p.curTag).setTypoMode p.isTypoMode = p := by
  unfold parser.inTag
  by_cases hnt : mapHas p.tagNoTypography name = true
  · rw [if_pos hnt]
    cases p
    rfl
  · rw [if_neg hnt]
    rfl

theorem inTag_enter (p : parser) (q : Int) (e : List Str) (σ : List state) (k : Int)
    (name : Str) :
    (if mapHas ((p.upd q e σ).atPos k).tagNoTypography name = true then
      ((p.upd q e σ).atPos k).setTypoMode false else (p.upd q e σ).atPos k).setCurTag name =
    ((p.inTag name).upd q e σ).atPos k := by
  unfold parser.inTag
  by_cases hnt : mapHas p.tagNoTypography name = true
  · rw [if_pos hnt,
      if_pos (show mapHas ((p.upd q e σ).atPos k).tagNoTypography name = true from hnt)]
    rfl
  · rw [if_neg hnt,
      if_neg (show ¬ mapHas ((p.upd q e σ).atPos k).tagNoTypography name = true from hnt)]
    rfl

theorem inTag_quotesOk (p : parser) (name : Str) (h : p.quotesOk) : (p.inTag name).quotesOk := by
  unfold parser.inTag
  by_cases hnt : mapHas p.tagNoTypography name = true
  · rw [if_pos hnt]
    exact h
  · rw [if_neg hnt]
    exact h

theorem inTag_textLen (p : parser) (name : Str) : (p.inTag name).textLen = p.textLen := by
  unfold parser.inTag
  by_cases hnt : mapHas p.tagNoTypography name = true
  · rw [if_pos hnt]
    rfl
  · rw [if_neg hnt]
    rfl

theorem inTag_leave (p : parser) (q q2 : Int) (e e2 : List Str) (σ : List state) (k k2 : Int)
    (name : Str) :
    ((((p.inTag name).upd q2 e2 σ).atPos k2).setCurTag ((p.upd q e σ).atPos k).curTag).setTypoMode
      ((p.upd q e σ).atPos k).isTypoMode = (p.upd q2 e2 σ).atPos k2 := by
  have h1 : ((p.upd q e σ).atPos k).curTag = p.curTag := rfl
  have h2 : ((p.upd q e σ).atPos k).isTypoMode = p.isTypoMode := rfl
  rw [h1, h2, setCurTag_upd, setTypoMode_upd, inTag_back]

theorem matchTag_ok (L : Lib) (fuel : Nat) (mc : parser → Str → Option (Str × parser))
    (p : parser) (q : Int) (e : List Str) (σ : List state) (k : Int) (hσ : σ ≠ [])
    (hq : 0 ≤ q ∧ q ≤ 2) (hQ : p.quotesOk) (h : remaining p k < fuel)
    (hmc : NestedOk mc (remaining p k)) :
    ∃ r name params content short q1 e1 k1,
      matchTag L fuel mc ((p.upd q e σ).atPos k) =
        some (r, name, params, content, short, (p.upd q1 e1 σ).atPos k1) ∧
      Reach p k k1 ∧ (0 ≤ q1 ∧ q1 ≤ 2) ∧ (r = true → k < k1) ∧
      (r = false → k1 = k ∧ q1 = q ∧ e1 = e) := by
  unfold matchTag
  obtain ⟨r, name, params, short, k1, e1, r1, t1, f1⟩ := matchTagOpen_ok L fuel (p.upd q e σ) k
    hσ h
  have r1 : Reach p k k1 := r1
  simp only [e1]
  cases r with
  | false =>
    exact ⟨false, name, params, [], short, q, e, k1, rfl, r1, hq, (fun hh => by cases hh),
      fun _ => ⟨f1 rfl, rfl, rfl⟩⟩
  | true =>
    have hlt := t1 rfl
    simp only []
    cases short with
    | true =>
      exact ⟨true, name, params, [], true, q, e, k1, rfl, r1, hq, (fun _ => hlt),
        fun hh => by cases hh⟩
    | false =>
      simp only [Bool.false_eq_true, if_false]
      have hin := r1.2 hlt
      have hrem : remaining p k1 < remaining p k := by
        have := r1.1
        unfold remaining
        omega
      -- the parser on which the content is built
      rw [inTag_enter]
      generalize hp1 : p.inTag name = p1
      have hp1Q : p1.quotesOk := by rw [← hp1]; exact inTag_quotesOk p name hQ
      have hp1len : p1.textLen = p.textLen := by rw [← hp1]; exact inTag_textLen p name
      have hp1back : ∀ q2 e2 k2, (((p1.upd q2 e2 σ).atPos k2).setCurTag
          ((p.upd q e σ).atPos k1).curTag).setTypoMode ((p.upd q e σ).atPos k1).isTypoMode =
          (p.upd q2 e2 σ).atPos k2 := by
        intro q2 e2 k2
        rw [← hp1]
        exact inTag_leave p q q2 e e2 σ k1 k2 name
      have hrem1 : ∀ j, remaining p1 j = remaining p j := by
        intro j
        unfold remaining
        rw [hp1len]
      have hR1 : ∀ i j, Reach p1 i j → Reach p i j := by
        intro i j hh
        unfold Reach at *
        rw [hp1len] at hh
        exact hh
      obtain ⟨content, q4, e4, k4, e4', r4, b4⟩ : ∃ content q4 e4 k4,
          (if mapHas ((p1.upd q e σ).atPos k1).tagPreformatted name = true then
            makePreformatted L fuel ((p1.upd q e σ).atPos k1) name
           else mc ((p1.upd q e σ).atPos k1) name) =
            some (content, (p1.upd q4 e4 σ).atPos k4) ∧ Reach p k1 k4 ∧ (0 ≤ q4 ∧ q4 ≤ 2) := by
        by_cases hpre : mapHas ((p1.upd q e σ).atPos k1).tagPreformatted name = true
        · rw [if_pos hpre]
          obtain ⟨out, k4, a, b⟩ := makePreformattedLoop_ok L fuel (p1.upd q e σ) k1 name [] hσ
            (by
              show remaining p1 k1 + 1 < fuel
              rw [hrem1]
              omega)
          exact ⟨out, q, e, k4, a, hR1 _ _ b, hq⟩
        · rw [if_neg hpre]
          obtain ⟨out, q4, e4, k4, a, b, c⟩ := hmc p1 q e σ k1 name hσ hq hp1Q
            (by rw [hrem1]; exact hrem)
          exact ⟨out, q4, e4, k4, a, hR1 _ _ b, c⟩
      simp only [e4']
      obtain ⟨closed, closeTag, k5, e5, r5, _, _⟩ := matchTagClose_ok L fuel (p1.upd q4 e4 σ) k4 hσ
        (by
          show remaining p1 k4 < fuel
          rw [hrem1]
          exact (r1.trans r4).fuel h)
      have r5 : Reach p k4 k5 := hR1 _ _ r5
      simp only [e5]
      have hfin : k < k5 := by have := r4.1; have := r5.1; omega
      by_cases herr : closed = true ∧ name ≠ closeTag
      · rw [if_pos herr]
        have hse : ∀ msg, ((p1.upd q4 e4 σ).atPos k5).setError msg =
            (p1.upd q4 (e4 ++ [msg]) σ).atPos k5 := fun _ => rfl
        rw [hse, hp1back]
        exact ⟨true, name, params, content, false, q4, _, k5, rfl, (r1.trans r4).trans r5, b4,
          (fun _ => hfin), fun hh => by cases hh⟩
      · rw [if_neg herr, hp1back]
        exact ⟨true, name, params, content, false, q4, e4, k5, rfl, (r1.trans r4).trans r5, b4,
          (fun _ => hfin), fun hh => by cases hh⟩

/-! ## Content: it ends, and where -/

theorem guard_elim {β : Type} {c : Prop} [Decidable c] {M : Option β} {d v : β} {Q : β → Prop}
    (heq : (if c then M else some d) = some v) (hM : c → ∃ v1, M = some v1 ∧ Q v1)
    (hd : Q d) : Q v := by
  by_cases hc : c
  · rw [if_pos hc] at heq
    obtain ⟨v1, h1, h2⟩ := hM hc
    rw [h1] at heq
    cases heq
    exact h2
  · rw [if_neg hc] at heq
    cases heq
    exact hd

theorem guard_none {β : Type} {c : Prop} [Decidable c] {M : Option β} {d : β}
    (heq : (if c then M else some d) = none) (hM : c → ∃ v1, M = some v1) : False := by
  by_cases hc : c
  · rw [if_pos hc] at heq
    obtain ⟨v1, h1⟩ := hM hc
    rw [h1] at heq
    cases heq
  · rw [if_neg hc] at heq
    cases heq

theorem push_upd (p : parser) (q : Int) (e : List Str) (σ : List state) (s : state) :
    (p.upd q e σ).push s = p.upd q e (s :: σ) := rfl

theorem restoreState_upd (p : parser) (q q2 : Int) (e e2 : List Str) (σ : List state)
    (j k : Int) :
    ((p.upd q2 e2 (((p.upd q e σ).atPos j).head :: σ)).atPos k).restoreState =
      (p.upd q2 e2 σ).atPos j := rfl

theorem removeState_upd (p : parser) (q : Int) (e : List Str) (σ : List state) (s : state)
    (k : Int) :
    ((p.upd q e (s :: σ)).atPos k).removeState =
      (p.upd q e (if σ = [] then [s] else σ)).atPos k := by
  cases σ with
  | nil => rfl
  | cons a l =>
    have h := removeState_push (p.upd q e (a :: l)) s k (by
      show a :: l ≠ []
      simp)
    rw [push_upd] at h
    rw [h, if_neg (by simp)]

theorem setError_upd (p : parser) (q : Int) (e : List Str) (σ : List state) (k : Int)
    (msg : Str) :
    ((p.upd q e σ).atPos k).setError msg = (p.upd q (e ++ [msg]) σ).atPos k := rfl

theorem NestedOk.mono {mc : parser → Str → Option (Str × parser)} {a b : Nat}
    (h : NestedOk mc b) (hab : a ≤ b) : NestedOk mc a :=
  fun p q e σ k tag hσ hq hQ hr => h p q e σ k tag hσ hq hQ (lt_of_lt_of_le hr hab)

/-- A rune `<` under the head has a class other than NULL. -/
theorem class_of_lt (p : parser) (k : Int) (h : (p.atPos k).curChar = 60) :
    (p.atPos k).curCharClass ≠ NULL := by
  have hr := char_inrange p k (by rw [h]; decide)
  have hin : decide (k < p.textLen ∧ k ≥ 0) = true := by
    simp only [decide_eq_true_eq]
    exact ⟨hr.2, hr.1⟩
  have hch : (p.atPos k).curChar = bufAt p.textBuf k := by
    show (if decide (k < p.textLen ∧ k ≥ 0) = true then bufAt p.textBuf k else 0) = _
    rw [if_pos hin]
  have hcl : (p.atPos k).curCharClass = getClassByOrd (bufAt p.textBuf k) := by
    show (if decide (k < p.textLen ∧ k ≥ 0) = true then
      getClassByOrd (if decide (k < p.textLen ∧ k ≥ 0) = true then bufAt p.textBuf k else 0)
      else NULL) = _
    rw [if_pos hin, if_pos hin]
  rw [hcl, ← hch, h]
  decide

theorem nested_ok (L : Lib) (n : Nat)
    (ih : ∀ (p : parser) (q : Int) (e : List Str) (σ : List state) (k : Int)
      (parentTag content : Str), (0 ≤ q ∧ q ≤ 2) → p.quotesOk → remaining p k + 4 ≤ n →
      ∃ out q1 e1 σ1 k1, makeContentLoop L n ((p.upd q e σ).atPos k) parentTag content =
          some (out, (p.upd q1 e1 σ1).atPos k1) ∧
        Reach p k k1 ∧ (0 ≤ q1 ∧ q1 ≤ 2) ∧ (σ ≠ [] → σ1 = σ) ∧ (σ = [] → σ1.length ≤ 1)) :
    NestedOk (makeContentWith n (makeContentLoop L n)) (n - 3) := by
  intro p q e σ k tag hσ hq hQ hr
  unfold makeContentWith
  obtain ⟨c1, k1, e1, r1, _⟩ := skipSpaces_ok n (p.upd q e σ) k (by
    show remaining p k < n
    omega)
  have r1 : Reach p k k1 := r1
  simp only [e1]
  obtain ⟨c2, k2, e2, r2, _⟩ := skipNL_ok n (p.upd q e σ) k1 (-1) (by
    show remaining p k1 < n
    have := r1.fuel (n := n) (by omega)
    exact this)
  have r2 : Reach p k1 k2 := r2
  simp only [e2]
  have r12 := r1.trans r2
  obtain ⟨out, q3, e3, σ3, k3, e3', r3, b3, s3, _⟩ := ih p q e σ k2 tag [] hq hQ (by
    have := r12.fuel (n := n - 3) hr
    omega)
  rw [s3 hσ] at e3'
  exact ⟨out, q3, e3, k3, e3', r12.trans r3, b3⟩

theorem makeContentLoop_ok (L : Lib) (hU : L.unescapeOk) : ∀ (fuel : Nat) (p : parser) (q : Int)
    (e : List Str) (σ : List state) (k : Int) (parentTag content : Str),
    (0 ≤ q ∧ q ≤ 2) → p.quotesOk → remaining p k + 4 ≤ fuel →
    ∃ out q1 e1 σ1 k1, makeContentLoop L fuel ((p.upd q e σ).atPos k) parentTag content =
        some (out, (p.upd q1 e1 σ1).atPos k1) ∧
      Reach p k k1 ∧ (0 ≤ q1 ∧ q1 ≤ 2) ∧ (σ ≠ [] → σ1 = σ) ∧ (σ = [] → σ1.length ≤ 1) := by
  intro fuel
  induction fuel with
  | zero => intro p q e σ k parentTag content _ _ h; omega
  | succ n ih =>
    intro p q e σ k parentTag content hq hQ h
    have hmc := nested_ok L n ih
    unfold makeContentLoop
    by_cases hc : ((p.upd q e σ).atPos k).curCharClass ≠ NULL
    swap
    · rw [if_neg hc]
      exact ⟨content, q, e, σ, k, rfl, Reach.refl p k, hq, fun _ => rfl, fun hh => by simp [hh]⟩
    rw [if_pos hc]
    have hr : 0 ≤ k ∧ k < p.textLen := class_inrange (p.upd q e σ) k hc
    have hleaf : ∀ j, k ≤ j → remaining p j < n := by
      intro j hj
      unfold remaining at *
      omega
    split
    · rename_i heq
      exact (guard_none heq (fun _ => by
        obtain ⟨r, k0, a, _⟩ := skipTextToChar_ok n (p.upd q e σ) k 60 (hleaf k (le_refl k))
        exact ⟨_, a⟩)).elim
    rename_i b0 self1 heq
    obtain ⟨k0, hself1, r0⟩ : ∃ k0, self1 = (p.upd q e σ).atPos k0 ∧ Reach p k k0 :=
      guard_elim (Q := fun v => ∃ k0, v.2 = (p.upd q e σ).atPos k0 ∧ Reach p k k0) heq
        (fun _ => by
          obtain ⟨r, k0, a, b⟩ := skipTextToChar_ok n (p.upd q e σ) k 60 (hleaf k (le_refl k))
          exact ⟨_, a, k0, rfl, b⟩)
        ⟨k, rfl, Reach.refl p k⟩
    subst hself1
    clear heq
    have l0 := r0.1
    simp only [saveState_atPos, push_upd]
    generalize hh0 : ((p.upd q e σ).atPos k0).head = h0
    have hσ' : h0 :: σ ≠ [] := by simp
    -- the loop goes on after a pass that has moved the head forward
    have next : ∀ (q2 : Int) (e2 : List Str) (k2 : Int) (c2 : Str), (0 ≤ q2 ∧ q2 ≤ 2) → k < k2 →
        ∃ out q1 e1 σ1 k1,
          makeContentLoop L n (((p.upd q2 e2 (h0 :: σ)).atPos k2).removeState) parentTag c2 =
            some (out, (p.upd q1 e1 σ1).atPos k1) ∧
          Reach p k k1 ∧ (0 ≤ q1 ∧ q1 ≤ 2) ∧ (σ ≠ [] → σ1 = σ) ∧ (σ = [] → σ1.length ≤ 1) := by
      intro q2 e2 k2 c2 hq2 hlt
      rw [removeState_upd]
      obtain ⟨out, q1, e1, σ1, k1, a, b, c, d, _⟩ := ih p q2 e2 (if σ = [] then [h0] else σ) k2
        parentTag c2 hq2 hQ (by
          unfold remaining at *
          omega)
      have hne : (if σ = [] then [h0] else σ) ≠ [] := by
        by_cases hσ : σ = []
        · rw [if_pos hσ]; simp
        · rw [if_neg hσ]; exact hσ
      have hσ1 := d hne
      refine ⟨out, q1, e1, σ1, k1, a, ?_, c, ?_, ?_⟩
      · exact (Reach.of_lt hr (le_of_lt hlt)).trans b
      · intro hσ
        rw [hσ1, if_neg hσ]
      · intro hσ
        rw [hσ1, if_pos hσ]
        simp
    by_cases h60 : ((p.upd q e (h0 :: σ)).atPos k0).curChar = 60
    · -- the head is on the rune `<`
      simp only [if_pos h60]
      have hmc0 : NestedOk (makeContentWith n (makeContentLoop L n)) (remaining p k0) :=
        hmc.mono (by
          unfold remaining at *
          omega)
      obtain ⟨r, name, params, tcontent, short, q1, e1, k1, e1', r1, b1, t1, f1⟩ :=
        matchTag_ok L n (makeContentWith n (makeContentLoop L n)) p q e (h0 :: σ) k0 hσ' hq hQ
          (hleaf k0 l0) hmc0
      simp only [e1']
      cases r with
      | true =>
        have hlt := t1 rfl
        simp only []
        obtain ⟨out, e2, h2⟩ := makeTag_upd L p q1 e1 (h0 :: σ) k1 name params tcontent short
          parentTag
        simp only [h2]
        split
        · rename_i heq
          exact (guard_none heq (fun _ => by
            obtain ⟨c3, k3, a, _⟩ := skipNL_ok n (p.upd q1 e2 (h0 :: σ)) k1 1
              (hleaf k1 (by omega))
            exact ⟨_, a⟩)).elim
        rename_i c3 self3 heq
        obtain ⟨k3, hself3, r3⟩ : ∃ k3, self3 = (p.upd q1 e2 (h0 :: σ)).atPos k3 ∧ k1 ≤ k3 :=
          guard_elim (Q := fun v => ∃ k3, v.2 = (p.upd q1 e2 (h0 :: σ)).atPos k3 ∧ k1 ≤ k3) heq
            (fun _ => by
              obtain ⟨c3, k3, a, b, _⟩ := skipNL_ok n (p.upd q1 e2 (h0 :: σ)) k1 1
                (hleaf k1 (by omega))
              exact ⟨_, a, k3, rfl, b.1⟩)
            ⟨k1, rfl, le_refl k1⟩
        subst hself3
        clear heq
        split
        · rename_i heq
          exact (guard_none heq (fun _ => by
            obtain ⟨c4, k4, a, _⟩ := skipClass_ok n (p.upd q1 e2 (h0 :: σ)) k3 (SPACE ||| NL)
              (hleaf k3 (by omega))
            exact ⟨_, a⟩)).elim
        rename_i c4 self4 heq
        obtain ⟨k4, hself4, r4⟩ : ∃ k4, self4 = (p.upd q1 e2 (h0 :: σ)).atPos k4 ∧ k3 ≤ k4 :=
          guard_elim (Q := fun v => ∃ k4, v.2 = (p.upd q1 e2 (h0 :: σ)).atPos k4 ∧ k3 ≤ k4) heq
            (fun _ => by
              obtain ⟨c4, k4, a, b⟩ := skipClass_ok n (p.upd q1 e2 (h0 :: σ)) k3 (SPACE ||| NL)
                (hleaf k3 (by omega))
              exact ⟨_, a, k4, rfl, b.1⟩)
            ⟨k3, rfl, le_refl k3⟩
        subst hself4
        exact next q1 e2 k4 _ b1 (by omega)
      | false =>
        obtain ⟨hk, hqq, hee⟩ := f1 rfl
        subst hk
        subst hqq
        subst hee
        simp only [if_pos h60, matchStr_state]
        by_cases hcm : (((p.upd q1 e1 (h0 :: σ)).atPos k1).matchStr (runes "<!--")).1 = true
        · -- a comment
          rw [if_pos hcm]
          have h3 : runes "-->" = 45 :: [45, 62] := by decide
          obtain ⟨r3, k3, e3, r3', a3, b3⟩ := skipTextToStr_ok n (p.upd q1 e1 (h0 :: σ)) k1 45
            [45, 62] hσ' (hleaf k1 l0)
          have r3' : Reach p k1 k3 := r3'
          have hne : k1 < k3 := by
            rcases lt_or_eq_of_le r3'.1 with hh | hh
            · exact hh
            · exfalso
              cases r3 with
              | false =>
                have := a3 rfl
                rw [← hh] at this
                exact class_of_lt _ _ h60 this
              | true =>
                have := b3 rfl
                rw [← hh, h60] at this
                cases this
          rw [h3]
          simp only [e3]
          cases r3 with
          | false =>
            simp only []
            exact next q1 e1 k3 _ hq (by omega)
          | true =>
            simp only []
            obtain ⟨r5, k5, e5, r5'⟩ := skipStr_ok (p.upd q1 e1 (h0 :: σ)) k3 (45 :: [45, 62]) hσ'
            have l5 := r5'.1
            simp only [e5]
            obtain ⟨c6, k6, e6, r6⟩ := skipClass_ok n (p.upd q1 e1 (h0 :: σ)) k5 (SPACE ||| NL)
              (hleaf k5 (by omega))
            have l6 := r6.1
            simp only [e6]
            exact next q1 e1 k6 _ hq (by omega)
        · rw [if_neg hcm]
          obtain ⟨r3, name3, k3, e3, r3', t3, f3⟩ := matchTagClose_ok L n (p.upd q1 e1 (h0 :: σ))
            k1 hσ' (hleaf k1 l0)
          simp only [e3]
          cases r3 with
          | true =>
            have hlt := t3 rfl
            simp only []
            by_cases hct : ((p.upd q1 e1 (h0 :: σ)).atPos k3).curTag ≠ []
            · -- the close tag of the enclosing level: leave
              rw [if_pos hct, ← hh0, restoreState_upd]
              exact ⟨content, q1, e1, σ, k1, rfl, r0, hq, fun _ => rfl, fun hh => by simp [hh]⟩
            · rw [if_neg hct, setError_upd]
              exact next q1 _ k3 _ hq (by omega)
          | false =>
            have := f3 rfl
            subst this
            simp only [if_pos h60, moveNextPos_atPos]
            exact next q1 e1 (k3 + 1) _ hq (by omega)
    · -- text
      simp only [if_neg h60, matchStr_state]
      simp only [Bool.false_eq_true, if_false]
      obtain ⟨text, q4, e4, k4, e4', r4, b4, s4⟩ := makeText_ok L hU n p q e (h0 :: σ) k0
        parentTag hσ' hq hQ (by
          have := hleaf k0 l0
          unfold remaining at *
          omega)
      simp only [e4']
      refine next q4 e4 k4 _ b4 ?_
      by_cases hcl : (p.atPos k0).curCharClass ≠ NULL
      · have := s4 ⟨h60, hcl⟩
        omega
      · have : k ≠ k0 := by
          intro hkk
          rw [← hkk] at hcl
          exact hcl hc
        have := r4.1
        omega

theorem makeContent_ok (L : Lib) (hU : L.unescapeOk) (fuel : Nat) (p : parser) (q : Int)
    (e : List Str) (σ : List state) (k : Int) (parentTag : Str) (hq : 0 ≤ q ∧ q ≤ 2)
    (hQ : p.quotesOk) (h : remaining p k + 4 ≤ fuel) :
    ∃ out q1 e1 σ1 k1, makeContent L fuel ((p.upd q e σ).atPos k) parentTag =
        some (out, (p.upd q1 e1 σ1).atPos k1) ∧
      Reach p k k1 ∧ (0 ≤ q1 ∧ q1 ≤ 2) ∧ (σ ≠ [] → σ1 = σ) ∧ (σ = [] → σ1.length ≤ 1) := by
  unfold makeContent makeContentWith
  obtain ⟨c1, k1, e1, r1, _⟩ := skipSpaces_ok fuel (p.upd q e σ) k (by
    show remaining p k < fuel
    omega)
  have r1 : Reach p k k1 := r1
  simp only [e1]
  obtain ⟨c2, k2, e2, r2, _⟩ := skipNL_ok fuel (p.upd q e σ) k1 (-1) (by
    show remaining p k1 < fuel
    exact r1.fuel (by omega))
  have r2 : Reach p k1 k2 := r2
  simp only [e2]
  have r12 := r1.trans r2
  obtain ⟨out, q3, e3, σ3, k3, e3', r3, b3, s3, t3⟩ := makeContentLoop_ok L hU fuel p q e σ k2
    parentTag [] hq hQ (by
      have := r12.1
      unfold remaining at *
      omega)
  exact ⟨out, q3, e3, σ3, k3, e3', r12.trans r3, b3, s3, t3⟩

theorem start_quotesOk (self : parser) (text : Str) (h : self.quotesOk) :
    (self.start text).quotesOk := h

/-- The result of `Parse`: it returns; the output is the trimmed content with the
newlines replaced, the errors are those of the final parser, and the final parser is the
starting one up to the head, the quote counter, the error list and the snapshot stack. -/
theorem Parse_ok (L : Lib) (hU : L.unescapeOk) (self : parser) (hQ : self.quotesOk)
    (text : Str) :
    ∃ content q e σ k,
      Parse L self text =
        some ((TrimSpace (replaceNL self.nl content), e),
          ((self.start (text.filter fun c => c != 13)).upd q e σ).atPos k) ∧
      (0 ≤ q ∧ q ≤ 2) ∧ σ.length ≤ 1 ∧ 0 ≤ k := by
  unfold Parse
  simp only []
  generalize text.filter (fun c => c != 13) = t
  have h0 : ((self.start t).movePos 0).2 = ((self.start t).upd 0 [] []).atPos 0 := rfl
  rw [h0]
  obtain ⟨out, q1, e1, σ1, k1, e1', r1, b1, _, t1⟩ := makeContent_ok L hU (parseFuel t.length)
    (self.start t) 0 [] [] 0 [] (by omega) (start_quotesOk self t hQ) (by
      show ((t.length : Int) - 0).toNat + 4 ≤ 2 * t.length + 8
      omega)
  simp only [e1']
  exact ⟨out, q1, e1, σ1, k1, rfl, b1, t1 rfl, r1.1⟩

/-! ## The library instance and the test parser meet the assumptions -/

theorem goLib_unescapeOk : goLib.unescapeOk := by
  intro s hs
  show unescapeOne s ≠ []
  unfold unescapeOne
  split_ifs <;> first | exact hs | simp

theorem quotesOk_of_eq (self : parser) (h : self.quotes = New.quotes) : self.quotesOk := by
  intro level index h1 h2 h3 h4
  unfold parser.quoteAt
  rw [h]
  have hl : level = 0 ∨ level = 1 := by omega
  have hi : index = 0 ∨ index = 1 := by omega
  rcases hl with hl | hl <;> rcases hi with hi | hi <;> subst hl <;> subst hi <;>
    exact ⟨_, rfl⟩

theorem qvx_quotes : qvx.quotes = New.quotes := by decide!

theorem qvx_quotesOk : qvx.quotesOk := quotesOk_of_eq qvx qvx_quotes

/-- C3.  `Parse` terminates with a result on every input: with a library whose
`unescapeString` keeps a non-empty string non-empty and a quote table that holds both
levels, `Parse` returns an output string, an error list and a final parser, and the
content loop started at position 0 returns for every fuel of at least the text length
plus four, the measure being the distance from the cursor to the end of the text. -/
theorem C3_parse_terminates (L : Lib) (self : parser) (text : Str) (hU : L.unescapeOk)
    (hQ : self.quotesOk) :
    (∃ out errs final, Parse L self text = some ((out, errs), final)) ∧
    ∀ fuel : Nat, (text.filter fun c => c != 13).length + 4 ≤ fuel →
      ∃ content final,
        makeContent L fuel (((self.start (text.filter fun c => c != 13)).movePos 0).2) [] =
          some (content, final) := by
  constructor
  · obtain ⟨content, q, e, σ, k, h, _⟩ := Parse_ok L hU self hQ text
    exact ⟨_, _, _, h⟩
  · intro fuel hf
    generalize text.filter (fun c => c != 13) = t at hf
    obtain ⟨out, q1, e1, σ1, k1, e1', _⟩ := makeContent_ok L hU fuel (self.start t) 0 [] [] 0 []
      (by omega) (start_quotesOk self t hQ) (by
        show ((t.length : Int) - 0).toNat + 4 ≤ fuel
        omega)
    exact ⟨out, _, e1'⟩

theorem C3_parse_terminates_witness :
    goLib.unescapeOk ∧ qvx.quotesOk ∧
    ∃ out errs final, Parse goLib qvx (runes "<b>текст <u>текст текст") =
      some ((out, errs), final) :=
  ⟨goLib_unescapeOk, qvx_quotesOk,
    (C3_parse_terminates goLib qvx (runes "<b>текст <u>текст текст") goLib_unescapeOk
      qvx_quotesOk).1⟩

/-- C4 (amended).  Carriage returns are invisible to the parser when `range` visits the
attributes of each tag in the same order: for every order of `range`, `Parse` of a text
and `Parse` of the same text with every carriage return removed are the same result
(output string, error list and final parser), and the filtered text holds no carriage
return. -/
theorem C4_carriage_returns_invisible (L : Lib) (self : parser) (text : Str) :
    Parse L self text = Parse L self (text.filter fun c => c != 13) ∧
    (13 : Rune) ∉ text.filter (fun c => c != 13) := by
  constructor
  · unfold Parse
    simp only [List.filter_filter, Bool.and_self]
  · simp [List.mem_filter]

/-! ## The order of range over the attributes -/

theorem goLib_rangeOk : goLib.rangeOk := fun _ _ m => List.Perm.refl m

theorem revLib_rangeOk : revLib.rangeOk := fun _ _ m => List.reverse_perm m

theorem revLib_unescapeOk : revLib.unescapeOk := goLib_unescapeOk

/-- C4 (counterexample).  Two runs of `Parse` need not visit the attributes of a tag in the
same order: `range` over the attribute map is free to take `width` before `height` in one
run and `height` before `width` in the other.  On an image with both attributes refused,
the text with a carriage return parsed with the first order and the text without it parsed
with the second give the same output and the same two errors, in different orders: the
error lists differ. -/
theorem C4_error_order_differs :
    goLib.rangeOk ∧ revLib.rangeOk ∧
    (runes "\r<img width=1 height=2>").filter (fun c => c != 13) =
      runes "<img width=1 height=2>" ∧
    parseOut goLib qvx (runes "\r<img width=1 height=2>") =
      some ([],
        [runes "Недопустимое значение \x271\x27 для атрибута \x27width\x27 тега \x27img\x27",
         runes "Недопустимое значение \x272\x27 для атрибута \x27height\x27 тега \x27img\x27"]) ∧
    parseOut revLib qvx (runes "<img width=1 height=2>") =
      some ([],
        [runes "Недопустимое значение \x272\x27 для атрибута \x27height\x27 тега \x27img\x27",
         runes "Недопустимое значение \x271\x27 для атрибута \x27width\x27 тега \x27img\x27"]) ∧
    parseOut goLib qvx (runes "\r<img width=1 height=2>") ≠
      parseOut revLib qvx (runes "<img width=1 height=2>") :=
  ⟨goLib_rangeOk, revLib_rangeOk, by decide!⟩

/-! ## Trimming and the end of line -/

theorem TrimSpace_eq (s : Str) : TrimSpace s = (s.dropWhile isSpace).rdropWhile isSpace := rfl

/-- The trimmed string does not start with white space. -/
theorem TrimSpace_head (s : Str) (x : Rune) (rest : Str) (h : TrimSpace s = x :: rest) :
    isSpace x = false := by
  have hp : TrimSpace s <+: s.dropWhile isSpace := by
    rw [TrimSpace_eq]
    exact List.rdropWhile_prefix isSpace _
  obtain ⟨b, hb⟩ := hp
  have hh := List.head?_dropWhile_not isSpace s
  rw [← hb, h] at hh
  simpa using hh

theorem TrimSpace_idem (s : Str) : TrimSpace (TrimSpace s) = TrimSpace s := by
  have h1 : (TrimSpace s).dropWhile isSpace = TrimSpace s := by
    cases hT : TrimSpace s with
    | nil => rfl
    | cons x rest =>
      have := TrimSpace_head s x rest hT
      rw [List.dropWhile_cons_of_neg (by simp [this])]
  rw [TrimSpace_eq (TrimSpace s), h1, TrimSpace_eq s, List.rdropWhile_idempotent]

theorem replaceNL_crlfOnly : ∀ content : Str, crlfOnly (replaceNL [13, 10] content) := by
  intro content
  induction content with
  | nil =>
    intro pre post h
    simp [replaceNL] at h
  | cons x c ih =>
    intro pre post h
    unfold replaceNL at h
    by_cases hx : x = 10
    · rw [if_pos hx] at h
      cases pre with
      | nil => simp at h
      | cons a pre2 =>
        cases pre2 with
        | nil =>
          simp at h
          exact ⟨[], by simp [h.1]⟩
        | cons b pre3 =>
          simp at h
          obtain ⟨pre1, hp⟩ := ih pre3 post h.2.2
          exact ⟨a :: b :: pre1, by simp [hp]⟩
    · rw [if_neg hx] at h
      cases pre with
      | nil =>
        simp at h
        exact absurd h.1 hx
      | cons a pre2 =>
        simp at h
        obtain ⟨pre1, hp⟩ := ih pre2 post h.2
        exact ⟨a :: pre1, by simp [hp]⟩

theorem TrimSpace_crlfOnly (s : Str) (h : crlfOnly s) : crlfOnly (TrimSpace s) := by
  intro pre post hT
  have hp : TrimSpace s <+: s.dropWhile isSpace := by
    rw [TrimSpace_eq]
    exact List.rdropWhile_prefix isSpace _
  obtain ⟨b, hb⟩ := hp
  obtain ⟨a, ha⟩ := List.dropWhile_suffix (l := s) isSpace
  have hs : s = (a ++ pre) ++ 10 :: (post ++ b) := by
    rw [← ha, ← hb, hT]
    simp
  obtain ⟨pre1, hp1⟩ := h _ _ hs
  cases hpre : pre.reverse with
  | nil =>
    have hnil : pre = [] := by simpa using hpre
    rw [hnil] at hT
    have := TrimSpace_head s 10 post (by simpa using hT)
    simp [isSpace] at this
  | cons z pre0 =>
    have hpz : pre = pre0.reverse ++ [z] := by
      have := congrArg List.reverse hpre
      simpa using this
    rw [hpz, ← List.append_assoc] at hp1
    have := List.append_inj_right' hp1 rfl
    have hz : z = 13 := by simpa using this
    exact ⟨pre0.reverse, by rw [hpz, hz]⟩

/-- C5.  The string returned by `Parse` equals its own `TrimSpace`, and when the end of line
is configured as carriage return plus line feed, every line feed of the returned string
stands right after a carriage return. -/
theorem C5_output_trimmed (L : Lib) (self : parser) (text : Str) (hU : L.unescapeOk)
    (hQ : self.quotesOk) :
    ∃ out errs final, Parse L self text = some ((out, errs), final) ∧ TrimSpace out = out ∧
      (self.nl = [13, 10] →
        ∀ pre post : Str, out = pre ++ 10 :: post → ∃ pre1 : Str, pre = pre1 ++ [13]) := by
  obtain ⟨content, q, e, σ, k, h, _⟩ := Parse_ok L hU self hQ text
  refine ⟨_, _, _, h, TrimSpace_idem _, ?_⟩
  intro hnl
  rw [hnl]
  exact TrimSpace_crlfOnly _ (replaceNL_crlfOnly content)

theorem C5_output_trimmed_witness :
    goLib.unescapeOk ∧ (qvx.CfgSetEOL [13, 10]).quotesOk ∧
    ∃ out errs final,
      Parse goLib (qvx.CfgSetEOL [13, 10]) (runes " текст\n\nтекст \n") =
        some ((out, errs), final) ∧ TrimSpace out = out ∧
      ((qvx.CfgSetEOL [13, 10]).nl = [13, 10] →
        ∀ pre post : Str, out = pre ++ 10 :: post → ∃ pre1 : Str, pre = pre1 ++ [13]) :=
  ⟨goLib_unescapeOk, quotesOk_of_eq _ (by decide!),
    C5_output_trimmed goLib (qvx.CfgSetEOL [13, 10]) (runes " текст\n\nтекст \n")
      goLib_unescapeOk (quotesOk_of_eq _ (by decide!))⟩

/-- C6.  The function `makeTag` returns the empty string, and the parser unchanged, for every
tag whose lower-cased name is registered as cut with content, whatever the attribute
map, the content, the short flag, the parent and the allowed set; and under the test
configuration the `script` example of the test suite parses to two words with one blank
between them. -/
theorem C6_cut_with_content :
    (∀ (L : Lib) (self : parser) (tagName : Str) (tagParams : GoMap Str Str)
        (tagContent : Str) (shortTag : Bool) (parentTag : Str),
        mapHas self.tagCutWithContent (L.toLower tagName) = true →
        self.makeTag L tagName tagParams tagContent shortTag parentTag = ([], self)) ∧
    parseOut goLib qvx (runes "текст <script>текст</script> текст") =
      some (runes "текст текст", []) := by
  constructor
  · intro L self tagName tagParams tagContent shortTag parentTag h
    unfold parser.makeTag
    simp only [h, if_true]
  · decide!

theorem C6_cut_with_content_witness :
    mapHas qvx.tagCutWithContent (goLib.toLower (runes "SCRIPT")) = true ∧
    mapHas qvx.tagAllowed (goLib.toLower (runes "SCRIPT")) = false ∧
    qvx.makeTag goLib (runes "SCRIPT") [(runes "src", runes "x")] (runes "alert(1)") false [] =
      ([], qvx) :=
  ⟨by decide!, by decide!,
    C6_cut_with_content.1 goLib qvx (runes "SCRIPT") [(runes "src", runes "x")]
      (runes "alert(1)") false [] (by decide!)⟩

/-- C7.  For a tag name that is neither cut with content nor allowed, `makeTag` returns the
content of the tag when the parent is not parent-only and the empty string when it is;
under the test configuration the tag `s`, which is not allowed, is stripped inside `u`
and its text is kept. -/
theorem C7_tag_not_allowed :
    (∀ (L : Lib) (self : parser) (tagName : Str) (tagParams : GoMap Str Str)
        (tagContent : Str) (shortTag : Bool) (parentTag : Str),
        mapHas self.tagCutWithContent (L.toLower tagName) = false →
        mapHas self.tagAllowed (L.toLower tagName) = false →
        self.makeTag L tagName tagParams tagContent shortTag parentTag =
          (if mapHas self.tagParentOnly parentTag = true then [] else tagContent, self)) ∧
    parseOut goLib qvx (runes "<u>текст <s>текст</s> текст</u>") =
      some (runes "<u>текст текст текст</u>", []) := by
  constructor
  · intro L self tagName tagParams tagContent shortTag parentTag h1 h2
    unfold parser.makeTag
    simp only [h1, h2, Bool.false_eq_true, if_false, not_false_eq_true, if_true]
    split_ifs <;> rfl
  · decide!

theorem C7_tag_not_allowed_witness :
    mapHas qvx.tagCutWithContent (goLib.toLower (runes "s")) = false ∧
    mapHas qvx.tagAllowed (goLib.toLower (runes "s")) = false ∧
    qvx.makeTag goLib (runes "s") [] (runes "текст") false (runes "u") =
      (if mapHas qvx.tagParentOnly (runes "u") = true then [] else runes "текст", qvx) ∧
    qvx.makeTag goLib (runes "s") [] (runes "текст") false (runes "ul") =
      (if mapHas qvx.tagParentOnly (runes "ul") = true then [] else runes "текст", qvx) :=
  ⟨by decide!, by decide!,
    C7_tag_not_allowed.1 goLib qvx (runes "s") [] (runes "текст") false (runes "u")
      (by decide!) (by decide!),
    C7_tag_not_allowed.1 goLib qvx (runes "s") [] (runes "текст") false (runes "ul")
      (by decide!) (by decide!)⟩

/-! ## The schemas of a parameter value -/

theorem containsStr_cons_ne (a : Rune) (sub : Str) (c : Rune) (s : Str) (h : c ≠ a) :
    containsStr (a :: sub) (c :: s) = containsStr (a :: sub) s := by
  rw [containsStr]
  have : (a :: sub).isPrefixOf (c :: s) = false := by
    simp [List.isPrefixOf, Ne.symm h]
  rw [this, Bool.false_or]

theorem containsStr_false_head (a : Rune) (sub : Str) (s : Str)
    (h : containsStr (a :: sub) s = false) : (a :: sub).isPrefixOf s = false := by
  cases s with
  | nil => rfl
  | cons c rest =>
    rw [containsStr] at h
    simp only [Bool.or_eq_false_iff] at h
    exact h.1

theorem javascript_cons : runes "javascript:" = 106 :: runes "avascript:" := by decide

theorem http_cons : runes "http://" = [104, 116, 116, 112, 58, 47, 47] := by decide

/-- Putting `http://` in front of a value does not create the text `javascript:`. -/
theorem containsStr_http (value : Str) :
    containsStr (runes "javascript:") (runes "http://" ++ value) =
      containsStr (runes "javascript:") value := by
  rw [javascript_cons, http_cons]
  simp only [List.cons_append, List.nil_append]
  rw [containsStr_cons_ne _ _ _ _ (by decide), containsStr_cons_ne _ _ _ _ (by decide),
    containsStr_cons_ne _ _ _ _ (by decide), containsStr_cons_ne _ _ _ _ (by decide),
    containsStr_cons_ne _ _ _ _ (by decide), containsStr_cons_ne _ _ _ _ (by decide),
    containsStr_cons_ne _ _ _ _ (by decide)]

/-- The loop over the schema list `[#link]`, unfolded. -/
theorem checkParamValue_link (L : Lib) (self : parser) (value : Str) :
    checkParamValue L self [runes "#link"] value =
      if matchJavascript value = true then none
      else if ¬ matchLinkStart value = true then none
      else if ¬ matchProtocols L self.linkProtocolAllow value = true then
        if ¬ matchSlashHash value = true then some (runes "http://" ++ value) else some value
      else some value := by
  have h1 : ¬ (runes "#link" = runes "#str") := by decide
  have h2 : ¬ (runes "#link" = runes "#int") := by decide
  rw [checkParamValue]
  simp only [h1, h2, if_false, if_true, checkParamValue]

/-- The loop over the schema list `[#int]`, unfolded. -/
theorem checkParamValue_int (L : Lib) (self : parser) (value : Str) :
    checkParamValue L self [runes "#int"] value =
      if matchInt value = true then none else some value := by
  have h1 : ¬ (runes "#int" = runes "#str") := by decide
  rw [checkParamValue]
  simp only [h1, if_false, if_true, checkParamValue]

theorem link_clean (L : Lib) (self : parser) (value v : Str)
    (h : checkParamValue L self [runes "#link"] value = some v) :
    containsStr (runes "javascript:") v = false := by
  rw [checkParamValue_link] at h
  have hj : matchJavascript value = false := by
    by_contra hc
    rw [if_pos (by simpa using hc)] at h
    cases h
  have hv : v = value ∨ v = runes "http://" ++ value := by
    rw [if_neg (by simp [hj])] at h
    split_ifs at h <;> cases h <;> simp
  rcases hv with hv | hv
  · rw [hv]
    exact hj
  · rw [hv, containsStr_http]
    exact hj

theorem mem_mapSet {κ ν : Type} [DecidableEq κ] : ∀ (m : GoMap κ ν) (k : κ) (v : ν)
    (pv : κ × ν), pv ∈ mapSet m k v → pv ∈ m ∨ pv = (k, v) := by
  intro m
  induction m with
  | nil =>
    intro k v pv h
    simp [mapSet] at h
    exact Or.inr h
  | cons kv rest ih =>
    intro k v pv h
    obtain ⟨k1, v1⟩ := kv
    unfold mapSet at h
    by_cases hk : k1 = k
    · rw [if_pos hk] at h
      rcases List.mem_cons.mp h with hh | hh
      · exact Or.inr hh
      · exact Or.inl (List.mem_cons_of_mem _ hh)
    · rw [if_neg hk] at h
      rcases List.mem_cons.mp h with hh | hh
      · exact Or.inl (by rw [hh]; exact List.mem_cons_self _ _)
      · rcases ih k v pv hh with h2 | h2
        · exact Or.inl (List.mem_cons_of_mem _ h2)
        · exact Or.inr h2

/-- Every value that the parameter loop of `makeTag` keeps under the schema list `[#link]`
is free of the text `javascript:`. -/
theorem makeTagParams_link (L : Lib) (tagName : Str)
    (A : GoMap Str (GoMap Str (List Str))) : ∀ (params : List (Str × Str))
    (res : GoMap Str Str) (self : parser), self.tagParamAllowed = A →
    (∀ pv ∈ res, mapGet2 A tagName pv.1 = some [runes "#link"] →
      containsStr (runes "javascript:") pv.2 = false) →
    ∀ pv ∈ (makeTagParams L tagName params res self).1,
      mapGet2 A tagName pv.1 = some [runes "#link"] →
      containsStr (runes "javascript:") pv.2 = false := by
  intro params
  induction params with
  | nil =>
    intro res self _ hres pv hpv
    exact hres pv hpv
  | cons pv0 rest ih =>
    intro res self hA hres
    obtain ⟨param0, value0⟩ := pv0
    unfold makeTagParams
    simp only []
    split
    · exact ih res self hA hres
    · split
      · exact ih res self hA hres
      · rename_i pavs hpavs
        split
        · exact ih res _ hA hres
        · rename_i v1 hv1
          apply ih _ self hA
          intro pv hpv hsch
          rcases mem_mapSet _ _ _ _ hpv with hh | hh
          · exact hres pv hh hsch
          · rw [hh] at hsch ⊢
            rw [hA, hsch] at hpavs
            cases hpavs
            exact link_clean L self _ v1 hv1

/-- C8.  A value kept by the schema list `[#link]` never contains, and never begins with,
the text `javascript:`; a value that contains it is refused; every value that the
parameter loop of `makeTag` stores for a parameter with that schema list is free of it;
the loop records an invalid-value error for a refused value and stores nothing; and with
`href` required the anchor of the test suite is stripped and its content kept. -/
theorem C8_link_never_javascript :
    (∀ (L : Lib) (self : parser) (value v : Str),
      checkParamValue L self [runes "#link"] value = some v →
      containsStr (runes "javascript:") v = false ∧
      (runes "javascript:").isPrefixOf v = false) ∧
    (∀ (L : Lib) (self : parser) (value : Str), matchJavascript value = true →
      checkParamValue L self [runes "#link"] value = none) ∧
    (∀ (L : Lib) (self : parser) (tagName : Str) (params : GoMap Str Str) (param v : Str),
      (param, v) ∈ (makeTagParams L tagName params [] self).1 →
      mapGet2 self.tagParamAllowed tagName param = some [runes "#link"] →
      containsStr (runes "javascript:") v = false) ∧
    (∀ (L : Lib) (self : parser) (tagName param0 value0 : Str) (rest : List (Str × Str))
      (res : GoMap Str Str),
      mapGet2 self.tagParamAllowed tagName (L.toLower param0) = some [runes "#link"] →
      matchJavascript (TrimSpace value0) = true →
      makeTagParams L tagName ((param0, value0) :: rest) res self =
        makeTagParams L tagName rest res
          (self.setError (runes "Недопустимое значение \x27" ++ TrimSpace value0 ++
            runes "\x27 для атрибута \x27" ++ L.toLower param0 ++ runes "\x27 тега \x27" ++
            tagName ++ runes "\x27"))) ∧
    parseOut goLib qvx (runes "текст <a href=\"javascript:alert(1)\">текст</a> текст") =
      some (runes "текст текст текст",
        [runes "Недопустимое значение \x27javascript:alert(1)\x27 для атрибута \x27href\x27 тега \x27a\x27"]) := by
  refine ⟨?_, ?_, ?_, ?_, ?_⟩
  · intro L self value v h
    have hc := link_clean L self value v h
    refine ⟨hc, ?_⟩
    rw [javascript_cons] at hc ⊢
    exact containsStr_false_head _ _ _ hc
  · intro L self value h
    rw [checkParamValue_link, if_pos h]
  · intro L self tagName params param v hmem hsch
    exact makeTagParams_link L tagName self.tagParamAllowed params [] self rfl
      (fun pv hpv => by cases hpv) (param, v) hmem hsch
  · intro L self tagName param0 value0 rest res hsch hjs
    have hne : TrimSpace value0 ≠ [] := by
      intro h0
      rw [h0] at hjs
      revert hjs
      decide
    rw [makeTagParams]
    simp only [hne, if_false, hsch, checkParamValue_link, hjs, if_true]
  · decide!

theorem C8_link_never_javascript_witness :
    checkParamValue goLib qvx [runes "#link"] (runes "x.ru/javascript") =
      some (runes "http://x.ru/javascript") ∧
    containsStr (runes "javascript:") (runes "http://x.ru/javascript") = false ∧
    (runes "javascript:").isPrefixOf (runes "http://x.ru/javascript") = false ∧
    matchJavascript (runes "javascript:alert(1)") = true ∧
    checkParamValue goLib qvx [runes "#link"] (runes "javascript:alert(1)") = none :=
  ⟨by decide!,
    (C8_link_never_javascript.1 goLib qvx (runes "x.ru/javascript")
      (runes "http://x.ru/javascript") (by decide!)).1,
    (C8_link_never_javascript.1 goLib qvx (runes "x.ru/javascript")
      (runes "http://x.ru/javascript") (by decide!)).2,
    by decide!,
    C8_link_never_javascript.2.1 goLib qvx (runes "javascript:alert(1)") (by decide!)⟩

/-- C10 (code defect).  Under the schema list `[#int]` the code refuses exactly the values made
of digits and keeps every other value: the loop returns nothing when the value matches
the digits pattern and the value itself otherwise; under the test configuration
`width="100"` is dropped from `img` with an invalid-value error and `width="abc"` is
kept. -/
theorem C10_int_schema_inverted :
    (∀ (L : Lib) (self : parser) (value : Str),
      checkParamValue L self [runes "#int"] value =
        if matchInt value = true then none else some value) ∧
    parseOut goLib qvx (runes "<img src=\"a.png\" width=\"100\">") =
      some (runes "<img src=\"a.png\" alt=\"\">",
        [runes "Недопустимое значение \x27100\x27 для атрибута \x27width\x27 тега \x27img\x27"]) ∧
    parseOut goLib qvx (runes "<img src=\"a.png\" width=\"abc\">") =
      some (runes "<img src=\"a.png\" alt=\"\" width=\"abc\">", []) := by
  refine ⟨checkParamValue_int, ?_, ?_⟩
  · decide!
  · decide!

theorem linkStart_not_colon (value : Str) (h : matchLinkStart value = true) :
    (runes "://").isPrefixOf value = false := by
  cases value with
  | nil => rfl
  | cons c rest =>
    have hc : c ≠ 58 := by
      intro h0
      rw [h0] at h
      simp [matchLinkStart] at h
    have e : runes "://" = 58 :: runes "//" := by decide
    rw [e]
    simp [List.isPrefixOf, Ne.symm hc]

/-- With plain alphanumeric protocol names, a value admitted by the first-character test
matches the protocol pattern exactly when it starts with an allowed protocol and `://`. -/
theorem matchProtocols_iff (L : Lib) (protocols : List Str) (value : Str)
    (hp : protocols.all (fun p => p.all isAlnum) = true)
    (hs : matchLinkStart value = true) :
    matchProtocols L protocols value = true ↔
      ∃ p ∈ protocols, (p ++ runes "://").isPrefixOf value = true := by
  unfold matchProtocols
  rw [if_pos hp]
  cases protocols with
  | nil =>
    simp only [List.isEmpty_nil, if_true, List.any_cons, List.any_nil, Bool.or_false,
      List.nil_append, linkStart_not_colon value hs, Bool.false_eq_true, List.not_mem_nil,
      false_and, exists_false]
  | cons a rest =>
    simp only [List.isEmpty_cons, Bool.false_eq_true, if_false, List.any_eq_true]

theorem http_isPrefixOf (value : Str) :
    (runes "http" ++ runes "://").isPrefixOf (runes "http://" ++ value) = true := by
  have e : runes "http" ++ runes "://" = runes "http://" := by decide
  rw [e, List.isPrefixOf_iff_prefix]
  exact List.prefix_append _ _

/-- C9.  With allowed protocols that are plain alphanumeric names, a value accepted by the
schema list `[#link]` is kept unchanged when it starts with a slash, a hash sign or an
allowed protocol followed by `://`, is kept as `http://` followed by the value otherwise,
and the kept value starts with a slash, a hash sign, or `p://` for an allowed protocol
`p` or `p = http`. -/
theorem C9_link_value_kept (L : Lib) (self : parser) (value v : Str)
    (hp : self.linkProtocolAllow.all (fun p => p.all isAlnum) = true)
    (h : checkParamValue L self [runes "#link"] value = some v) :
    ((value.head? = some 47 ∨ value.head? = some 35 ∨
        ∃ p ∈ self.linkProtocolAllow, (p ++ runes "://").isPrefixOf value = true) →
      v = value) ∧
    (¬ (value.head? = some 47 ∨ value.head? = some 35 ∨
        ∃ p ∈ self.linkProtocolAllow, (p ++ runes "://").isPrefixOf value = true) →
      v = runes "http://" ++ value) ∧
    (v.head? = some 47 ∨ v.head? = some 35 ∨
      ∃ p ∈ runes "http" :: self.linkProtocolAllow, (p ++ runes "://").isPrefixOf v = true) := by
  rw [checkParamValue_link] at h
  have hj : ¬ matchJavascript value = true := by
    intro hc
    rw [if_pos hc] at h
    cases h
  rw [if_neg hj] at h
  have hs : matchLinkStart value = true := by
    by_contra hc
    rw [if_pos hc] at h
    cases h
  rw [if_neg (not_not.mpr hs)] at h
  have hsl : matchSlashHash value = true ↔ (value.head? = some 47 ∨ value.head? = some 35) := by
    cases value with
    | nil => simp [matchSlashHash]
    | cons c rest => simp [matchSlashHash]
  have hpr := matchProtocols_iff L self.linkProtocolAllow value hp hs
  by_cases h1 : matchProtocols L self.linkProtocolAllow value = true
  · rw [if_neg (not_not.mpr h1)] at h
    cases h
    have h2 := hpr.mp h1
    refine ⟨fun _ => rfl, fun hn => absurd (Or.inr (Or.inr h2)) hn, Or.inr (Or.inr ?_)⟩
    obtain ⟨p, hp1, hp2⟩ := h2
    exact ⟨p, List.mem_cons_of_mem _ hp1, hp2⟩
  · rw [if_pos h1] at h
    have h2 : ¬ ∃ p ∈ self.linkProtocolAllow, (p ++ runes "://").isPrefixOf value = true :=
      fun hc => h1 (hpr.mpr hc)
    by_cases h3 : matchSlashHash value = true
    · rw [if_neg (not_not.mpr h3)] at h
      cases h
      have h4 := hsl.mp h3
      refine ⟨fun _ => rfl, fun hn => absurd ?_ hn, ?_⟩
      · rcases h4 with h4 | h4
        · exact Or.inl h4
        · exact Or.inr (Or.inl h4)
      · rcases h4 with h4 | h4
        · exact Or.inl h4
        · exact Or.inr (Or.inl h4)
    · rw [if_pos h3] at h
      cases h
      have h4 : ¬ (value.head? = some 47 ∨ value.head? = some 35) := fun hc => h3 (hsl.mpr hc)
      refine ⟨fun hy => ?_, fun _ => rfl, Or.inr (Or.inr ?_)⟩
      · rcases hy with hy | hy | hy
        · exact absurd (Or.inl hy) h4
        · exact absurd (Or.inr hy) h4
        · exact absurd hy h2
      · exact ⟨runes "http", List.mem_cons_self _ _, http_isPrefixOf value⟩

theorem C9_link_value_kept_witness :
    (qvx.linkProtocolAllow.all (fun p => p.all isAlnum) = true ∧
      checkParamValue goLib qvx [runes "#link"] (runes "dighub.ru") =
        some (runes "http://dighub.ru")) ∧
    (¬ ((runes "dighub.ru").head? = some 47 ∨ (runes "dighub.ru").head? = some 35 ∨
        ∃ p ∈ qvx.linkProtocolAllow, (p ++ runes "://").isPrefixOf (runes "dighub.ru") = true) →
      runes "http://dighub.ru" = runes "http://" ++ runes "dighub.ru") ∧
    ((runes "http://dighub.ru").head? = some 47 ∨ (runes "http://dighub.ru").head? = some 35 ∨
      ∃ p ∈ runes "http" :: qvx.linkProtocolAllow,
        (p ++ runes "://").isPrefixOf (runes "http://dighub.ru") = true) :=
  ⟨⟨by decide!, by decide!⟩,
    (C9_link_value_kept goLib qvx (runes "dighub.ru") (runes "http://dighub.ru")
      (by decide!) (by decide!)).2⟩

/-! ## Evaluations of the parser -/

/-- C2 (code defect).  With no allowed tag, no callback and auto-br off, the input
`http://a.ru/>x` is taken whole as a link by `matchURL`, the tag `a` is not allowed, and
`Parse` returns the text of the link unescaped: the output holds the rune `>`. -/
theorem C2_output_holds_gt :
    parseOut goLib textOnly (runes "http://a.ru/>x") = some (runes "http://a.ru/>x", []) ∧
    (62 : Rune) ∈ runes "http://a.ru/>x" := by
  decide!

/-! # The policy of `makeTag`, preformatted content and mismatched close tags -/

/-! ## Lookups in the maps -/

theorem mapGet_mapSet_eq {κ ν : Type} [DecidableEq κ] (m : GoMap κ ν) (k : κ) (v : ν) :
    mapGet (mapSet m k v) k = some v := by
  induction m with
  | nil => simp [mapSet, mapGet]
  | cons kv rest ih =>
    obtain ⟨k1, v1⟩ := kv
    unfold mapSet
    by_cases hk : k1 = k
    · rw [if_pos hk]
      simp [mapGet]
    · rw [if_neg hk]
      simp [mapGet, hk, ih]

theorem mapGet_mapSet_ne {κ ν : Type} [DecidableEq κ] (m : GoMap κ ν) (k j : κ) (v : ν)
    (h : k ≠ j) : mapGet (mapSet m k v) j = mapGet m j := by
  induction m with
  | nil => simp [mapSet, mapGet, h]
  | cons kv rest ih =>
    obtain ⟨k1, v1⟩ := kv
    unfold mapSet
    by_cases hk : k1 = k
    · rw [if_pos hk]
      subst hk
      simp [mapGet, h]
    · rw [if_neg hk]
      by_cases hj : k1 = j
      · simp [mapGet, hj]
      · simp [mapGet, hj, ih]

theorem mapGet_mem {κ ν : Type} [DecidableEq κ] (m : GoMap κ ν) (k : κ) (v : ν)
    (h : mapGet m k = some v) : (k, v) ∈ m := by
  induction m with
  | nil => simp [mapGet] at h
  | cons kv rest ih =>
    obtain ⟨k1, v1⟩ := kv
    unfold mapGet at h
    by_cases hk : k1 = k
    · rw [if_pos hk] at h
      cases h
      subst hk
      exact List.mem_cons_self _ _
    · rw [if_neg hk] at h
      exact List.mem_cons_of_mem _ (ih h)

theorem mapGet_none {κ ν : Type} [DecidableEq κ] (m : GoMap κ ν) (k : κ)
    (h : mapGet m k = none) : ∀ kv ∈ m, kv.1 ≠ k := by
  induction m with
  | nil => intro kv hkv; cases hkv
  | cons kv0 rest ih =>
    obtain ⟨k1, v1⟩ := kv0
    unfold mapGet at h
    by_cases hk : k1 = k
    · rw [if_pos hk] at h
      cases h
    · rw [if_neg hk] at h
      intro kv hkv
      rcases List.mem_cons.mp hkv with hh | hh
      · rw [hh]
        exact hk
      · exact ih h kv hh

theorem mapHas_eq_false {κ ν : Type} [DecidableEq κ] (m : GoMap κ ν) (k : κ) :
    mapHas m k = false ↔ mapGet m k = none := by
  unfold mapHas
  cases mapGet m k <;> simp

theorem mapHas_eq_true {κ ν : Type} [DecidableEq κ] (m : GoMap κ ν) (k : κ) :
    mapHas m k = true ↔ ∃ v, mapGet m k = some v := by
  unfold mapHas
  cases mapGet m k <;> simp

/-! ## Defaults and review values -/

theorem addReview_absent : ∀ (rv : List (Str × Str)) (res : GoMap Str Str) (p : Str),
    (∀ kv ∈ rv, kv.1 ≠ p) → mapGet (addReview rv res) p = mapGet res p := by
  intro rv
  induction rv with
  | nil => intro res p _; rfl
  | cons kv rest ih =>
    intro res p h
    obtain ⟨a, v⟩ := kv
    unfold addReview
    rw [ih _ p (fun kv hkv => h kv (List.mem_cons_of_mem _ hkv))]
    exact mapGet_mapSet_ne res a p v (h (a, v) (List.mem_cons_self _ _))

theorem addReview_present : ∀ (rv : List (Str × Str)) (res : GoMap Str Str) (p r : Str),
    (rv.map Prod.fst).Nodup → (p, r) ∈ rv → mapGet (addReview rv res) p = some r := by
  intro rv
  induction rv with
  | nil => intro res p r _ h; cases h
  | cons kv rest ih =>
    intro res p r hn h
    obtain ⟨a, v⟩ := kv
    unfold addReview
    rw [List.map_cons, List.nodup_cons] at hn
    rcases List.mem_cons.mp h with hh | hh
    · cases hh
      rw [addReview_absent rest _ p (fun kv hkv heq => hn.1
        (List.mem_map.mpr ⟨kv, hkv, heq⟩))]
      exact mapGet_mapSet_eq res p r
    · exact ih _ p r hn.2 hh

theorem addDefaults_get : ∀ (df : List (Str × Str)) (res : GoMap Str Str) (p : Str),
    mapGet (addDefaults df res) p =
      match mapGet res p with
      | some v => some v
      | none => mapGet df p := by
  intro df
  induction df with
  | nil =>
    intro res p
    unfold addDefaults
    cases mapGet res p <;> rfl
  | cons kv rest ih =>
    intro res p
    obtain ⟨a, v⟩ := kv
    unfold addDefaults
    rw [ih]
    by_cases hp : a = p
    · subst hp
      by_cases hh : mapHas res a = true
      · rw [if_pos hh]
        obtain ⟨x, hx⟩ := (mapHas_eq_true res a).mp hh
        rw [hx]
      · rw [if_neg hh, mapGet_mapSet_eq]
        have := (mapHas_eq_false res a).mp (by simpa using hh)
        rw [this]
        simp [mapGet]
    · have hget : mapGet (if mapHas res a = true then res else mapSet res a v) p = mapGet res p := by
        split_ifs
        · rfl
        · exact mapGet_mapSet_ne res a p v hp
      rw [hget]
      cases mapGet res p with
      | some x => rfl
      | none => simp [mapGet, hp]

/-! ## The tests of `makeTag` in their order -/

theorem makeTagParams_fields (L : Lib) (tn : Str) (params : List (Str × Str))
    (res : GoMap Str Str) (self : parser) :
    (makeTagParams L tn params res self).2.tagParamRequired = self.tagParamRequired ∧
    (makeTagParams L tn params res self).2.tagParamDefault = self.tagParamDefault ∧
    (makeTagParams L tn params res self).2.tagParamReview = self.tagParamReview ∧
    (makeTagParams L tn params res self).2.tagEmpty = self.tagEmpty ∧
    (makeTagParams L tn params res self).2.tagBuildCallback = self.tagBuildCallback ∧
    (∀ a b c d e, (makeTagParams L tn params res self).2.buildTag a b c d e =
      self.buildTag a b c d e) := by
  obtain ⟨e1, he⟩ := makeTagParams_state L tn params res self
  rw [he]
  exact ⟨rfl, rfl, rfl, rfl, rfl, fun _ _ _ _ _ => rfl⟩

/-- The value of `makeTag` for a tag that passes the tests on its name and its parent. -/
theorem makeTag_admitted (L : Lib) (self : parser) (tagName0 : Str) (tagParams : GoMap Str Str)
    (tagContent : Str) (shortTag : Bool) (parentTag : Str)
    (h : self.admits (L.toLower tagName0) parentTag) :
    (self.makeTag L tagName0 tagParams tagContent shortTag parentTag).1 =
      if missingRequired ((mapGet self.tagParamRequired (L.toLower tagName0)).getD [])
          (makeTagParams L (L.toLower tagName0) (self.ranged L tagParams) [] self).1 = true then tagContent
      else if mapHas self.tagEmpty (L.toLower tagName0) = false ∧ shortTag = false ∧
          tagContent = [] then []
      else
        match mapGet self.tagBuildCallback (L.toLower tagName0) with
        | some cb => cb (L.toLower tagName0)
            (self.finalParams L (L.toLower tagName0) tagParams) tagContent
        | none => self.buildTag (L.toLower tagName0)
            (self.finalParams L (L.toLower tagName0) tagParams) tagContent shortTag
            parentTag := by
  obtain ⟨h1, h2, h3, h4, h5⟩ := h
  obtain ⟨f1, f2, f3, f4, f5, f6⟩ :=
    makeTagParams_fields L (L.toLower tagName0) (self.ranged L tagParams) [] self
  unfold parser.makeTag parser.finalParams
  simp only [h1, h2, h3, h4, h5, f1, f2, f3, f4, f5, f6, Bool.false_eq_true, if_false,
    not_true_eq_false, not_false_eq_true]
  by_cases hm : missingRequired ((mapGet self.tagParamRequired (L.toLower tagName0)).getD [])
      (makeTagParams L (L.toLower tagName0) (self.ranged L tagParams) [] self).1 = true
  · simp only [hm, if_true]
  · simp only [hm, Bool.false_eq_true, if_false]
    by_cases he : mapHas self.tagEmpty (L.toLower tagName0) = false ∧ shortTag = false ∧
        tagContent = []
    · rw [if_pos he, if_pos (by simpa using he)]
    · rw [if_neg he, if_neg (by simpa using he)]
      cases mapGet self.tagBuildCallback (L.toLower tagName0) <;> rfl

theorem mapGet2_eq {ν : Type} (m : GoMap Str (GoMap Str ν)) (a b : Str) :
    mapGet2 m a b = mapGet ((mapGet m a).getD []) b := by
  unfold mapGet2
  cases mapGet m a <;> rfl

theorem missingRequired_of (required : GoMap Str Bool) (res : GoMap Str Str) (param : Str)
    (hreq : mapHas required param = true) (habs : mapHas res param = false) :
    missingRequired required res = true := by
  obtain ⟨v, hv⟩ := (mapHas_eq_true required param).mp hreq
  unfold missingRequired
  rw [List.any_eq_true]
  exact ⟨(param, v), mapGet_mem required param v hv, by simp [habs]⟩

/-- C11.  For an allowed tag that passes the tests on its name and its parent, when a
parameter registered as required for the tag is absent from the validated parameters,
`makeTag` returns the content of the tag as it is; the test reads the validated
parameters, before the defaults and the review values are merged, so a tag whose required
`href` has both a default and a review value still loses its markup when the input gives
no `href`, and keeps it (with the review value) when the input gives one. -/
theorem C11_required_missing :
    (∀ (L : Lib) (self : parser) (tagName : Str) (tagParams : GoMap Str Str)
        (tagContent : Str) (shortTag : Bool) (parentTag param : Str),
        self.admits (L.toLower tagName) parentTag →
        mapHas ((mapGet self.tagParamRequired (L.toLower tagName)).getD []) param = true →
        mapHas (makeTagParams L (L.toLower tagName) (self.ranged L tagParams) [] self).1 param = false →
        (self.makeTag L tagName tagParams tagContent shortTag parentTag).1 = tagContent) ∧
    mapGet2 requiredWithDefault.tagParamDefault (runes "a") (runes "href") = some (runes "/x") ∧
    mapGet2 requiredWithDefault.tagParamReview (runes "a") (runes "href") = some (runes "/x") ∧
    parseOut goLib requiredWithDefault (runes "<a>t</a>") = some (runes "t", []) ∧
    parseOut goLib requiredWithDefault (runes "<a href=\"/y\">t</a>") =
      some (runes "<a href=\"/x\">t</a>", []) := by
  refine ⟨?_, by decide!, by decide!, by decide!, by decide!⟩
  intro L self tagName tagParams tagContent shortTag parentTag param h hreq habs
  rw [makeTag_admitted L self tagName tagParams tagContent shortTag parentTag h,
    if_pos (missingRequired_of _ _ param hreq habs)]

theorem C11_required_missing_witness :
    (qvx.makeTag goLib (runes "A") [(runes "title", runes "t")] (runes "x") false []).1 =
      runes "x" :=
  C11_required_missing.1 goLib qvx (runes "A") [(runes "title", runes "t")] (runes "x") false
    [] (runes "href") (by unfold parser.admits; decide!) (by decide!) (by decide!)

/-! ## The final attribute map -/

theorem finalParams_review (L : Lib) (self : parser) (tn : Str) (tagParams : GoMap Str Str)
    (p r : Str)
    (hn : (((mapGet self.tagParamReview tn).getD []).map Prod.fst).Nodup)
    (hr : mapGet2 self.tagParamReview tn p = some r) :
    mapGet (self.finalParams L tn tagParams) p = some r := by
  rw [mapGet2_eq] at hr
  unfold parser.finalParams
  exact addReview_present _ _ p r hn (mapGet_mem _ p r hr)

theorem finalParams_default (L : Lib) (self : parser) (tn : Str) (tagParams : GoMap Str Str)
    (p d : Str) (hr : mapGet2 self.tagParamReview tn p = none)
    (hd : mapGet2 self.tagParamDefault tn p = some d) :
    mapGet (self.finalParams L tn tagParams) p =
      some ((mapGet (makeTagParams L tn (self.ranged L tagParams) [] self).1 p).getD d) := by
  rw [mapGet2_eq] at hr hd
  unfold parser.finalParams
  rw [addReview_absent _ _ p (mapGet_none _ p hr), addDefaults_get, hd]
  cases mapGet (makeTagParams L tn (self.ranged L tagParams) [] self).1 p <;> rfl

theorem buildParams_infix (res : GoMap Str Str) (p v : Str) (hv : mapGet res p = some v) :
    ∀ sorted : List Str, p ∈ sorted → attrText p v <:+: buildParams res sorted := by
  intro sorted
  induction sorted with
  | nil => intro h; cases h
  | cons a rest ih =>
    intro h
    unfold buildParams
    rcases List.mem_cons.mp h with hh | hh
    · subst hh
      rw [hv]
      exact (List.prefix_append _ _).isInfix
    · exact (ih hh).trans (List.suffix_append _ _).isInfix

theorem buildTag_infix (self : parser) (tn : Str) (res : GoMap Str Str) (content : Str)
    (short : Bool) (parent p v : Str) (hv : mapGet res p = some v)
    (hp : p ∈ (mapGet self.tagParamSorted tn).getD []) :
    attrText p v <:+: self.buildTag tn res content short parent := by
  have h1 := buildParams_infix res p v hv _ hp
  unfold parser.buildTag
  refine List.IsInfix.trans ?_ (List.prefix_append _ _).isInfix
  refine List.IsInfix.trans ?_ (List.prefix_append _ _).isInfix
  refine List.IsInfix.trans ?_ (List.prefix_append _ _).isInfix
  refine List.IsInfix.trans ?_ (List.prefix_append _ _).isInfix
  refine List.IsInfix.trans ?_ (List.prefix_append _ _).isInfix
  refine List.IsInfix.trans ?_ (List.prefix_append _ _).isInfix
  exact h1.trans (List.suffix_append _ _).isInfix

/-- C12.  In the attribute map that `makeTag` hands to the builder of a kept tag, a
parameter with a review value has that value whatever the input gave; a parameter with a
default and no review value has the validated input value when there is one and the
default otherwise; under the test configuration the parameter `rel` of `a` is always
`nofollow` and the default builder writes it for every attribute map of the input. -/
theorem C12_defaults_and_review :
    (∀ (L : Lib) (self : parser) (tn : Str) (tagParams : GoMap Str Str) (p r : Str),
        (((mapGet self.tagParamReview tn).getD []).map Prod.fst).Nodup →
        mapGet2 self.tagParamReview tn p = some r →
        mapGet (self.finalParams L tn tagParams) p = some r) ∧
    (∀ (L : Lib) (self : parser) (tn : Str) (tagParams : GoMap Str Str) (p d : Str),
        mapGet2 self.tagParamReview tn p = none →
        mapGet2 self.tagParamDefault tn p = some d →
        mapGet (self.finalParams L tn tagParams) p =
          some ((mapGet (makeTagParams L tn (self.ranged L tagParams) [] self).1 p).getD d)) ∧
    (∀ (L : Lib) (self : parser) (tagName : Str) (tagParams : GoMap Str Str)
        (tagContent : Str) (shortTag : Bool) (parentTag : Str),
        self.admits (L.toLower tagName) parentTag →
        missingRequired ((mapGet self.tagParamRequired (L.toLower tagName)).getD [])
          (makeTagParams L (L.toLower tagName) (self.ranged L tagParams) [] self).1 = false →
        ¬ (mapHas self.tagEmpty (L.toLower tagName) = false ∧ shortTag = false ∧
            tagContent = []) →
        (self.makeTag L tagName tagParams tagContent shortTag parentTag).1 =
          match mapGet self.tagBuildCallback (L.toLower tagName) with
          | some cb => cb (L.toLower tagName)
              (self.finalParams L (L.toLower tagName) tagParams) tagContent
          | none => self.buildTag (L.toLower tagName)
              (self.finalParams L (L.toLower tagName) tagParams) tagContent shortTag
              parentTag) ∧
    (∀ (tagParams : GoMap Str Str) (tagContent : Str) (shortTag : Bool) (parentTag : Str),
        mapGet (qvx.finalParams goLib (runes "a") tagParams) (runes "rel") =
          some (runes "nofollow") ∧
        attrText (runes "rel") (runes "nofollow") <:+:
          qvx.buildTag (runes "a") (qvx.finalParams goLib (runes "a") tagParams) tagContent
            shortTag parentTag) ∧
    parseOut goLib qvx
        (runes "текст <a href=http://dighub.ru title = text rel=\"nofollow\">DigHub</a> текст") =
      some (runes "текст <a href=\"http://dighub.ru\" title=\"text\" rel=\"nofollow\">DigHub</a> текст",
        []) ∧
    parseOut goLib qvx (runes "текст <a href=\"http://dighub.ru\">DigHub</a> текст") =
      some (runes "текст <a href=\"http://dighub.ru\" rel=\"nofollow\">DigHub</a> текст", []) ∧
    parseOut goLib qvx (runes "<a href=\"/x\" rel=\"follow\">D</a>") =
      some (runes "<a href=\"/x\" rel=\"nofollow\">D</a>", []) := by
  refine ⟨finalParams_review, finalParams_default, ?_, ?_, by decide!, by decide!, by decide!⟩
  · intro L self tagName tagParams tagContent shortTag parentTag h hm he
    rw [makeTag_admitted L self tagName tagParams tagContent shortTag parentTag h,
      if_neg (by simp [hm]), if_neg he]
  · intro tagParams tagContent shortTag parentTag
    have hrel : mapGet (qvx.finalParams goLib (runes "a") tagParams) (runes "rel") =
        some (runes "nofollow") :=
      finalParams_review goLib qvx (runes "a") tagParams (runes "rel") (runes "nofollow")
        (by decide!) (by decide!)
    exact ⟨hrel, buildTag_infix qvx (runes "a") _ tagContent shortTag parentTag _ _ hrel
      (by decide!)⟩

theorem C12_defaults_and_review_witness :
    mapGet (qvx.finalParams goLib (runes "a") [(runes "rel", runes "follow")]) (runes "rel") =
      some (runes "nofollow") ∧
    mapGet (qvx.finalParams goLib (runes "img") [(runes "alt", runes "pic")]) (runes "alt") =
      some ((mapGet (makeTagParams goLib (runes "img") [(runes "alt", runes "pic")] [] qvx).1
        (runes "alt")).getD []) ∧
    (qvx.makeTag goLib (runes "a") [(runes "href", runes "/x")] (runes "D") false []).1 =
      match mapGet qvx.tagBuildCallback (goLib.toLower (runes "a")) with
      | some cb => cb (goLib.toLower (runes "a"))
          (qvx.finalParams goLib (goLib.toLower (runes "a")) [(runes "href", runes "/x")])
          (runes "D")
      | none => qvx.buildTag (goLib.toLower (runes "a"))
          (qvx.finalParams goLib (goLib.toLower (runes "a")) [(runes "href", runes "/x")])
          (runes "D") false [] :=
  ⟨C12_defaults_and_review.1 goLib qvx (runes "a") [(runes "rel", runes "follow")]
      (runes "rel") (runes "nofollow") (by decide!) (by decide!),
    C12_defaults_and_review.2.1 goLib qvx (runes "img") [(runes "alt", runes "pic")]
      (runes "alt") [] (by decide!) (by decide!),
    C12_defaults_and_review.2.2.1 goLib qvx (runes "a") [(runes "href", runes "/x")]
      (runes "D") false [] (by unfold parser.admits; decide!) (by decide!) (by decide!)⟩

/-- C13.  For a tag whose lower-cased name is not registered as empty-allowed, `makeTag`
called with the short flag off and an empty content returns the empty string, whatever
the attribute map, the parent and the callback table; under the test configuration the
empty `div`, which is registered, is kept and the empty `b` is removed. -/
theorem C13_empty_removed :
    (∀ (L : Lib) (self : parser) (tagName : Str) (tagParams : GoMap Str Str)
        (parentTag : Str), mapHas self.tagEmpty (L.toLower tagName) = false →
        (self.makeTag L tagName tagParams [] false parentTag).1 = []) ∧
    (qvx.makeTag goLib (runes "div") [] [] false []).1 = runes "<div></div>" ∧
    parseOut goLib qvx (runes "текст <div></div> <b></b> текст</b>") =
      some (runes "текст <div></div> текст",
        [runes "Не ожидалось закрывающего тега \x27b\x27"]) := by
  refine ⟨?_, by decide!, by decide!⟩
  intro L self tagName tagParams parentTag h
  have f4 := (makeTagParams_fields L (L.toLower tagName) (self.ranged L tagParams) [] self).2.2.2.1
  unfold parser.makeTag
  simp only [h, f4]
  split_ifs <;> first | rfl | simp_all

theorem C13_empty_removed_witness :
    (qvx.makeTag goLib (runes "code") [] [] false []).1 = [] :=
  C13_empty_removed.1 goLib qvx (runes "code") [] [] (by decide!)

theorem buildParams_eq (res : GoMap Str Str) : ∀ sorted : List Str,
    buildParams res sorted =
      (sorted.filter fun p => mapHas res p).flatMap
        fun p => attrText p ((mapGet res p).getD []) := by
  intro sorted
  induction sorted with
  | nil => rfl
  | cons a rest ih =>
    unfold buildParams
    rw [ih]
    cases hg : mapGet res a with
    | none =>
      have : mapHas res a = false := (mapHas_eq_false res a).mpr hg
      simp [List.filter_cons, this]
    | some v =>
      have : mapHas res a = true := (mapHas_eq_true res a).mpr ⟨v, hg⟩
      simp [List.filter_cons, this, hg, attrText]

/-- C14.  With the default builder the string that `makeTag` returns for a kept tag is
`<name`, then one attribute for each parameter of the registration list of the tag that
the final attribute map holds, in the order of that list, then the rest of the tag; the
registration list is the list given to `CfgAllowTagParams`; so a parameter that is not
registered is never written, whether it comes from the input, from a default or from a
review value, and the order of the input does not matter. -/
theorem C14_attributes_registered :
    (∀ (L : Lib) (self : parser) (tagName : Str) (tagParams : GoMap Str Str)
        (tagContent : Str) (shortTag : Bool) (parentTag : Str),
        self.admits (L.toLower tagName) parentTag →
        missingRequired ((mapGet self.tagParamRequired (L.toLower tagName)).getD [])
          (makeTagParams L (L.toLower tagName) (self.ranged L tagParams) [] self).1 = false →
        ¬ (mapHas self.tagEmpty (L.toLower tagName) = false ∧ shortTag = false ∧
            tagContent = []) →
        mapGet self.tagBuildCallback (L.toLower tagName) = none →
        (self.makeTag L tagName tagParams tagContent shortTag parentTag).1 =
          runes "<" ++ L.toLower tagName ++
          (((mapGet self.tagParamSorted (L.toLower tagName)).getD []).filter
              fun p => mapHas (self.finalParams L (L.toLower tagName) tagParams) p).flatMap
            (fun p => attrText p
              ((mapGet (self.finalParams L (L.toLower tagName) tagParams) p).getD [])) ++
          (if shortTag = true ∧ self.isXHTMLMode = true then runes "/>" else runes ">") ++
          (if mapHas self.tagParentOnly (L.toLower tagName) = true then [10] else []) ++
          (if ¬ shortTag = true then
            tagContent ++ runes "</" ++ L.toLower tagName ++ runes ">" else []) ++
          (if mapHas self.tagParentOnly parentTag = true then [10] else []) ++
          (if mapHas self.tagBlockType (L.toLower tagName) = true then [10] else []) ++
          (if L.toLower tagName = runes "br" then [10] else [])) ∧
    (∀ (self q : parser) (tag : Str) (params : List Str),
        self.CfgAllowTagParams tag params = some q →
        mapGet q.tagParamSorted tag = some params) ∧
    parseOut goLib qvx (runes "текст <a href=\"http://dighub.ru\" args=\"test\">DigHub</a> текст") =
      some (runes "текст <a href=\"http://dighub.ru\" rel=\"nofollow\">DigHub</a> текст", []) ∧
    parseOut goLib qvx (runes "<a rel=\"follow\" title=\"t\" href=\"/x\">D</a>") =
      some (runes "<a href=\"/x\" title=\"t\" rel=\"nofollow\">D</a>", []) ∧
    mapGet2 hiddenDefault.tagParamDefault (runes "a") (runes "rel") = some (runes "nofollow") ∧
    mapGet2 hiddenDefault.tagParamReview (runes "a") (runes "target") = some (runes "_blank") ∧
    parseOut goLib hiddenDefault (runes "<a href=\"/y\" rel=\"x\" target=\"y\">t</a>") =
      some (runes "<a href=\"/y\">t</a>", []) := by
  refine ⟨?_, ?_, by decide!, by decide!, by decide!, by decide!, by decide!⟩
  · intro L self tagName tagParams tagContent shortTag parentTag h hm he hcb
    rw [makeTag_admitted L self tagName tagParams tagContent shortTag parentTag h,
      if_neg (by simp [hm]), if_neg he, hcb]
    simp only []
    unfold parser.buildTag
    rw [buildParams_eq]
  · intro self q tag params h
    unfold parser.CfgAllowTagParams at h
    split_ifs at h
    cases h
    exact mapGet_mapSet_eq _ _ _

theorem C14_attributes_registered_witness :
    (qvx.makeTag goLib (runes "A") [(runes "title", runes "t"), (runes "href", runes "/x")]
        (runes "D") false []).1 =
      runes "<" ++ goLib.toLower (runes "A") ++
      (((mapGet qvx.tagParamSorted (goLib.toLower (runes "A"))).getD []).filter
          fun p => mapHas (qvx.finalParams goLib (goLib.toLower (runes "A"))
            [(runes "title", runes "t"), (runes "href", runes "/x")]) p).flatMap
        (fun p => attrText p
          ((mapGet (qvx.finalParams goLib (goLib.toLower (runes "A"))
            [(runes "title", runes "t"), (runes "href", runes "/x")]) p).getD [])) ++
      (if false = true ∧ qvx.isXHTMLMode = true then runes "/>" else runes ">") ++
      (if mapHas qvx.tagParentOnly (goLib.toLower (runes "A")) = true then [10] else []) ++
      (if ¬ false = true then
        runes "D" ++ runes "</" ++ goLib.toLower (runes "A") ++ runes ">" else []) ++
      (if mapHas qvx.tagParentOnly [] = true then [10] else []) ++
      (if mapHas qvx.tagBlockType (goLib.toLower (runes "A")) = true then [10] else []) ++
      (if goLib.toLower (runes "A") = runes "br" then [10] else []) ∧
    mapGet anchorOnly.tagParamSorted (runes "a") = some [runes "href", runes "title"] :=
  ⟨C14_attributes_registered.1 goLib qvx (runes "A")
      [(runes "title", runes "t"), (runes "href", runes "/x")] (runes "D") false []
      (by unfold parser.admits; decide!) (by decide!) (by decide!)
      (Option.isNone_iff_eq_none.mp (by decide!)),
    C14_attributes_registered.2.1 (New.CfgAllowTags [runes "a"]) anchorOnly (runes "a")
      [runes "href", runes "title"] rfl⟩

/-! ## The order of the tests -/

/-- C17 (counterexample).  The item `li` is allowed and child-only and `dl` is not one of
its parents, but `dl` is parent-only and `li` is not one of its children: `makeTag`
returns the empty string for `li` inside `dl`, not its content. -/
theorem C17_parent_only_comes_first :
    mapHas twoLists.tagAllowed (runes "li") = true ∧
    mapHas twoLists.tagChildOnly (runes "li") = true ∧
    mapGet2 twoLists.tagParent (runes "li") (runes "dl") = none ∧
    (twoLists.makeTag goLib (runes "li") [] (runes "x") false (runes "dl")).1 = [] ∧
    (twoLists.makeTag goLib (runes "li") [] (runes "x") false (runes "dl")).1 ≠ runes "x" ∧
    parseOut goLib twoLists (runes "<dl><dt>a</dt><li>x</li></dl>") =
      some (runes "<dl>\n<dt>a</dt>\n</dl>", []) := by
  decide!

/-- C17 (amended).  For an allowed tag registered as child-only that is not cut with its
content, whenever the parent is not one of the parents of the tag and the parent-only
test does not apply (the parent is not parent-only, or the tag is one of its children),
`makeTag` returns the content of the tag as it is; so an item `li` outside a list loses
its markup and keeps its text. -/
theorem C17_child_only :
    (∀ (L : Lib) (self : parser) (tagName : Str) (tagParams : GoMap Str Str)
        (tagContent : Str) (shortTag : Bool) (parentTag : Str),
        mapHas self.tagCutWithContent (L.toLower tagName) = false →
        mapHas self.tagAllowed (L.toLower tagName) = true →
        ¬ (mapHas self.tagParentOnly parentTag = true ∧
            (mapGet2 self.tagChild parentTag (L.toLower tagName)).isNone = true) →
        mapHas self.tagChildOnly (L.toLower tagName) = true →
        mapGet2 self.tagParent (L.toLower tagName) parentTag = none →
        self.makeTag L tagName tagParams tagContent shortTag parentTag = (tagContent, self)) ∧
    (twoLists.makeTag goLib (runes "li") [] (runes "x") false []).1 = runes "x" ∧
    parseOut goLib qvx (runes "текст\n\t<li>текст</li>\n\t<li>текст</li>\n\tтекст") =
      some (runes "текст<br>\nтекст<br>\nтекст<br>\nтекст", []) := by
  refine ⟨?_, by decide!, by decide!⟩
  intro L self tagName tagParams tagContent shortTag parentTag h1 h2 h3 h4 h5
  unfold parser.makeTag
  simp only [h1, h2, h3, h4, h5, Bool.false_eq_true, if_false, not_true_eq_false,
    not_false_eq_true, Option.isNone_none, and_self, if_true]
  split_ifs <;> rfl

theorem C17_child_only_witness :
    qvx.makeTag goLib (runes "LI") [] (runes "x") false (runes "b") = (runes "x", qvx) :=
  C17_child_only.1 goLib qvx (runes "LI") [] (runes "x") false (runes "b") (by decide!)
    (by decide!) (by decide!) (by decide!) (by decide!)

/-- C18.  For an allowed tag with a build callback that passes the tests on its name and
its parent, has its required parameters and is not removed as empty, `makeTag` returns
the string that the callback returns for the lower-cased name, the final attribute map
and the content, and nothing else. -/
theorem C18_callback_verbatim :
    (∀ (L : Lib) (self : parser) (tagName : Str) (tagParams : GoMap Str Str)
        (tagContent : Str) (shortTag : Bool) (parentTag : Str)
        (cb : Str → GoMap Str Str → Str → Str),
        self.admits (L.toLower tagName) parentTag →
        missingRequired ((mapGet self.tagParamRequired (L.toLower tagName)).getD [])
          (makeTagParams L (L.toLower tagName) (self.ranged L tagParams) [] self).1 = false →
        ¬ (mapHas self.tagEmpty (L.toLower tagName) = false ∧ shortTag = false ∧
            tagContent = []) →
        mapGet self.tagBuildCallback (L.toLower tagName) = some cb →
        (self.makeTag L tagName tagParams tagContent shortTag parentTag).1 =
          cb (L.toLower tagName) (self.finalParams L (L.toLower tagName) tagParams)
            tagContent) ∧
    parseOut goLib qvx (runes "<code>текст <script>текст</script> текст</code>") =
      some (runes "<pre><code>текст &#60;script&#62;текст&#60;/script&#62; текст<code><pre>",
        []) := by
  refine ⟨?_, by decide!⟩
  intro L self tagName tagParams tagContent shortTag parentTag cb h hm he hcb
  rw [makeTag_admitted L self tagName tagParams tagContent shortTag parentTag h,
    if_neg (by simp [hm]), if_neg he, hcb]

theorem C18_callback_verbatim_witness :
    (qvx.makeTag goLib (runes "CODE") [] (runes "x") false []).1 =
      TagCodeBuild (goLib.toLower (runes "CODE"))
        (qvx.finalParams goLib (goLib.toLower (runes "CODE")) []) (runes "x") :=
  C18_callback_verbatim.1 goLib qvx (runes "CODE") [] (runes "x") false [] TagCodeBuild
    (by unfold parser.admits; decide!) (by decide!) (by decide!) rfl

theorem skipTextToChar_stop : ∀ (fuel : Nat) (self : parser) (ch : Rune) (r : Bool)
    (s : parser), skipTextToChar fuel self ch = some (r, s) →
    s.curChar = ch ∨ s.curCharClass = NULL := by
  intro fuel
  induction fuel with
  | zero =>
    intro self ch r s h
    unfold skipTextToChar at h
    cases h
  | succ n ih =>
    intro self ch r s h
    unfold skipTextToChar at h
    by_cases hc : self.curChar ≠ ch ∧ self.curCharClass ≠ NULL
    · rw [if_pos hc] at h
      exact ih _ ch r s h
    · rw [if_neg hc] at h
      have hs : self = s := by
        cases h
        rfl
      rw [← hs]
      by_cases h1 : self.curChar = ch
      · exact Or.inl h1
      · right
        by_contra h2
        exact hc ⟨h1, h2⟩

theorem makeText_null (L : Lib) (fuel : Nat) (self : parser) (parentTag text : Str)
    (s : parser) (h : makeText L fuel self parentTag = some (text, s))
    (hn : self.curCharClass = NULL) : text = [] := by
  unfold makeText at h
  cases fuel with
  | zero =>
    unfold makeTextLoop at h
    cases h
  | succ n =>
    unfold makeTextLoop at h
    rw [if_neg (by intro hh; exact hh.2 hn)] at h
    cases h
    rfl

/-! ## The guards of makeTag inside a parent-only tag -/

/-- Inside a parent-only tag `makeTag` returns the empty string for a tag that is not a
child of the parent, whether the tag is allowed or not, unless the tag is allowed,
global-only and not cut with its content: the test of global-only comes before the test
of the parent. -/
theorem makeTag_parent_only (L : Lib) (self : parser) (tagName : Str)
    (tagParams : GoMap Str Str) (tagContent : Str) (shortTag : Bool) (parentTag : Str)
    (h1 : mapHas self.tagParentOnly parentTag = true)
    (h2 : (mapGet2 self.tagChild parentTag (L.toLower tagName)).isNone = true)
    (h3 : ¬ (mapHas self.tagCutWithContent (L.toLower tagName) = false ∧
        mapHas self.tagAllowed (L.toLower tagName) = true ∧
        mapHas self.tagGlobalOnly (L.toLower tagName) = true ∧ parentTag ≠ [])) :
    self.makeTag L tagName tagParams tagContent shortTag parentTag = ([], self) := by
  unfold parser.makeTag
  simp only [h1, h2]
  by_cases hcut : mapHas self.tagCutWithContent (L.toLower tagName) = true
  · simp only [hcut, if_true]
  · by_cases hall : mapHas self.tagAllowed (L.toLower tagName) = true
    · have hg : ¬ (mapHas self.tagGlobalOnly (L.toLower tagName) = true ∧ parentTag ≠ []) :=
        fun hh => h3 ⟨by simpa using hcut, hall, hh.1, hh.2⟩
      simp only [hcut, hall, hg, Bool.false_eq_true, if_false, not_true_eq_false,
        and_self, if_true]
    · simp only [hcut, hall, Bool.false_eq_true, if_false, not_false_eq_true, if_true]

/-- C16 (divergence).  The list `ul` is parent-only with the one child `li`, and the tag
`x` is allowed and global-only.  Inside `ul`, `makeTag` returns the empty string for the
tag `y`, which is not allowed, and for a nested `ul`, which is allowed and no child of
`ul`; the loop of `makeContent` drops the text that stands between the tags.  For `x`,
which is no child of `ul` either, `makeTag` returns the content: the test of global-only
stands before the test of the parent, and the text `zzz` stays in the list, which is to
hold no text. -/
theorem C16_global_only_comes_first :
    mapHas listGlobal.tagParentOnly (runes "ul") = true ∧
    mapGet2 listGlobal.tagChild (runes "ul") (runes "x") = none ∧
    mapGet2 listGlobal.tagChild (runes "ul") (runes "y") = none ∧
    mapGet2 listGlobal.tagChild (runes "ul") (runes "ul") = none ∧
    mapHas listGlobal.tagAllowed (runes "y") = false ∧
    (listGlobal.makeTag goLib (runes "y") [] (runes "zzz") false (runes "ul")).1 = [] ∧
    (listGlobal.makeTag goLib (runes "ul") [] (runes "zzz") false (runes "ul")).1 = [] ∧
    parseOut goLib listGlobal (runes "<ul><li>a</li><y>zzz</y>text</ul>") =
      some (runes "<ul>\n<li>a</li>\n</ul>", []) ∧
    (listGlobal.makeTag goLib (runes "x") [] (runes "zzz") false (runes "ul")).1 =
      runes "zzz" ∧
    (listGlobal.makeTag goLib (runes "x") [] (runes "zzz") false (runes "ul")).1 ≠ [] ∧
    parseOut goLib listGlobal (runes "<ul><li>a</li><x>zzz</x></ul>") =
      some (runes "<ul>\n<li>a</li>\nzzz</ul>", []) := by
  decide!

theorem some_of_parts2 (m : Option (Str × parser)) (d : Str × parser) (a : Str)
    (h : m.map Prod.fst = some a) : m = some (a, (m.getD d).2) := by
  cases m with
  | none => cases h
  | some r =>
    obtain ⟨a1, s1⟩ := r
    simp only [Option.map_some', Option.some.injEq] at h
    subst h
    rfl

theorem some_of_parts3 (m : Option (Bool × Str × parser)) (d : Bool × Str × parser) (b : Bool)
    (a : Str) (h : m.map (fun r => (r.1, r.2.1)) = some (b, a)) :
    m = some (b, a, (m.getD d).2.2) := by
  cases m with
  | none => cases h
  | some r =>
    obtain ⟨b1, a1, s1⟩ := r
    simp only [Option.map_some', Option.some.injEq, Prod.mk.injEq] at h
    obtain ⟨h1, h2⟩ := h
    subst h1
    subst h2
    rfl

theorem some_of_parts5 (m : Option (Bool × Str × GoMap Str Str × Bool × parser))
    (d : Bool × Str × GoMap Str Str × Bool × parser) (b : Bool) (a : Str)
    (g : GoMap Str Str) (c : Bool)
    (h1 : m.map (fun r => r.1) = some b) (h2 : m.map (fun r => r.2.1) = some a)
    (h3 : m.map (fun r => r.2.2.1) = some g) (h4 : m.map (fun r => r.2.2.2.1) = some c) :
    m = some (b, a, g, c, (m.getD d).2.2.2.2) := by
  cases m with
  | none => cases h1
  | some r =>
    obtain ⟨b1, a1, g1, c1, s1⟩ := r
    simp only [Option.map_some', Option.some.injEq] at h1 h2 h3 h4
    subst h1
    subst h2
    subst h3
    subst h4
    rfl

/-- C20 (counterexample).  With the tags `b` and `u` allowed, the input `<b>x<u>y</b>z`
gives `<b>x<u>y</u>z</b>`: the close tag `</b>` ends the content of `u`, is consumed
there with an error, and `b` stays open to the end of the text. -/
theorem C20_close_tag_is_consumed :
    parseOut goLib boldUnder (runes "<b>x<u>y</b>z") =
      some (runes "<b>x<u>y</u>z</b>",
        [runes "Неверный закрывающийся тег \x27b\x27. Ожидалось закрытие \x27u\x27"]) ∧
    parseOut goLib boldUnder (runes "<b>x<u>y</b>z") ≠
      some (runes "<b>x<u>y</u></b>z",
        [runes "Неверный закрывающийся тег \x27b\x27. Ожидалось закрытие \x27u\x27"]) ∧
    (parseOut goLib boldUnder (runes "<b>x<u>y</b>z")).map Prod.fst ≠
      some (runes "<b>x<u>y</u></b>z") := by
  decide!

/-- C20 (amended).  When the content of an open tag ends at a close tag of another name,
`matchTag` records the mismatched-close error, closes the open tag and consumes the close
tag: the parser it returns is the one that `matchTagClose` left, past the rune `>`, with
the error added and the current tag and the typography flag restored; the enclosing level
does not see that close tag again, so `<b>x<u>y</b>z` gives `<b>x<u>y</u>z</b>`, and in
`<b>x<u>y</b>z</u>w` the later `</u>` closes `b`. -/
theorem C20_mismatched_close :
    (∀ (L : Lib) (fuel : Nat) (mc : parser → Str → Option (Str × parser))
        (self self1 self4 self5 : parser) (tagName closeTag tagContent : Str)
        (tagParams : GoMap Str Str),
        matchTagOpen L fuel self = some (true, tagName, tagParams, false, self1) →
        (if mapHas (self1.inTag tagName).tagPreformatted tagName = true then
            makePreformatted L fuel (self1.inTag tagName) tagName
          else mc (self1.inTag tagName) tagName) = some (tagContent, self4) →
        matchTagClose L fuel self4 = some (true, closeTag, self5) →
        tagName ≠ closeTag →
        matchTag L fuel mc self =
          some (true, tagName, tagParams, tagContent, false,
            ((self5.setError (runes "Неверный закрывающийся тег \x27" ++ closeTag ++
                runes "\x27. Ожидалось закрытие \x27" ++ tagName ++ runes "\x27")).setCurTag
              self1.curTag).setTypoMode self1.isTypoMode)) ∧
    (∀ (L : Lib) (fuel : Nat) (p : parser) (k : Int) (closeTag : Str) (self5 : parser),
        p.statesStack ≠ [] → remaining p k < fuel →
        matchTagClose L fuel (p.atPos k) = some (true, closeTag, self5) →
        ∃ k1, self5 = p.atPos k1 ∧ k < k1) ∧
    parseOut goLib boldUnder (runes "<b>x<u>y</b>z") =
      some (runes "<b>x<u>y</u>z</b>",
        [runes "Неверный закрывающийся тег \x27b\x27. Ожидалось закрытие \x27u\x27"]) ∧
    parseOut goLib boldUnder (runes "<b>x<u>y</b>z</u>w") =
      some (runes "<b>x<u>y</u>z</b>w",
        [runes "Неверный закрывающийся тег \x27b\x27. Ожидалось закрытие \x27u\x27",
         runes "Неверный закрывающийся тег \x27u\x27. Ожидалось закрытие \x27b\x27"]) := by
  refine ⟨?_, ?_, by decide!, by decide!⟩
  · intro L fuel mc self self1 self4 self5 tagName closeTag tagContent tagParams h1 h3 h4 h5
    unfold parser.inTag at h3
    unfold matchTag
    simp only [h1, Bool.false_eq_true, if_false]
    simp only [h3, h4]
    rw [if_pos ⟨trivial, h5⟩]
  · intro L fuel p k closeTag self5 hs hf h
    obtain ⟨r, name, k1, e1, _, t1, _⟩ := matchTagClose_ok L fuel p k hs hf
    rw [e1] at h
    cases h
    exact ⟨k1, rfl, t1 rfl⟩

theorem C20_mismatched_close_witness :
    matchTag goLib 20 mismatchNested mismatchStart =
      some (true, runes "u", [], runes "y", false,
        ((mismatchClosed.setError (runes "Неверный закрывающийся тег \x27" ++ runes "b" ++
            runes "\x27. Ожидалось закрытие \x27" ++ runes "u" ++ runes "\x27")).setCurTag
          mismatchOpen.curTag).setTypoMode mismatchOpen.isTypoMode) ∧
    ∃ k1, ((matchTagClose goLib 20 (mismatchStart.atPos 4)).getD
        (false, [], mismatchStart)).2.2 = mismatchStart.atPos k1 ∧ 4 < k1 :=
  ⟨C20_mismatched_close.1 goLib 20 mismatchNested mismatchStart mismatchOpen mismatchContent
      mismatchClosed (runes "u") (runes "b") (runes "y") []
      (some_of_parts5 _ _ true (runes "u") [] false (by decide!) (by decide!) (by decide!)
        (by decide!))
      (some_of_parts2 _ _ (runes "y") (by decide!))
      (some_of_parts3 _ _ true (runes "b") (by decide!)) (by decide),
    C20_mismatched_close.2.1 goLib 20 mismatchStart 4 (runes "b") _ (by decide!) (by decide!)
      (some_of_parts3 _ _ true (runes "b") (by decide!))⟩

/-! ## More fuel, same result -/

theorem skipSpacesLoop_mono : ∀ (fuel : Nat) (self : parser) (c : Int) (r : Int × parser),
    skipSpacesLoop fuel self c = some r →
    ∀ fuel1, fuel ≤ fuel1 → skipSpacesLoop fuel1 self c = some r := by
  intro fuel
  induction fuel with
  | zero =>
    intro self c r h
    unfold skipSpacesLoop at h
    cases h
  | succ n ih =>
    intro self c r h fuel1 hle
    cases fuel1 with
    | zero => omega
    | succ m =>
      unfold skipSpacesLoop at h ⊢
      by_cases hc : self.curCharClass &&& SPACE ≠ NULL
      · rw [if_pos hc] at h ⊢
        exact ih _ _ r h m (by omega)
      · rw [if_neg hc] at h ⊢
        exact h

theorem skipSpaces_mono (fuel fuel1 : Nat) (self : parser) (r : Int × parser)
    (h : skipSpaces fuel self = some r) (hle : fuel ≤ fuel1) :
    skipSpaces fuel1 self = some r :=
  skipSpacesLoop_mono fuel self 0 r h fuel1 hle

theorem grabCharClassLoop_mono : ∀ (fuel : Nat) (self : parser) (cls : Nat) (buff : Str)
    (r : Str × parser), grabCharClassLoop fuel self cls buff = some r →
    ∀ fuel1, fuel ≤ fuel1 → grabCharClassLoop fuel1 self cls buff = some r := by
  intro fuel
  induction fuel with
  | zero =>
    intro self cls buff r h
    unfold grabCharClassLoop at h
    cases h
  | succ n ih =>
    intro self cls buff r h fuel1 hle
    cases fuel1 with
    | zero => omega
    | succ m =>
      unfold grabCharClassLoop at h ⊢
      by_cases hc : self.curCharClass &&& cls ≠ NULL
      · rw [if_pos hc] at h ⊢
        exact ih _ _ _ r h m (by omega)
      · rw [if_neg hc] at h ⊢
        exact h

theorem grabCharClass_mono (fuel fuel1 : Nat) (self : parser) (cls : Nat) (r : Str × parser)
    (h : grabCharClass fuel self cls = some r) (hle : fuel ≤ fuel1) :
    grabCharClass fuel1 self cls = some r :=
  grabCharClassLoop_mono fuel self cls [] r h fuel1 hle

theorem matchTagClose_mono (L : Lib) (fuel fuel1 : Nat) (self : parser)
    (r : Bool × Str × parser) (h : matchTagClose L fuel self = some r) (hle : fuel ≤ fuel1) :
    matchTagClose L fuel1 self = some r := by
  unfold matchTagClose at h ⊢
  by_cases h60 : self.curChar ≠ 60
  · rw [if_pos h60] at h ⊢
    exact h
  · rw [if_neg h60] at h ⊢
    simp only [] at h ⊢
    cases hs1 : skipSpaces fuel self.saveState with
    | none =>
      rw [hs1] at h
      cases h
    | some v1 =>
      rw [hs1] at h
      rw [skipSpaces_mono fuel fuel1 _ v1 hs1 hle]
      obtain ⟨n1, self2⟩ := v1
      simp only [] at h ⊢
      generalize (if n1 = 0 then (self2.moveNextPos).2 else self2) = self3 at h ⊢
      by_cases c1 : self3.curChar ≠ 47
      · rw [if_pos c1] at h ⊢
        exact h
      · rw [if_neg c1] at h ⊢
        cases hs2 : skipSpaces fuel self3 with
        | none =>
          rw [hs2] at h
          cases h
        | some v2 =>
          rw [hs2] at h
          rw [skipSpaces_mono fuel fuel1 _ v2 hs2 hle]
          obtain ⟨n2, self4⟩ := v2
          simp only [] at h ⊢
          generalize (if n2 = 0 then (self4.moveNextPos).2 else self4) = self5 at h ⊢
          cases hs3 : grabCharClass fuel self5 TAG_NAME with
          | none =>
            rw [hs3] at h
            cases h
          | some v3 =>
            rw [hs3] at h
            rw [grabCharClass_mono fuel fuel1 _ _ v3 hs3 hle]
            obtain ⟨name0, self6⟩ := v3
            simp only [] at h ⊢
            cases hs4 : skipSpaces fuel self6 with
            | none =>
              rw [hs4] at h
              cases h
            | some v4 =>
              rw [hs4] at h
              rw [skipSpaces_mono fuel fuel1 _ v4 hs4 hle]
              exact h

/-! ## The loop of `makePreformatted`, rune by rune -/

theorem classTable_ne_zero : ∀ kv ∈ CHAR_CLASSES, kv.2 ≠ 0 := by decide

theorem getClassByOrd_ne_zero (c : Rune) : getClassByOrd c ≠ NULL := by
  unfold getClassByOrd
  cases h : mapGet CHAR_CLASSES c with
  | none => decide
  | some x => exact classTable_ne_zero (c, x) (mapGet_mem _ c x h)

theorem curChar_inrange (p : parser) (k : Int) (h0 : 0 ≤ k) (h1 : k < p.textLen) :
    (p.atPos k).curChar = bufAt p.textBuf k := by
  show (if decide (k < p.textLen ∧ k ≥ 0) = true then bufAt p.textBuf k else 0) = _
  rw [if_pos (by simp only [decide_eq_true_eq]; exact ⟨h1, h0⟩)]

theorem class_ne_null (p : parser) (k : Int) (h0 : 0 ≤ k) (h1 : k < p.textLen) :
    (p.atPos k).curCharClass ≠ NULL := by
  have hin : decide (k < p.textLen ∧ k ≥ 0) = true := by
    simp only [decide_eq_true_eq]
    exact ⟨h1, h0⟩
  have hcl : (p.atPos k).curCharClass = getClassByOrd (p.atPos k).curChar := by
    show (if decide (k < p.textLen ∧ k ≥ 0) = true then _ else NULL) = _
    rw [if_pos hin]
    rfl
  rw [hcl]
  exact getClassByOrd_ne_zero _

theorem window_self (buf : Str) (k : Int) : window buf k k = [] := by
  unfold window
  simp

theorem window_cons (buf : Str) (k k1 : Int) (h0 : 0 ≤ k) (h1 : k < buf.length)
    (h2 : k < k1) : window buf k k1 = bufAt buf k :: window buf (k + 1) k1 := by
  unfold window bufAt
  have hk : k.toNat < buf.length := by omega
  have e1 : (k + 1).toNat = k.toNat + 1 := by omega
  have e2 : (k1 - k).toNat = (k1 - (k + 1)).toNat + 1 := by omega
  rw [e1, e2, List.drop_eq_getElem_cons hk, List.take_succ_cons]
  congr 1
  rw [List.getD_eq_getElem _ _ hk]

theorem escapeStr_cons (p : parser) (c : Rune) (s : Str) :
    p.escapeStr (c :: s) = p.escapeRune c ++ p.escapeStr s := by
  unfold parser.escapeStr
  simp [List.flatMap_cons]

theorem closesAt_of (L : Lib) (p : parser) (j : Int) (openTag : Str) (n : Nat) (r : Bool)
    (name : Str) (s : parser)
    (h : matchTagClose L n ((p.atPos j).saveState) = some (r, name, s)) :
    closesAt L p j openTag ↔ openTag ≠ [] ∧ r = true ∧ openTag = name := by
  constructor
  · rintro ⟨h1, f, s1, h2⟩
    have a := matchTagClose_mono L n (max n f) _ _ h (le_max_left _ _)
    have b := matchTagClose_mono L f (max n f) _ _ h2 (le_max_right _ _)
    rw [a] at b
    cases b
    exact ⟨h1, rfl, rfl⟩
  · rintro ⟨h1, h2, h3⟩
    subst h2
    subst h3
    exact ⟨h1, n, s, h⟩

theorem closesAt_lt (L : Lib) (p : parser) (j : Int) (openTag : Str)
    (h : closesAt L p j openTag) : (p.atPos j).curChar = 60 := by
  obtain ⟨_, f, s, h2⟩ := h
  by_contra hc
  unfold matchTagClose at h2
  have hc1 : ((p.atPos j).saveState).curChar ≠ 60 := hc
  rw [if_pos hc1] at h2
  cases h2

theorem makePreformattedLoop_image (L : Lib) : ∀ (fuel : Nat) (p : parser) (k : Int)
    (openTag content : Str), p.statesStack ≠ [] → p.textLen = p.textBuf.length → 0 ≤ k →
    remaining p k + 1 < fuel →
    ∃ k1, k ≤ k1 ∧ k1 ≤ max k p.textLen ∧
      makePreformattedLoop L fuel (p.atPos k) openTag content =
        some (content ++ p.escapeStr (window p.textBuf k k1), p.atPos k1) ∧
      (∀ j, k ≤ j → j < k1 → ¬ closesAt L p j openTag) ∧
      (k1 < p.textLen → closesAt L p k1 openTag) := by
  intro fuel
  induction fuel with
  | zero => intro p k openTag content _ _ _ h; omega
  | succ n ih =>
    intro p k openTag content hs hlen h0 h
    unfold makePreformattedLoop
    by_cases hc : (p.atPos k).curCharClass ≠ NULL
    · rw [if_pos hc]
      have hr := class_inrange p k hc
      have hf : remaining p (k + 1) + 1 < n := by
        unfold remaining at *
        omega
      have hstep : ∀ c : Str, (p.atPos k).preformattedStep c =
          (c ++ p.escapeRune (bufAt p.textBuf k), p.atPos (k + 1)) := by
        intro c
        unfold parser.preformattedStep
        rw [curChar_inrange p k hr.1 hr.2]
        rfl
      -- one rune is written and the loop goes on
      have go : ¬ closesAt L p k openTag →
          ∃ k1, k ≤ k1 ∧ k1 ≤ max k p.textLen ∧
            makePreformattedLoop L n ((p.atPos k).preformattedStep content).2 openTag
                ((p.atPos k).preformattedStep content).1 =
              some (content ++ p.escapeStr (window p.textBuf k k1), p.atPos k1) ∧
            (∀ j, k ≤ j → j < k1 → ¬ closesAt L p j openTag) ∧
            (k1 < p.textLen → closesAt L p k1 openTag) := by
        intro hno
        rw [hstep]
        obtain ⟨k1, l1, u1, e1, a1, b1⟩ := ih p (k + 1) openTag
          (content ++ p.escapeRune (bufAt p.textBuf k)) hs hlen (by omega) hf
        refine ⟨k1, by omega, by omega, ?_, ?_, b1⟩
        · rw [e1, window_cons p.textBuf k k1 hr.1 (by omega) (by omega), escapeStr_cons,
            List.append_assoc]
        · intro j hj1 hj2
          by_cases hjk : j = k
          · rw [hjk]
            exact hno
          · exact a1 j (by omega) hj2
      by_cases ht : (p.atPos k).curChar = 60 ∧ openTag ≠ []
      · rw [if_pos ht]
        obtain ⟨r, name, k2, e2, r2, _, f2⟩ := matchTagClose_ok L n
          (p.push (p.atPos k).head) k (push_stack_ne p _) (by
            show remaining p k < n
            omega)
        have hcl := closesAt_of L p k openTag n r name _ e2
        simp only [saveState_atPos]
        simp only [e2]
        have e3 : (if r = true then ((p.push (p.atPos k).head).atPos k2).restoreState
            else ((p.push (p.atPos k).head).atPos k2).removeState) = p.atPos k := by
          cases r with
          | true => simp [restoreState_push]
          | false =>
            have := f2 rfl
            simp [this, removeState_push p _ k hs]
        simp only [e3]
        by_cases hcl2 : r = true ∧ openTag = name
        · rw [if_pos hcl2]
          refine ⟨k, le_refl k, le_max_left _ _, ?_, ?_,
            fun _ => hcl.mpr ⟨ht.2, hcl2.1, hcl2.2⟩⟩
          · rw [window_self]
            simp [parser.escapeStr]
          · intro j hj1 hj2
            omega
        · rw [if_neg hcl2]
          exact go (fun hh => hcl2 (hcl.mp hh).2)
      · rw [if_neg ht]
        exact go (fun hh => ht ⟨closesAt_lt L p k openTag hh, hh.1⟩)
    · rw [if_neg hc]
      refine ⟨k, le_refl k, le_max_left _ _, ?_, ?_, ?_⟩
      · rw [window_self]
        simp [parser.escapeStr]
      · intro j hj1 hj2
        omega
      · intro hlt
        exact absurd (class_ne_null p k h0 hlt) hc

theorem escapeRune_table (p : parser) (c : Rune) (h : p.entities = New.entities) :
    p.escapeRune c =
      if c = 34 then runes "&#34;" else if c = 39 then runes "&#39;"
      else if c = 60 then runes "&#60;" else if c = 62 then runes "&#62;"
      else if c = 38 then runes "&#38;" else [c] := by
  unfold parser.escapeRune
  rw [h]
  by_cases h1 : c = 34
  · subst h1
    rfl
  by_cases h2 : c = 39
  · subst h2
    rfl
  by_cases h3 : c = 60
  · subst h3
    rfl
  by_cases h4 : c = 62
  · subst h4
    rfl
  by_cases h5 : c = 38
  · subst h5
    rfl
  have hm : mapGet New.entities c = none := by
    show mapGet [(34, runes "&#34;"), (39, runes "&#39;"), (60, runes "&#60;"),
      (62, runes "&#62;"), (38, runes "&#38;")] c = none
    simp only [mapGet, if_neg (Ne.symm h1), if_neg (Ne.symm h2), if_neg (Ne.symm h3),
      if_neg (Ne.symm h4), if_neg (Ne.symm h5)]
  rw [hm, if_neg h1, if_neg h2, if_neg h3, if_neg h4, if_neg h5]

theorem escapeStr_clean (p : parser) (h : p.entities = New.entities) : ∀ (s : Str),
    ∀ x ∈ p.escapeStr s, x ≠ 34 ∧ x ≠ 39 ∧ x ≠ 60 ∧ x ≠ 62 := by
  intro s x hx
  unfold parser.escapeStr at hx
  rw [List.mem_flatMap] at hx
  obtain ⟨c, _, hc⟩ := hx
  rw [escapeRune_table p c h] at hc
  have e34 : ∀ y ∈ runes "&#34;", y ≠ 34 ∧ y ≠ 39 ∧ y ≠ 60 ∧ y ≠ 62 := by decide
  have e39 : ∀ y ∈ runes "&#39;", y ≠ 34 ∧ y ≠ 39 ∧ y ≠ 60 ∧ y ≠ 62 := by decide
  have e60 : ∀ y ∈ runes "&#60;", y ≠ 34 ∧ y ≠ 39 ∧ y ≠ 60 ∧ y ≠ 62 := by decide
  have e62 : ∀ y ∈ runes "&#62;", y ≠ 34 ∧ y ≠ 39 ∧ y ≠ 60 ∧ y ≠ 62 := by decide
  have e38 : ∀ y ∈ runes "&#38;", y ≠ 34 ∧ y ≠ 39 ∧ y ≠ 60 ∧ y ≠ 62 := by decide
  split_ifs at hc with h1 h2 h3 h4 h5
  · exact e34 x hc
  · exact e39 x hc
  · exact e60 x hc
  · exact e62 x hc
  · exact e38 x hc
  · rw [List.mem_singleton] at hc
    rw [hc]
    exact ⟨h1, h2, h3, h4⟩

/-- C19.  The content that `makePreformatted` builds is the image, rune by rune, of the
buffer from the head up to the first position where the close tag of the open tag is
found, or up to the end of the buffer: the head stops there, no earlier position holds
that close tag, and every rune of the window is replaced by its entity when it is one of
the five runes of the entities table and is copied otherwise; so the content holds no
raw double quote, apostrophe, `<` or `>`, tags inside are not interpreted, and close tags
of other names are text. -/
theorem C19_preformatted_image :
    (∀ (L : Lib) (fuel : Nat) (p : parser) (k : Int) (openTag : Str),
        p.statesStack ≠ [] → p.textLen = p.textBuf.length → 0 ≤ k →
        remaining p k + 1 < fuel →
        ∃ k1, k ≤ k1 ∧ k1 ≤ max k p.textLen ∧
          makePreformatted L fuel (p.atPos k) openTag =
            some (p.escapeStr (window p.textBuf k k1), p.atPos k1) ∧
          (∀ j, k ≤ j → j < k1 → ¬ closesAt L p j openTag) ∧
          (k1 < p.textLen → closesAt L p k1 openTag)) ∧
    (∀ (p : parser) (c : Rune), p.entities = New.entities →
        p.escapeRune c =
          if c = 34 then runes "&#34;" else if c = 39 then runes "&#39;"
          else if c = 60 then runes "&#60;" else if c = 62 then runes "&#62;"
          else if c = 38 then runes "&#38;" else [c]) ∧
    (∀ (p : parser) (s : Str), p.entities = New.entities →
        ∀ x ∈ p.escapeStr s, x ≠ 34 ∧ x ≠ 39 ∧ x ≠ 60 ∧ x ≠ 62) ∧
    parseOut goLib qvx (runes "<code>текст <script>текст</script> текст</code>") =
      some (runes "<pre><code>текст &#60;script&#62;текст&#60;/script&#62; текст<code><pre>",
        []) ∧
    parseOut goLib qvx (runes "<code>a</b>\"\x27&<code>x</code>y") =
      some (runes "<pre><code>a&#60;/b&#62;&#34;&#39;&#38;&#60;code&#62;x<code><pre>\ny",
        []) := by
  refine ⟨?_, fun p c h => escapeRune_table p c h, fun p s h => escapeStr_clean p h s,
    by decide!, by decide!⟩
  intro L fuel p k openTag hs hlen h0 hf
  obtain ⟨k1, a, b, c, d, e⟩ := makePreformattedLoop_image L fuel p k openTag [] hs hlen h0 hf
  refine ⟨k1, a, b, ?_, d, e⟩
  unfold makePreformatted
  rw [c]
  rfl

theorem C19_preformatted_image_witness :
    (∃ k1, 0 ≤ k1 ∧ k1 ≤ max 0 preStart.textLen ∧
      makePreformatted goLib 30 (preStart.atPos 0) (runes "code") =
        some (preStart.escapeStr (window preStart.textBuf 0 k1), preStart.atPos k1) ∧
      (∀ j, 0 ≤ j → j < k1 → ¬ closesAt goLib preStart j (runes "code")) ∧
      (k1 < preStart.textLen → closesAt goLib preStart k1 (runes "code"))) ∧
    qvx.escapeRune 60 =
      (if (60 : Rune) = 34 then runes "&#34;" else if (60 : Rune) = 39 then runes "&#39;"
        else if (60 : Rune) = 60 then runes "&#60;" else if (60 : Rune) = 62 then runes "&#62;"
        else if (60 : Rune) = 38 then runes "&#38;" else [60]) ∧
    ∀ x ∈ qvx.escapeStr (runes "<a href=\"x\">"), x ≠ 34 ∧ x ≠ 39 ∧ x ≠ 60 ∧ x ≠ 62 :=
  ⟨C19_preformatted_image.1 goLib 30 preStart 0 (runes "code") (List.cons_ne_nil _ _)
      (by decide!) (by decide) (by decide!),
    C19_preformatted_image.2.1 qvx 60 (by decide!),
    C19_preformatted_image.2.2.1 qvx (runes "<a href=\"x\">") (by decide!)⟩

/-! # Close tags, typography, line breaks, links and special characters -/

/-! ## Configuration calls on a tag that is not allowed -/

theorem setFlags_none (allowed : GoMap Str Bool) : ∀ (tags : List Str) (m : GoMap Str Bool)
    (tag : Str), tag ∈ tags → mapHas allowed tag = false → setFlags allowed tags m = none := by
  intro tags
  induction tags with
  | nil => intro m tag h; cases h
  | cons a rest ih =>
    intro m tag h hn
    unfold setFlags
    by_cases ha : mapHas allowed a = true
    · rw [if_pos ha]
      rcases List.mem_cons.mp h with hh | hh
      · rw [hh, ha] at hn
        cases hn
      · exact ih _ tag hh hn
    · rw [if_neg ha]

theorem setChilds_none (allowed : GoMap Str Bool) (tag : Str) : ∀ (childs : List Str)
    (tc tp : GoMap Str (GoMap Str Bool)) (child : Str), child ∈ childs →
    mapHas allowed child = false → setChilds allowed tag childs tc tp = none := by
  intro childs
  induction childs with
  | nil => intro tc tp child h; cases h
  | cons a rest ih =>
    intro tc tp child h hn
    unfold setChilds
    by_cases ha : mapHas allowed a = true
    · rw [if_neg (not_not.mpr ha)]
      rcases List.mem_cons.mp h with hh | hh
      · rw [hh, ha] at hn
        cases hn
      · exact ih _ _ child hh hn
    · rw [if_pos ha]

/-- C30 (counterexample).  The tag `script` is not allowed, yet `CfgSetTagCutWithContent`
registers it: the call has no test on the allowed set, and the test configuration makes
that very call. -/
theorem C30_cut_with_content_takes_any_tag :
    mapHas New.tagAllowed (runes "script") = false ∧
    mapHas (New.CfgSetTagCutWithContent [runes "script"]).tagCutWithContent (runes "script") =
      true ∧
    (TestConfig goLib).isSome = true ∧
    mapHas qvx.tagAllowed (runes "script") = false ∧
    mapHas qvx.tagCutWithContent (runes "script") = true := by
  decide!

/-- C30 (amended).  Every configuration call that takes tag names, other than
`CfgSetTagCutWithContent`, fails when a tag it is given is not in the allowed set: the
calls on a list of tags, the calls on one tag, and `CfgSetTagChilds` both for the tag and
for each child. -/
theorem C30_config_rejects_unknown_tag :
    (∀ (self : parser) (tags : List Str) (tag : Str), tag ∈ tags →
        mapHas self.tagAllowed tag = false →
        self.CfgSetTagShort tags = none ∧ self.CfgSetTagPreformatted tags = none ∧
        self.CfgSetTagNoTypography tags = none ∧ self.CfgSetTagIsEmpty tags = none ∧
        self.CfgSetTagNoAutoBr tags = none ∧ self.CfgSetTagBlockType tags = none ∧
        self.CfgSetTagParentOnly tags = none ∧ self.CfgSetTagChildOnly tags = none ∧
        self.CfgSetTagGlobal tags = none) ∧
    (∀ (self : parser) (tag param value : Str) (params : List Str) (v : paramValue)
        (cb : Str → GoMap Str Str → Str → Str) (childs : List Str),
        mapHas self.tagAllowed tag = false →
        self.CfgAllowTagParams tag params = none ∧
        self.CfgSetTagParamsRequired tag params = none ∧
        self.CfgAllowTagParamValue tag param v = none ∧
        self.CfgSetTagChilds tag childs = none ∧
        self.CfgSetTagParamDefault tag param value = none ∧
        self.CfgSetTagParamReview tag param value = none ∧
        self.CfgSetTagBuildCallback tag cb = none) ∧
    (∀ (self : parser) (tag child : Str) (childs : List Str), child ∈ childs →
        mapHas self.tagAllowed child = false → self.CfgSetTagChilds tag childs = none) := by
  refine ⟨?_, ?_, ?_⟩
  · intro self tags tag h hn
    have hf : ∀ m, setFlags self.tagAllowed tags m = none :=
      fun m => setFlags_none self.tagAllowed tags m tag h hn
    unfold parser.CfgSetTagShort parser.CfgSetTagPreformatted parser.CfgSetTagNoTypography
      parser.CfgSetTagIsEmpty parser.CfgSetTagNoAutoBr parser.CfgSetTagBlockType
      parser.CfgSetTagParentOnly parser.CfgSetTagChildOnly parser.CfgSetTagGlobal
    simp only [hf, Option.map_none', and_self]
  · intro self tag param value params v cb childs hn
    unfold parser.CfgAllowTagParams parser.CfgSetTagParamsRequired parser.CfgAllowTagParamValue
      parser.CfgSetTagChilds parser.CfgSetTagParamDefault parser.CfgSetTagParamReview
      parser.CfgSetTagBuildCallback
    simp only [hn, Bool.false_eq_true, not_false_eq_true, if_true, and_self]
  · intro self tag child childs h hn
    unfold parser.CfgSetTagChilds
    by_cases ht : mapHas self.tagAllowed tag = true
    · rw [if_neg (not_not.mpr ht), setChilds_none self.tagAllowed tag childs _ _ child h hn]
      rfl
    · rw [if_pos ht]

theorem C30_config_rejects_unknown_tag_witness :
    (New.CfgSetTagShort [runes "br"] = none ∧ New.CfgSetTagPreformatted [runes "br"] = none ∧
      New.CfgSetTagNoTypography [runes "br"] = none ∧ New.CfgSetTagIsEmpty [runes "br"] = none ∧
      New.CfgSetTagNoAutoBr [runes "br"] = none ∧ New.CfgSetTagBlockType [runes "br"] = none ∧
      New.CfgSetTagParentOnly [runes "br"] = none ∧ New.CfgSetTagChildOnly [runes "br"] = none ∧
      New.CfgSetTagGlobal [runes "br"] = none) ∧
    (New.CfgAllowTagParams (runes "a") [runes "href"] = none ∧
      New.CfgSetTagParamsRequired (runes "a") [runes "href"] = none ∧
      New.CfgAllowTagParamValue (runes "a") (runes "href") (paramValue.str (runes "#link")) =
        none ∧
      New.CfgSetTagChilds (runes "a") [runes "li"] = none ∧
      New.CfgSetTagParamDefault (runes "a") (runes "href") (runes "/") = none ∧
      New.CfgSetTagParamReview (runes "a") (runes "href") (runes "/") = none ∧
      New.CfgSetTagBuildCallback (runes "a") TagCodeBuild = none) ∧
    (New.CfgAllowTags [runes "ul"]).CfgSetTagChilds (runes "ul") [runes "li"] = none :=
  ⟨C30_config_rejects_unknown_tag.1 New [runes "br"] (runes "br") (by decide) (by decide!),
    C30_config_rejects_unknown_tag.2.1 New (runes "a") (runes "href") (runes "/") [runes "href"]
      (paramValue.str (runes "#link")) TagCodeBuild [runes "li"] (by decide!),
    C30_config_rejects_unknown_tag.2.2 (New.CfgAllowTags [runes "ul"]) (runes "ul") (runes "li")
      [runes "li"] (by decide) (by decide!)⟩

/-! ## Close tags written by the default builder -/

/-- C22 (counterexample).  The list `ul` of the test configuration is parent-only: the
default builder writes a line feed between `<ul>` and the content, so the output does not
start with `<ul>` followed by the content. -/
theorem C22_parent_only_line_feed :
    mapHas qvx.tagAllowed (runes "ul") = true ∧ mapHas qvx.tagShort (runes "ul") = false ∧
    mapGet qvx.tagBuildCallback (runes "ul") = none ∧
    (qvx.makeTag goLib (runes "ul") [] (runes "<li>x</li>") false []).1 =
      runes "<ul>\n<li>x</li></ul>\n" ∧
    (runes "<ul>" ++ runes "<li>x</li>").isPrefixOf
      (qvx.makeTag goLib (runes "ul") [] (runes "<li>x</li>") false []).1 = false := by
  refine ⟨by decide!, by decide!, ?_, by decide!, by decide!⟩
  exact Option.isNone_iff_eq_none.mp (by decide!)

/-- C22 (amended).  Whenever `makeTag` keeps an allowed non-short tag with the default
builder, its output is `<name`, the attributes, `>`, a line feed when the tag itself is
parent-only, the content, `</name>`, and then line feeds only; `matchTag` returns the tag
and its content also when no close tag follows the content, so `<b>x` and `<b>x</b>` give
the same output and the open tags of `<b>текст <u>текст текст` are closed innermost
first. -/
theorem C22_close_tag_written :
    (∀ (L : Lib) (self : parser) (tagName : Str) (tagParams : GoMap Str Str)
        (tagContent parentTag : Str),
        self.admits (L.toLower tagName) parentTag →
        missingRequired ((mapGet self.tagParamRequired (L.toLower tagName)).getD [])
          (makeTagParams L (L.toLower tagName) (self.ranged L tagParams) [] self).1 = false →
        ¬ (mapHas self.tagEmpty (L.toLower tagName) = false ∧ tagContent = []) →
        mapGet self.tagBuildCallback (L.toLower tagName) = none →
        ∃ tail : Str, (∀ c ∈ tail, c = 10) ∧
          (self.makeTag L tagName tagParams tagContent false parentTag).1 =
            runes "<" ++ L.toLower tagName ++
            buildParams (self.finalParams L (L.toLower tagName) tagParams)
              ((mapGet self.tagParamSorted (L.toLower tagName)).getD []) ++
            runes ">" ++
            (if mapHas self.tagParentOnly (L.toLower tagName) = true then [10] else []) ++
            tagContent ++ runes "</" ++ L.toLower tagName ++ runes ">" ++ tail) ∧
    (∀ (L : Lib) (fuel : Nat) (mc : parser → Str → Option (Str × parser))
        (self self1 self4 self5 : parser) (tagName closeTag tagContent : Str)
        (tagParams : GoMap Str Str),
        matchTagOpen L fuel self = some (true, tagName, tagParams, false, self1) →
        (if mapHas (self1.inTag tagName).tagPreformatted tagName = true then
            makePreformatted L fuel (self1.inTag tagName) tagName
          else mc (self1.inTag tagName) tagName) = some (tagContent, self4) →
        matchTagClose L fuel self4 = some (false, closeTag, self5) →
        matchTag L fuel mc self =
          some (true, tagName, tagParams, tagContent, false,
            (self5.setCurTag self1.curTag).setTypoMode self1.isTypoMode)) ∧
    parseOut goLib boldUnder (runes "<b>текст <u>текст текст") =
      some (runes "<b>текст <u>текст текст</u></b>", []) ∧
    parseOut goLib boldUnder (runes "<b>x") = some (runes "<b>x</b>", []) ∧
    parseOut goLib boldUnder (runes "<b>x</b>") = some (runes "<b>x</b>", []) := by
  refine ⟨?_, ?_, by decide!, by decide!, by decide!⟩
  · intro L self tagName tagParams tagContent parentTag h hm he hcb
    refine ⟨(if mapHas self.tagParentOnly parentTag = true then [10] else []) ++
      (if mapHas self.tagBlockType (L.toLower tagName) = true then [10] else []) ++
      (if L.toLower tagName = runes "br" then [10] else []), ?_, ?_⟩
    · intro c hc
      simp only [List.mem_append] at hc
      rcases hc with (hc | hc) | hc
      · split_ifs at hc
        · exact List.mem_singleton.mp hc
        · cases hc
      · split_ifs at hc
        · exact List.mem_singleton.mp hc
        · cases hc
      · split_ifs at hc
        · exact List.mem_singleton.mp hc
        · cases hc
    · rw [makeTag_admitted L self tagName tagParams tagContent false parentTag h,
        if_neg (by simp [hm]), if_neg (fun hh => he ⟨hh.1, hh.2.2⟩), hcb]
      simp only []
      unfold parser.buildTag
      simp only [Bool.false_eq_true, false_and, if_false, not_false_eq_true, if_true,
        List.append_assoc]
  · intro L fuel mc self self1 self4 self5 tagName closeTag tagContent tagParams h1 h3 h4
    unfold parser.inTag at h3
    unfold matchTag
    simp only [h1, Bool.false_eq_true, if_false]
    simp only [h3, h4]
    rw [if_neg (fun hh => by cases hh.1)]

theorem C22_close_tag_written_witness :
    (∃ tail : Str, (∀ c ∈ tail, c = 10) ∧
      (qvx.makeTag goLib (runes "B") [] (runes "x") false []).1 =
        runes "<" ++ goLib.toLower (runes "B") ++
        buildParams (qvx.finalParams goLib (goLib.toLower (runes "B")) [])
          ((mapGet qvx.tagParamSorted (goLib.toLower (runes "B"))).getD []) ++
        runes ">" ++
        (if mapHas qvx.tagParentOnly (goLib.toLower (runes "B")) = true then [10] else []) ++
        runes "x" ++ runes "</" ++ goLib.toLower (runes "B") ++ runes ">" ++ tail) ∧
    matchTag goLib 20 mismatchNested unclosedStart =
      some (true, runes "u", [], runes "y", false,
        (unclosedClosed.setCurTag unclosedOpen.curTag).setTypoMode unclosedOpen.isTypoMode) :=
  ⟨C22_close_tag_written.1 goLib qvx (runes "B") [] (runes "x") []
      (by unfold parser.admits; decide!) (by decide!) (by decide!)
      (Option.isNone_iff_eq_none.mp (by decide!)),
    C22_close_tag_written.2.1 goLib 20 mismatchNested unclosedStart unclosedOpen
      unclosedContent unclosedClosed (runes "u") [] (runes "y") []
      (some_of_parts5 _ _ true (runes "u") [] false (by decide!) (by decide!) (by decide!)
        (by decide!))
      (some_of_parts2 _ _ (runes "y") (by decide!))
      (some_of_parts3 _ _ false [] (by decide!))⟩

theorem prevInside_eq (self : parser) :
    decide (self.prevCharClass &&& (SPACE ||| NL ||| TEXT_BRACKET) = NULL ∧
      self.prevCharClass ≠ NULL) = !decide self.prevBoundary := by
  unfold parser.prevBoundary
  by_cases h1 : self.prevCharClass &&& (SPACE ||| NL ||| TEXT_BRACKET) = NULL <;>
    by_cases h2 : self.prevCharClass = NULL <;> simp [h1, h2]

theorem nextOutside_eq (self : parser) :
    decide (self.nextCharClass &&& (SPACE ||| NL ||| TEXT_BRACKET ||| PUNCTUATUON) ≠ NULL ∨
      self.nextCharClass = NULL) = decide self.nextBoundaryOrPunct := rfl

theorem close_eq (self : parser) :
    (decide (self.quotesOpened ≥ 2) ||
      (decide (self.quotesOpened > 0) && (!decide self.prevBoundary ||
        decide self.nextBoundaryOrPunct))) = decide self.quoteCloses := by
  unfold parser.quoteCloses
  by_cases h5 : self.quotesOpened ≥ 2 <;> by_cases h6 : self.quotesOpened > 0 <;>
    by_cases h1 : self.prevBoundary <;> by_cases h2 : self.nextBoundaryOrPunct <;>
    simp [h5, h6, h1, h2]

theorem matchQuote_cases (self : parser) (hc : self.curCharClass &&& TEXT_QUOTE ≠ NULL) :
    self.matchQuote =
      if self.quoteCloses then
        if self.nextBoundaryOrPunct then
          match self.quoteAt (self.quotesOpened - 1) 1 with
          | none => none
          | some g =>
            some (true, [g],
              (({ self with quotesOpened := self.quotesOpened - 1 } : parser).moveNextPos).2)
        else some (false, [], self)
      else
        if self.prevBoundary then
          match self.quoteAt self.quotesOpened 0 with
          | none => none
          | some g =>
            some (true, [g],
              (({ self with quotesOpened := self.quotesOpened + 1 } : parser).moveNextPos).2)
        else some (false, [], self) := by
  unfold parser.matchQuote
  rw [if_neg hc]
  simp only [prevInside_eq, nextOutside_eq, close_eq]
  by_cases hcl : self.quoteCloses
  · by_cases hn : self.nextBoundaryOrPunct
    · simp only [hcl, hn, decide_True, decide_False, not_true_eq_false, false_and, if_false,
        true_and, Bool.not_eq_true, if_true]
      rfl
    · simp only [hcl, hn, decide_True, decide_False, not_true_eq_false, false_and, if_false,
        true_and, Bool.not_eq_true, not_false_eq_true, and_self, if_true]
  · by_cases hp : self.prevBoundary
    · simp only [hcl, hp, decide_True, decide_False, Bool.not_true, Bool.false_eq_true,
        not_false_eq_true, and_false, if_false, false_and, if_true]
      have : self.quotesOpened + 1 - 1 = self.quotesOpened := by omega
      rw [this]
      rfl
    · simp only [hcl, hp, decide_True, decide_False, Bool.not_false, Bool.false_eq_true,
        not_false_eq_true, and_self, if_true, if_false]

/-- C23.  Quote pairing at a rune of the class of text quotes: the quote is taken as a
closing one exactly when the counter of open quotes is at least 2, or is positive and the
previous rune is no boundary or the next rune is a boundary or a punctuation mark.  An
opening quote is replaced only when the previous rune is a boundary or there is none: the
counter goes up by one and the glyph is the opening one of the old counter, which is the
level of the new counter minus one.  A closing quote is replaced only when the next rune
is a boundary or a punctuation mark or there is none: the counter goes down by one and
the glyph is the closing one of the new level.  Otherwise `matchQuote` fails and returns
the parser as it was.  The head moves one rune on a success. -/
theorem C23_quote_pairing :
    (∀ (self : parser) (g : Rune), self.curCharClass &&& TEXT_QUOTE ≠ NULL →
        self.quoteCloses → self.nextBoundaryOrPunct →
        self.quoteAt (self.quotesOpened - 1) 1 = some g →
        ∃ s, self.matchQuote = some (true, [g], s) ∧
          s.quotesOpened = self.quotesOpened - 1 ∧ s.curPos = self.curPos + 1) ∧
    (∀ (self : parser), self.curCharClass &&& TEXT_QUOTE ≠ NULL →
        self.quoteCloses → ¬ self.nextBoundaryOrPunct →
        self.matchQuote = some (false, [], self)) ∧
    (∀ (self : parser) (g : Rune), self.curCharClass &&& TEXT_QUOTE ≠ NULL →
        ¬ self.quoteCloses → self.prevBoundary →
        self.quoteAt self.quotesOpened 0 = some g →
        ∃ s, self.matchQuote = some (true, [g], s) ∧
          s.quotesOpened = self.quotesOpened + 1 ∧ s.curPos = self.curPos + 1) ∧
    (∀ (self : parser), self.curCharClass &&& TEXT_QUOTE ≠ NULL →
        ¬ self.quoteCloses → ¬ self.prevBoundary →
        self.matchQuote = some (false, [], self)) ∧
    (New.quoteAt 0 0 = some 171 ∧ New.quoteAt 0 1 = some 187 ∧
      New.quoteAt 1 0 = some 8222 ∧ New.quoteAt 1 1 = some 8220) ∧
    parseOut goLib qvx (runes "<b>\"текст\" текст \"текст \"текст\" текст\" \"...\"</b>") =
      some (runes "<b>«текст» текст «текст „текст“ текст» «...»</b>", []) ∧
    parseOut goLib boldUnder (runes "<b>\"a\" b \"c \"d\" e\" \"...\"</b>") =
      some (runes "<b>«a» b «c „d“ e» «...»</b>", []) := by
  refine ⟨?_, ?_, ?_, ?_, by decide, by decide!, by decide!⟩
  · intro self g hc hcl hn hg
    rw [matchQuote_cases self hc, if_pos hcl, if_pos hn, hg]
    exact ⟨_, rfl, rfl, rfl⟩
  · intro self hc hcl hn
    rw [matchQuote_cases self hc, if_pos hcl, if_neg hn]
  · intro self g hc hcl hp hg
    rw [matchQuote_cases self hc, if_neg hcl, if_pos hp, hg]
    exact ⟨_, rfl, rfl, rfl⟩
  · intro self hc hcl hp
    rw [matchQuote_cases self hc, if_neg hcl, if_neg hp]

theorem C23_quote_pairing_witness :
    (∃ s, ((((qvx.start (runes "\"a\" x")).upd 1 [] []).atPos 2).matchQuote =
        some (true, [187], s) ∧
      s.quotesOpened = (((qvx.start (runes "\"a\" x")).upd 1 [] []).atPos 2).quotesOpened - 1 ∧
      s.curPos = (((qvx.start (runes "\"a\" x")).upd 1 [] []).atPos 2).curPos + 1)) ∧
    (((qvx.start (runes "a\"b")).upd 1 [] []).atPos 1).matchQuote =
      some (false, [], ((qvx.start (runes "a\"b")).upd 1 [] []).atPos 1) ∧
    (∃ s, ((((qvx.start (runes "\"a\" x")).upd 0 [] []).atPos 0).matchQuote =
        some (true, [171], s) ∧
      s.quotesOpened = (((qvx.start (runes "\"a\" x")).upd 0 [] []).atPos 0).quotesOpened + 1 ∧
      s.curPos = (((qvx.start (runes "\"a\" x")).upd 0 [] []).atPos 0).curPos + 1)) ∧
    (((qvx.start (runes "a\"b")).upd 0 [] []).atPos 1).matchQuote =
      some (false, [], ((qvx.start (runes "a\"b")).upd 0 [] []).atPos 1) :=
  ⟨C23_quote_pairing.1 _ 187 (by decide!) (by decide!) (by decide!) (by decide!),
    C23_quote_pairing.2.1 _ (by decide!) (by decide!) (by decide!),
    C23_quote_pairing.2.2.1 _ 171 (by decide!) (by decide!) (by decide!) (by decide!),
    C23_quote_pairing.2.2.2.1 _ (by decide!) (by decide!) (by decide!)⟩

/-! ## Typography switched off -/

theorem class_of_char (p : parser) (k : Int) (c : Rune) (h : (p.atPos k).curChar = c)
    (hc : c ≠ 0) : (p.atPos k).curCharClass = getClassByOrd c := by
  have hr := char_inrange p k (by rw [h]; exact hc)
  have hin : decide (k < p.textLen ∧ k ≥ 0) = true := by
    simp only [decide_eq_true_eq]
    exact ⟨hr.2, hr.1⟩
  have hcl : (p.atPos k).curCharClass = getClassByOrd (p.atPos k).curChar := by
    show (if decide (k < p.textLen ∧ k ≥ 0) = true then _ else NULL) = _
    rw [if_pos hin]
    rfl
  rw [hcl, h]

/-- With typography off a rune that is neither punctuation, nor a space, nor a newline,
nor a letter, nor a special character, nor `&`, is written through the entities table. -/
theorem makeTextStep_plain (L : Lib) (fuel : Nat) (self : parser) (parentTag : Str)
    (hty : self.isTypoMode = false) (h38 : self.curChar ≠ 38)
    (h1 : self.curCharClass &&& PUNCTUATUON = NULL) (h2 : self.curCharClass &&& SPACE = NULL)
    (h3 : self.curCharClass &&& NL = NULL) (h4 : self.curCharClass &&& ALPHA = NULL)
    (h5 : self.curCharClass &&& SPECIAL_CHAR = NULL)
    (h6 : self.curCharClass &&& PRINATABLE ≠ NULL) :
    makeTextStep L fuel self parentTag =
      some (self.escapeRune self.curChar, (self.moveNextPos).2) := by
  unfold makeTextStep
  rw [if_neg h38]
  simp only []
  rw [if_neg (not_not.mpr h1), if_neg (by rw [hty]; intro hh; cases hh.1)]
  simp only []
  rw [if_neg (by rw [hty]; intro hh; cases hh.1)]
  simp only []
  rw [if_neg (not_not.mpr h2), if_neg (fun hh => hh.2 h3),
    if_neg (fun hh => hh.2.1 h4)]
  simp only []
  rw [if_neg (fun hh => hh.2.1 h5)]
  simp only []
  rw [if_pos h6]

theorem makeTextStep_char_plain (L : Lib) (fuel : Nat) (p : parser) (k : Int) (parentTag : Str)
    (c : Rune) (hty : p.isTypoMode = false) (hch : (p.atPos k).curChar = c) (hc0 : c ≠ 0)
    (h38 : c ≠ 38) (h1 : getClassByOrd c &&& PUNCTUATUON = NULL)
    (h2 : getClassByOrd c &&& SPACE = NULL) (h3 : getClassByOrd c &&& NL = NULL)
    (h4 : getClassByOrd c &&& ALPHA = NULL) (h5 : getClassByOrd c &&& SPECIAL_CHAR = NULL)
    (h6 : getClassByOrd c &&& PRINATABLE ≠ NULL) :
    makeTextStep L fuel (p.atPos k) parentTag = some (p.escapeRune c, p.atPos (k + 1)) := by
  have hcl := class_of_char p k c hch hc0
  have h := makeTextStep_plain L fuel (p.atPos k) parentTag hty (by rw [hch]; exact h38)
    (by rw [hcl]; exact h1) (by rw [hcl]; exact h2) (by rw [hcl]; exact h3)
    (by rw [hcl]; exact h4) (by rw [hcl]; exact h5) (by rw [hcl]; exact h6)
  rw [h, hch]
  rfl

/-- C24.  Entering a tag registered as no-typography switches the typography flag off, and
a tag entered with the flag off keeps it off; with the flag off the text step writes a
double quote through the entities table, as `&#34;`, and a hyphen as it is, and calls
neither `matchDash` nor `matchQuote`; when `matchTag` returns, the typography flag and the
current tag are what they were before the call.  Under the test configuration the quotes
inside `pre` stay `&#34;` and the text after the tag is typeset again. -/
theorem C24_no_typography :
    (∀ (p : parser) (name : Str), mapHas p.tagNoTypography name = true →
        (p.inTag name).isTypoMode = false ∧ (p.inTag name).curTag = name) ∧
    (∀ (p : parser) (name : Str), p.isTypoMode = false → (p.inTag name).isTypoMode = false) ∧
    (∀ (L : Lib) (fuel : Nat) (p : parser) (k : Int) (parentTag : Str),
        p.isTypoMode = false → (p.atPos k).curChar = 34 →
        makeTextStep L fuel (p.atPos k) parentTag = some (p.escapeRune 34, p.atPos (k + 1))) ∧
    (∀ (L : Lib) (fuel : Nat) (p : parser) (k : Int) (parentTag : Str),
        p.isTypoMode = false → (p.atPos k).curChar = 45 →
        makeTextStep L fuel (p.atPos k) parentTag = some (p.escapeRune 45, p.atPos (k + 1))) ∧
    (New.escapeRune 34 = runes "&#34;" ∧ New.escapeRune 45 = runes "-") ∧
    (∀ (L : Lib) (fuel : Nat) (p : parser) (q : Int) (e : List Str) (σ : List state) (k : Int),
        L.unescapeOk → σ ≠ [] → (0 ≤ q ∧ q ≤ 2) → p.quotesOk → remaining p k + 3 < fuel →
        ∃ r name params content short s,
          matchTag L fuel (makeContentWith fuel (makeContentLoop L fuel))
            ((p.upd q e σ).atPos k) = some (r, name, params, content, short, s) ∧
          s.isTypoMode = ((p.upd q e σ).atPos k).isTypoMode ∧
          s.curTag = ((p.upd q e σ).atPos k).curTag) ∧
    parseOut goLib qvx
        (runes "<pre>\"текст\" текст \"текст \"текст\" текст\" \"...\"</pre>") =
      some (runes "<pre>&#34;текст&#34; текст &#34;текст &#34;текст&#34; текст&#34; &#34;...&#34;</pre>",
        []) ∧
    parseOut goLib qvx (runes "<pre>a - b \"c\"</pre> d - e \"f\"") =
      some (runes "<pre>a - b &#34;c&#34;</pre> d — e «f»", []) := by
  refine ⟨?_, ?_, ?_, ?_, by decide, ?_, by decide!, by decide!⟩
  · intro p name h
    unfold parser.inTag
    rw [if_pos h]
    exact ⟨rfl, rfl⟩
  · intro p name h
    unfold parser.inTag
    split_ifs
    · rfl
    · exact h
  · intro L fuel p k parentTag hty hch
    exact makeTextStep_char_plain L fuel p k parentTag 34 hty hch (by decide) (by decide)
      (by decide) (by decide) (by decide) (by decide) (by decide) (by decide)
  · intro L fuel p k parentTag hty hch
    exact makeTextStep_char_plain L fuel p k parentTag 45 hty hch (by decide) (by decide)
      (by decide) (by decide) (by decide) (by decide) (by decide) (by decide)
  · intro L fuel p q e σ k hU hσ hq hQ hf
    have hmc := nested_ok L fuel
      (fun p q e σ k pt c hq hQ h => makeContentLoop_ok L hU fuel p q e σ k pt c hq hQ h)
    obtain ⟨r, name, params, content, short, q1, e1, k1, e1', _⟩ :=
      matchTag_ok L fuel (makeContentWith fuel (makeContentLoop L fuel)) p q e σ k hσ hq hQ
        (by omega) (hmc.mono (by omega))
    exact ⟨r, name, params, content, short, _, e1', rfl, rfl⟩

theorem C24_no_typography_witness :
    ((qvx.inTag (runes "pre")).isTypoMode = false ∧
      (qvx.inTag (runes "pre")).curTag = runes "pre") ∧
    ((qvx.setTypoMode false).inTag (runes "b")).isTypoMode = false ∧
    makeTextStep goLib 9 (((qvx.start (runes "\"-")).setTypoMode false).atPos 0) [] =
      some (((qvx.start (runes "\"-")).setTypoMode false).escapeRune 34,
        ((qvx.start (runes "\"-")).setTypoMode false).atPos (0 + 1)) ∧
    makeTextStep goLib 9 (((qvx.start (runes "\"-")).setTypoMode false).atPos 1) [] =
      some (((qvx.start (runes "\"-")).setTypoMode false).escapeRune 45,
        ((qvx.start (runes "\"-")).setTypoMode false).atPos (1 + 1)) ∧
    ∃ r name params content short s,
      matchTag goLib 30 (makeContentWith 30 (makeContentLoop goLib 30))
        (((qvx.start (runes "<pre>\"</pre>")).upd 0 []
          [((qvx.start (runes "<pre>\"</pre>")).atPos 0).head]).atPos 0) =
        some (r, name, params, content, short, s) ∧
      s.isTypoMode = (((qvx.start (runes "<pre>\"</pre>")).upd 0 []
        [((qvx.start (runes "<pre>\"</pre>")).atPos 0).head]).atPos 0).isTypoMode ∧
      s.curTag = (((qvx.start (runes "<pre>\"</pre>")).upd 0 []
        [((qvx.start (runes "<pre>\"</pre>")).atPos 0).head]).atPos 0).curTag :=
  ⟨C24_no_typography.1 qvx (runes "pre") (by decide!),
    C24_no_typography.2.1 (qvx.setTypoMode false) (runes "b") (by decide!),
    C24_no_typography.2.2.1 goLib 9 ((qvx.start (runes "\"-")).setTypoMode false) 0 []
      (by decide!) (by decide!),
    C24_no_typography.2.2.2.1 goLib 9 ((qvx.start (runes "\"-")).setTypoMode false) 1 []
      (by decide!) (by decide!),
    C24_no_typography.2.2.2.2.2.1 goLib 30 (qvx.start (runes "<pre>\"</pre>")) 0 []
      [((qvx.start (runes "<pre>\"</pre>")).atPos 0).head] 0 goLib_unescapeOk
      (List.cons_ne_nil _ _) (by decide) (quotesOk_of_eq _ (by decide!)) (by decide!)⟩

/-! ## A close tag where no tag is open -/

/-- Where `matchTagClose` succeeds the buffer holds `<` and then `/`, and `matchTagOpen`
fails. -/
theorem matchTagOpen_of_close (L : Lib) (fuel : Nat) (B : parser) (k : Int) (name : Str)
    (s : parser) (h : matchTagClose L fuel (B.atPos k) = some (true, name, s)) :
    (B.atPos k).curChar = 60 ∧ (B.atPos (k + 1)).curChar = 47 ∧
    ∃ x, matchTagOpen L fuel (B.atPos k) = some (false, [], [], false, x) := by
  unfold matchTagClose at h
  by_cases h60 : (B.atPos k).curChar ≠ 60
  · rw [if_pos h60] at h
    cases h
  rw [if_neg h60] at h
  have h60' : (B.atPos k).curChar = 60 := not_not.mp h60
  simp only [saveState_atPos] at h
  cases fuel with
  | zero =>
    unfold skipSpaces skipSpacesLoop at h
    cases h
  | succ m =>
    have hsp : skipSpaces (m + 1) ((B.push (B.atPos k).head).atPos k) =
        some (0, (B.push (B.atPos k).head).atPos k) := by
      unfold skipSpaces skipSpacesLoop
      have hcl : ((B.push (B.atPos k).head).atPos k).curCharClass = getClassByOrd 60 :=
        class_of_char _ k 60 h60' (by decide)
      rw [if_neg (by rw [hcl]; decide)]
    rw [hsp] at h
    simp only [if_true, moveNextPos_atPos] at h
    by_cases h47 : ((B.push (B.atPos k).head).atPos (k + 1)).curChar ≠ 47
    · rw [if_pos h47] at h
      cases h
    rw [if_neg h47] at h
    have h47' : ((B.push (B.atPos k).head).atPos (k + 1)).curChar = 47 := not_not.mp h47
    refine ⟨h60', h47', ?_⟩
    unfold matchTagOpen
    rw [if_neg h60]
    simp only [saveState_atPos]
    rw [hsp]
    simp only [if_true, moveNextPos_atPos]
    have hgr : grabCharClass (m + 1) ((B.push (B.atPos k).head).atPos (k + 1)) TAG_NAME =
        some ([], (B.push (B.atPos k).head).atPos (k + 1)) := by
      unfold grabCharClass grabCharClassLoop
      have hcl : ((B.push (B.atPos k).head).atPos (k + 1)).curCharClass = getClassByOrd 47 :=
        class_of_char _ (k + 1) 47 h47' (by decide)
      rw [if_neg (by rw [hcl]; decide)]
    rw [hgr]
    simp only []
    cases hs : skipSpaces (m + 1) ((B.push (B.atPos k).head).atPos (k + 1)) with
    | none =>
      rw [hs] at h
      cases h
    | some v =>
      obtain ⟨c, x⟩ := v
      simp only [if_true]
      exact ⟨_, rfl⟩

theorem EqualSliceRune_second (a b c d : Rune) (r1 r2 : List Rune) (h : b ≠ d) :
    EqualSliceRune (a :: b :: r1) (c :: d :: r2) = false := by
  unfold EqualSliceRune
  split_ifs
  · rfl
  · simp [List.zip, h]

/-- Where the buffer holds `<` and then `/`, no comment starts. -/
theorem matchStr_comment_false (B : parser) (k : Int) (h60 : (B.atPos k).curChar = 60)
    (h47 : (B.atPos (k + 1)).curChar = 47) :
    ((B.atPos k).matchStr (runes "<!--")).1 = false := by
  unfold parser.matchStr
  simp only [saveState_atPos]
  have hlen : (runes "<!--").length = 4 := by decide
  have hstr : runes "<!--" = 60 :: 33 :: [45, 45] := by decide
  rw [hlen]
  have hc0 : ((B.push (B.atPos k).head).atPos k).curCharClass ≠ NULL :=
    class_of_lt _ k h60
  have hc1 : ((B.push (B.atPos k).head).atPos (k + 1)).curCharClass ≠ NULL := by
    have hr := char_inrange (B.push (B.atPos k).head) (k + 1) (by
      show (B.atPos (k + 1)).curChar ≠ 0
      rw [h47]
      decide)
    exact class_ne_null _ _ hr.1 hr.2
  have e1 : (matchStrLoop 4 ((B.push (B.atPos k).head).atPos k)).1 =
      60 :: 47 :: (matchStrLoop 2 ((B.push (B.atPos k).head).atPos (k + 1 + 1))).1 := by
    rw [matchStrLoop, if_pos hc0]
    simp only [moveNextPos_atPos]
    rw [matchStrLoop, if_pos hc1]
    simp only [moveNextPos_atPos]
    have a : ((B.push (B.atPos k).head).atPos k).curChar = 60 := h60
    have b : ((B.push (B.atPos k).head).atPos (k + 1)).curChar = 47 := h47
    rw [a, b]
  rw [e1, hstr]
  exact EqualSliceRune_second _ _ _ _ _ _ (by decide)

/-- One pass of the loop of `makeContent` over a close tag met while no tag is open. -/
theorem close_at_top (L : Lib) (hU : L.unescapeOk) (fuel : Nat) (p : parser) (q : Int)
    (e : List Str) (σ : List state) (k : Int) (parentTag content name : Str) (s3 : parser)
    (hq : 0 ≤ q ∧ q ≤ 2) (hQ : p.quotesOk) (hf : remaining p k + 4 ≤ fuel + 1)
    (htop : p.curTag = [])
    (h : matchTagClose L fuel (((p.upd q e σ).atPos k).saveState) = some (true, name, s3)) :
    ∃ k1, k < k1 ∧ s3 = (p.upd q e (((p.upd q e σ).atPos k).head :: σ)).atPos k1 ∧
      makeContentLoop L (fuel + 1) ((p.upd q e σ).atPos k) parentTag content =
        makeContentLoop L fuel
          ((p.upd q (e ++ [runes "Не ожидалось закрывающего тега \x27" ++ name ++ runes "\x27"])
            (if σ = [] then [((p.upd q e σ).atPos k).head] else σ)).atPos k1)
          parentTag content := by
  rw [saveState_atPos, push_upd] at h
  generalize hh0 : ((p.upd q e σ).atPos k).head = h0 at h ⊢
  have hσ' : h0 :: σ ≠ [] := by simp
  obtain ⟨h60, h47, x, hopen⟩ := matchTagOpen_of_close L fuel _ k name s3 h
  have h60' : ((p.upd q e σ).atPos k).curChar = 60 := h60
  have hc : ((p.upd q e σ).atPos k).curCharClass ≠ NULL := class_of_lt _ k h60'
  have hlt : remaining p k < fuel := by omega
  obtain ⟨r3, name3, k3, e3, _, t3, _⟩ := matchTagClose_ok L fuel (p.upd q e (h0 :: σ)) k hσ' hlt
  rw [e3] at h
  have hr3 : r3 = true := by
    cases h
    rfl
  have hn3 : name3 = name := by
    cases h
    rfl
  have hs3 : s3 = (p.upd q e (h0 :: σ)).atPos k3 := by
    cases h
    rfl
  subst hr3
  subst hn3
  refine ⟨k3, t3 rfl, hs3, ?_⟩
  have hmc := nested_ok L fuel
    (fun p q e σ k pt c hq hQ h => makeContentLoop_ok L hU fuel p q e σ k pt c hq hQ h)
  obtain ⟨r, nm, params, tcontent, short, q1, e1, k1, e1', _, _, _, f1⟩ :=
    matchTag_ok L fuel (makeContentWith fuel (makeContentLoop L fuel)) p q e (h0 :: σ) k hσ' hq
      hQ hlt (hmc.mono (by omega))
  have hr : r = false := by
    unfold matchTag at e1'
    rw [hopen] at e1'
    cases e1'
    rfl
  subst hr
  obtain ⟨hk, hqq, hee⟩ := f1 rfl
  subst hk
  subst hqq
  subst hee
  conv_lhs => rw [makeContentLoop]
  rw [if_pos hc, if_neg (fun hh => hh.2 h60')]
  simp only [saveState_atPos, push_upd, hh0]
  rw [if_pos h60, e1']
  simp only [if_pos h60, matchStr_state]
  rw [if_neg (by rw [matchStr_comment_false _ k1 h60 h47]; decide), e3]
  simp only []
  have hct : ¬ ((p.upd q1 e1 (h0 :: σ)).atPos k3).curTag ≠ [] := not_not.mpr htop
  rw [if_neg hct, setError_upd, removeState_upd]

/-- C21.  A close tag met by the loop of `makeContent` while no tag is open adds nothing
to the content and exactly one error to the error list, and the loop goes on from the
position right after the close tag; `Parse` returns a result whatever the errors are. -/
theorem C21_unexpected_close_tag :
    (∀ (L : Lib) (fuel : Nat) (p : parser) (q : Int) (e : List Str) (σ : List state) (k : Int)
        (parentTag content name : Str) (s3 : parser),
        L.unescapeOk → (0 ≤ q ∧ q ≤ 2) → p.quotesOk → remaining p k + 4 ≤ fuel + 1 →
        p.curTag = [] →
        matchTagClose L fuel (((p.upd q e σ).atPos k).saveState) = some (true, name, s3) →
        ∃ k1, k < k1 ∧ s3 = (p.upd q e (((p.upd q e σ).atPos k).head :: σ)).atPos k1 ∧
          makeContentLoop L (fuel + 1) ((p.upd q e σ).atPos k) parentTag content =
            makeContentLoop L fuel
              ((p.upd q
                (e ++ [runes "Не ожидалось закрывающего тега \x27" ++ name ++ runes "\x27"])
                (if σ = [] then [((p.upd q e σ).atPos k).head] else σ)).atPos k1)
              parentTag content) ∧
    (∀ (L : Lib) (self : parser) (text : Str), L.unescapeOk → self.quotesOk →
        ∃ out errs final, Parse L self text = some ((out, errs), final)) ∧
    parseOut goLib qvx (runes "текст <div></div> <b></b> текст</b>") =
      some (runes "текст <div></div> текст",
        [runes "Не ожидалось закрывающего тега \x27b\x27"]) ∧
    parseOut goLib qvx (runes "x </b> y </i></u>z") =
      some (runes "x  y z",
        [runes "Не ожидалось закрывающего тега \x27b\x27",
         runes "Не ожидалось закрывающего тега \x27i\x27",
         runes "Не ожидалось закрывающего тега \x27u\x27"]) := by
  refine ⟨?_, ?_, by decide!, by decide!⟩
  · intro L fuel p q e σ k parentTag content name s3 hU hq hQ hf htop h
    exact close_at_top L hU fuel p q e σ k parentTag content name s3 hq hQ hf htop h
  · intro L self text hU hQ
    obtain ⟨content, q, e, σ, k, h, _⟩ := Parse_ok L hU self hQ text
    exact ⟨_, _, _, h⟩

theorem C21_unexpected_close_tag_witness :
    (∃ k1, 0 < k1 ∧
      strayClosed = ((qvx.start (runes "</b>z")).upd 0 []
        ((((qvx.start (runes "</b>z")).upd 0 [] []).atPos 0).head :: [])).atPos k1 ∧
      makeContentLoop goLib (30 + 1) (((qvx.start (runes "</b>z")).upd 0 [] []).atPos 0) [] [] =
        makeContentLoop goLib 30
          (((qvx.start (runes "</b>z")).upd 0
            ([] ++ [runes "Не ожидалось закрывающего тега \x27" ++ runes "b" ++ runes "\x27"])
            (if ([] : List state) = [] then
              [(((qvx.start (runes "</b>z")).upd 0 [] []).atPos 0).head] else [])).atPos k1)
          [] []) ∧
    ∃ out errs final, Parse goLib qvx (runes "x </b> y") = some ((out, errs), final) :=
  ⟨C21_unexpected_close_tag.1 goLib 30 (qvx.start (runes "</b>z")) 0 [] [] 0 [] [] (runes "b")
      strayClosed goLib_unescapeOk (by decide) (quotesOk_of_eq _ (by decide!)) (by decide!)
      (by decide!) (some_of_parts3 _ _ true (runes "b") (by decide!)),
    C21_unexpected_close_tag.2.1 goLib qvx (runes "x </b> y") goLib_unescapeOk qvx_quotesOk⟩

/-! ## The dash -/

theorem matchDashLoop_run : ∀ (fuel : Nat) (p : parser) (k : Int), remaining p k < fuel →
    ∃ k1, matchDashLoop fuel (p.atPos k) = some (p.atPos k1) ∧ k ≤ k1 ∧
      (∀ j, k < j → j ≤ k1 → (p.atPos j).curChar = 45) ∧ (p.atPos (k1 + 1)).curChar ≠ 45 := by
  intro fuel
  induction fuel with
  | zero => intro p k h; omega
  | succ n ih =>
    intro p k h
    unfold matchDashLoop
    by_cases hc : (p.atPos k).nextChar = 45
    · rw [if_pos hc, moveNextPos_atPos]
      have hn := next_inrange p k (by rw [hc]; decide)
      have hf : remaining p (k + 1) < n := by
        unfold remaining at *
        omega
      obtain ⟨k1, e1, l1, a1, b1⟩ := ih p (k + 1) hf
      refine ⟨k1, e1, by omega, ?_, b1⟩
      intro j hj1 hj2
      by_cases hjk : j = k + 1
      · rw [hjk]
        exact hc
      · exact a1 j (by omega) hj2
    · rw [if_neg hc]
      exact ⟨k, rfl, le_refl k, fun j hj1 hj2 => by omega, hc⟩

theorem not_prevBoundary (self : parser) :
    (self.prevCharClass &&& (SPACE ||| NL ||| TEXT_BRACKET) = NULL ∧ self.prevCharClass ≠ NULL) ↔
      ¬ self.prevBoundary := by
  unfold parser.prevBoundary
  by_cases h1 : self.prevCharClass &&& (SPACE ||| NL ||| TEXT_BRACKET) = NULL <;>
    by_cases h2 : self.prevCharClass = NULL <;> simp [h1, h2]

theorem not_nextBoundary (self : parser) :
    (self.nextCharClass &&& (SPACE ||| NL ||| TEXT_BRACKET) = NULL ∧ self.nextCharClass ≠ NULL) ↔
      ¬ self.nextBoundary := by
  unfold parser.nextBoundary
  by_cases h1 : self.nextCharClass &&& (SPACE ||| NL ||| TEXT_BRACKET) = NULL <;>
    by_cases h2 : self.nextCharClass = NULL <;> simp [h1, h2]

theorem matchDash_run (fuel : Nat) (p : parser) (k : Int) (hs : p.statesStack ≠ [])
    (h : remaining p k < fuel) (h45 : (p.atPos k).curChar = 45) :
    ∃ k1, k ≤ k1 ∧ (∀ j, k ≤ j → j ≤ k1 → (p.atPos j).curChar = 45) ∧
      (p.atPos (k1 + 1)).curChar ≠ 45 ∧
      matchDash fuel (p.atPos k) =
        if (p.atPos k).prevBoundary ∧ (p.atPos k1).nextBoundary then
          some (true, p.dash, p.atPos (k1 + 1))
        else some (false, [], p.atPos k) := by
  obtain ⟨k1, e1, l1, a1, b1⟩ := matchDashLoop_run fuel (p.push (p.atPos k).head) k h
  refine ⟨k1, l1, ?_, b1, ?_⟩
  · intro j hj1 hj2
    by_cases hjk : j = k
    · rw [hjk]
      exact h45
    · exact a1 j (by omega) hj2
  · unfold matchDash
    rw [if_neg (not_not.mpr h45)]
    by_cases hp : (p.atPos k).prevBoundary
    · rw [if_neg (fun hh => (not_prevBoundary _).mp hh hp)]
      simp only [saveState_atPos]
      rw [e1]
      simp only []
      by_cases hn : (p.atPos k1).nextBoundary
      · have hn' : ((p.push (p.atPos k).head).atPos k1).nextBoundary := hn
        rw [if_neg (fun hh => (not_nextBoundary _).mp hh hn'), if_pos ⟨hp, hn⟩,
          removeState_push p _ k1 hs, moveNextPos_atPos]
        rfl
      · have hn' : ¬ ((p.push (p.atPos k).head).atPos k1).nextBoundary := hn
        rw [if_pos ((not_nextBoundary _).mpr hn'), if_neg (fun hh => hn hh.2),
          restoreState_push]
    · rw [if_pos ((not_prevBoundary _).mpr hp), if_neg (fun hh => hp hh.1)]

/-- C25.  The function `matchDash` fails, leaving the parser as it was, when the rune under
the head is not a hyphen.  On a hyphen it looks at the maximal run of hyphens that starts
there: it succeeds exactly when the previous rune is a space, a newline or a bracket or
there is none, and the rune after the run is a space, a newline or a bracket or there is
none; on success it yields the configured dash and leaves the head right after the run,
on failure it leaves the head where it was. -/
theorem C25_dash :
    (∀ (fuel : Nat) (self : parser), self.curChar ≠ 45 →
        matchDash fuel self = some (false, [], self)) ∧
    (∀ (fuel : Nat) (p : parser) (k : Int), p.statesStack ≠ [] → remaining p k < fuel →
        (p.atPos k).curChar = 45 →
        ∃ k1, k ≤ k1 ∧ (∀ j, k ≤ j → j ≤ k1 → (p.atPos j).curChar = 45) ∧
          (p.atPos (k1 + 1)).curChar ≠ 45 ∧
          matchDash fuel (p.atPos k) =
            if (p.atPos k).prevBoundary ∧ (p.atPos k1).nextBoundary then
              some (true, p.dash, p.atPos (k1 + 1))
            else some (false, [], p.atPos k)) ∧
    New.dash = [8212] ∧
    parseOut goLib qvx (runes "текст - текст") = some (runes "текст — текст", []) ∧
    parseOut goLib qvx (runes "текст --- текст-текст -текст текст- (-)") =
      some (runes "текст — текст-текст -текст текст- (—)", []) := by
  refine ⟨?_, ?_, by decide, by decide!, by decide!⟩
  · intro fuel self h
    unfold matchDash
    rw [if_pos h]
  · intro fuel p k hs h h45
    exact matchDash_run fuel p k hs h h45

theorem C25_dash_witness :
    matchDash 9 ((qvx.start (runes "a")).atPos 0) =
      some (false, [], (qvx.start (runes "a")).atPos 0) ∧
    ∃ k1, 2 ≤ k1 ∧
      (∀ j, 2 ≤ j → j ≤ k1 → ((((qvx.start (runes "a -- b")).atPos 0).saveState).atPos j).curChar =
        45) ∧
      ((((qvx.start (runes "a -- b")).atPos 0).saveState).atPos (k1 + 1)).curChar ≠ 45 ∧
      matchDash 9 ((((qvx.start (runes "a -- b")).atPos 0).saveState).atPos 2) =
        if ((((qvx.start (runes "a -- b")).atPos 0).saveState).atPos 2).prevBoundary ∧
            ((((qvx.start (runes "a -- b")).atPos 0).saveState).atPos k1).nextBoundary then
          some (true, (((qvx.start (runes "a -- b")).atPos 0).saveState).dash,
            (((qvx.start (runes "a -- b")).atPos 0).saveState).atPos (k1 + 1))
        else some (false, [], (((qvx.start (runes "a -- b")).atPos 0).saveState).atPos 2) :=
  ⟨C25_dash.1 9 ((qvx.start (runes "a")).atPos 0) (by decide!),
    C25_dash.2.1 9 (((qvx.start (runes "a -- b")).atPos 0).saveState) 2 (List.cons_ne_nil _ _)
      (by decide!) (by decide!)⟩

/-! ## Positions of the head and the text that is left -/

theorem rest_cons (buf : Str) (k : Int) (h0 : 0 ≤ k) (h1 : k < buf.length) :
    rest buf k = bufAt buf k :: rest buf (k + 1) := by
  unfold rest bufAt
  have hk : k.toNat < buf.length := by omega
  have e1 : (k + 1).toNat = k.toNat + 1 := by omega
  rw [e1, List.drop_eq_getElem_cons hk, List.getD_eq_getElem _ _ hk]

theorem rest_nil (buf : Str) (k : Int) (h1 : (buf.length : Int) ≤ k) :
    rest buf k = [] := by
  unfold rest
  apply List.drop_eq_nil_of_le
  omega

theorem class_null_of_ge (p : parser) (k : Int) (h : p.textLen ≤ k) :
    (p.atPos k).curCharClass = NULL := by
  by_contra hc
  have := class_inrange p k hc
  omega

theorem class_at (p : parser) (k : Int) (h0 : 0 ≤ k) (h1 : k < p.textLen) :
    (p.atPos k).curCharClass = getClassByOrd (bufAt p.textBuf k) := by
  have hin : decide (k < p.textLen ∧ k ≥ 0) = true := by
    simp only [decide_eq_true_eq]
    exact ⟨h1, h0⟩
  show (if decide (k < p.textLen ∧ k ≥ 0) = true then _ else NULL) = _
  rw [if_pos hin, if_pos hin]

theorem skipSpacesLoop_rest : ∀ (fuel : Nat) (p : parser) (k : Int) (c : Int),
    p.textLen = p.textBuf.length → 0 ≤ k → remaining p k < fuel →
    ∃ c1 k1, k ≤ k1 ∧ skipSpacesLoop fuel (p.atPos k) c = some (c1, p.atPos k1) ∧
      rest p.textBuf k1 = (rest p.textBuf k).dropWhile isSpaceRune := by
  intro fuel
  induction fuel with
  | zero => intro p k c _ _ h; omega
  | succ n ih =>
    intro p k c hlen h0 h
    unfold skipSpacesLoop
    by_cases hc : (p.atPos k).curCharClass &&& SPACE ≠ NULL
    · rw [if_pos hc, moveNextPos_atPos]
      have hr := class_inrange p k (land_ne_zero hc)
      obtain ⟨c1, k1, l1, e1, r1⟩ := ih p (k + 1) (c + 1) hlen (by omega)
        (remaining_step p k n h hr)
      refine ⟨c1, k1, by omega, e1, ?_⟩
      rw [class_at p k hr.1 hr.2] at hc
      rw [r1, rest_cons p.textBuf k hr.1 (by omega), List.dropWhile_cons_of_pos]
      unfold isSpaceRune
      exact decide_eq_true hc
    · rw [if_neg hc]
      refine ⟨c, k, le_refl k, rfl, ?_⟩
      by_cases hk : k < p.textLen
      · rw [class_at p k h0 hk] at hc
        rw [rest_cons p.textBuf k h0 (by omega), List.dropWhile_cons_of_neg]
        unfold isSpaceRune
        rw [decide_eq_false hc]
        exact Bool.false_ne_true
      · rw [rest_nil p.textBuf k (by omega)]
        rfl

theorem rest_length_le (buf : Str) (k k1 : Int) (h : k ≤ k1) :
    (rest buf k1).length ≤ (rest buf k).length := by
  unfold rest
  rw [List.length_drop, List.length_drop]
  omega

theorem skipNLLoop_rest : ∀ (fuel : Nat) (p : parser) (k : Int) (c : Int) (m : Nat),
    p.textLen = p.textBuf.length → 0 ≤ k → remaining p k < fuel →
    (rest p.textBuf k).length ≤ m →
    ∃ k1, k ≤ k1 ∧
      skipNLLoop fuel (p.atPos k) (-1) c =
        some (c + (newlineRun m (rest p.textBuf k)).1, p.atPos k1) ∧
      rest p.textBuf k1 = (newlineRun m (rest p.textBuf k)).2 ∧
      (k < k1 ↔ (p.atPos k).curCharClass &&& NL ≠ NULL) := by
  intro fuel
  induction fuel with
  | zero => intro p k c m _ _ h; omega
  | succ n ih =>
    intro p k c m hlen h0 h hm
    unfold skipNLLoop
    by_cases hc : (p.atPos k).curCharClass &&& NL ≠ NULL
    · rw [if_pos hc, if_neg (by omega), moveNextPos_atPos]
      have hr := class_inrange p k (land_ne_zero hc)
      have hrem := remaining_step p k n h hr
      have hcons := rest_cons p.textBuf k hr.1 (by omega)
      obtain ⟨c1, k2, l2, e2, r2⟩ := skipSpacesLoop_rest n p (k + 1) 0 hlen (by omega) hrem
      have e2s : skipSpaces n (p.atPos (k + 1)) = some (c1, p.atPos k2) := e2
      rw [e2s]
      simp only []
      rw [hcons] at hm
      cases m with
      | zero => simp at hm
      | succ m1 =>
        have hm1 : (rest p.textBuf k2).length ≤ m1 := by
          have := rest_length_le p.textBuf (k + 1) k2 l2
          simp only [List.length_cons] at hm
          omega
        obtain ⟨k1, l1, e1, r1, _⟩ := ih p k2 (c + 1) m1 hlen (by omega)
          (lt_of_le_of_lt (remaining_mono p (k + 1) k2 l2) hrem) hm1
        rw [class_at p k hr.1 hr.2] at hc
        have hnl : isNLRune (bufAt p.textBuf k) = true := by
          unfold isNLRune
          exact decide_eq_true hc
        refine ⟨k1, by omega, ?_, ?_, ?_⟩
        · rw [e1, hcons]
          show _ = some (c + ((if isNLRune (bufAt p.textBuf k) = true then _ else _) : Nat × Str).1, _)
          rw [if_pos hnl, ← r2]
          simp only [Nat.cast_add, Nat.cast_one]
          congr 2
          omega
        · rw [r1, hcons]
          show _ = ((if isNLRune (bufAt p.textBuf k) = true then _ else _) : Nat × Str).2
          rw [if_pos hnl, ← r2]
        · constructor
          · intro _
            rw [class_at p k hr.1 hr.2]
            exact hc
          · intro _
            omega
    · rw [if_neg hc]
      have hz : newlineRun m (rest p.textBuf k) = (0, rest p.textBuf k) := by
        by_cases hk : k < p.textLen
        · rw [class_at p k h0 hk] at hc
          have hnl : ¬ isNLRune (bufAt p.textBuf k) = true := by
            unfold isNLRune
            rw [decide_eq_false hc]
            exact Bool.false_ne_true
          rw [rest_cons p.textBuf k h0 (by omega)]
          cases m with
          | zero => rfl
          | succ m1 =>
            show (if isNLRune (bufAt p.textBuf k) = true then _ else _) = _
            rw [if_neg hnl]
        · rw [rest_nil p.textBuf k (by omega)]
          cases m <;> rfl
      refine ⟨k, le_refl k, ?_, ?_, ?_⟩
      · rw [hz]
        simp
      · rw [hz]
      · constructor
        · intro hh
          omega
        · intro hh
          exact absurd hh hc

/-! ## C26: breaks for runs of newlines -/

theorem classTable_nl : ∀ kv ∈ CHAR_CLASSES, kv.2 &&& NL ≠ NULL →
    kv.2 = NOPRINT ||| NL ∧ kv.1 ≠ 38 ∧ kv.1 ≠ 45 := by
  decide

theorem class_nl (c : Rune) (h : getClassByOrd c &&& NL ≠ NULL) :
    getClassByOrd c = NOPRINT ||| NL ∧ c ≠ 38 ∧ c ≠ 45 := by
  unfold getClassByOrd at h ⊢
  cases hm : mapGet CHAR_CLASSES c with
  | none =>
    rw [hm] at h
    exact absurd h (by decide)
  | some x =>
    rw [hm] at h
    exact classTable_nl (c, x) (mapGet_mem _ c x hm) h

theorem newlineRun_pos (m : Nat) (c : Rune) (s : Str) (h : isNLRune c = true) :
    1 ≤ (newlineRun (m + 1) (c :: s)).1 := by
  show 1 ≤ ((if isNLRune c = true then _ else _) : Nat × Str).1
  rw [if_pos h]
  exact Nat.le_add_left 1 _

/-- The step of `makeText` at a newline, with auto-br on. -/
theorem makeTextStep_newline (L : Lib) (fuel : Nat) (p : parser) (k : Int) (parentTag : Str)
    (hlen : p.textLen = p.textBuf.length) (h0 : 0 ≤ k) (hf : remaining p k < fuel)
    (hbr : p.isAutoBrMode = true) (hnl : (p.atPos k).curCharClass &&& NL ≠ NULL) :
    ∃ k1, k < k1 ∧
      1 ≤ (newlineRun p.textBuf.length (rest p.textBuf k)).1 ∧
      rest p.textBuf k1 = (newlineRun p.textBuf.length (rest p.textBuf k)).2 ∧
      makeTextStep L fuel (p.atPos k) parentTag =
        some (if mapHas p.tagNoAutoBr p.curTag then []
              else if (newlineRun p.textBuf.length (rest p.textBuf k)).1 = 1 then p.br ++ [10]
              else p.br ++ [10] ++ (p.br ++ [10]), p.atPos k1) := by
  have hr := class_inrange p k (land_ne_zero hnl)
  have hcl := class_at p k hr.1 hr.2
  have hch := curChar_inrange p k hr.1 hr.2
  have hnl2 := hnl
  rw [hcl] at hnl2
  obtain ⟨hv, h38, h45⟩ := class_nl _ hnl2
  have hclv : (p.atPos k).curCharClass = NOPRINT ||| NL := by rw [hcl, hv]
  obtain ⟨k1, l1, e1, r1, i1⟩ := skipNLLoop_rest fuel p k 0 p.textBuf.length hlen h0 hf
    (by unfold rest; rw [List.length_drop]; omega)
  have e1s : skipNL fuel (p.atPos k) (-1) =
      some (0 + ((newlineRun p.textBuf.length (rest p.textBuf k)).1 : Int), p.atPos k1) := e1
  have hpos : 1 ≤ (newlineRun p.textBuf.length (rest p.textBuf k)).1 := by
    rw [rest_cons p.textBuf k hr.1 (by omega)]
    have hl : 0 < p.textBuf.length := by omega
    obtain ⟨m1, hm1⟩ := Nat.exists_eq_succ_of_ne_zero (Nat.pos_iff_ne_zero.mp hl)
    rw [hm1]
    apply newlineRun_pos
    unfold isNLRune
    exact decide_eq_true hnl2
  refine ⟨k1, i1.mpr hnl, hpos, r1, ?_⟩
  unfold makeTextStep
  rw [if_neg (by rw [hch]; exact h38)]
  simp only []
  rw [if_neg (by rw [hclv]; decide), if_neg (by rw [hch]; intro hh; exact h45 hh.2)]
  simp only []
  rw [if_neg (by rw [hclv]; intro hh; exact absurd hh.2 (by decide))]
  simp only []
  rw [if_neg (by rw [hclv]; decide), if_pos ⟨hbr, hnl⟩, e1s]
  simp only []
  show (if ¬ mapHas p.tagNoAutoBr p.curTag = true then _ else _) = _
  by_cases ht : mapHas p.tagNoAutoBr p.curTag = true
  · rw [if_neg (not_not.mpr ht), if_pos ht]
  · rw [if_pos ht, if_neg ht]
    by_cases h1 : (newlineRun p.textBuf.length (rest p.textBuf k)).1 = 1
    · rw [if_pos h1, if_pos (by rw [h1]; rfl)]
      rfl
    · rw [if_neg h1, if_neg (by omega)]
      rfl

/-! ## The newlines that makeContent takes -/

/-- The start of `makeContent`: the spaces under the head and the whole run of newlines
after them are skipped before the loop, which starts with an empty buffer on the text
after the run. -/
theorem makeContent_leading_run (L : Lib) (fuel : Nat) (p : parser) (k : Int)
    (parentTag : Str) (hlen : p.textLen = p.textBuf.length) (h0 : 0 ≤ k)
    (hf : remaining p k < fuel) :
    ∃ k1, k ≤ k1 ∧
      rest p.textBuf k1 =
        (newlineRun p.textBuf.length ((rest p.textBuf k).dropWhile isSpaceRune)).2 ∧
      makeContent L fuel (p.atPos k) parentTag =
        makeContentLoop L fuel (p.atPos k1) parentTag [] := by
  obtain ⟨c1, k1, l1, e1, r1⟩ := skipSpacesLoop_rest fuel p k 0 hlen h0 hf
  have hf1 : remaining p k1 < fuel := by
    unfold remaining at hf ⊢
    omega
  obtain ⟨k2, l2, e2, r2, _⟩ := skipNLLoop_rest fuel p k1 0 p.textBuf.length hlen
    (by omega) hf1 (by unfold rest; rw [List.length_drop]; omega)
  refine ⟨k2, by omega, by rw [r2, r1], ?_⟩
  unfold makeContent makeContentWith skipSpaces skipNL
  rw [e1]
  simp only []
  rw [e2]

/-- C26 (counterexample).  Auto-br is on and neither `b` nor the top level is no-auto-br,
yet a run of two newlines at the start of the content of `b` gives no break tag
(`makeContent` skips it before its loop), a run of two newlines after the tag `br` gives
one break tag after the one of the tag itself (`makeContent` takes one newline after
`br` and after a block tag), and a run of two newlines after a tag that is thrown away
gives none. -/
theorem C26_run_taken_by_makeContent :
    qvx.isAutoBrMode = true ∧ mapHas qvx.tagNoAutoBr (runes "b") = false ∧
    mapHas qvx.tagNoAutoBr [] = false ∧
    parseOut goLib qvx (runes "<b>\n\nx</b>") = some (runes "<b>x</b>", []) ∧
    parseOut goLib qvx (runes "a<br>\n\nb") = some (runes "a<br>\n<br>\nb", []) ∧
    parseOut goLib qvx (runes "a<zz>\n\nb") = some (runes "ab", []) := by
  decide!

/-- C26 (amended): with auto-br on, the step of `makeText` at a newline consumes the whole
run of newlines that starts there, each newline with the spaces and tabs after it (the
head moves to the text after the run), and writes for it one break tag with a line feed
when the run holds one newline and two of them when it holds two or more, never more;
inside a tag registered as no-auto-br it consumes the run and writes nothing.  The
newlines that `makeContent` takes itself never come to `makeText` and give no break tag:
`makeContent` starts its loop after the spaces under the head and the whole run of
newlines behind them.  The break tag of the default configuration is `<br>`; test N13 and
two more texts are evaluated. -/
theorem C26_auto_br :
    (∀ (L : Lib) (fuel : Nat) (p : parser) (k : Int) (parentTag : Str),
      p.textLen = p.textBuf.length → 0 ≤ k → remaining p k < fuel →
      p.isAutoBrMode = true → (p.atPos k).curCharClass &&& NL ≠ NULL →
      ∃ k1, k < k1 ∧
        1 ≤ (newlineRun p.textBuf.length (rest p.textBuf k)).1 ∧
        rest p.textBuf k1 = (newlineRun p.textBuf.length (rest p.textBuf k)).2 ∧
        makeTextStep L fuel (p.atPos k) parentTag =
          some (if mapHas p.tagNoAutoBr p.curTag then []
                else if (newlineRun p.textBuf.length (rest p.textBuf k)).1 = 1 then p.br ++ [10]
                else p.br ++ [10] ++ (p.br ++ [10]), p.atPos k1)) ∧
    (∀ (L : Lib) (fuel : Nat) (p : parser) (k : Int) (parentTag : Str),
      p.textLen = p.textBuf.length → 0 ≤ k → remaining p k < fuel →
      ∃ k1, k ≤ k1 ∧
        rest p.textBuf k1 =
          (newlineRun p.textBuf.length ((rest p.textBuf k).dropWhile isSpaceRune)).2 ∧
        makeContent L fuel (p.atPos k) parentTag =
          makeContentLoop L fuel (p.atPos k1) parentTag []) ∧
    New.br = runes "<br>" ∧ New.isAutoBrMode = true ∧ qvx.isAutoBrMode = true ∧
    newlineRun 9 (runes "\n \t\n\n  x\ny") = (3, runes "x\ny") ∧
    parseOut goLib qvx (runes "текст\n\t<li>текст</li>\n\t<li>текст</li>\n\tтекст") =
      some (runes "текст<br>\nтекст<br>\nтекст<br>\nтекст", []) ∧
    parseOut goLib qvx (runes "a\nb\n\nc\n\n\n\nd\n  \n e") =
      some (runes "a<br>\nb<br>\n<br>\nc<br>\n<br>\nd<br>\n<br>\ne", []) ∧
    parseOut goLib plainParagraph (runes "<p>a\n\nb</p> c\n\n\nd") =
      some (runes "<p>ab</p> c<br>\n<br>\nd", []) :=
  ⟨makeTextStep_newline, makeContent_leading_run, by decide!⟩

theorem C26_auto_br_witness :
    ((qvx.start (runes "a\n\nb")).textLen = (qvx.start (runes "a\n\nb")).textBuf.length ∧
      (0 : Int) ≤ 1 ∧ remaining (qvx.start (runes "a\n\nb")) 1 < 10 ∧
      (qvx.start (runes "a\n\nb")).isAutoBrMode = true ∧
      ((qvx.start (runes "a\n\nb")).atPos 1).curCharClass &&& NL ≠ NULL) ∧
    (∃ k1, (1 : Int) < k1 ∧
      1 ≤ (newlineRun (qvx.start (runes "a\n\nb")).textBuf.length
            (rest (qvx.start (runes "a\n\nb")).textBuf 1)).1 ∧
      rest (qvx.start (runes "a\n\nb")).textBuf k1 =
        (newlineRun (qvx.start (runes "a\n\nb")).textBuf.length
          (rest (qvx.start (runes "a\n\nb")).textBuf 1)).2 ∧
      makeTextStep goLib 10 ((qvx.start (runes "a\n\nb")).atPos 1) [] =
        some (if mapHas (qvx.start (runes "a\n\nb")).tagNoAutoBr (qvx.start (runes "a\n\nb")).curTag
              then []
              else if (newlineRun (qvx.start (runes "a\n\nb")).textBuf.length
                        (rest (qvx.start (runes "a\n\nb")).textBuf 1)).1 = 1
                then (qvx.start (runes "a\n\nb")).br ++ [10]
              else (qvx.start (runes "a\n\nb")).br ++ [10] ++
                ((qvx.start (runes "a\n\nb")).br ++ [10]),
              (qvx.start (runes "a\n\nb")).atPos k1)) ∧
    ((qvx.start (runes " \n\n x")).textLen = (qvx.start (runes " \n\n x")).textBuf.length ∧
      (0 : Int) ≤ 0 ∧ remaining (qvx.start (runes " \n\n x")) 0 < 10) ∧
    ∃ k1, (0 : Int) ≤ k1 ∧
      rest (qvx.start (runes " \n\n x")).textBuf k1 =
        (newlineRun (qvx.start (runes " \n\n x")).textBuf.length
          ((rest (qvx.start (runes " \n\n x")).textBuf 0).dropWhile isSpaceRune)).2 ∧
      makeContent goLib 10 ((qvx.start (runes " \n\n x")).atPos 0) [] =
        makeContentLoop goLib 10 ((qvx.start (runes " \n\n x")).atPos k1) [] [] :=
  ⟨by decide!,
    C26_auto_br.1 goLib 10 (qvx.start (runes "a\n\nb")) 1 [] (by decide!) (by decide!)
      (by decide!) (by decide!) (by decide!),
    by decide!,
    C26_auto_br.2.1 goLib 10 (qvx.start (runes " \n\n x")) 0 [] (by decide!) (by decide!)
      (by decide!)⟩

/-! ## The text a loop consumes -/

theorem window_append (buf : Str) (k k2 k3 : Int) (h0 : 0 ≤ k) (h1 : k ≤ k2) (h2 : k2 ≤ k3) :
    window buf k k2 ++ window buf k2 k3 = window buf k k3 := by
  unfold window
  have e1 : (k3 - k).toNat = (k2 - k).toNat + (k3 - k2).toNat := by omega
  have e2 : k2.toNat = k.toNat + (k2 - k).toNat := by omega
  rw [e1, List.take_add, List.drop_drop, ← e2]

theorem window_one (buf : Str) (k : Int) (h0 : 0 ≤ k) (h1 : k < buf.length) :
    window buf k (k + 1) = [bufAt buf k] := by
  rw [window_cons buf k (k + 1) h0 h1 (by omega), window_self]

theorem window_snoc (buf : Str) (k k2 : Int) (h0 : 0 ≤ k) (h1 : k ≤ k2) (h2 : k2 < buf.length) :
    window buf k k2 ++ [bufAt buf k2] = window buf k (k2 + 1) := by
  rw [← window_one buf k2 (by omega) h2, window_append buf k k2 (k2 + 1) h0 h1 (by omega)]

theorem window_prefix (buf : Str) (k k1 : Int) : window buf k k1 <+: rest buf k := by
  unfold window rest
  exact List.take_prefix _ _

theorem grabCharClassLoop_window : ∀ (fuel : Nat) (p : parser) (k : Int) (cls : Nat)
    (buff : Str), p.textLen = p.textBuf.length → remaining p k < fuel →
    ∃ k1, grabCharClassLoop fuel (p.atPos k) cls buff =
        some (buff ++ window p.textBuf k k1, p.atPos k1) ∧
      k ≤ k1 ∧ (p.atPos k1).curCharClass &&& cls = NULL ∧
      (k < k1 → (p.atPos k).curCharClass &&& cls ≠ NULL) ∧ (k < k1 → k1 ≤ p.textLen) := by
  intro fuel
  induction fuel with
  | zero => intro p k cls buff _ h; omega
  | succ n ih =>
    intro p k cls buff hlen h
    unfold grabCharClassLoop
    by_cases hc : (p.atPos k).curCharClass &&& cls ≠ NULL
    · rw [if_pos hc, moveNextPos_atPos]
      have hr := class_inrange p k (land_ne_zero hc)
      obtain ⟨k1, e1, l1, c1, _, b1⟩ := ih p (k + 1) cls (buff ++ [(p.atPos k).curChar]) hlen
        (remaining_step p k n h hr)
      refine ⟨k1, ?_, by omega, c1, (fun _ => hc), fun _ => ?_⟩
      swap
      · rcases lt_or_eq_of_le l1 with hh | hh
        · exact b1 hh
        · omega
      rw [e1, curChar_inrange p k hr.1 hr.2, List.append_assoc, List.singleton_append,
        ← window_cons p.textBuf k k1 hr.1 (by omega) (by omega)]
    · rw [if_neg hc]
      exact ⟨k, by rw [window_self, List.append_nil], le_refl k, not_not.mp hc,
        (fun hh => absurd hh (lt_irrefl k)), fun hh => absurd hh (lt_irrefl k)⟩

theorem classTable_bracket : ∀ kv ∈ CHAR_CLASSES, kv.2 &&& TEXT_BRACKET ≠ NULL →
    kv.2 &&& PUNCTUATUON = NULL := by
  decide

theorem class_bracket (c : Rune) (h : getClassByOrd c &&& TEXT_BRACKET ≠ NULL) :
    getClassByOrd c &&& PUNCTUATUON = NULL := by
  unfold getClassByOrd at h ⊢
  cases hm : mapGet CHAR_CLASSES c with
  | none =>
    rw [hm] at h
    exact absurd h (by decide)
  | some x =>
    rw [hm] at h
    exact classTable_bracket (c, x) (mapGet_mem _ c x hm) h

/-- The loop of `matchURL` returns the text it consumed, and the last rune it consumed
is punctuation only when it stopped at a quote or a bracket. -/
theorem matchURLLoop_window (ob cb : Rune) : ∀ (fuel : Nat) (p : parser) (k : Int)
    (opened : Int) (buff : Str), p.textLen = p.textBuf.length → p.statesStack ≠ [] →
    remaining p k + 1 < fuel →
    ∃ k1, matchURLLoop ob cb fuel (p.atPos k) opened buff =
        some (buff ++ window p.textBuf k k1, p.atPos k1) ∧
      k ≤ k1 ∧ (k < k1 → 0 ≤ k ∧ k1 ≤ p.textLen) ∧
      (k < k1 → (p.atPos (k1 - 1)).curCharClass &&& PUNCTUATUON = NULL ∨
        (p.atPos k1).curCharClass &&& (TEXT_QUOTE ||| TEXT_BRACKET) ≠ NULL) := by
  intro fuel
  induction fuel with
  | zero => intro p k opened buff _ _ h; omega
  | succ n ih =>
    intro p k opened buff hlen hs h
    have stop : ∃ k1, some (buff, p.atPos k) =
        some (buff ++ window p.textBuf k k1, p.atPos k1) ∧
        k ≤ k1 ∧ (k < k1 → 0 ≤ k ∧ k1 ≤ p.textLen) ∧
        (k < k1 → (p.atPos (k1 - 1)).curCharClass &&& PUNCTUATUON = NULL ∨
          (p.atPos k1).curCharClass &&& (TEXT_QUOTE ||| TEXT_BRACKET) ≠ NULL) :=
      ⟨k, by rw [window_self, List.append_nil], le_refl k,
        fun hh => absurd hh (lt_irrefl k), fun hh => absurd hh (lt_irrefl k)⟩
    unfold matchURLLoop
    by_cases hc : (p.atPos k).curCharClass &&& PRINATABLE ≠ NULL
    · rw [if_pos hc]
      have hr := class_inrange p k (land_ne_zero hc)
      have hf : remaining p (k + 1) + 1 < n := by
        unfold remaining at *
        omega
      have next : ∀ o, (p.atPos k).curCharClass &&& PUNCTUATUON = NULL →
          ∃ k1, matchURLLoop ob cb n (p.atPos (k + 1)) o (buff ++ [(p.atPos k).curChar]) =
            some (buff ++ window p.textBuf k k1, p.atPos k1) ∧
          k ≤ k1 ∧ (k < k1 → 0 ≤ k ∧ k1 ≤ p.textLen) ∧
          (k < k1 → (p.atPos (k1 - 1)).curCharClass &&& PUNCTUATUON = NULL ∨
            (p.atPos k1).curCharClass &&& (TEXT_QUOTE ||| TEXT_BRACKET) ≠ NULL) := by
        intro o hnp
        obtain ⟨k1, e1, l1, b1, c1⟩ := ih p (k + 1) o (buff ++ [(p.atPos k).curChar]) hlen hs hf
        have hb1 : k1 ≤ p.textLen := by
          rcases lt_or_eq_of_le l1 with hh | hh
          · exact (b1 hh).2
          · omega
        refine ⟨k1, ?_, by omega, fun _ => ⟨hr.1, hb1⟩, fun _ => ?_⟩
        · rw [e1, curChar_inrange p k hr.1 hr.2, List.append_assoc, List.singleton_append,
            ← window_cons p.textBuf k k1 hr.1 (by omega) (by omega)]
        · rcases lt_or_eq_of_le l1 with hh | hh
          · exact c1 hh
          · left
            rw [← hh]
            simp only [add_sub_cancel_right]
            exact hnp
      by_cases h60 : (p.atPos k).curChar = 60
      · rw [if_pos h60]
        exact stop
      · rw [if_neg h60]
        by_cases hq : (p.atPos k).curCharClass &&& TEXT_QUOTE ≠ NULL
        · rw [if_pos hq]
          exact stop
        · rw [if_neg hq]
          by_cases hb : (p.atPos k).curCharClass &&& TEXT_BRACKET ≠ NULL ∧ opened > 0
          · rw [if_pos hb]
            by_cases hcb : (p.atPos k).curChar = cb ∧ opened = 1
            · rw [if_pos hcb]
              exact stop
            · rw [if_neg hcb]
              simp only [moveNextPos_atPos]
              apply next
              rw [class_at p k hr.1 hr.2]
              apply class_bracket
              rw [← class_at p k hr.1 hr.2]
              exact hb.1
          · rw [if_neg hb]
            by_cases hp : (p.atPos k).curCharClass &&& PUNCTUATUON ≠ NULL
            · rw [if_pos hp]
              simp only [saveState_atPos]
              obtain ⟨k2, e2, l2, c2, _, b2⟩ := grabCharClassLoop_window n
                (p.push (p.atPos k).head) k PUNCTUATUON [] hlen (by
                  show remaining p k < n
                  omega)
              have e2s : grabCharClass n ((p.push (p.atPos k).head).atPos k) PUNCTUATUON =
                  some ([] ++ window p.textBuf k k2, (p.push (p.atPos k).head).atPos k2) := e2
              simp only [e2s, List.nil_append]
              by_cases hpr : ((p.push (p.atPos k).head).atPos k2).curCharClass &&& PRINATABLE =
                  NULL
              · rw [if_pos hpr, restoreState_push]
                exact stop
              · rw [if_neg hpr]
                simp only [removeState_push p _ k2 hs]
                have c2p : (p.atPos k2).curCharClass &&& PUNCTUATUON = NULL := c2
                have hk2 : k < k2 := by
                  rcases lt_or_eq_of_le l2 with hh | hh
                  · exact hh
                  · rw [← hh] at c2p
                    exact absurd c2p hp
                by_cases hqb : (p.atPos k2).curCharClass &&& (TEXT_QUOTE ||| TEXT_BRACKET) ≠ NULL
                · rw [if_pos hqb]
                  exact ⟨k2, rfl, l2, fun _ => ⟨hr.1, b2 hk2⟩, fun _ => Or.inr hqb⟩
                · rw [if_neg hqb, moveNextPos_atPos]
                  have hr2 := class_inrange p k2 (land_ne_zero hpr)
                  have hf2 : remaining p (k2 + 1) + 1 < n := by
                    unfold remaining at *
                    omega
                  obtain ⟨k1, e1, l1, b1, c1⟩ := ih p (k2 + 1) opened
                    (buff ++ window p.textBuf k k2 ++ [(p.atPos k2).curChar]) hlen hs hf2
                  have hb1 : k1 ≤ p.textLen := by
                    rcases lt_or_eq_of_le l1 with hh | hh
                    · exact (b1 hh).2
                    · omega
                  refine ⟨k1, ?_, by omega, fun _ => ⟨hr.1, hb1⟩, fun _ => ?_⟩
                  · rw [e1, curChar_inrange p k2 hr2.1 hr2.2, List.append_assoc buff,
                      window_snoc p.textBuf k k2 hr.1 l2 (by omega), List.append_assoc,
                      window_append p.textBuf k (k2 + 1) k1 hr.1 (by omega) l1]
                  · rcases lt_or_eq_of_le l1 with hh | hh
                    · exact c1 hh
                    · left
                      rw [← hh]
                      simp only [add_sub_cancel_right]
                      exact c2p
            · rw [if_neg hp, moveNextPos_atPos]
              exact next _ (not_not.mp hp)
    · rw [if_neg hc]
      exact stop

/-! ## The start of a link -/

theorem EqualSliceRune_eq : ∀ (a b : List Rune), EqualSliceRune a b = true → a = b := by
  intro a
  induction a with
  | nil =>
    intro b h
    cases b with
    | nil => rfl
    | cons y ys => simp [EqualSliceRune] at h
  | cons x xs ih =>
    intro b h
    cases b with
    | nil => simp [EqualSliceRune] at h
    | cons y ys =>
      have hl : xs.length = ys.length := by
        by_contra hne
        simp [EqualSliceRune, hne] at h
      simp only [EqualSliceRune, List.length_cons, hl, ne_eq, not_true_eq_false, if_false,
        List.zip_cons_cons, List.all_cons, Bool.and_eq_true, decide_eq_true_eq] at h
      have hxs : EqualSliceRune xs ys = true := by
        simp only [EqualSliceRune, hl, ne_eq, not_true_eq_false, if_false]
        exact h.2
      rw [h.1, ih ys hxs]

theorem matchStrLoop_window : ∀ (n : Nat) (p : parser) (k : Int),
    p.textLen = p.textBuf.length → 0 ∉ (matchStrLoop n (p.atPos k)).1 →
    (matchStrLoop n (p.atPos k)).1 = window p.textBuf k (k + n) ∧ (0 < n → 0 ≤ k) := by
  intro n
  induction n with
  | zero =>
    intro p k _ _
    refine ⟨?_, fun hh => absurd hh (lt_irrefl 0)⟩
    show [] = window p.textBuf k (k + 0)
    rw [add_zero, window_self]
  | succ n ih =>
    intro p k hlen h
    unfold matchStrLoop at h ⊢
    by_cases hc : (p.atPos k).curCharClass ≠ NULL
    · rw [if_pos hc] at h ⊢
      simp only [moveNextPos_atPos] at h ⊢
      have hr := class_inrange p k hc
      obtain ⟨e1, _⟩ := ih p (k + 1) hlen (fun hh => h (List.mem_cons_of_mem _ hh))
      refine ⟨?_, fun _ => hr.1⟩
      rw [e1, curChar_inrange p k hr.1 hr.2,
        window_cons p.textBuf k (k + (n + 1 : Nat)) hr.1 (by omega) (by omega)]
      congr 2
      push_cast
      omega
    · rw [if_neg hc] at h
      exact absurd (by simp) h

theorem matchStr_prefix (p : parser) (k : Int) (str : Str)
    (hlen : p.textLen = p.textBuf.length) (hz : 0 ∉ str)
    (h : ((p.atPos k).matchStr str).1 = true) : str <+: rest p.textBuf k := by
  unfold parser.matchStr at h
  simp only [saveState_atPos] at h
  have he := EqualSliceRune_eq _ _ h
  obtain ⟨e1, _⟩ := matchStrLoop_window str.length (p.push (p.atPos k).head) k hlen
    (by rw [he]; exact hz)
  rw [e1] at he
  have : window p.textBuf k (k + str.length) <+: rest p.textBuf k := window_prefix _ _ _
  rw [← he]
  exact this

theorem IndexStringSlice_mem (l : List Str) (e : Str) (h : IndexStringSlice l e ≠ -1) :
    e ∈ l := by
  unfold IndexStringSlice at h
  by_contra hne
  have : l.indexOf? e = none := by
    unfold List.indexOf?
    rw [List.findIdx?_eq_none_iff]
    intro x hx
    by_contra hb
    have : x = e := by simpa using hb
    exact hne (this ▸ hx)
  rw [this] at h
  exact h rfl

theorem matchURLScheme_some (p : parser) (k : Int) (pre : Str)
    (hlen : p.textLen = p.textBuf.length)
    (h : ((p.atPos k).matchURLScheme).1 = some pre) : linkStart p k pre := by
  unfold parser.matchURLScheme at h
  simp only [matchStr_state] at h
  by_cases h1 : ((p.atPos k).matchStr (runes "http://")).1 = true ∧
      IndexStringSlice (p.atPos k).linkProtocolAllow (runes "http") ≠ -1
  · rw [if_pos h1] at h
    left
    refine ⟨(Option.some.inj h).symm, runes "http", by decide, IndexStringSlice_mem _ _ h1.2, ?_⟩
    exact matchStr_prefix p k _ hlen (by decide) h1.1
  · rw [if_neg h1] at h
    by_cases h2 : ((p.atPos k).matchStr (runes "https://")).1 = true ∧
        IndexStringSlice (p.atPos k).linkProtocolAllow (runes "https") ≠ -1
    · rw [if_pos h2] at h
      left
      refine ⟨(Option.some.inj h).symm, runes "https", by decide,
        IndexStringSlice_mem _ _ h2.2, ?_⟩
      exact matchStr_prefix p k _ hlen (by decide) h2.1
    · rw [if_neg h2] at h
      by_cases h3 : ((p.atPos k).matchStr (runes "ftp://")).1 = true ∧
          IndexStringSlice (p.atPos k).linkProtocolAllow (runes "ftp") ≠ -1
      · rw [if_pos h3] at h
        left
        refine ⟨(Option.some.inj h).symm, runes "ftp", by decide,
          IndexStringSlice_mem _ _ h3.2, ?_⟩
        exact matchStr_prefix p k _ hlen (by decide) h3.1
      · rw [if_neg h3] at h
        by_cases h4 : ((p.atPos k).matchStr (runes "www.")).1 = true
        · rw [if_pos h4] at h
          right
          exact ⟨(Option.some.inj h).symm, matchStr_prefix p k _ hlen (by decide) h4⟩
        · rw [if_neg h4] at h
          cases h

/-- What `matchURL` returns: false with the head where it was, or true with the link,
which is the start the scheme gives and the text consumed; the last rune consumed is
punctuation only when a quote or a bracket follows it. -/
theorem matchURL_window (fuel : Nat) (p : parser) (k : Int)
    (hlen : p.textLen = p.textBuf.length) (hs : p.statesStack ≠ [])
    (h : remaining p k + 1 < fuel) :
    ∃ r url k1, matchURL fuel (p.atPos k) = some (r, url, p.atPos k1) ∧
      (r = false → k1 = k) ∧
      (r = true → k < k1 ∧ 0 ≤ k ∧ k1 ≤ p.textLen ∧
        (∃ pre, linkStart p k pre ∧ url = pre ++ window p.textBuf k k1) ∧
        ((p.atPos (k1 - 1)).curCharClass &&& PUNCTUATUON = NULL ∨
          (p.atPos k1).curCharClass &&& (TEXT_QUOTE ||| TEXT_BRACKET) ≠ NULL)) := by
  unfold matchURL
  by_cases hp : (p.atPos k).prevCharClass &&& (SPACE ||| NL ||| TEXT_QUOTE ||| TEXT_BRACKET) =
      NULL ∧ (p.atPos k).prevCharClass ≠ NULL
  · rw [if_pos hp]
    exact ⟨false, [], k, rfl, (fun _ => rfl), fun hh => by cases hh⟩
  · rw [if_neg hp]
    simp only [saveState_atPos]
    generalize hB : p.push (p.atPos k).head = B
    have hBs : ∀ j, (B.atPos j).removeState = p.atPos j := by
      intro j; rw [← hB]; exact removeState_push p _ j hs
    have hBr : ∀ j, (B.atPos j).restoreState = p.atPos k := by
      intro j; rw [← hB]; exact restoreState_push p k j
    have hBf : ∀ j, remaining B j = remaining p j := by intro j; rw [← hB]; rfl
    have hBc : ∀ j, (B.atPos j).curCharClass = (p.atPos j).curCharClass := by
      intro j; rw [← hB]; rfl
    have hBt : B.textBuf = p.textBuf := by rw [← hB]; rfl
    have hBtl : B.textLen = p.textLen := by rw [← hB]; rfl
    have hBl : B.textLen = B.textBuf.length := by rw [← hB]; exact hlen
    have hBst : ∀ pre, linkStart B k pre → linkStart p k pre := by
      intro pre hh; rw [← hB] at hh; exact hh
    have hBs2 : B.statesStack ≠ [] := by rw [← hB]; exact push_stack_ne p _
    have hsch : (B.atPos k).matchURLScheme = (((B.atPos k).matchURLScheme).1, B.atPos k) :=
      Prod.ext rfl (matchURLScheme_state B k)
    have hst := matchURLScheme_some B k
    rw [hsch]
    cases hsc : ((B.atPos k).matchURLScheme).1 with
    | none =>
      simp only [hBr]
      exact ⟨false, [], k, rfl, (fun _ => rfl), fun hh => by cases hh⟩
    | some url =>
      simp only []
      obtain ⟨k2, e2, l2, z2, c2⟩ := matchURLLoop_window
        (if (B.atPos k).prevCharClass &&& TEXT_BRACKET ≠ NULL ∧
            mapHas (B.atPos k).bracketsALL (B.atPos k).prevChar = true
          then (B.atPos k).prevChar else 0)
        (if (if (B.atPos k).prevCharClass &&& TEXT_BRACKET ≠ NULL ∧
            mapHas (B.atPos k).bracketsALL (B.atPos k).prevChar = true
          then (B.atPos k).prevChar else 0) ≠ 0
          then (mapGet (B.atPos k).bracketsALL (B.atPos k).prevChar).getD 0 else 0)
        fuel B k
        (if (if (B.atPos k).prevCharClass &&& TEXT_BRACKET ≠ NULL ∧
            mapHas (B.atPos k).bracketsALL (B.atPos k).prevChar = true
          then (B.atPos k).prevChar else 0) ≠ 0 then 1 else 0) [] hBl hBs2
        (by rw [hBf]; exact h)
      simp only [e2, List.nil_append]
      by_cases hb : window B.textBuf k k2 = []
      · simp only [hb, if_true, hBr]
        exact ⟨false, _, k, rfl, (fun _ => rfl), fun hh => by cases hh⟩
      · simp only [hb, if_false, hBs]
        have hk : k < k2 := by
          rcases lt_or_eq_of_le l2 with hh | hh
          · exact hh
          · rw [← hh, window_self] at hb
            exact absurd rfl hb
        refine ⟨true, _, k2, rfl, (fun hh => by cases hh), fun _ =>
          ⟨hk, (z2 hk).1, hBtl ▸ (z2 hk).2, ⟨url, hBst url (hst url hBl hsc), by rw [hBt]⟩, ?_⟩⟩
        have := c2 hk
        rw [hBc, hBc] at this
        exact this

theorem schemes_apart : ∀ a ∈ [runes "http", runes "https", runes "ftp"],
    ∀ b ∈ [runes "http", runes "https", runes "ftp"],
    (a ++ runes "://") <+: (b ++ runes "://") → a = b := by
  decide

theorem scheme_not_www : ∀ a ∈ [runes "http", runes "https", runes "ftp"],
    ¬ (a ++ runes "://") <+: runes "www." ∧ ¬ runes "www." <+: (a ++ runes "://") := by
  decide

theorem matchURL_not_allowed (fuel : Nat) (p : parser) (k : Int) (proto : Str)
    (hlen : p.textLen = p.textBuf.length) (hs : p.statesStack ≠ [])
    (h : remaining p k + 1 < fuel)
    (hp : proto ∈ [runes "http", runes "https", runes "ftp"])
    (hna : proto ∉ p.linkProtocolAllow)
    (hpre : (proto ++ runes "://") <+: rest p.textBuf k) :
    ∃ url, matchURL fuel (p.atPos k) = some (false, url, p.atPos k) := by
  obtain ⟨r, url, k1, e, hf, ht⟩ := matchURL_window fuel p k hlen hs h
  cases r with
  | false =>
    rw [hf rfl] at e
    exact ⟨url, e⟩
  | true =>
    exfalso
    obtain ⟨_, _, _, ⟨pre, hst, _⟩, _⟩ := ht rfl
    rcases hst with ⟨_, q, hq, hqa, hqp⟩ | ⟨_, hw⟩
    · rcases List.prefix_or_prefix_of_prefix hpre hqp with hh | hh
      · exact hna (schemes_apart proto hp q hq hh ▸ hqa)
      · exact hna ((schemes_apart q hq proto hp hh).symm ▸ hqa)
    · rcases List.prefix_or_prefix_of_prefix hpre hw with hh | hh
      · exact (scheme_not_www proto hp).1 hh
      · exact (scheme_not_www proto hp).2 hh

/-! ## C27: how a link starts -/

/-- C27: `matchURL` always returns (with fuel above the text that is left); when it
returns false the parser is the one it was called on, head included; when it returns
true the text at the head starts with `www.` or with `p://` for a protocol `p` among
http, https and ftp that is in the list of allowed protocols, and the link returned is
the text consumed for a protocol start and `http://` followed by the text consumed for a
`www.` start.  A text that starts with `p://` for a protocol of the three that is not in
the list makes it return false, the parser unchanged.  The test configuration allows
http and https; test N8 and a text with `ftp://` and `www.` are evaluated. -/
theorem C27_url_start :
    (∀ (fuel : Nat) (p : parser) (k : Int), p.textLen = p.textBuf.length →
      p.statesStack ≠ [] → remaining p k + 1 < fuel →
      ∃ r url k1, matchURL fuel (p.atPos k) = some (r, url, p.atPos k1) ∧
        (r = false → k1 = k) ∧
        (r = true → k < k1 ∧
          ((∃ proto, proto ∈ [runes "http", runes "https", runes "ftp"] ∧
              proto ∈ p.linkProtocolAllow ∧ (proto ++ runes "://") <+: rest p.textBuf k ∧
              url = window p.textBuf k k1) ∨
           (runes "www." <+: rest p.textBuf k ∧
              url = runes "http://" ++ window p.textBuf k k1)))) ∧
    (∀ (fuel : Nat) (p : parser) (k : Int) (proto : Str), p.textLen = p.textBuf.length →
      p.statesStack ≠ [] → remaining p k + 1 < fuel →
      proto ∈ [runes "http", runes "https", runes "ftp"] → proto ∉ p.linkProtocolAllow →
      (proto ++ runes "://") <+: rest p.textBuf k →
      ∃ url, matchURL fuel (p.atPos k) = some (false, url, p.atPos k)) ∧
    qvx.linkProtocolAllow = [runes "http", runes "https"] ∧
    New.linkProtocolAllow = [runes "http", runes "https", runes "ftp"] ∧
    parseOut goLib qvx (runes "текст http://dighub.ru текст") =
      some (runes
        "текст <a href=\"http://dighub.ru\" rel=\"nofollow\">http://dighub.ru</a> текст", []) ∧
    parseOut goLib qvx (runes "текст ftp://a.ru и www.a.ru") =
      some (runes
        "текст ftp://a.ru и <a href=\"http://www.a.ru\" rel=\"nofollow\">http://www.a.ru</a>",
        []) := by
  refine ⟨?_, matchURL_not_allowed, by decide!, by decide!, by decide!, by decide!⟩
  intro fuel p k hlen hs h
  obtain ⟨r, url, k1, e, hf, ht⟩ := matchURL_window fuel p k hlen hs h
  refine ⟨r, url, k1, e, hf, fun hr => ?_⟩
  obtain ⟨hk, _, _, ⟨pre, hst, hurl⟩, _⟩ := ht hr
  refine ⟨hk, ?_⟩
  rcases hst with ⟨hpre, q, hq, hqa, hqp⟩ | ⟨hpre, hw⟩
  · left
    exact ⟨q, hq, hqa, hqp, by rw [hurl, hpre, List.nil_append]⟩
  · right
    exact ⟨hw, by rw [hurl, hpre]⟩

theorem C27_url_start_witness :
    ((linkText (runes "www.a.ru .")).textLen = (linkText (runes "www.a.ru .")).textBuf.length ∧
      (linkText (runes "www.a.ru .")).statesStack ≠ [] ∧
      remaining (linkText (runes "www.a.ru .")) 0 + 1 < 20) ∧
    ∃ r url k1, matchURL 20 ((linkText (runes "www.a.ru .")).atPos 0) =
        some (r, url, (linkText (runes "www.a.ru .")).atPos k1) ∧
      (r = false → k1 = 0) ∧
      (r = true → 0 < k1 ∧
        ((∃ proto, proto ∈ [runes "http", runes "https", runes "ftp"] ∧
            proto ∈ (linkText (runes "www.a.ru .")).linkProtocolAllow ∧
            (proto ++ runes "://") <+: rest (linkText (runes "www.a.ru .")).textBuf 0 ∧
            url = window (linkText (runes "www.a.ru .")).textBuf 0 k1) ∨
         (runes "www." <+: rest (linkText (runes "www.a.ru .")).textBuf 0 ∧
            url = runes "http://" ++ window (linkText (runes "www.a.ru .")).textBuf 0 k1))) :=
  ⟨⟨by decide!, List.cons_ne_nil _ _, by decide!⟩,
    C27_url_start.1 20 (linkText (runes "www.a.ru .")) 0 (by decide!) (List.cons_ne_nil _ _)
      (by decide!)⟩

/-! ## C28: punctuation at the end of a link -/

/-- C28, counterexample: in `(http://a.ru.)` the dot is followed by a bracket, and
`matchURL` returns the link `http://a.ru.`, which ends with the dot, a punctuation
character. -/
theorem C28_punctuation_before_bracket :
    (matchURL 40 ((linkText (runes "(http://a.ru.)")).atPos 1)).map
        (fun r => (r.1, r.2.1, r.2.2.curPos, r.2.2.curChar)) =
      some (true, runes "http://a.ru.", 13, 41) ∧
    (runes "http://a.ru.").getLast? = some 46 ∧
    getClassByOrd 46 &&& PUNCTUATUON ≠ NULL ∧
    getClassByOrd 41 &&& TEXT_BRACKET ≠ NULL ∧
    parseOut goLib qvx (runes "(http://a.ru.)") =
      some (runes "(<a href=\"http://a.ru.\" rel=\"nofollow\">http://a.ru.</a>)", []) :=
  ⟨by decide!, by decide!, by decide!, by decide!, by decide!⟩

/-- C28, amended: when `matchURL` returns true, the link is not empty, and its last rune
is a punctuation character only if the head was left on a text quote or a bracket: a run
of punctuation followed by a space, a newline, another rune that is not printable or
the end of the input is left in the text, and a run followed by a quote or a bracket is
kept in the link, which ends there.  Test N11 and three more texts are evaluated. -/
theorem C28_url_punctuation :
    (∀ (fuel : Nat) (p : parser) (k : Int), p.textLen = p.textBuf.length →
      p.statesStack ≠ [] → remaining p k + 1 < fuel →
      ∃ r url k1, matchURL fuel (p.atPos k) = some (r, url, p.atPos k1) ∧
        (r = true → ∃ c, url.getLast? = some c ∧
          (getClassByOrd c &&& PUNCTUATUON ≠ NULL →
            (p.atPos k1).curCharClass &&& (TEXT_QUOTE ||| TEXT_BRACKET) ≠ NULL))) ∧
    parseOut goLib qvx (runes "текст http://yandex.ru/search/?lr=2&text=golang!..") =
      some (runes ("текст <a href=\"http://yandex.ru/search/?lr=2&text=golang\" " ++
        "rel=\"nofollow\">http://yandex.ru/search/?lr=2&text=golang</a>!.."), []) ∧
    parseOut goLib qvx (runes "http://a.ru/a.b, c http://a.ru.\nd") =
      some (runes ("<a href=\"http://a.ru/a.b\" rel=\"nofollow\">http://a.ru/a.b</a>, c " ++
        "<a href=\"http://a.ru\" rel=\"nofollow\">http://a.ru</a>.<br>\nd"), []) ∧
    parseOut goLib qvx (runes "(http://a.ru.)") =
      some (runes "(<a href=\"http://a.ru.\" rel=\"nofollow\">http://a.ru.</a>)", []) := by
  refine ⟨?_, by decide!, by decide!, by decide!⟩
  intro fuel p k hlen hs h
  obtain ⟨r, url, k1, e, _, ht⟩ := matchURL_window fuel p k hlen hs h
  refine ⟨r, url, k1, e, fun hr => ?_⟩
  obtain ⟨hk, h0, hb, ⟨pre, _, hurl⟩, hc⟩ := ht hr
  refine ⟨bufAt p.textBuf (k1 - 1), ?_, fun hp => ?_⟩
  · have := window_snoc p.textBuf k (k1 - 1) h0 (by omega) (by omega)
    rw [sub_add_cancel] at this
    rw [hurl, ← this, ← List.append_assoc, List.getLast?_append, List.getLast?_singleton]
    rfl
  · rcases hc with hc | hc
    · rw [class_at p (k1 - 1) (by omega) (by omega)] at hc
      exact absurd hc hp
    · exact hc

theorem C28_url_punctuation_witness :
    ((linkText (runes "(http://a.ru.)")).textLen =
        (linkText (runes "(http://a.ru.)")).textBuf.length ∧
      (linkText (runes "(http://a.ru.)")).statesStack ≠ [] ∧
      remaining (linkText (runes "(http://a.ru.)")) 1 + 1 < 20) ∧
    ∃ r url k1, matchURL 20 ((linkText (runes "(http://a.ru.)")).atPos 1) =
        some (r, url, (linkText (runes "(http://a.ru.)")).atPos k1) ∧
      (r = true → ∃ c, url.getLast? = some c ∧
        (getClassByOrd c &&& PUNCTUATUON ≠ NULL →
          ((linkText (runes "(http://a.ru.)")).atPos k1).curCharClass &&&
            (TEXT_QUOTE ||| TEXT_BRACKET) ≠ NULL)) :=
  ⟨⟨by decide!, List.cons_ne_nil _ _, by decide!⟩,
    C28_url_punctuation.1 20 (linkText (runes "(http://a.ru.)")) 1 (by decide!)
      (List.cons_ne_nil _ _) (by decide!)⟩

/-! ## C29: tokens after a special character -/

/-- The loop of `matchSpecialChar` returns the text it consumed; the last rune it
consumed is not punctuation, and it stops at the end of the buffer, at a space, a
newline or a bracket, or at punctuation. -/
theorem matchSpecialCharLoop_window : ∀ (fuel : Nat) (p : parser) (k : Int) (buff : Str),
    p.textLen = p.textBuf.length → p.statesStack ≠ [] → remaining p k + 1 < fuel →
    ∃ k1, matchSpecialCharLoop fuel (p.atPos k) buff =
        some (buff ++ window p.textBuf k k1, p.atPos k1) ∧
      k ≤ k1 ∧ (k < k1 → 0 ≤ k ∧ k1 ≤ p.textLen) ∧
      (k < k1 → (p.atPos (k1 - 1)).curCharClass &&& PUNCTUATUON = NULL) ∧
      ((p.atPos k1).curCharClass = NULL ∨
        (p.atPos k1).curCharClass &&& (SPACE ||| NL ||| TEXT_BRACKET) ≠ NULL ∨
        (p.atPos k1).curCharClass &&& PUNCTUATUON ≠ NULL) := by
  intro fuel
  induction fuel with
  | zero => intro p k buff _ _ h; omega
  | succ n ih =>
    intro p k buff hlen hs h
    unfold matchSpecialCharLoop
    by_cases hc : (p.atPos k).curCharClass ≠ NULL ∧
        (p.atPos k).curCharClass &&& (SPACE ||| NL ||| TEXT_BRACKET) = NULL
    · rw [if_pos hc]
      have hr := class_inrange p k hc.1
      have hf : remaining p (k + 1) + 1 < n := by
        unfold remaining at *
        omega
      by_cases hp : (p.atPos k).curCharClass &&& PUNCTUATUON ≠ NULL
      · rw [if_pos hp]
        simp only [saveState_atPos]
        obtain ⟨k2, e2, l2, c2, _, b2⟩ := grabCharClassLoop_window n
          (p.push (p.atPos k).head) k PUNCTUATUON [] hlen (by
            show remaining p k < n
            omega)
        have e2s : grabCharClass n ((p.push (p.atPos k).head).atPos k) PUNCTUATUON =
            some ([] ++ window p.textBuf k k2, (p.push (p.atPos k).head).atPos k2) := e2
        simp only [e2s, List.nil_append]
        have c2p : (p.atPos k2).curCharClass &&& PUNCTUATUON = NULL := c2
        by_cases hb : ((p.push (p.atPos k).head).atPos k2).curCharClass &&&
            (SPACE ||| NL ||| TEXT_BRACKET) ≠ NULL ∨
            ((p.push (p.atPos k).head).atPos k2).curCharClass = NULL
        · rw [if_pos hb, restoreState_push]
          exact ⟨k, by rw [window_self, List.append_nil], le_refl k,
            (fun hh => absurd hh (lt_irrefl k)), (fun hh => absurd hh (lt_irrefl k)),
            Or.inr (Or.inr hp)⟩
        · rw [if_neg hb]
          simp only [removeState_push p _ k2 hs, moveNextPos_atPos]
          have hr2 := class_inrange p k2 (fun hh => hb (Or.inr hh))
          have hf2 : remaining p (k2 + 1) + 1 < n := by
            unfold remaining at *
            omega
          obtain ⟨k1, e1, l1, b1, c1, s1⟩ := ih p (k2 + 1)
            (buff ++ window p.textBuf k k2 ++ [(p.atPos k2).curChar]) hlen hs hf2
          have hb1 : k1 ≤ p.textLen := by
            rcases lt_or_eq_of_le l1 with hh | hh
            · exact (b1 hh).2
            · omega
          refine ⟨k1, ?_, by omega, (fun _ => ⟨hr.1, hb1⟩), (fun _ => ?_), s1⟩
          · rw [e1, curChar_inrange p k2 hr2.1 hr2.2, List.append_assoc buff,
              window_snoc p.textBuf k k2 hr.1 l2 (by omega), List.append_assoc,
              window_append p.textBuf k (k2 + 1) k1 hr.1 (by omega) l1]
          · rcases lt_or_eq_of_le l1 with hh | hh
            · exact c1 hh
            · rw [← hh]
              simp only [add_sub_cancel_right]
              exact c2p
      · rw [if_neg hp, moveNextPos_atPos]
        obtain ⟨k1, e1, l1, b1, c1, s1⟩ := ih p (k + 1) (buff ++ [(p.atPos k).curChar]) hlen hs hf
        have hb1 : k1 ≤ p.textLen := by
          rcases lt_or_eq_of_le l1 with hh | hh
          · exact (b1 hh).2
          · omega
        refine ⟨k1, ?_, by omega, (fun _ => ⟨hr.1, hb1⟩), (fun _ => ?_), s1⟩
        · rw [e1, curChar_inrange p k hr.1 hr.2, List.append_assoc, List.singleton_append,
            ← window_cons p.textBuf k k1 hr.1 (by omega) (by omega)]
        · rcases lt_or_eq_of_le l1 with hh | hh
          · exact c1 hh
          · rw [← hh]
            simp only [add_sub_cancel_right]
            exact not_not.mp hp
    · rw [if_neg hc]
      refine ⟨k, by rw [window_self, List.append_nil], le_refl k,
        (fun hh => absurd hh (lt_irrefl k)), (fun hh => absurd hh (lt_irrefl k)), ?_⟩
      by_cases hn : (p.atPos k).curCharClass = NULL
      · exact Or.inl hn
      · exact Or.inr (Or.inl (fun hh => hc ⟨hn, hh⟩))

/-- What `matchSpecialChar` returns: false with the parser it was called on, or true
with the result of the callback on the token that follows the special character. -/
theorem matchSpecialChar_window (fuel : Nat) (p : parser) (k : Int)
    (hlen : p.textLen = p.textBuf.length) (hs : p.statesStack ≠ [])
    (h : remaining p k + 1 < fuel) :
    ∃ r out k1, matchSpecialChar fuel (p.atPos k) = some (r, out, p.atPos k1) ∧
      (r = false → k1 = k) ∧
      (r = true → ∃ callback c,
        mapGet p.specialChars (p.atPos k).curChar = some callback ∧ k + 1 < k1 ∧
        out = callback (window p.textBuf (k + 1) k1) ∧ out ≠ [] ∧
        (window p.textBuf (k + 1) k1).getLast? = some c ∧
        getClassByOrd c &&& PUNCTUATUON = NULL ∧
        ((p.atPos k1).curCharClass = NULL ∨
          (p.atPos k1).curCharClass &&& (SPACE ||| NL ||| TEXT_BRACKET) ≠ NULL ∨
          (p.atPos k1).curCharClass &&& PUNCTUATUON ≠ NULL)) := by
  unfold matchSpecialChar
  by_cases hc : (p.atPos k).curCharClass &&& SPECIAL_CHAR = NULL
  · rw [if_pos hc]
    exact ⟨false, [], k, rfl, (fun _ => rfl), fun hh => by cases hh⟩
  · rw [if_neg hc]
    have hr := class_inrange p k (land_ne_zero hc)
    cases hcb : mapGet (p.atPos k).specialChars (p.atPos k).curChar with
    | none =>
      exact ⟨false, [], k, rfl, (fun _ => rfl), fun hh => by cases hh⟩
    | some callback =>
      simp only []
      by_cases hp : (p.atPos k).prevCharClass ≠ NULL ∧
          (p.atPos k).prevCharClass &&& (SPACE ||| NL ||| TEXT_BRACKET) = NULL
      · rw [if_pos hp]
        exact ⟨false, [], k, rfl, (fun _ => rfl), fun hh => by cases hh⟩
      · rw [if_neg hp]
        simp only [saveState_atPos, moveNextPos_atPos]
        obtain ⟨k2, e2, l2, b2, c2, s2⟩ := matchSpecialCharLoop_window fuel
          (p.push (p.atPos k).head) (k + 1) [] hlen (push_stack_ne p _) (by
            show remaining p (k + 1) + 1 < fuel
            unfold remaining at *
            omega)
        simp only [e2, List.nil_append]
        have hw : window (p.push (p.atPos k).head).textBuf (k + 1) k2 =
            window p.textBuf (k + 1) k2 := rfl
        rw [hw]
        by_cases hb : window p.textBuf (k + 1) k2 = []
        · simp only [hb, if_true, restoreState_push]
          exact ⟨false, [], k, rfl, (fun _ => rfl), fun hh => by cases hh⟩
        · simp only [hb, if_false]
          by_cases hres : callback (window p.textBuf (k + 1) k2) = []
          · simp only [hres, if_true, restoreState_push]
            exact ⟨false, [], k, rfl, (fun _ => rfl), fun hh => by cases hh⟩
          · simp only [hres, if_false, removeState_push p _ k2 hs]
            have hk : k + 1 < k2 := by
              rcases lt_or_eq_of_le l2 with hh | hh
              · exact hh
              · rw [← hh, window_self] at hb
                exact absurd rfl hb
            have hb2 : k2 ≤ p.textLen := (b2 hk).2
            have hsn := window_snoc p.textBuf (k + 1) (k2 - 1) (by omega) (by omega) (by omega)
            rw [sub_add_cancel] at hsn
            refine ⟨true, _, k2, rfl, (fun hh => by cases hh), fun _ =>
              ⟨callback, bufAt p.textBuf (k2 - 1), hcb, hk, rfl, hres, ?_, ?_, s2⟩⟩
            · rw [← hsn, List.getLast?_append, List.getLast?_singleton]
              rfl
            · rw [← class_at p (k2 - 1) (by omega) (by omega)]
              exact c2 hk

theorem classTable_special : ∀ kv ∈ CHAR_CLASSES, kv.2 &&& SPECIAL_CHAR ≠ NULL →
    kv.2 = PRINATABLE ||| SPECIAL_CHAR ∧ kv.1 ≠ 38 ∧ kv.1 ≠ 45 := by
  decide

theorem class_special (c : Rune) (h : getClassByOrd c &&& SPECIAL_CHAR ≠ NULL) :
    getClassByOrd c = PRINATABLE ||| SPECIAL_CHAR ∧ c ≠ 38 ∧ c ≠ 45 := by
  unfold getClassByOrd at h ⊢
  cases hm : mapGet CHAR_CLASSES c with
  | none =>
    rw [hm] at h
    exact absurd h (by decide)
  | some x =>
    rw [hm] at h
    exact classTable_special (c, x) (mapGet_mem _ c x hm) h

/-- The step of `makeText` at a special character for which `matchSpecialChar` returns
false, or is not called: the character is written as text and the head moves by one. -/
theorem makeTextStep_special_literal (L : Lib) (fuel : Nat) (p : parser) (k : Int)
    (parentTag : Str) (hsp : (p.atPos k).curCharClass &&& SPECIAL_CHAR ≠ NULL)
    (hm : ∃ out, matchSpecialChar fuel (p.atPos k) = some (false, out, p.atPos k)) :
    makeTextStep L fuel (p.atPos k) parentTag =
      some (p.escapeRune (p.atPos k).curChar, p.atPos (k + 1)) := by
  have hr := class_inrange p k (land_ne_zero hsp)
  have hcl := class_at p k hr.1 hr.2
  have hch := curChar_inrange p k hr.1 hr.2
  have hsp2 := hsp
  rw [hcl] at hsp2
  obtain ⟨hv, h38, h45⟩ := class_special _ hsp2
  have hclv : (p.atPos k).curCharClass = PRINATABLE ||| SPECIAL_CHAR := by rw [hcl, hv]
  obtain ⟨out, hm⟩ := hm
  unfold makeTextStep
  rw [if_neg (by rw [hch]; exact h38)]
  simp only []
  rw [if_neg (by rw [hclv]; decide), if_neg (by rw [hch]; intro hh; exact h45 hh.2)]
  simp only []
  rw [if_neg (by rw [hclv]; intro hh; exact absurd hh.2 (by decide))]
  simp only []
  rw [if_neg (by rw [hclv]; decide),
    if_neg (by rw [hclv]; intro hh; exact absurd hh.2 (by decide)),
    if_neg (by rw [hclv]; intro hh; exact absurd hh.2.1 (by decide))]
  simp only []
  by_cases hcond : (p.atPos k).isSpecialCharMode = true ∧
      (p.atPos k).curCharClass &&& SPECIAL_CHAR ≠ NULL ∧ (p.atPos k).curTag ≠ runes "a"
  · rw [if_pos hcond, hm]
    simp only []
    rw [if_pos (by rw [hclv]; decide)]
    rfl
  · rw [if_neg hcond]
    simp only []
    rw [if_pos (by rw [hclv]; decide)]
    rfl

theorem matchSpecialChar_no_callback (fuel : Nat) (self : parser)
    (h : mapGet self.specialChars self.curChar = none) :
    matchSpecialChar fuel self = some (false, [], self) := by
  unfold matchSpecialChar
  by_cases hc : self.curCharClass &&& SPECIAL_CHAR = NULL
  · rw [if_pos hc]
  · rw [if_neg hc, h]

theorem matchSpecialChar_inside_word (fuel : Nat) (self : parser)
    (h1 : self.prevCharClass ≠ NULL)
    (h2 : self.prevCharClass &&& (SPACE ||| NL ||| TEXT_BRACKET) = NULL) :
    matchSpecialChar fuel self = some (false, [], self) := by
  unfold matchSpecialChar
  by_cases hc : self.curCharClass &&& SPECIAL_CHAR = NULL
  · rw [if_pos hc]
  · rw [if_neg hc]
    cases hcb : mapGet self.specialChars self.curChar with
    | none => rfl
    | some callback =>
      simp only []
      rw [if_pos ⟨h1, h2⟩]

/-- C29: `matchSpecialChar` always returns (with fuel above the text that is left).  When
it returns false the parser is the one it was called on, head included; it returns false
when the character has no callback and when the character before it is neither absent
nor a space, a newline or a bracket; and the step of `makeText` then writes the special
character as text and moves by one, so that the token follows as text.  When it returns
true, the result is not empty and is what the callback of the character returns on the
token: the text between the special character and the new position of the head, which
is not empty, whose last rune is not punctuation, and which stops at the end of the
input, at a space, a newline or a bracket, or at punctuation.  Test N18 and texts for
each way to fail are evaluated. -/
theorem C29_special_char :
    (∀ (fuel : Nat) (p : parser) (k : Int), p.textLen = p.textBuf.length →
      p.statesStack ≠ [] → remaining p k + 1 < fuel →
      ∃ r out k1, matchSpecialChar fuel (p.atPos k) = some (r, out, p.atPos k1) ∧
        (r = false → k1 = k) ∧
        (r = true → ∃ callback c,
          mapGet p.specialChars (p.atPos k).curChar = some callback ∧ k + 1 < k1 ∧
          out = callback (window p.textBuf (k + 1) k1) ∧ out ≠ [] ∧
          (window p.textBuf (k + 1) k1).getLast? = some c ∧
          getClassByOrd c &&& PUNCTUATUON = NULL ∧
          ((p.atPos k1).curCharClass = NULL ∨
            (p.atPos k1).curCharClass &&& (SPACE ||| NL ||| TEXT_BRACKET) ≠ NULL ∨
            (p.atPos k1).curCharClass &&& PUNCTUATUON ≠ NULL))) ∧
    (∀ (fuel : Nat) (self : parser), mapGet self.specialChars self.curChar = none →
      matchSpecialChar fuel self = some (false, [], self)) ∧
    (∀ (fuel : Nat) (self : parser), self.prevCharClass ≠ NULL →
      self.prevCharClass &&& (SPACE ||| NL ||| TEXT_BRACKET) = NULL →
      matchSpecialChar fuel self = some (false, [], self)) ∧
    (∀ (L : Lib) (fuel : Nat) (p : parser) (k : Int) (parentTag : Str),
      (p.atPos k).curCharClass &&& SPECIAL_CHAR ≠ NULL →
      (∃ out, matchSpecialChar fuel (p.atPos k) = some (false, out, p.atPos k)) →
      makeTextStep L fuel (p.atPos k) parentTag =
        some (p.escapeRune (p.atPos k).curChar, p.atPos (k + 1))) ∧
    (matchSpecialChar 40 ((linkText (runes "#tagname! x")).atPos 0)).map
        (fun r => (r.1, r.2.1, r.2.2.curPos)) =
      some (true, runes "<a href=\"/tags/tagname/\">#tagname</a>", 8) ∧
    (matchSpecialChar 40 ((linkText (runes "#a.b x")).atPos 0)).map
        (fun r => (r.1, r.2.1, r.2.2.curPos)) = some (false, [], 0) ∧
    (matchSpecialChar 40 ((linkText (runes "a#b")).atPos 1)).map
        (fun r => (r.1, r.2.1, r.2.2.curPos)) = some (false, [], 1) ∧
    (matchSpecialChar 40 ((linkText (runes "$b")).atPos 0)).map
        (fun r => (r.1, r.2.1, r.2.2.curPos)) = some (false, [], 0) ∧
    (matchSpecialChar 40 ((linkText (runes "# b")).atPos 0)).map
        (fun r => (r.1, r.2.1, r.2.2.curPos)) = some (false, [], 0) ∧
    parseOut goLib qvx (runes "текст #hash и #tagname!") =
      some (runes
        "текст <a href=\"/tags/hash/\">#hash</a> и <a href=\"/tags/tagname/\">#tagname</a>!",
        []) ∧
    parseOut goLib qvx (runes "текст $abc a#b #a.b @user. (#x) # y #") =
      some (runes ("текст $abc a#b #a.b <a href=\"/user/user/\">@user</a>. " ++
        "(<a href=\"/tags/x/\">#x</a>) # y #"), []) :=
  ⟨matchSpecialChar_window, matchSpecialChar_no_callback, matchSpecialChar_inside_word,
    makeTextStep_special_literal, by decide!, by decide!, by decide!, by decide!, by decide!,
    by decide!, by decide!⟩

theorem C29_special_char_witness :
    ((linkText (runes "#tagname! x")).textLen =
        (linkText (runes "#tagname! x")).textBuf.length ∧
      (linkText (runes "#tagname! x")).statesStack ≠ [] ∧
      remaining (linkText (runes "#tagname! x")) 0 + 1 < 20) ∧
    ∃ r out k1, matchSpecialChar 20 ((linkText (runes "#tagname! x")).atPos 0) =
        some (r, out, (linkText (runes "#tagname! x")).atPos k1) ∧
      (r = false → k1 = 0) ∧
      (r = true → ∃ callback c,
        mapGet (linkText (runes "#tagname! x")).specialChars
          ((linkText (runes "#tagname! x")).atPos 0).curChar = some callback ∧ 0 + 1 < k1 ∧
        out = callback (window (linkText (runes "#tagname! x")).textBuf (0 + 1) k1) ∧
        out ≠ [] ∧
        (window (linkText (runes "#tagname! x")).textBuf (0 + 1) k1).getLast? = some c ∧
        getClassByOrd c &&& PUNCTUATUON = NULL ∧
        (((linkText (runes "#tagname! x")).atPos k1).curCharClass = NULL ∨
          ((linkText (runes "#tagname! x")).atPos k1).curCharClass &&&
            (SPACE ||| NL ||| TEXT_BRACKET) ≠ NULL ∨
          ((linkText (runes "#tagname! x")).atPos k1).curCharClass &&& PUNCTUATUON ≠ NULL)) :=
  ⟨⟨by decide!, List.cons_ne_nil _ _, by decide!⟩,
    C29_special_char.1 20 (linkText (runes "#tagname! x")) 0 (by decide!)
      (List.cons_ne_nil _ _) (by decide!)⟩

/-! # Classes, the head, configuration tables, values, close tags and the state between parses -/

/-! ## C37: the class of a code point -/

theorem classTable_ascii : ∀ kv ∈ CHAR_CLASSES, kv.1 ≤ 127 := by
  decide

theorem classTable_quote : ∀ kv ∈ CHAR_CLASSES, kv.2 &&& TEXT_QUOTE ≠ NULL → kv.1 = 34 := by
  decide

theorem mapGet_absent {κ ν : Type} [DecidableEq κ] (m : GoMap κ ν) (k : κ)
    (h : ∀ kv ∈ m, kv.1 ≠ k) : mapGet m k = none := by
  cases hm : mapGet m k with
  | none => rfl
  | some v => exact absurd rfl (h (k, v) (mapGet_mem m k v hm))

theorem getClassByOrd_above (c : Rune) (h : 127 < c) : getClassByOrd c = PRINATABLE := by
  unfold getClassByOrd
  rw [mapGet_absent CHAR_CLASSES c (fun kv hkv heq => by
    have hle : kv.1 ≤ 127 := classTable_ascii kv hkv
    rw [heq] at hle
    exact absurd h (Nat.not_lt.mpr hle))]

theorem getClassByOrd_quote (c : Rune) : getClassByOrd c &&& TEXT_QUOTE ≠ NULL ↔ c = 34 := by
  constructor
  · intro h
    unfold getClassByOrd at h
    cases hm : mapGet CHAR_CLASSES c with
    | none =>
      rw [hm] at h
      exact absurd h (by decide)
    | some x =>
      rw [hm] at h
      exact classTable_quote (c, x) (mapGet_mem _ c x hm) h
  · intro h
    rw [h]
    decide

theorem class_null_iff (p : parser) (k : Int) :
    (p.atPos k).curCharClass = NULL ↔ ¬ (0 ≤ k ∧ k < p.textLen) := by
  constructor
  · intro h hr
    exact class_ne_null p k hr.1 hr.2 h
  · intro h
    by_contra hc
    exact h (class_inrange p k hc)

/-- C37: `getClassByOrd` returns exactly PRINATABLE, which is 1, for every code point
that is not a key of the class table, and so for every code point above 127, whose class
has none of the bits ALPHA, NUMERIC, SPACE, NL, PUNCTUATUON, TAG_NAME, TEXT_QUOTE,
TEXT_BRACKET and SPECIAL_CHAR; the only code point with the bit TEXT_QUOTE is 34, the
ASCII double quote; every class returned is not NULL, so that the class under the head is
NULL exactly when the head is outside the buffer. -/
theorem C37_class_default :
    (∀ c : Rune, mapHas CHAR_CLASSES c = false → getClassByOrd c = PRINATABLE) ∧
    (∀ c : Rune, 127 < c → mapHas CHAR_CLASSES c = false ∧ getClassByOrd c = PRINATABLE ∧
      ∀ bit ∈ [ALPHA, NUMERIC, SPACE, NL, PUNCTUATUON, TAG_NAME, TEXT_QUOTE, TEXT_BRACKET,
        SPECIAL_CHAR], getClassByOrd c &&& bit = NULL) ∧
    (∀ c : Rune, getClassByOrd c &&& TEXT_QUOTE ≠ NULL ↔ c = 34) ∧
    (∀ c : Rune, getClassByOrd c ≠ NULL) ∧
    (∀ (p : parser) (k : Int),
      (p.atPos k).curCharClass = NULL ↔ ¬ (0 ≤ k ∧ k < p.textLen)) ∧
    PRINATABLE = 1 := by
  refine ⟨?_, ?_, getClassByOrd_quote, getClassByOrd_ne_zero, class_null_iff, rfl⟩
  · intro c h
    unfold getClassByOrd
    rw [(mapHas_eq_false CHAR_CLASSES c).mp h]
  · intro c h
    have hcl := getClassByOrd_above c h
    refine ⟨?_, hcl, ?_⟩
    · rw [mapHas_eq_false]
      exact mapGet_absent CHAR_CLASSES c (fun kv hkv heq => by
        have hle : kv.1 ≤ 127 := classTable_ascii kv hkv
        rw [heq] at hle
        exact absurd h (Nat.not_lt.mpr hle))
    · rw [hcl]
      decide

theorem C37_class_default_witness :
    (127 : Rune) < 1090 ∧ mapHas CHAR_CLASSES 1090 = false ∧ getClassByOrd 1090 = PRINATABLE ∧
    ∀ bit ∈ [ALPHA, NUMERIC, SPACE, NL, PUNCTUATUON, TAG_NAME, TEXT_QUOTE, TEXT_BRACKET,
      SPECIAL_CHAR], getClassByOrd 1090 &&& bit = NULL :=
  ⟨by decide, C37_class_default.2.1 1090 (by decide)⟩

/-! ## C35: the head after `movePos` -/

/-- C35, counterexample: in the buffer of the runes 97, 0, 98 the position 1 is inside
the buffer, and `movePos 1` returns false; the rune under the head is U+0000, with the
class NOPRINT of the table.  `Parse` puts such a text in the buffer as it is. -/
theorem C35_nul_inside_buffer :
    (0 : Int) ≤ 1 ∧ (1 : Int) < (New.start [97, 0, 98]).textLen ∧
    (New.start [97, 0, 98]).textLen = (New.start [97, 0, 98]).textBuf.length ∧
    ((New.start [97, 0, 98]).movePos 1).1 = false ∧
    ((New.start [97, 0, 98]).movePos 1).2.curChar = 0 ∧
    ((New.start [97, 0, 98]).movePos 1).2.curCharClass = NOPRINT ∧
    (Parse goLib New [97, 0, 98]).map (fun r => r.2.textBuf) = some [97, 0, 98] := by
  decide!

/-- C35, amended: `movePos position` returns true if and only if the position is inside
the buffer and the rune there is not U+0000; afterwards prev, cur and next hold the
positions `position - 1`, `position` and `position + 1`, each with the rune of the buffer
and its class when the position is inside the buffer, and with the rune 0 and the class
NULL when it is outside; the class is NULL only outside the buffer. -/
theorem C35_movePos :
    ∀ (self : parser) (position : Int),
      ((self.movePos position).1 = true ↔
        (0 ≤ position ∧ position < self.textLen ∧ bufAt self.textBuf position ≠ 0)) ∧
      (self.movePos position).2.prevPos = position - 1 ∧
      (self.movePos position).2.curPos = position ∧
      (self.movePos position).2.nextPos = position + 1 ∧
      (0 ≤ position - 1 ∧ position - 1 < self.textLen →
        (self.movePos position).2.prevChar = bufAt self.textBuf (position - 1) ∧
        (self.movePos position).2.prevCharClass =
          getClassByOrd (bufAt self.textBuf (position - 1)) ∧
        (self.movePos position).2.prevCharClass ≠ NULL) ∧
      (¬ (0 ≤ position - 1 ∧ position - 1 < self.textLen) →
        (self.movePos position).2.prevChar = 0 ∧
        (self.movePos position).2.prevCharClass = NULL) ∧
      (0 ≤ position ∧ position < self.textLen →
        (self.movePos position).2.curChar = bufAt self.textBuf position ∧
        (self.movePos position).2.curCharClass = getClassByOrd (bufAt self.textBuf position) ∧
        (self.movePos position).2.curCharClass ≠ NULL) ∧
      (¬ (0 ≤ position ∧ position < self.textLen) →
        (self.movePos position).2.curChar = 0 ∧
        (self.movePos position).2.curCharClass = NULL) ∧
      (0 ≤ position + 1 ∧ position + 1 < self.textLen →
        (self.movePos position).2.nextChar = bufAt self.textBuf (position + 1) ∧
        (self.movePos position).2.nextCharClass =
          getClassByOrd (bufAt self.textBuf (position + 1)) ∧
        (self.movePos position).2.nextCharClass ≠ NULL) ∧
      (¬ (0 ≤ position + 1 ∧ position + 1 < self.textLen) →
        (self.movePos position).2.nextChar = 0 ∧
        (self.movePos position).2.nextCharClass = NULL) := by
  intro self position
  have key : ∀ j : Int,
      (0 ≤ j ∧ j < self.textLen →
        (if decide (j < self.textLen ∧ j ≥ 0) = true then bufAt self.textBuf j else 0) =
          bufAt self.textBuf j ∧
        (if decide (j < self.textLen ∧ j ≥ 0) = true then
          getClassByOrd (if decide (j < self.textLen ∧ j ≥ 0) = true then bufAt self.textBuf j
            else 0) else NULL) = getClassByOrd (bufAt self.textBuf j) ∧
        (if decide (j < self.textLen ∧ j ≥ 0) = true then
          getClassByOrd (if decide (j < self.textLen ∧ j ≥ 0) = true then bufAt self.textBuf j
            else 0) else NULL) ≠ NULL) ∧
      (¬ (0 ≤ j ∧ j < self.textLen) →
        (if decide (j < self.textLen ∧ j ≥ 0) = true then bufAt self.textBuf j else 0) = 0 ∧
        (if decide (j < self.textLen ∧ j ≥ 0) = true then
          getClassByOrd (if decide (j < self.textLen ∧ j ≥ 0) = true then bufAt self.textBuf j
            else 0) else NULL) = NULL) := by
    intro j
    constructor
    · intro h
      have hin : decide (j < self.textLen ∧ j ≥ 0) = true := by
        simp only [decide_eq_true_eq]
        exact ⟨h.2, h.1⟩
      rw [if_pos hin, if_pos hin]
      exact ⟨rfl, rfl, getClassByOrd_ne_zero _⟩
    · intro h
      have hin : ¬ decide (j < self.textLen ∧ j ≥ 0) = true := by
        simp only [decide_eq_true_eq]
        intro hh
        exact h ⟨hh.2, hh.1⟩
      rw [if_neg hin, if_neg hin]
      exact ⟨rfl, rfl⟩
  refine ⟨?_, rfl, rfl, rfl, (key (position - 1)).1, (key (position - 1)).2, (key position).1,
    (key position).2, (key (position + 1)).1, (key (position + 1)).2⟩
  show ((if (if decide (position < self.textLen ∧ position ≥ 0) = true then
      bufAt self.textBuf position else 0) = 0 then false else true) = true) ↔ _
  by_cases h : 0 ≤ position ∧ position < self.textLen
  · rw [((key position).1 h).1]
    by_cases hz : bufAt self.textBuf position = 0
    · rw [if_pos hz]
      constructor
      · intro hh
        cases hh
      · intro hh
        exact absurd hz hh.2.2
    · rw [if_neg hz]
      exact ⟨fun _ => ⟨h.1, h.2, hz⟩, fun _ => rfl⟩
  · rw [((key position).2 h).1, if_pos rfl]
    constructor
    · intro hh
      cases hh
    · intro hh
      exact absurd ⟨hh.1, hh.2.1⟩ h

theorem C35_movePos_witness :
    ((0 : Int) ≤ 1 - 1 ∧ (1 : Int) - 1 < (New.start [97, 0, 98]).textLen) ∧
    ((New.start [97, 0, 98]).movePos 1).2.prevChar = bufAt (New.start [97, 0, 98]).textBuf (1 - 1) ∧
    ((New.start [97, 0, 98]).movePos 1).2.prevCharClass =
      getClassByOrd (bufAt (New.start [97, 0, 98]).textBuf (1 - 1)) ∧
    ((New.start [97, 0, 98]).movePos 1).2.prevCharClass ≠ NULL :=
  ⟨by decide!, (C35_movePos (New.start [97, 0, 98]) 1).2.2.2.2.1 (by decide!)⟩

/-! ## C31: the tables of children and parents -/

theorem mapGet2_step {ν : Type} (m : GoMap Str (GoMap Str ν)) (a b x y : Str) (v : ν) :
    (mapGet2 (mapSet m a (mapSet ((mapGet m a).getD []) b v)) x y).isSome =
      ((mapGet2 m x y).isSome || (decide (x = a) && decide (y = b))) := by
  rw [mapGet2_eq, mapGet2_eq]
  by_cases hx : a = x
  · subst hx
    rw [mapGet_mapSet_eq]
    simp only [Option.getD_some, decide_True, Bool.true_and]
    by_cases hy : b = y
    · subst hy
      rw [mapGet_mapSet_eq]
      simp
    · rw [mapGet_mapSet_ne _ _ _ _ hy]
      have : ¬ y = b := fun h => hy h.symm
      simp [this]
  · rw [mapGet_mapSet_ne _ _ _ _ hx]
    have : ¬ x = a := fun h => hx h.symm
    simp [this]

theorem mapGet2_reset {ν : Type} (m : GoMap Str (GoMap Str ν)) (a x y : Str) :
    (mapGet2 (mapSet m a []) x y).isSome = (!decide (x = a) && (mapGet2 m x y).isSome) := by
  rw [mapGet2_eq, mapGet2_eq]
  by_cases hx : a = x
  · subst hx
    rw [mapGet_mapSet_eq]
    simp [mapGet]
  · rw [mapGet_mapSet_ne _ _ _ _ hx]
    have : ¬ x = a := fun h => hx h.symm
    simp [this]

/-- What the loop of `CfgSetTagChilds` leaves in the two tables. -/
theorem setChilds_tables (allowed : GoMap Str Bool) (tag : Str) : ∀ (childs : List Str)
    (tc tp tc1 tp1 : GoMap Str (GoMap Str Bool)),
    setChilds allowed tag childs tc tp = some (tc1, tp1) →
    ∀ p c : Str,
      ((mapGet2 tc1 p c).isSome = ((mapGet2 tc p c).isSome || (decide (p = tag) && decide (c ∈ childs)))) ∧
      ((mapGet2 tp1 c p).isSome = ((mapGet2 tp c p).isSome || (decide (p = tag) && decide (c ∈ childs)))) := by
  intro childs
  induction childs with
  | nil =>
    intro tc tp tc1 tp1 h p c
    unfold setChilds at h
    cases h
    simp
  | cons child rest ih =>
    intro tc tp tc1 tp1 h p c
    unfold setChilds at h
    by_cases ha : ¬ mapHas allowed child = true
    · rw [if_pos ha] at h
      cases h
    · rw [if_neg ha] at h
      obtain ⟨h1, h2⟩ := ih _ _ tc1 tp1 h p c
      rw [h1, h2, mapGet2_step, mapGet2_step]
      constructor
      · by_cases hp : p = tag <;> by_cases hc : c = child <;> simp [hp, hc]
      · by_cases hp : p = tag <;> by_cases hc : c = child <;> simp [hp, hc]

/-- The tables after a successful call of `CfgSetTagChilds`: the children of `tag` are
the new list, the children of the other tags are kept, and every parent is kept, the
parent `tag` being added to each child of the list. -/
theorem CfgSetTagChilds_tables (self self1 : parser) (tag : Str) (childs : List Str)
    (h : self.CfgSetTagChilds tag childs = some self1) (p c : Str) :
    (self1.hasChild p c = if p = tag then decide (c ∈ childs) else self.hasChild p c) ∧
    (self1.hasParent c p = (self.hasParent c p || (decide (p = tag) && decide (c ∈ childs)))) := by
  unfold parser.CfgSetTagChilds at h
  by_cases ha : ¬ mapHas self.tagAllowed tag = true
  · rw [if_pos ha] at h
    cases h
  · rw [if_neg ha] at h
    cases hs : setChilds self.tagAllowed tag childs (mapSet self.tagChild tag []) self.tagParent with
    | none =>
      rw [hs] at h
      cases h
    | some r =>
      obtain ⟨tc1, tp1⟩ := r
      rw [hs] at h
      have h1 : self1.tagChild = tc1 := by
        cases h
        rfl
      have h2 : self1.tagParent = tp1 := by
        cases h
        rfl
      obtain ⟨e1, e2⟩ := setChilds_tables self.tagAllowed tag childs _ _ tc1 tp1 hs p c
      unfold parser.hasChild parser.hasParent
      rw [h1, h2, e1, e2, mapGet2_reset]
      refine ⟨?_, rfl⟩
      by_cases hp : p = tag <;> simp [hp]

/-- Every registered child has its parent registered, also after a call of
`CfgSetTagChilds`: this half of the mirror is kept. -/
theorem CfgSetTagChilds_half (self self1 : parser) (tag : Str) (childs : List Str)
    (h : self.CfgSetTagChilds tag childs = some self1)
    (hm : ∀ p c, self.hasChild p c = true → self.hasParent c p = true) :
    ∀ p c, self1.hasChild p c = true → self1.hasParent c p = true := by
  intro p c hc
  obtain ⟨e1, e2⟩ := CfgSetTagChilds_tables self self1 tag childs h p c
  rw [e1] at hc
  rw [e2]
  by_cases hp : p = tag
  · rw [if_pos hp] at hc
    simp [hp, hc]
  · rw [if_neg hp] at hc
    simp [hm p c hc]

/-- C31: the mirror fails after a second call of `CfgSetTagChilds` for the same tag.  The
calls `CfgSetTagChilds("ul", ["li"])` and then `CfgSetTagChilds("ul", ["b"])` succeed
and leave `li` out of the children of `ul`, while `ul` stays among the parents of `li`:
the call empties `tagChild[tag]` and removes nothing from `tagParent`.  With `li`
child-only the stale parent shows in the output: `<ul><li>x</li></ul>` keeps the tag
`li` inside `ul`, and the same configuration without the first call drops it. -/
theorem C31_stale_parent :
    childsTwice.isSome = true ∧ childsOnce.isSome = true ∧
    childsTwice.map (fun q => (q.hasChild (runes "ul") (runes "li"),
      q.hasParent (runes "li") (runes "ul"))) = some (false, true) ∧
    childsTwice.map (fun q => (q.hasChild (runes "ul") (runes "b"),
      q.hasParent (runes "b") (runes "ul"))) = some (true, true) ∧
    childsOnce.map (fun q => (q.hasChild (runes "ul") (runes "li"),
      q.hasParent (runes "li") (runes "ul"))) = some (false, false) ∧
    parseOut goLib (childsTwice.getD New) (runes "<ul><li>x</li></ul>") =
      some (runes "<ul><li>x</li></ul>", []) ∧
    parseOut goLib (childsOnce.getD New) (runes "<ul><li>x</li></ul>") =
      some (runes "<ul>x</ul>", []) := by
  decide!

/-! ## C32: letter case of tag names -/

theorem mapHas_mapSet {κ ν : Type} [DecidableEq κ] (m : GoMap κ ν) (a t : κ) (v : ν) :
    mapHas (mapSet m a v) t = (mapHas m t || decide (t = a)) := by
  unfold mapHas
  by_cases h : a = t
  · subst h
    rw [mapGet_mapSet_eq]
    simp
  · rw [mapGet_mapSet_ne _ _ _ _ h]
    have : ¬ t = a := fun hh => h hh.symm
    simp [this]

theorem mapHas_foldl_set {κ : Type} [DecidableEq κ] : ∀ (tags : List κ) (m : GoMap κ Bool)
    (t : κ), mapHas (tags.foldl (fun m tag => mapSet m tag true) m) t = true ↔
      mapHas m t = true ∨ t ∈ tags := by
  intro tags
  induction tags with
  | nil =>
    intro m t
    simp
  | cons a rest ih =>
    intro m t
    rw [List.foldl_cons, ih, mapHas_mapSet, Bool.or_eq_true, decide_eq_true_eq, List.mem_cons,
      or_assoc]

theorem makeTag_lower (L : Lib) (self : parser) (a b : Str) (tagParams : GoMap Str Str)
    (tagContent : Str) (shortTag : Bool) (parentTag : Str) (h : L.toLower a = L.toLower b) :
    self.makeTag L a tagParams tagContent shortTag parentTag =
      self.makeTag L b tagParams tagContent shortTag parentTag := by
  unfold parser.makeTag
  rw [h]

/-- C32, counterexample: after `CfgAllowTags(["B"])` alone the tag `b` is not allowed in
any letter case: `<b>x</b>` and `<B>x</B>` both give `x`.  The name is stored as it was
given, and the lookup asks for the lower-case name `b`. -/
theorem C32_upper_case_registration :
    mapHas (New.CfgAllowTags [runes "B"]).tagAllowed (runes "B") = true ∧
    mapHas (New.CfgAllowTags [runes "B"]).tagAllowed (runes "b") = false ∧
    parseOut goLib (New.CfgAllowTags [runes "B"]) (runes "<b>x</b>") = some (runes "x", []) ∧
    parseOut goLib (New.CfgAllowTags [runes "B"]) (runes "<B>x</B>") = some (runes "x", []) := by
  decide!

/-- C32, amended: tag names are lower-cased on lookup and stored as given on
registration.  After `CfgAllowTags` the allowed names are the former ones and the names
of the list, letter for letter; `makeTag` reads its tables at the lower-cased name only,
so two spellings with the same lower-case form are treated alike.  After
`CfgAllowTags(["b"])` alone `<b>x</b>` and `<B>y</B>` are both written as the tag `b`,
and after `CfgAllowTags(["B"])` alone neither is. -/
theorem C32_lower_case_lookup :
    (∀ (self : parser) (tags : List Str) (t : Str),
      (mapHas (self.CfgAllowTags tags).tagAllowed t = true ↔
        mapHas self.tagAllowed t = true ∨ t ∈ tags)) ∧
    (∀ (L : Lib) (self : parser) (a b : Str) (tagParams : GoMap Str Str) (tagContent : Str)
      (shortTag : Bool) (parentTag : Str), L.toLower a = L.toLower b →
      self.makeTag L a tagParams tagContent shortTag parentTag =
        self.makeTag L b tagParams tagContent shortTag parentTag) ∧
    goLib.toLower (runes "B") = runes "b" ∧
    parseOut goLib (New.CfgAllowTags [runes "b"]) (runes "<b>x</b> <B>y</B>") =
      some (runes "<b>x</b> <b>y</b>", []) ∧
    parseOut goLib (New.CfgAllowTags [runes "B"]) (runes "<b>x</b> <B>y</B>") =
      some (runes "x y", []) :=
  ⟨fun self tags t => mapHas_foldl_set tags self.tagAllowed t, makeTag_lower, by decide!,
    by decide!, by decide!⟩

theorem C32_lower_case_lookup_witness :
    goLib.toLower (runes "B") = goLib.toLower (runes "b") ∧
    (New.CfgAllowTags [runes "b"]).makeTag goLib (runes "B") [] (runes "x") false [] =
      (New.CfgAllowTags [runes "b"]).makeTag goLib (runes "b") [] (runes "x") false [] :=
  ⟨by decide!, C32_lower_case_lookup.2.1 goLib (New.CfgAllowTags [runes "b"]) (runes "B")
    (runes "b") [] (runes "x") false [] (by decide!)⟩

/-! ## C33: the value of a tag parameter -/

theorem quotedValueLoop_image : ∀ (fuel : Nat) (p : parser) (k : Int) (quote : Rune)
    (escape : Bool) (buff : Str), p.textLen = p.textBuf.length → remaining p k < fuel →
    ∃ k1, k ≤ k1 ∧
      quotedValueLoop fuel (p.atPos k) quote escape buff =
        some (buff ++ p.escapeStr (window p.textBuf k k1), p.atPos k1) := by
  intro fuel
  induction fuel with
  | zero => intro p k quote escape buff _ h; omega
  | succ n ih =>
    intro p k quote escape buff hlen h
    unfold quotedValueLoop
    by_cases hc : (p.atPos k).curCharClass ≠ NULL ∧
        ((p.atPos k).curChar ≠ quote ∨ escape = true)
    · rw [if_pos hc, moveNextPos_atPos]
      have hr := class_inrange p k hc.1
      obtain ⟨k1, l1, e1⟩ := ih p (k + 1) quote (decide ((p.atPos k).curChar = 92))
        (buff ++ (p.atPos k).escapeRune (p.atPos k).curChar) hlen (remaining_step p k n h hr)
      refine ⟨k1, by omega, ?_⟩
      rw [e1, window_cons p.textBuf k k1 hr.1 (by omega) (by omega), escapeStr_cons,
        curChar_inrange p k hr.1 hr.2, List.append_assoc]
      rfl
    · rw [if_neg hc]
      exact ⟨k, le_refl k, by rw [window_self]; simp [parser.escapeStr]⟩

theorem bareValueLoop_image : ∀ (fuel : Nat) (p : parser) (k : Int) (buff : Str),
    p.textLen = p.textBuf.length → remaining p k < fuel →
    ∃ k1, k ≤ k1 ∧
      bareValueLoop fuel (p.atPos k) buff =
        some (buff ++ p.escapeStr (window p.textBuf k k1), p.atPos k1) := by
  intro fuel
  induction fuel with
  | zero => intro p k buff _ h; omega
  | succ n ih =>
    intro p k buff hlen h
    unfold bareValueLoop
    by_cases hc : (p.atPos k).curCharClass ≠ NULL ∧
        (p.atPos k).curCharClass &&& SPACE = NULL ∧ (p.atPos k).curChar ≠ 62
    · rw [if_pos hc, moveNextPos_atPos]
      have hr := class_inrange p k hc.1
      obtain ⟨k1, l1, e1⟩ := ih p (k + 1)
        (buff ++ (p.atPos k).escapeRune (p.atPos k).curChar) hlen (remaining_step p k n h hr)
      refine ⟨k1, by omega, ?_⟩
      rw [e1, window_cons p.textBuf k k1 hr.1 (by omega) (by omega), escapeStr_cons,
        curChar_inrange p k hr.1 hr.2, List.append_assoc]
      rfl
    · rw [if_neg hc]
      exact ⟨k, le_refl k, by rw [window_self]; simp [parser.escapeStr]⟩

/-- The value that `matchTagParamValue` returns is the image of a stretch of the buffer
under the entities table. -/
theorem matchTagParamValue_image (fuel : Nat) (p : parser) (k : Int)
    (hlen : p.textLen = p.textBuf.length) (h : remaining p k < fuel) :
    ∃ r value k1 k2, matchTagParamValue fuel (p.atPos k) = some (r, value, p.atPos k2) ∧
      (if (p.atPos k).curCharClass &&& TAG_QUOTE ≠ NULL then k + 1 else k) ≤ k1 ∧
      k1 ≤ k2 ∧ k2 ≤ k1 + 1 ∧
      value = p.escapeStr (window p.textBuf
        (if (p.atPos k).curCharClass &&& TAG_QUOTE ≠ NULL then k + 1 else k) k1) := by
  unfold matchTagParamValue
  by_cases hq : (p.atPos k).curCharClass &&& TAG_QUOTE ≠ NULL
  · rw [if_pos hq, if_pos hq, moveNextPos_atPos]
    have hr := class_inrange p k (land_ne_zero hq)
    obtain ⟨k1, l1, e1⟩ := quotedValueLoop_image fuel p (k + 1) (p.atPos k).curChar false [] hlen
      (by unfold remaining at *; omega)
    simp only [e1, List.nil_append]
    by_cases hcl : (p.atPos k1).curChar ≠ (p.atPos k).curChar
    · rw [if_pos hcl]
      exact ⟨false, _, k1, k1, rfl, l1, le_refl k1, by omega, rfl⟩
    · rw [if_neg hcl, moveNextPos_atPos]
      exact ⟨true, _, k1, k1 + 1, rfl, l1, by omega, le_refl _, rfl⟩
  · rw [if_neg hq, if_neg hq]
    obtain ⟨k1, l1, e1⟩ := bareValueLoop_image fuel p k [] hlen h
    simp only [e1, List.nil_append]
    exact ⟨true, _, k1, k1, rfl, l1, le_refl k1, by omega, rfl⟩

/-- C33: `matchTagParamValue` always returns (with fuel above the text that is left), and
the value it returns, quoted or bare, is the image of a stretch of the input under the
entities table: the stretch starts after the opening quote, or at the head for a bare
value, and every rune of it is replaced by its entity when the table has one.  With the
table of `New`, which no configuration call changes, the five runes `"`, `\x27`, `<`,
`>` and `&` are replaced by `&#34;`, `&#39;`, `&#60;`, `&#62;` and `&#38;`, every other
rune is copied, and the value holds none of `"`, `\x27`, `<` and `>`.  Test N24 is
evaluated. -/
theorem C33_value_escaped :
    (∀ (fuel : Nat) (p : parser) (k : Int), p.textLen = p.textBuf.length →
      remaining p k < fuel → p.entities = New.entities →
      ∃ r value k1 k2, matchTagParamValue fuel (p.atPos k) = some (r, value, p.atPos k2) ∧
        (if (p.atPos k).curCharClass &&& TAG_QUOTE ≠ NULL then k + 1 else k) ≤ k1 ∧
        k1 ≤ k2 ∧ k2 ≤ k1 + 1 ∧
        value = p.escapeStr (window p.textBuf
          (if (p.atPos k).curCharClass &&& TAG_QUOTE ≠ NULL then k + 1 else k) k1) ∧
        ∀ x ∈ value, x ≠ 34 ∧ x ≠ 39 ∧ x ≠ 60 ∧ x ≠ 62) ∧
    (∀ (p : parser) (c : Rune) (s : Str), p.entities = New.entities →
      p.escapeStr (c :: s) =
        (if c = 34 then runes "&#34;" else if c = 39 then runes "&#39;"
         else if c = 60 then runes "&#60;" else if c = 62 then runes "&#62;"
         else if c = 38 then runes "&#38;" else [c]) ++ p.escapeStr s) ∧
    (∀ p : parser, p.escapeStr [] = []) ∧
    qvx.entities = New.entities ∧
    (matchTagParamValue 30 ((linkText (runes "/\" target=_blank>")).atPos 0)).map
        (fun r => (r.1, r.2.1, r.2.2.curPos)) = some (true, runes "/&#34;", 2) ∧
    (matchTagParamValue 30 ((linkText (runes "\"a<b>\x27&\" x")).atPos 0)).map
        (fun r => (r.1, r.2.1, r.2.2.curPos)) =
      some (true, runes "a&#60;b&#62;&#39;&#38;", 8) ∧
    parseOut goLib qvx
        (runes "текст <a href=http://dighub.ru title=/\" target=_blank>DigHub</a> текст") =
      some (runes ("текст <a href=\"http://dighub.ru\" title=\"/&#34;\" target=\"_blank\" " ++
        "rel=\"nofollow\">DigHub</a> текст"), []) := by
  refine ⟨?_, ?_, fun p => rfl, by decide!, by decide!, by decide!, by decide!⟩
  · intro fuel p k hlen h hent
    obtain ⟨r, value, k1, k2, e, l1, l2, l3, hv⟩ := matchTagParamValue_image fuel p k hlen h
    refine ⟨r, value, k1, k2, e, l1, l2, l3, hv, ?_⟩
    rw [hv]
    exact escapeStr_clean p hent _
  · intro p c s hent
    rw [escapeStr_cons, escapeRune_table p c hent]

theorem C33_value_escaped_witness :
    ((linkText (runes "/\" target=_blank>")).textLen =
        (linkText (runes "/\" target=_blank>")).textBuf.length ∧
      remaining (linkText (runes "/\" target=_blank>")) 0 < 30 ∧
      (linkText (runes "/\" target=_blank>")).entities = New.entities) ∧
    ∃ r value k1 k2,
      matchTagParamValue 30 ((linkText (runes "/\" target=_blank>")).atPos 0) =
        some (r, value, (linkText (runes "/\" target=_blank>")).atPos k2) ∧
      (if ((linkText (runes "/\" target=_blank>")).atPos 0).curCharClass &&& TAG_QUOTE ≠ NULL
        then 0 + 1 else 0) ≤ k1 ∧
      k1 ≤ k2 ∧ k2 ≤ k1 + 1 ∧
      value = (linkText (runes "/\" target=_blank>")).escapeStr
        (window (linkText (runes "/\" target=_blank>")).textBuf
          (if ((linkText (runes "/\" target=_blank>")).atPos 0).curCharClass &&& TAG_QUOTE ≠ NULL
            then 0 + 1 else 0) k1) ∧
      ∀ x ∈ value, x ≠ 34 ∧ x ≠ 39 ∧ x ≠ 60 ∧ x ≠ 62 :=
  ⟨⟨by decide!, by decide!, by decide!⟩,
    C33_value_escaped.1 30 (linkText (runes "/\" target=_blank>")) 0 (by decide!) (by decide!)
      (by decide!)⟩

/-! ## Matchers on any stack, the empty one included -/

theorem removeState_push_any (p : parser) (s : state) (k : Int) :
    ((p.push s).atPos k).removeState = (p.dropped s).atPos k := by
  unfold parser.dropped
  by_cases h : p.statesStack = []
  · rw [if_pos h]
    unfold parser.removeState
    have : ¬ ((p.push s).atPos k).statesStack.length > 1 := by
      show ¬ (s :: p.statesStack).length > 1
      rw [h]
      simp
    rw [if_neg this]
  · rw [if_neg h]
    exact removeState_push p s k h

theorem dropped_stack (p : parser) (s : state) :
    (p.dropped s).statesStack = if p.statesStack = [] then [s] else p.statesStack := by
  unfold parser.dropped
  by_cases h : p.statesStack = []
  · rw [if_pos h, if_pos h]
    show s :: p.statesStack = [s]
    rw [h]
  · rw [if_neg h, if_neg h]

theorem skipStr_any (p : parser) (k : Int) (str : Str) :
    ∃ r k1, (p.atPos k).skipStr str =
        (r, (if r = true then p.dropped (p.atPos k).head else p).atPos
          (if r = true then k1 else k)) ∧ k ≤ k1 := by
  unfold parser.skipStr
  simp only [saveState_atPos]
  obtain ⟨r, k1, h1, h2⟩ := skipStrLoop_ok str (p.push (p.atPos k).head) k
  rw [h1]
  cases r with
  | true =>
    refine ⟨true, k1, ?_, h2.1⟩
    simp only [if_true]
    rw [removeState_push_any]
  | false =>
    refine ⟨false, k1, ?_, h2.1⟩
    simp only [Bool.false_eq_true, if_false]
    rw [restoreState_push]

/-- The result of `matchTagClose` on any stack: false with the parser it was called on,
or true with the head moved on and the snapshot dropped. -/
theorem matchTagClose_any (L : Lib) (fuel : Nat) (p : parser) (k : Int)
    (h : remaining p k < fuel) :
    ∃ r name k1, matchTagClose L fuel (p.atPos k) =
        some (r, name, (if r = true then p.dropped (p.atPos k).head else p).atPos k1) ∧
      (r = true → k < k1) ∧ (r = false → k1 = k) := by
  unfold matchTagClose
  by_cases h60 : (p.atPos k).curChar ≠ 60
  · rw [if_pos h60]
    exact ⟨false, [], k, rfl, (fun hh => by cases hh), fun _ => rfl⟩
  · rw [if_neg h60]
    have hr : 0 ≤ k ∧ k < p.textLen := char_inrange p k (by rw [not_not.mp h60]; decide)
    simp only [saveState_atPos]
    generalize hB : p.push (p.atPos k).head = B
    have hBs : ∀ j, (B.atPos j).removeState = (p.dropped (p.atPos k).head).atPos j := by
      intro j; rw [← hB]; exact removeState_push_any p _ j
    have hBr : ∀ j, (B.atPos j).restoreState = p.atPos k := by
      intro j; rw [← hB]; exact restoreState_push p k j
    have hBf : ∀ j, remaining B j = remaining p j := by intro j; rw [← hB]; rfl
    have fin : ∀ j, k ≤ j → remaining B j < fuel := by
      intro j hj; rw [hBf]; exact (Reach.of_lt hr hj).fuel h
    obtain ⟨c2, k2, e2, r2, _⟩ := skipSpaces_ok fuel B k (fin k (le_refl k))
    have l2 := r2.1
    simp only [e2]
    obtain ⟨k3, e3, l3⟩ : ∃ k3, (if c2 = 0 then ((B.atPos k2).moveNextPos).2 else B.atPos k2) =
        B.atPos k3 ∧ k2 ≤ k3 := by
      by_cases hc : c2 = 0
      · exact ⟨k2 + 1, by simp [hc, moveNextPos_atPos], by omega⟩
      · exact ⟨k2, by simp [hc], le_refl k2⟩
    simp only [e3]
    by_cases h47 : (B.atPos k3).curChar ≠ 47
    · rw [if_pos h47, hBr]
      exact ⟨false, [], k, rfl, (fun hh => by cases hh), fun _ => rfl⟩
    · rw [if_neg h47]
      obtain ⟨c4, k4, e4, r4, _⟩ := skipSpaces_ok fuel B k3 (fin k3 (by omega))
      have l4 := r4.1
      simp only [e4]
      obtain ⟨k5, e5, l5⟩ : ∃ k5,
          (if c4 = 0 then ((B.atPos k4).moveNextPos).2 else B.atPos k4) = B.atPos k5 ∧
          k4 ≤ k5 := by
        by_cases hc : c4 = 0
        · exact ⟨k4 + 1, by simp [hc, moveNextPos_atPos], by omega⟩
        · exact ⟨k4, by simp [hc], le_refl k4⟩
      simp only [e5]
      obtain ⟨name0, k6, e6, r6, _⟩ := grabCharClass_ok fuel B k5 TAG_NAME (fin k5 (by omega))
      have l6 := r6.1
      simp only [e6]
      obtain ⟨c7, k7, e7, r7, _⟩ := skipSpaces_ok fuel B k6 (fin k6 (by omega))
      have l7 := r7.1
      simp only [e7]
      by_cases hbad : name0 = [] ∨ (B.atPos k7).curChar ≠ 62
      · rw [if_pos hbad, hBr]
        exact ⟨false, _, k, rfl, (fun hh => by cases hh), fun _ => rfl⟩
      · rw [if_neg hbad, hBs, moveNextPos_atPos]
        exact ⟨true, _, k7 + 1, rfl, (fun _ => by omega), fun hh => by cases hh⟩

/-- The result of `matchTagOpen` on any stack: false with the parser it was called on,
or true with the head moved on and the snapshot dropped. -/
theorem matchTagOpen_any (L : Lib) (fuel : Nat) (p : parser) (k : Int)
    (h : remaining p k < fuel) :
    ∃ r name params short k1,
      matchTagOpen L fuel (p.atPos k) =
        some (r, name, params, short,
          (if r = true then p.dropped (p.atPos k).head else p).atPos k1) ∧
      (r = true → k < k1) ∧ (r = false → k1 = k) := by
  unfold matchTagOpen
  by_cases h60 : (p.atPos k).curChar ≠ 60
  · rw [if_pos h60]
    exact ⟨false, [], [], false, k, rfl, (fun hh => by cases hh), fun _ => rfl⟩
  · rw [if_neg h60]
    have hr : 0 ≤ k ∧ k < p.textLen := char_inrange p k (by rw [not_not.mp h60]; decide)
    simp only [saveState_atPos]
    generalize hB : p.push (p.atPos k).head = B
    have hBs : ∀ j, (B.atPos j).removeState = (p.dropped (p.atPos k).head).atPos j := by
      intro j; rw [← hB]; exact removeState_push_any p _ j
    have hBr : ∀ j, (B.atPos j).restoreState = p.atPos k := by
      intro j; rw [← hB]; exact restoreState_push p k j
    have hBf : ∀ j, remaining B j = remaining p j := by intro j; rw [← hB]; rfl
    have hBs2 : B.statesStack ≠ [] := by rw [← hB]; exact push_stack_ne p _
    have fin : ∀ j, k ≤ j → remaining B j < fuel := by
      intro j hj; rw [hBf]; exact (Reach.of_lt hr hj).fuel h
    obtain ⟨c2, k2, e2, r2, _⟩ := skipSpaces_ok fuel B k (fin k (le_refl k))
    have l2 := r2.1
    simp only [e2]
    obtain ⟨k3, e3, l3⟩ : ∃ k3, (if c2 = 0 then ((B.atPos k2).moveNextPos).2 else B.atPos k2) =
        B.atPos k3 ∧ k2 ≤ k3 := by
      by_cases hc : c2 = 0
      · exact ⟨k2 + 1, by simp [hc, moveNextPos_atPos], by omega⟩
      · exact ⟨k2, by simp [hc], le_refl k2⟩
    simp only [e3]
    obtain ⟨name0, k4, e4, r4, n4⟩ := grabCharClass_ok fuel B k3 TAG_NAME (fin k3 (by omega))
    have l4 := r4.1
    simp only [e4]
    obtain ⟨c5, k5, e5, r5, _⟩ := skipSpaces_ok fuel B k4 (fin k4 (by omega))
    have l5 := r5.1
    simp only [e5]
    by_cases hn : name0 = []
    · simp only [hn, if_true, hBr]
      exact ⟨false, _, _, _, k, rfl, (fun hh => by cases hh), fun _ => rfl⟩
    · simp only [hn, if_false]
      obtain ⟨rp, params, k6, e6, l6⟩ : ∃ rp params k6,
          (if (B.atPos k5).curChar ≠ 62 ∧ (B.atPos k5).curChar ≠ 47 then
            matchTagParams fuel (B.atPos k5) [] else some (false, [], B.atPos k5)) =
          some (rp, params, B.atPos k6) ∧ k5 ≤ k6 := by
        by_cases hc : (B.atPos k5).curChar ≠ 62 ∧ (B.atPos k5).curChar ≠ 47
        · rw [if_pos hc]
          have hlt : k < k5 := by
            have : k2 < k4 ∨ k < k3 := by
              by_cases hc2 : c2 = 0
              · right
                have : B.atPos k3 = B.atPos (k2 + 1) := by
                  rw [← e3]; simp [hc2, moveNextPos_atPos]
                have := congrArg parser.curPos this
                simp only [atPos_curPos] at this
                omega
              · left
                have : B.atPos k3 = B.atPos k2 := by
                  rw [← e3]; simp [hc2]
                have h32 := congrArg parser.curPos this
                simp only [atPos_curPos] at h32
                rcases lt_or_eq_of_le l4 with hh | hh
                · omega
                · exact absurd (n4 hh.symm) hn
            omega
          have hf : remaining B k5 + 1 < fuel := by
            rw [hBf]
            unfold remaining at *
            omega
          obtain ⟨rp, params, k6, e6, r6⟩ := matchTagParams_ok fuel B k5 [] hBs2 hf
          exact ⟨rp, params, k6, e6, r6.1⟩
        · rw [if_neg hc]
          exact ⟨false, [], k5, rfl, le_refl k5⟩
      simp only [e6]
      by_cases hsl : ¬ (mapHas (B.atPos k6).tagShort (L.toLower name0) = true) ∧
          (B.atPos k6).curChar = 47
      · rw [if_pos hsl, hBr]
        exact ⟨false, _, _, _, k, rfl, (fun hh => by cases hh), fun _ => rfl⟩
      · rw [if_neg hsl]
        obtain ⟨k7, e7, l7⟩ : ∃ k7,
            (if mapHas (B.atPos k6).tagShort (L.toLower name0) = true ∧ (B.atPos k6).curChar = 47
              then ((B.atPos k6).moveNextPos).2 else B.atPos k6) = B.atPos k7 ∧ k6 ≤ k7 := by
          by_cases hc : mapHas (B.atPos k6).tagShort (L.toLower name0) = true ∧
              (B.atPos k6).curChar = 47
          · exact ⟨k6 + 1, by rw [if_pos hc, moveNextPos_atPos], by omega⟩
          · exact ⟨k6, by rw [if_neg hc], le_refl k6⟩
        simp only [e7]
        obtain ⟨c8, k8, e8, r8, _⟩ := skipSpaces_ok fuel B k7 (fin k7 (by omega))
        have l8 := r8.1
        simp only [e8]
        by_cases h62 : (B.atPos k8).curChar ≠ 62
        · rw [if_pos h62, hBr]
          exact ⟨false, _, _, _, k, rfl, (fun hh => by cases hh), fun _ => rfl⟩
        · rw [if_neg h62, hBs, moveNextPos_atPos]
          exact ⟨true, _, _, _, k8 + 1, rfl, (fun _ => by omega), fun hh => by cases hh⟩

/-! ## Loops over a text that is known -/

theorem rest_cons_inv (buf : Str) (k : Int) (c : Rune) (t : Str) (h0 : 0 ≤ k)
    (h : rest buf k = c :: t) :
    k < buf.length ∧ bufAt buf k = c ∧ rest buf (k + 1) = t := by
  by_cases hk : k < buf.length
  · rw [rest_cons buf k h0 hk] at h
    exact ⟨hk, (List.cons.inj h).1, (List.cons.inj h).2⟩
  · rw [rest_nil buf k (by omega)] at h
    cases h

theorem rest_append_inv (buf : Str) : ∀ (w : Str) (k : Int) (t : Str), 0 ≤ k →
    rest buf k = w ++ t → rest buf (k + w.length) = t := by
  intro w
  induction w with
  | nil =>
    intro k t h0 h
    simpa using h
  | cons c w ih =>
    intro k t h0 h
    obtain ⟨hk, _, hr⟩ := rest_cons_inv buf k c (w ++ t) h0 h
    have e1 := ih (k + 1) t (by omega) hr
    have e : k + ((c :: w).length : Int) = k + 1 + (w.length : Int) := by
      simp only [List.length_cons, Nat.cast_add, Nat.cast_one]
      omega
    rw [e]
    exact e1

theorem rest_length (buf : Str) (k : Int) (h0 : 0 ≤ k) :
    ((rest buf k).length : Int) = max 0 (buf.length - k) := by
  unfold rest
  rw [List.length_drop]
  omega

/-- The class under the head is the class of the first rune of the text that is left,
and has no bit when no text is left. -/
theorem class_of_rest (p : parser) (k : Int) (cls : Nat) (tail : Str)
    (hlen : p.textLen = p.textBuf.length) (h0 : 0 ≤ k) (h : rest p.textBuf k = tail)
    (ht : ∀ c t, tail = c :: t → getClassByOrd c &&& cls = NULL) :
    (p.atPos k).curCharClass &&& cls = NULL := by
  cases htl : tail with
  | nil =>
    rw [htl] at h
    have hk : p.textLen ≤ k := by
      by_contra hc
      rw [rest_cons p.textBuf k h0 (by omega)] at h
      cases h
    rw [class_null_of_ge p k hk]
    exact Nat.zero_and cls
  | cons c t =>
    rw [htl] at h
    obtain ⟨hk, hc, _⟩ := rest_cons_inv p.textBuf k c t h0 h
    rw [class_at p k h0 (by omega), hc]
    exact ht c t htl

theorem skipSpacesLoop_exact : ∀ (w : Str) (fuel : Nat) (p : parser) (k : Int) (count : Int)
    (tail : Str), p.textLen = p.textBuf.length → 0 ≤ k → rest p.textBuf k = w ++ tail →
    (∀ c ∈ w, getClassByOrd c &&& SPACE ≠ NULL) →
    (∀ c t, tail = c :: t → getClassByOrd c &&& SPACE = NULL) → w.length < fuel →
    skipSpacesLoop fuel (p.atPos k) count =
      some (count + w.length, p.atPos (k + w.length)) := by
  intro w
  induction w with
  | nil =>
    intro fuel p k count tail hlen h0 h _ ht hf
    cases fuel with
    | zero => simp at hf
    | succ n =>
      unfold skipSpacesLoop
      rw [if_neg (not_not.mpr (class_of_rest p k SPACE tail hlen h0 h ht))]
      simp
  | cons c w ih =>
    intro fuel p k count tail hlen h0 h hw ht hf
    cases fuel with
    | zero => simp at hf
    | succ n =>
      obtain ⟨hk, hc, hr⟩ := rest_cons_inv p.textBuf k c (w ++ tail) h0 h
      unfold skipSpacesLoop
      rw [if_pos (by
        rw [class_at p k h0 (by omega), hc]
        exact hw c (List.mem_cons_self c w)), moveNextPos_atPos,
        ih n p (k + 1) (count + 1) tail hlen (by omega) hr
          (fun x hx => hw x (List.mem_cons_of_mem c hx)) ht (by simpa using hf)]
      have e : ((c :: w).length : Int) = (w.length : Int) + 1 := by simp
      rw [e, show count + 1 + (w.length : Int) = count + ((w.length : Int) + 1) by omega,
        show k + 1 + (w.length : Int) = k + ((w.length : Int) + 1) by omega]

theorem grabCharClassLoop_exact : ∀ (w : Str) (fuel : Nat) (p : parser) (k : Int) (cls : Nat)
    (buff tail : Str), p.textLen = p.textBuf.length → 0 ≤ k → rest p.textBuf k = w ++ tail →
    (∀ c ∈ w, getClassByOrd c &&& cls ≠ NULL) →
    (∀ c t, tail = c :: t → getClassByOrd c &&& cls = NULL) → w.length < fuel →
    grabCharClassLoop fuel (p.atPos k) cls buff = some (buff ++ w, p.atPos (k + w.length)) := by
  intro w
  induction w with
  | nil =>
    intro fuel p k cls buff tail hlen h0 h _ ht hf
    cases fuel with
    | zero => simp at hf
    | succ n =>
      unfold grabCharClassLoop
      rw [if_neg (not_not.mpr (class_of_rest p k cls tail hlen h0 h ht))]
      simp
  | cons c w ih =>
    intro fuel p k cls buff tail hlen h0 h hw ht hf
    cases fuel with
    | zero => simp at hf
    | succ n =>
      obtain ⟨hk, hc, hr⟩ := rest_cons_inv p.textBuf k c (w ++ tail) h0 h
      unfold grabCharClassLoop
      rw [if_pos (by
        rw [class_at p k h0 (by omega), hc]
        exact hw c (List.mem_cons_self c w)), moveNextPos_atPos,
        ih n p (k + 1) cls (buff ++ [(p.atPos k).curChar]) tail hlen (by omega) hr
          (fun x hx => hw x (List.mem_cons_of_mem c hx)) ht (by simpa using hf),
        curChar_inrange p k h0 (by omega), hc]
      have e : ((c :: w).length : Int) = (w.length : Int) + 1 := by simp
      rw [e, show k + 1 + (w.length : Int) = k + ((w.length : Int) + 1) by omega,
        List.append_assoc, List.singleton_append]

theorem classTable_space : ∀ kv ∈ CHAR_CLASSES, kv.2 &&& SPACE ≠ NULL →
    kv.2 &&& TAG_NAME = NULL := by
  decide

theorem class_space (c : Rune) (h : getClassByOrd c &&& SPACE ≠ NULL) :
    getClassByOrd c &&& TAG_NAME = NULL := by
  unfold getClassByOrd at h ⊢
  cases hm : mapGet CHAR_CLASSES c with
  | none =>
    rw [hm] at h
    exact absurd h (by decide)
  | some x =>
    rw [hm] at h
    exact classTable_space (c, x) (mapGet_mem _ c x hm) h

/-! ## C34: the grammar of a close tag -/

theorem skipSpaces_stay (fuel : Nat) (p : parser) (k : Int)
    (hc : (p.atPos k).curCharClass &&& SPACE = NULL) (hf : 0 < fuel) :
    skipSpaces fuel (p.atPos k) = some (0, p.atPos k) := by
  cases fuel with
  | zero => cases hf
  | succ n =>
    unfold skipSpaces skipSpacesLoop
    rw [if_neg (not_not.mpr hc)]

theorem grabCharClass_stay (fuel : Nat) (p : parser) (k : Int) (cls : Nat)
    (hc : (p.atPos k).curCharClass &&& cls = NULL) (hf : 0 < fuel) :
    grabCharClass fuel (p.atPos k) cls = some ([], p.atPos k) := by
  cases fuel with
  | zero => cases hf
  | succ n =>
    unfold grabCharClass grabCharClassLoop
    rw [if_neg (not_not.mpr hc)]

theorem class_of_cur (p : parser) (k : Int) (c : Rune) (h : (p.atPos k).curChar = c)
    (hc : c ≠ 0) : (p.atPos k).curCharClass = getClassByOrd c :=
  class_of_char p k c h hc

/-- A close tag written `</`, name, spaces, `>` is taken. -/
theorem matchTagClose_exact (L : Lib) (fuel : Nat) (p : parser) (k : Int)
    (name spaces tail : Str) (hlen : p.textLen = p.textBuf.length) (h0 : 0 ≤ k)
    (htext : rest p.textBuf k = 60 :: 47 :: (name ++ (spaces ++ 62 :: tail)))
    (hname : name ≠ []) (hn : ∀ c ∈ name, getClassByOrd c &&& TAG_NAME ≠ NULL)
    (hsp : ∀ c ∈ spaces, getClassByOrd c &&& SPACE ≠ NULL)
    (hf : remaining p k < fuel) :
    matchTagClose L fuel (p.atPos k) =
      some (true, L.toLower name,
        (p.dropped (p.atPos k).head).atPos (k + 3 + name.length + spaces.length)) := by
  obtain ⟨hk, hc0, hr1⟩ := rest_cons_inv _ k 60 _ h0 htext
  obtain ⟨hk1, hc1, hr2⟩ := rest_cons_inv _ (k + 1) 47 _ (by omega) hr1
  have hr3 := rest_append_inv _ name (k + 1 + 1) _ (by omega) hr2
  have hr4 := rest_append_inv _ spaces _ _ (by omega) hr3
  obtain ⟨hk4, hc4, _⟩ := rest_cons_inv _ _ 62 tail (by omega) hr4
  have hfn : name.length < fuel := by
    unfold remaining at hf
    omega
  have hfs : spaces.length < fuel := by
    unfold remaining at hf
    omega
  have hf0 : 0 < fuel := by omega
  have h60 : (p.atPos k).curChar = 60 := by
    rw [curChar_inrange p k h0 (by omega), hc0]
  unfold matchTagClose
  rw [if_neg (not_not.mpr h60)]
  simp only [saveState_atPos]
  generalize hB : p.push (p.atPos k).head = B
  have hd : ∀ j, (B.atPos j).removeState = (p.dropped (p.atPos k).head).atPos j := by
    intro j; rw [← hB]; exact removeState_push_any p _ j
  have hBt : B.textBuf = p.textBuf := by rw [← hB]; rfl
  have hBl : B.textLen = B.textBuf.length := by rw [← hB]; exact hlen
  have hBc : ∀ j, (B.atPos j).curChar = (p.atPos j).curChar := by intro j; rw [← hB]; rfl
  have hBcl : ∀ j, (B.atPos j).curCharClass = (p.atPos j).curCharClass := by
    intro j; rw [← hB]; rfl
  have c0 : (B.atPos k).curCharClass &&& SPACE = NULL := by
    rw [hBcl, class_of_char p k 60 h60 (by decide)]
    decide
  rw [skipSpaces_stay fuel B k c0 hf0]
  simp only [if_true, moveNextPos_atPos]
  have h47 : (p.atPos (k + 1)).curChar = 47 := by
    rw [curChar_inrange p (k + 1) (by omega) (by omega), hc1]
  rw [if_neg (not_not.mpr (by rw [hBc]; exact h47))]
  have c1 : (B.atPos (k + 1)).curCharClass &&& SPACE = NULL := by
    rw [hBcl, class_of_char p (k + 1) 47 h47 (by decide)]
    decide
  rw [skipSpaces_stay fuel B (k + 1) c1 hf0]
  simp only [if_true, moveNextPos_atPos]
  have g : grabCharClass fuel (B.atPos (k + 1 + 1)) TAG_NAME =
      some ([] ++ name, B.atPos (k + 1 + 1 + name.length)) :=
    grabCharClassLoop_exact name fuel B (k + 1 + 1) TAG_NAME [] (spaces ++ 62 :: tail) hBl
      (by omega) (by rw [hBt]; exact hr2) hn (by
        intro c t e
        cases spaces with
        | nil =>
          simp only [List.nil_append, List.cons.injEq] at e
          rw [← e.1]
          decide
        | cons s ss =>
          simp only [List.cons_append, List.cons.injEq] at e
          rw [← e.1]
          exact class_space s (hsp s (List.mem_cons_self _ _))) hfn
  rw [g]
  simp only [List.nil_append]
  have sk : skipSpaces fuel (B.atPos (k + 1 + 1 + name.length)) =
      some ((0 : Int) + (spaces.length : Int),
        B.atPos (k + 1 + 1 + name.length + spaces.length)) :=
    skipSpacesLoop_exact spaces fuel B (k + 1 + 1 + name.length) 0 (62 :: tail) hBl
      (by omega) (by rw [hBt]; exact hr3) hsp (by
        intro c t e
        simp only [List.cons.injEq] at e
        rw [← e.1]
        decide) hfs
  rw [sk]
  simp only []
  have h62 : (B.atPos (k + 1 + 1 + name.length + spaces.length)).curChar = 62 := by
    rw [hBc, curChar_inrange p _ (by omega) (by omega), hc4]
  rw [if_neg (by
    intro hh
    rcases hh with hh | hh
    · exact hname hh
    · exact hh h62), hd, moveNextPos_atPos,
    show k + 1 + 1 + (name.length : Int) + (spaces.length : Int) + 1 =
      k + 3 + name.length + spaces.length by omega]

/-- A `<` that is not followed by `/` is no close tag: a space there is not skipped. -/
theorem matchTagClose_no_slash (L : Lib) (fuel : Nat) (p : parser) (k : Int)
    (h60 : (p.atPos k).curChar = 60) (hn : (p.atPos (k + 1)).curChar ≠ 47) (hf : 0 < fuel) :
    matchTagClose L fuel (p.atPos k) = some (false, [], p.atPos k) := by
  unfold matchTagClose
  rw [if_neg (not_not.mpr h60)]
  simp only [saveState_atPos]
  have c0 : ((p.push (p.atPos k).head).atPos k).curCharClass &&& SPACE = NULL := by
    show (p.atPos k).curCharClass &&& SPACE = NULL
    rw [class_of_char p k 60 h60 (by decide)]
    decide
  rw [skipSpaces_stay fuel _ k c0 hf]
  simp only [if_true, moveNextPos_atPos]
  have hn1 : ((p.push (p.atPos k).head).atPos (k + 1)).curChar ≠ 47 := hn
  rw [if_pos hn1, restoreState_push]

/-- After `</` a rune that cannot be in a tag name ends the test: a space there is not
skipped. -/
theorem matchTagClose_no_name (L : Lib) (fuel : Nat) (p : parser) (k : Int)
    (h60 : (p.atPos k).curChar = 60) (h47 : (p.atPos (k + 1)).curChar = 47)
    (hc : (p.atPos (k + 2)).curCharClass &&& TAG_NAME = NULL) (hf : remaining p k < fuel) :
    matchTagClose L fuel (p.atPos k) = some (false, [], p.atPos k) := by
  have hr := char_inrange p k (by rw [h60]; decide)
  have hf0 : 0 < fuel := by omega
  unfold matchTagClose
  rw [if_neg (not_not.mpr h60)]
  simp only [saveState_atPos]
  have c0 : ((p.push (p.atPos k).head).atPos k).curCharClass &&& SPACE = NULL := by
    show (p.atPos k).curCharClass &&& SPACE = NULL
    rw [class_of_char p k 60 h60 (by decide)]
    decide
  rw [skipSpaces_stay fuel _ k c0 hf0]
  simp only [if_true, moveNextPos_atPos]
  have h47' : ((p.push (p.atPos k).head).atPos (k + 1)).curChar = 47 := h47
  rw [if_neg (not_not.mpr h47')]
  have c1 : ((p.push (p.atPos k).head).atPos (k + 1)).curCharClass &&& SPACE = NULL := by
    show (p.atPos (k + 1)).curCharClass &&& SPACE = NULL
    rw [class_of_char p (k + 1) 47 h47 (by decide)]
    decide
  rw [skipSpaces_stay fuel _ (k + 1) c1 hf0]
  simp only [if_true, moveNextPos_atPos]
  have hc2 : ((p.push (p.atPos k).head).atPos (k + 1 + 1)).curCharClass &&& TAG_NAME = NULL := by
    show (p.atPos (k + 1 + 1)).curCharClass &&& TAG_NAME = NULL
    rw [show k + 1 + 1 = k + 2 by omega]
    exact hc
  rw [grabCharClass_stay fuel _ (k + 1 + 1) TAG_NAME hc2 hf0]
  simp only []
  obtain ⟨c7, k7, e7, _, _⟩ := skipSpaces_ok fuel (p.push (p.atPos k).head) (k + 1 + 1) (by
    show remaining p (k + 1 + 1) < fuel
    unfold remaining at *
    omega)
  rw [e7]
  simp only []
  rw [if_pos (Or.inl trivial), restoreState_push]

/-- C34, counterexample: with a space after `<` or after `/` the close tag is not
taken: on `< /b>` and on `</ b>` `matchTagClose` returns false, and `Parse` writes both
as text inside the tag `b`, which stays open to the end. -/
theorem C34_space_inside_close_tag :
    (matchTagClose goLib 20 ((linkText (runes "< /b>")).atPos 0)).map
        (fun r => (r.1, r.2.1, r.2.2.curPos)) = some (false, [], 0) ∧
    (matchTagClose goLib 20 ((linkText (runes "</ b>")).atPos 0)).map
        (fun r => (r.1, r.2.1, r.2.2.curPos)) = some (false, [], 0) ∧
    parseOut goLib qvx (runes "<b>x< /b> y") = some (runes "<b>x&#60; /b&#62; y</b>", []) ∧
    parseOut goLib qvx (runes "<b>x</ b> y") = some (runes "<b>x&#60;/ b&#62; y</b>", []) := by
  decide!

/-- C34, amended: `matchTagClose` takes the close tag written `<`, `/`, the tag name,
spaces and tabs if any, `>`: it returns true with the lower-cased name, the head right
after `>`, and the snapshot dropped.  It returns false when `<` is not followed at once
by `/`, and when `</` is not followed at once by a rune of a tag name; a space in these
two places is not skipped.  It always returns, and whenever it returns false the parser,
with its head and its snapshot stack, is the one it was called on. -/
theorem C34_close_tag_grammar :
    (∀ (L : Lib) (fuel : Nat) (p : parser) (k : Int) (name spaces tail : Str),
      p.textLen = p.textBuf.length → 0 ≤ k →
      rest p.textBuf k = runes "</" ++ name ++ spaces ++ runes ">" ++ tail →
      name ≠ [] → (∀ c ∈ name, getClassByOrd c &&& TAG_NAME ≠ NULL) →
      (∀ c ∈ spaces, getClassByOrd c &&& SPACE ≠ NULL) → remaining p k < fuel →
      matchTagClose L fuel (p.atPos k) =
        some (true, L.toLower name,
          (p.dropped (p.atPos k).head).atPos (k + 3 + name.length + spaces.length))) ∧
    (∀ (L : Lib) (fuel : Nat) (p : parser) (k : Int), (p.atPos k).curChar = 60 →
      (p.atPos (k + 1)).curChar ≠ 47 → 0 < fuel →
      matchTagClose L fuel (p.atPos k) = some (false, [], p.atPos k)) ∧
    (∀ (L : Lib) (fuel : Nat) (p : parser) (k : Int), (p.atPos k).curChar = 60 →
      (p.atPos (k + 1)).curChar = 47 → (p.atPos (k + 2)).curCharClass &&& TAG_NAME = NULL →
      remaining p k < fuel →
      matchTagClose L fuel (p.atPos k) = some (false, [], p.atPos k)) ∧
    (∀ (L : Lib) (fuel : Nat) (p : parser) (k : Int), remaining p k < fuel →
      ∃ r name k1, matchTagClose L fuel (p.atPos k) =
          some (r, name, (if r = true then p.dropped (p.atPos k).head else p).atPos k1) ∧
        (r = true → k < k1) ∧ (r = false → k1 = k)) ∧
    (getClassByOrd 32 &&& TAG_NAME = NULL ∧ getClassByOrd 9 &&& TAG_NAME = NULL ∧
      getClassByOrd 32 &&& SPACE ≠ NULL ∧ getClassByOrd 9 &&& SPACE ≠ NULL) ∧
    (matchTagClose goLib 20 ((linkText (runes "</b>x")).atPos 0)).map
        (fun r => (r.1, r.2.1, r.2.2.curPos)) = some (true, runes "b", 4) ∧
    (matchTagClose goLib 20 ((linkText (runes "</B \t>x")).atPos 0)).map
        (fun r => (r.1, r.2.1, r.2.2.curPos)) = some (true, runes "b", 6) ∧
    parseOut goLib qvx (runes "<b>x</B \t> y") = some (runes "<b>x</b> y", []) := by
  refine ⟨?_, matchTagClose_no_slash, matchTagClose_no_name, matchTagClose_any,
    by decide, by decide!, by decide!, by decide!⟩
  intro L fuel p k name spaces tail hlen h0 htext hname hn hsp hf
  exact matchTagClose_exact L fuel p k name spaces tail hlen h0 (by
    rw [htext]
    simp only [List.append_assoc]
    rfl) hname hn hsp hf

theorem C34_close_tag_grammar_witness :
    ((linkText (runes "</B \t>x")).textLen = (linkText (runes "</B \t>x")).textBuf.length ∧
      (0 : Int) ≤ 0 ∧
      rest (linkText (runes "</B \t>x")).textBuf 0 =
        runes "</" ++ runes "B" ++ runes " \t" ++ runes ">" ++ runes "x" ∧
      runes "B" ≠ [] ∧ (∀ c ∈ runes "B", getClassByOrd c &&& TAG_NAME ≠ NULL) ∧
      (∀ c ∈ runes " \t", getClassByOrd c &&& SPACE ≠ NULL) ∧
      remaining (linkText (runes "</B \t>x")) 0 < 20) ∧
    matchTagClose goLib 20 ((linkText (runes "</B \t>x")).atPos 0) =
      some (true, goLib.toLower (runes "B"),
        ((linkText (runes "</B \t>x")).dropped ((linkText (runes "</B \t>x")).atPos 0).head).atPos
          (0 + 3 + (runes "B").length + (runes " \t").length)) :=
  ⟨⟨by decide!, by decide, by decide!, by decide, by decide, by decide, by decide!⟩,
    C34_close_tag_grammar.1 goLib 20 (linkText (runes "</B \t>x")) 0 (runes "B") (runes " \t")
      (runes "x") (by decide!) (by decide) (by decide!) (by decide) (by decide) (by decide)
      (by decide!)⟩

/-! ## C36: what `removeState` leaves on the stack -/

theorem skipStrLoop_stack : ∀ (str : List Rune) (self : parser),
    (skipStrLoop str self).2.statesStack = self.statesStack := by
  intro str
  induction str with
  | nil => intro self; rfl
  | cons c rest ih =>
    intro self
    unfold skipStrLoop
    by_cases h : self.curChar ≠ c ∨ self.curCharClass = NULL
    · rw [if_pos h]
    · rw [if_neg h, ih]
      rfl

theorem skipStr_empty_stack (self : parser) (str : Str) (hs : self.statesStack = [])
    (h : (self.skipStr str).1 = true) :
    (self.skipStr str).2.statesStack = [self.head] := by
  unfold parser.skipStr at h ⊢
  by_cases hr : (skipStrLoop str self.saveState).1 = true
  · rw [if_pos hr]
    unfold parser.removeState
    have hst : (skipStrLoop str self.saveState).2.statesStack = [self.head] := by
      rw [skipStrLoop_stack]
      show self.head :: self.statesStack = [self.head]
      rw [hs]
    rw [if_neg (by rw [hst]; simp)]
    exact hst
  · rw [if_neg hr] at h
    cases h

theorem removeState_pop (self : parser) (h : 2 ≤ self.statesStack.length) :
    self.removeState.statesStack = self.statesStack.tail ∧
    self.removeState.statesStack.length + 1 = self.statesStack.length := by
  unfold parser.removeState
  rw [if_pos (by omega)]
  refine ⟨rfl, ?_⟩
  show self.statesStack.tail.length + 1 = self.statesStack.length
  rw [List.length_tail]
  omega

theorem removeState_keep (self : parser) (h : self.statesStack.length ≤ 1) :
    self.removeState = self := by
  unfold parser.removeState
  rw [if_neg (by omega)]

theorem removeState_head (self : parser) : self.removeState.head = self.head := by
  unfold parser.removeState
  by_cases h : self.statesStack.length > 1
  · rw [if_pos h]
    rfl
  · rw [if_neg h]

/-- C36: `removeState` drops exactly the top snapshot when the stack holds two or more,
leaves the parser as it is when the stack holds one or none, and in both cases leaves the
head (positions, runes and classes of prev, cur and next) as it is.  So a successful
`skipStr`, `matchTagOpen` or `matchTagClose` called on an empty stack leaves the snapshot
it saved on the stack, and an unsuccessful one leaves the stack empty; and when `Parse`
returns, the stack holds at most one snapshot. -/
theorem C36_remove_state :
    (∀ self : parser, 2 ≤ self.statesStack.length →
      self.removeState.statesStack = self.statesStack.tail ∧
      self.removeState.statesStack.length + 1 = self.statesStack.length) ∧
    (∀ self : parser, self.statesStack.length ≤ 1 → self.removeState = self) ∧
    (∀ self : parser, self.removeState.head = self.head) ∧
    (∀ (self : parser) (str : Str), self.statesStack = [] → (self.skipStr str).1 = true →
      (self.skipStr str).2.statesStack = [self.head]) ∧
    (∀ (L : Lib) (fuel : Nat) (p : parser) (k : Int), p.statesStack = [] →
      remaining p k < fuel →
      ∃ r name params short s, matchTagOpen L fuel (p.atPos k) = some (r, name, params, short, s) ∧
        (r = true → s.statesStack = [(p.atPos k).head]) ∧ (r = false → s.statesStack = [])) ∧
    (∀ (L : Lib) (fuel : Nat) (p : parser) (k : Int), p.statesStack = [] →
      remaining p k < fuel →
      ∃ r name s, matchTagClose L fuel (p.atPos k) = some (r, name, s) ∧
        (r = true → s.statesStack = [(p.atPos k).head]) ∧ (r = false → s.statesStack = [])) ∧
    (∀ (L : Lib) (self : parser) (text : Str), L.unescapeOk → self.quotesOk →
      ∃ out errs final, Parse L self text = some ((out, errs), final) ∧
        final.statesStack.length ≤ 1) ∧
    (Parse goLib qvx (runes "<b>x</b>")).map (fun r => r.2.statesStack.length) = some 1 ∧
    (Parse goLib qvx (runes "")).map (fun r => r.2.statesStack.length) = some 0 := by
  refine ⟨removeState_pop, removeState_keep, removeState_head, skipStr_empty_stack, ?_, ?_, ?_,
    by decide!, by decide!⟩
  · intro L fuel p k hs hf
    obtain ⟨r, name, params, short, k1, e, _, _⟩ := matchTagOpen_any L fuel p k hf
    refine ⟨r, name, params, short, _, e, ?_, ?_⟩
    · intro hr
      rw [if_pos hr]
      show (p.dropped (p.atPos k).head).statesStack = _
      rw [dropped_stack, if_pos hs]
    · intro hr
      rw [if_neg (by rw [hr]; exact Bool.false_ne_true)]
      exact hs
  · intro L fuel p k hs hf
    obtain ⟨r, name, k1, e, _, _⟩ := matchTagClose_any L fuel p k hf
    refine ⟨r, name, _, e, ?_, ?_⟩
    · intro hr
      rw [if_pos hr]
      show (p.dropped (p.atPos k).head).statesStack = _
      rw [dropped_stack, if_pos hs]
    · intro hr
      rw [if_neg (by rw [hr]; exact Bool.false_ne_true)]
      exact hs
  · intro L self text hU hQ
    obtain ⟨content, q, e, σ, k, h, _, hσ, _⟩ := Parse_ok L hU self hQ text
    exact ⟨_, _, _, h, hσ⟩

theorem C36_remove_state_witness :
    (2 ≤ ((linkText (runes "x")).atPos 0).saveState.statesStack.length) ∧
    ((linkText (runes "x")).atPos 0).saveState.removeState.statesStack =
      ((linkText (runes "x")).atPos 0).saveState.statesStack.tail ∧
    ((linkText (runes "x")).atPos 0).saveState.removeState.statesStack.length + 1 =
      ((linkText (runes "x")).atPos 0).saveState.statesStack.length :=
  ⟨by decide!, C36_remove_state.1 ((linkText (runes "x")).atPos 0).saveState (by decide!)⟩

/-! ## C38: the counter of open quotes -/

/-- The indices at which `matchQuote` reads the quote table. -/
theorem matchQuote_index (p : parser) (q : Int) (e : List Str) (σ : List state) (k : Int)
    (hq : 0 ≤ q ∧ q ≤ 2) :
    ((p.upd q e σ).atPos k).matchQuote = some (false, [], (p.upd q e σ).atPos k) ∨
    ∃ level index q1, (0 ≤ level ∧ level < 2) ∧ (0 ≤ index ∧ index < 2) ∧
      (0 ≤ q1 ∧ q1 ≤ 2) ∧
      ((p.upd q e σ).atPos k).matchQuote =
        (p.quoteAt level index).map fun g => (true, [g], (p.upd q1 e σ).atPos (k + 1)) := by
  unfold parser.matchQuote
  by_cases hc : ((p.upd q e σ).atPos k).curCharClass &&& TEXT_QUOTE = NULL
  · rw [if_pos hc]
    exact Or.inl rfl
  · rw [if_neg hc]
    have hqo : ((p.upd q e σ).atPos k).quotesOpened = q := rfl
    simp only [hqo]
    generalize decide (((p.upd q e σ).atPos k).prevCharClass &&& (SPACE ||| NL ||| TEXT_BRACKET) =
      NULL ∧ ((p.upd q e σ).atPos k).prevCharClass ≠ NULL) = pin
    generalize decide (((p.upd q e σ).atPos k).nextCharClass &&&
      (SPACE ||| NL ||| TEXT_BRACKET ||| PUNCTUATUON) ≠ NULL ∨
      ((p.upd q e σ).atPos k).nextCharClass = NULL) = nout
    generalize hcl : (decide (q ≥ 2) || (decide (q > 0) && (pin || nout))) = cl
    by_cases h1 : ¬ cl = true ∧ pin = true
    · rw [if_pos h1]
      exact Or.inl rfl
    · rw [if_neg h1]
      by_cases h2 : cl = true ∧ ¬ nout = true
      · rw [if_pos h2]
        exact Or.inl rfl
      · rw [if_neg h2]
        right
        cases cl with
        | false =>
          have hlt : q < 2 := by
            by_contra hge
            have : decide (q ≥ 2) = true := by simp; omega
            rw [this] at hcl
            simp at hcl
          simp only [Bool.false_eq_true, not_false_eq_true, if_true]
          have e1 : ({ (p.upd q e σ).atPos k with quotesOpened := q + 1 } : parser) =
              (p.upd (q + 1) e σ).atPos k := rfl
          rw [e1]
          have e3 : ∀ a b, ((p.upd (q + 1) e σ).atPos k).quoteAt a b = p.quoteAt a b :=
            fun _ _ => rfl
          rw [e3]
          refine ⟨q + 1 - 1, 0, q + 1, ⟨by omega, by omega⟩, ⟨by omega, by omega⟩,
            ⟨by omega, by omega⟩, ?_⟩
          cases p.quoteAt (q + 1 - 1) 0 <;> rfl
        | true =>
          have hge : 1 ≤ q := by
            by_contra hlt
            have a : decide (q ≥ 2) = false := by simp; omega
            have b : decide (q > 0) = false := by simp; omega
            rw [a, b] at hcl
            simp at hcl
          simp only [not_true_eq_false, if_false]
          have e1 : ({ (p.upd q e σ).atPos k with quotesOpened := q - 1 } : parser) =
              (p.upd (q - 1) e σ).atPos k := rfl
          rw [e1]
          have e3 : ∀ a b, ((p.upd (q - 1) e σ).atPos k).quoteAt a b = p.quoteAt a b :=
            fun _ _ => rfl
          rw [e3]
          refine ⟨q - 1, 1, q - 1, ⟨by omega, by omega⟩, ⟨by omega, by omega⟩,
            ⟨by omega, by omega⟩, ?_⟩
          cases p.quoteAt (q - 1) 1 <;> rfl

/-- C38: the counter of open quotes is 0 when `Parse` starts, and it stays between 0 and
2: `matchQuote`, called with the counter in this range, either changes nothing or reads
the quote table at a level in {0, 1} and an index in {0, 1} and leaves the counter in the
range; with a table that holds both levels, as the table of `New` does, it returns, and
so do the step of `makeText` and `makeContent`, each leaving the counter in the range;
the parser that `Parse` leaves has its counter in the range. -/
theorem C38_quote_counter :
    (∀ (self : parser) (text : Str),
      (self.start text).quotesOpened = 0 ∧ ((self.start text).movePos 0).2.quotesOpened = 0) ∧
    (∀ (p : parser) (q : Int) (e : List Str) (σ : List state) (k : Int), 0 ≤ q ∧ q ≤ 2 →
      ((p.upd q e σ).atPos k).matchQuote = some (false, [], (p.upd q e σ).atPos k) ∨
      ∃ level index q1, (0 ≤ level ∧ level < 2) ∧ (0 ≤ index ∧ index < 2) ∧
        (0 ≤ q1 ∧ q1 ≤ 2) ∧
        ((p.upd q e σ).atPos k).matchQuote =
          (p.quoteAt level index).map fun g => (true, [g], (p.upd q1 e σ).atPos (k + 1))) ∧
    (∀ (p : parser) (q : Int) (e : List Str) (σ : List state) (k : Int), 0 ≤ q ∧ q ≤ 2 →
      p.quotesOk →
      ∃ r out q1 k1,
        ((p.upd q e σ).atPos k).matchQuote = some (r, out, (p.upd q1 e σ).atPos k1) ∧
        (0 ≤ q1 ∧ q1 ≤ 2)) ∧
    (∀ (L : Lib) (fuel : Nat) (p : parser) (q : Int) (e : List Str) (σ : List state) (k : Int)
      (parentTag : Str), L.unescapeOk → σ ≠ [] → 0 ≤ q ∧ q ≤ 2 → p.quotesOk →
      ((p.upd q e σ).atPos k).curCharClass ≠ NULL → remaining p k + 1 < fuel →
      ∃ out q1 e1 k1, makeTextStep L fuel ((p.upd q e σ).atPos k) parentTag =
          some (out, (p.upd q1 e1 σ).atPos k1) ∧ (0 ≤ q1 ∧ q1 ≤ 2)) ∧
    (∀ (L : Lib) (fuel : Nat) (p : parser) (q : Int) (e : List Str) (σ : List state) (k : Int)
      (parentTag : Str), L.unescapeOk → 0 ≤ q ∧ q ≤ 2 → p.quotesOk →
      remaining p k + 4 ≤ fuel →
      ∃ out q1 e1 σ1 k1, makeContent L fuel ((p.upd q e σ).atPos k) parentTag =
          some (out, (p.upd q1 e1 σ1).atPos k1) ∧ (0 ≤ q1 ∧ q1 ≤ 2)) ∧
    (∀ (L : Lib) (self : parser) (text : Str), L.unescapeOk → self.quotesOk →
      ∃ out errs final, Parse L self text = some ((out, errs), final) ∧
        0 ≤ final.quotesOpened ∧ final.quotesOpened ≤ 2) ∧
    New.quotes = [[171, 187], [8222, 8220]] ∧ qvx.quotes = New.quotes ∧
    (Parse goLib qvx (runes "\"a \"b \"c")).map (fun r => (r.1.1, r.2.quotesOpened)) =
      some (runes "«a „b &#34;c", 2) := by
  refine ⟨fun _ _ => ⟨rfl, rfl⟩, matchQuote_index, ?_, ?_, ?_, ?_, by decide, by decide!,
    by decide!⟩
  · intro p q e σ k hq hQ
    obtain ⟨r, out, q1, k1, h, _, b, _⟩ := matchQuote_ok p q e σ k hq hQ
    exact ⟨r, out, q1, k1, h, b⟩
  · intro L fuel p q e σ k parentTag hU hσ hq hQ hc hf
    obtain ⟨out, q1, e1, k1, h, _, _, b⟩ := makeTextStep_ok L hU fuel p q e σ k parentTag hσ hq
      hQ hc hf
    exact ⟨out, q1, e1, k1, h, b⟩
  · intro L fuel p q e σ k parentTag hU hq hQ hf
    obtain ⟨out, q1, e1, σ1, k1, h, _, b, _⟩ := makeContent_ok L hU fuel p q e σ k parentTag hq
      hQ hf
    exact ⟨out, q1, e1, σ1, k1, h, b⟩
  · intro L self text hU hQ
    obtain ⟨content, q, e, σ, k, h, b, _, _⟩ := Parse_ok L hU self hQ text
    exact ⟨_, _, _, h, b.1, b.2⟩

theorem C38_quote_counter_witness :
    ((0 : Int) ≤ 1 ∧ (1 : Int) ≤ 2) ∧
    ((((qvx.start (runes "a\" b")).upd 1 [] []).atPos 1).matchQuote =
        some (false, [], ((qvx.start (runes "a\" b")).upd 1 [] []).atPos 1) ∨
      ∃ level index q1, (0 ≤ level ∧ level < 2) ∧ (0 ≤ index ∧ index < 2) ∧
        (0 ≤ q1 ∧ q1 ≤ 2) ∧
        (((qvx.start (runes "a\" b")).upd 1 [] []).atPos 1).matchQuote =
          ((qvx.start (runes "a\" b")).quoteAt level index).map fun g =>
            (true, [g], ((qvx.start (runes "a\" b")).upd q1 [] []).atPos (1 + 1))) :=
  ⟨by decide, C38_quote_counter.2.1 (qvx.start (runes "a\" b")) 1 [] [] 1 (by decide)⟩

/-! ## C39: a parse does not depend on the parses before it -/

theorem Parse_of_start (L : Lib) (a b : parser) (y : Str)
    (h : ∀ t, a.start t = b.start t) : Parse L a y = Parse L b y := by
  unfold Parse
  simp only [h]

theorem start_after (self : parser) (t : Str) (q : Int) (e : List Str) (σ : List state)
    (k : Int) (y : Str) : (((self.start t).upd q e σ).atPos k).start y = self.start y := rfl

/-- C39 (counterexample).  The anchor `<a HREF=/x href=/y>t</a>` has two attributes whose
names are equal once `makeTag` has lower-cased them; the one that `range` visits last
wins.  After a parse of `<b>`, a parse of the anchor in which `range` takes `href` first
gives the address `/x`, and a parse of the same anchor on the parser that has parsed
nothing, in which `range` takes `HREF` first, gives `/y`: the outputs differ. -/
theorem C39_range_order_decides :
    goLib.rangeOk ∧ revLib.rangeOk ∧
    parseOut goLib qvx (runes "<a HREF=/x href=/y>t</a>") =
      some (runes "<a href=\"/y\" rel=\"nofollow\">t</a>", []) ∧
    (Parse goLib qvx (runes "<b>")).bind
        (fun r => parseOut revLib r.2 (runes "<a HREF=/x href=/y>t</a>")) =
      some (runes "<a href=\"/x\" rel=\"nofollow\">t</a>", []) ∧
    (Parse goLib qvx (runes "<b>")).bind
        (fun r => parseOut revLib r.2 (runes "<a HREF=/x href=/y>t</a>")) ≠
      parseOut goLib qvx (runes "<a HREF=/x href=/y>t</a>") :=
  ⟨goLib_rangeOk, revLib_rangeOk, by decide!⟩

/-- C39 (amended): `Parse` does not depend on the parses before it, when `range` visits
the attributes of each tag in the same order.  With a library whose `unescapeString`
keeps a non-empty string non-empty and a quote table that holds both levels, `Parse` of
`x`, with any order of `range`, returns a parser on which `Parse` of any `y` gives what it
gives, with the same order of `range`, on the parser that has parsed nothing: the same
output, the same error list and the same final parser.  The parser that `Parse` of `x`
leaves has the typography flag and every table of the configuration as they were, and
`Parse` resets the head, the current tag, the snapshot stack, the quote counter, the
buffer and the error list. -/
theorem C39_parse_independent :
    (∀ (Lx L : Lib) (self : parser) (x y : Str), Lx.unescapeOk → self.quotesOk →
      ∃ out errs final, Parse Lx self x = some ((out, errs), final) ∧
        Parse L final y = Parse L self y ∧
        parseOut L final y = parseOut L self y ∧
        final.start y = self.start y ∧
        final.isTypoMode = self.isTypoMode ∧ final.quotesOk) ∧
    (Parse goLib qvx (runes "<b>\"a</i> - ")).map
        (fun r => (r.2.curPos, r.2.statesStack.length, r.2.quotesOpened, r.1.2.length)) =
      some (12, 1, 1, 1) ∧
    (Parse goLib qvx (runes "<b>\"a</i> - ")).bind
        (fun r => parseOut goLib r.2 (runes "\"b\" - <u>c")) =
      parseOut goLib qvx (runes "\"b\" - <u>c") := by
  refine ⟨?_, by decide!⟩
  intro Lx L self x y hU hQ
  obtain ⟨content, q, e, σ, k, h, _⟩ := Parse_ok Lx hU self hQ x
  have hs : ∀ t, (((self.start (x.filter fun c => c != 13)).upd q e σ).atPos k).start t =
      self.start t := fun t => start_after self _ q e σ k t
  have hp := Parse_of_start L _ self y hs
  refine ⟨_, _, _, h, hp, ?_, hs y, rfl, hQ⟩
  unfold parseOut
  rw [hp]

theorem C39_parse_independent_witness :
    (revLib.unescapeOk ∧ qvx.quotesOk) ∧
    ∃ out errs final, Parse revLib qvx (runes "<b>\"a</i> - ") = some ((out, errs), final) ∧
      Parse goLib final (runes "\"b\" - <u>c") = Parse goLib qvx (runes "\"b\" - <u>c") ∧
      parseOut goLib final (runes "\"b\" - <u>c") = parseOut goLib qvx (runes "\"b\" - <u>c") ∧
      final.start (runes "\"b\" - <u>c") = qvx.start (runes "\"b\" - <u>c") ∧
      final.isTypoMode = qvx.isTypoMode ∧ final.quotesOk :=
  ⟨⟨revLib_unescapeOk, qvx_quotesOk⟩,
    C39_parse_independent.1 revLib goLib qvx (runes "<b>\"a</i> - ") (runes "\"b\" - <u>c")
      revLib_unescapeOk qvx_quotesOk⟩

end Qevix
